import Mathlib

/-!
# A (63,42) Reed-Solomon codec over GF(64)

Shallow embedding of `src/111062109_proj2.cpp` (the decoder), `src/encoder.cpp`
(the encoder) and `src/verify.cpp` (the verifier).  Field elements are the C `int`
values of the source, modelled as `Nat`; a `std::vector` is a `List`; the source's
`exit(1)` and `throw` sites are results of type `Except Failure`.

The read `coefficients[i]` of `mod_x21`, which has no bounds test and can leave the
vector, is modelled twice.  `GF64_poly.mod_x21` is the member with the read checked: an index
at or past the size ends the run with `Failure.indexOutOfRange`, which records that the
read happens.  `Unchecked.mod_x21` is the member as it is compiled, without a test: the
read returns the word that lies behind the stored coefficients, a parameter `mem` of the
model, and the run goes on; `Unchecked.euclideanAlgorithm` and `Unchecked.decode` are the
members that call it.  Whenever the checked decoder returns, the unchecked one returns the
same value, whatever `mem` holds.
-/

namespace RS

/-- The ways a run of the source stops without a result. -/
inductive Failure where
  /-- `GF64::operator/` with a zero divisor (`throw std::invalid_argument`). -/
  | divisionByZero
  /-- `GF64_poly::operator/` with the zero polynomial as divisor (`exit(1)`). -/
  | divisionByZeroPolynomial
  /-- `calculateErasureLocator`: the locator has degree above 21 (`exit(1)`). -/
  | erasureCapacityExceeded
  /-- A read at an index the vector or table does not store. The source has no test at
  these reads and does not stop; the value marks the read in the checked reading of the
  model. -/
  | indexOutOfRange
  /-- `ReedSolomonEncoder::encode` with a message that has not 42 symbols. -/
  | invalidMessageLength
  /-- The iteration budget of the model of the `while` loop is used up. -/
  | loopBudgetExhausted
  /-- `GF64_poly::operator%` of the verifier with the zero polynomial as divisor
  (`throw std::runtime_error`). -/
  | moduloByZeroPolynomial
  deriving DecidableEq

/-- Power table for GF(64): `pow_table[i]` is the i-th power of the primitive element. -/
def pow_table : List Nat :=
  [1, 2, 4, 8, 16, 32, 3, 6, 12, 24, 48, 35,
   5, 10, 20, 40, 19, 38, 15, 30, 60, 59, 53,
   41, 17, 34, 7, 14, 28, 56, 51, 37, 9, 18,
   36, 11, 22, 44, 27, 54, 47, 29, 58, 55, 45,
   25, 50, 39, 13, 26, 52, 43, 21, 42, 23, 46,
   31, 62, 63, 61, 57, 49, 33]

/-- Logarithm table as `main` fills it: the global array starts all zero, then
`log_table[pow_table[i-1]] = i-1` for `i = 1 .. 63`. -/
def log_table : List Nat :=
  (List.range 63).foldl (fun t k => t.set (pow_table.getD k 0) k) (List.replicate 64 0)

/-- Coefficients of the generator polynomial, constant term first. -/
def gen_poly : List Nat :=
  [58, 62, 59, 7, 35, 58, 63, 47, 51, 6, 33,
   43, 44, 27, 7, 53, 39, 62, 52, 41, 44, 1]

namespace GF64

/-- `GF64::operator+`: bitwise exclusive or. -/
def add (a b : Nat) : Nat := a ^^^ b

/-- `GF64::operator*`: zero if an operand is zero, else through the log table. -/
def mul (a b : Nat) : Nat :=
  if a = 0 ∨ b = 0 then 0
  else pow_table.getD ((log_table.getD a 0 + log_table.getD b 0) % 63) 0

/-- `GF64::operator/` of the decoder: throws on a zero divisor. -/
def div (a b : Nat) : Except Failure Nat :=
  if b = 0 then .error .divisionByZero
  else if a = 0 then .ok 0
  else .ok (pow_table.getD ((log_table.getD a 0 + 63 - log_table.getD b 0) % 63) 0)

end GF64

/-- The class `GF64_poly`: the stored coefficients (constant term first) and the tracked
degree. Every polynomial the programs build stores at least one coefficient. -/
structure GF64_poly where
  coefficients : List Nat
  degree : Nat
  deriving DecidableEq

/-- The loop `while(degree > 0 && coefficients[degree] == 0) degree--`. -/
def stripDegree (c : List Nat) : Nat → Nat
  | 0 => 0
  | d + 1 => if c.getD (d + 1) 0 = 0 then stripDegree c d else d + 1

/-- The loop `while(result.size() > 1 && result.back() == 0) result.pop_back()`;
the first argument bounds the number of iterations by the length. -/
def popZeros : Nat → List Nat → List Nat
  | 0, l => l
  | n + 1, l => if 1 < l.length ∧ l.getD (l.length - 1) 0 = 0 then popZeros n l.dropLast else l

/-- The call `v.resize(n)` of a vector of field elements: cut or pad with zero. -/
def resize (l : List Nat) (n : Nat) : List Nat :=
  l.take n ++ List.replicate (n - l.length) 0

namespace GF64_poly

/-- The default constructor: one zero coefficient, degree 0. -/
def zero : GF64_poly := ⟨[0], 0⟩

/-- The constructor from a vector (decoder): keeps the vector, lowers the degree past
trailing zeros. -/
def ofVector (c : List Nat) : GF64_poly := ⟨c, stripDegree c (c.length - 1)⟩

/-- The member `set_coefficients`. -/
def set_coefficients (p : GF64_poly) (index value : Nat) : GF64_poly :=
  if p.degree < index then ⟨(resize p.coefficients (index + 1)).set index value, index⟩
  else ⟨p.coefficients.set index value, p.degree⟩

/-- The member `get_degree`. -/
def get_degree (p : GF64_poly) : Nat := p.degree

/-- The member `is_zero`. -/
def is_zero (p : GF64_poly) : Bool := p.degree == 0 && p.coefficients.getD 0 0 == 0

/-- Polynomial `operator+`. -/
def add (p q : GF64_poly) : GF64_poly :=
  let result := List.replicate (max p.degree q.degree + 1) 0
  let result := (List.range (p.degree + 1)).foldl
    (fun r i => r.set i (p.coefficients.getD i 0)) result
  let result := (List.range (q.degree + 1)).foldl
    (fun r i => r.set i (GF64.add (r.getD i 0) (q.coefficients.getD i 0))) result
  ofVector (popZeros result.length result)

/-- Polynomial times field element, `operator*(const GF64&)`. -/
def smul (p : GF64_poly) (c : Nat) : GF64_poly :=
  let result := List.replicate (p.degree + 1) 0
  let result := (List.range (p.degree + 1)).foldl
    (fun r i => r.set i (GF64.mul (p.coefficients.getD i 0) c)) result
  ofVector (popZeros result.length result)

/-- The double loop of the polynomial product, shared by decoder and encoder. -/
def mulLoop (p q : GF64_poly) : List Nat :=
  (List.range (p.degree + 1)).foldl
    (fun r i =>
      if p.coefficients.getD i 0 ≠ 0 then
        (List.range (q.degree + 1)).foldl
          (fun r j =>
            if q.coefficients.getD j 0 ≠ 0 then
              r.set (i + j) (GF64.add (r.getD (i + j) 0)
                (GF64.mul (p.coefficients.getD i 0) (q.coefficients.getD j 0)))
            else r) r
      else r)
    (List.replicate (p.degree + q.degree + 1) 0)

/-- Polynomial `operator*(const GF64_poly&)` of the decoder. -/
def mul (p q : GF64_poly) : GF64_poly :=
  let result := mulLoop p q
  ofVector (popZeros result.length result)

/-- One round of the long division, at remainder index `i`. -/
def divStep (q : GF64_poly) (st : List Nat × List Nat) (i : Nat) :
    Except Failure (List Nat × List Nat) :=
  if st.2.getD i 0 ≠ 0 then do
    let coef ← GF64.div (st.2.getD i 0) (q.coefficients.getD q.degree 0)
    let quotient := st.1.set (i - q.degree) coef
    let remainder := (List.range (q.degree + 1)).foldl
      (fun r j => r.set (i - j) (GF64.add (r.getD (i - j) 0)
        (GF64.mul (q.coefficients.getD (q.degree - j) 0) coef))) st.2
    pure (quotient, remainder)
  else pure st

/-- The loop `for(i = degree; i >= other.degree; i--)` of the long division; it returns
the quotient vector and the final remainder vector. -/
def divLoop (p q : GF64_poly) : Except Failure (List Nat × List Nat) :=
  (List.range (p.degree - q.degree + 1)).foldlM
    (fun st k => divStep q st (p.degree - k))
    (List.replicate (p.degree - q.degree + 1) 0, p.coefficients)

/-- Polynomial `operator/` of the decoder. -/
def div (p q : GF64_poly) : Except Failure GF64_poly :=
  if q.degree = 0 ∧ q.coefficients.getD 0 0 = 0 then .error .divisionByZeroPolynomial
  else if p.degree < q.degree then .ok zero
  else do
    let st ← divLoop p q
    pure (ofVector (popZeros st.1.length st.1))

/-- Evaluation `operator()`. -/
def eval (p : GF64_poly) (x : Nat) : Nat :=
  if x = 0 then p.coefficients.getD 0 0
  else
    ((List.range (p.degree + 1)).foldl
      (fun (st : Nat × Nat) i =>
        (GF64.add st.1 (GF64.mul (p.coefficients.getD i 0) st.2), GF64.mul st.2 x))
      (0, 1)).1

/-- The member `differentiate`. -/
def differentiate (p : GF64_poly) : GF64_poly :=
  (List.range p.degree).foldl
    (fun r i =>
      if i % 2 = 0 then r.set_coefficients i (p.coefficients.getD (i + 1) 0)
      else r.set_coefficients i 0)
    zero

/-- The member `mod_x21` with the vector read checked: it reads `coefficients[i]` for
`i = 20` down to `0`, whatever the number of stored coefficients, and a read at or past
the size is marked by `indexOutOfRange`. `Unchecked.mod_x21` is the member without the
test. -/
def mod_x21 (p : GF64_poly) : Except Failure GF64_poly :=
  (List.range 21).foldlM
    (fun r k =>
      match p.coefficients.get? (20 - k) with
      | none => .error .indexOutOfRange
      | some c => if c ≠ 0 then .ok (r.set_coefficients (20 - k) c) else .ok r)
    zero

end GF64_poly

namespace ReedSolomonDecoder

open GF64_poly

/-- The member `calculateSyndromes`; the erasure mask is a parameter it never reads. -/
def calculateSyndromes (received : List Nat) (_erasures : List Bool) : GF64_poly :=
  ofVector ((List.range 21).foldl
    (fun s j =>
      s.set j ((List.range 63).foldl
        (fun syndrome i =>
          if received.getD i 0 ≠ 0 then
            GF64.add syndrome
              (GF64.mul (received.getD i 0) (pow_table.getD ((i * (j + 1)) % 63) 0))
          else syndrome) 0))
    (List.replicate 21 0))

/-- The member `calculateErasureLocator`. -/
def calculateErasureLocator (erasures : List Bool) : Except Failure GF64_poly :=
  let erasureLocator := (List.range 63).foldl
    (fun loc i =>
      if erasures.getD i false then loc.mul (ofVector [1, pow_table.getD i 0]) else loc)
    (ofVector [1])
  if 21 < erasureLocator.get_degree then .error .erasureCapacityExceeded
  else .ok erasureLocator

/-- The vectors `R`, `Q`, `U`, `V` of `euclideanAlgorithm`. -/
structure EuclidState where
  R : List GF64_poly
  Q : List GF64_poly
  U : List GF64_poly
  V : List GF64_poly
  deriving DecidableEq

/-- The element `X[X.size() - k]` of one of the vectors. -/
def fromBack (X : List GF64_poly) (k : Nat) : GF64_poly :=
  X.getD (X.length - k) zero

/-- The body of the `while` loop of `euclideanAlgorithm`. -/
def euclidStep (s : EuclidState) : Except Failure EuclidState := do
  let Q_i ← (fromBack s.R 2).div (fromBack s.R 1)
  pure
    { Q := s.Q ++ [Q_i]
      R := s.R ++ [(fromBack s.R 2).add ((fromBack s.R 1).mul Q_i)]
      U := s.U ++ [(fromBack s.U 2).add ((fromBack s.U 1).mul Q_i)]
      V := s.V ++ [(fromBack s.V 2).add ((fromBack s.V 1).mul Q_i)] }

/-- The `while` loop of `euclideanAlgorithm`, with an iteration budget. -/
def euclidLoop (mu nu : Nat) : Nat → EuclidState → Except Failure EuclidState
  | 0, s =>
    if nu < (fromBack s.R 1).get_degree ∨ mu < (fromBack s.V 1).get_degree then
      .error .loopBudgetExhausted
    else .ok s
  | budget + 1, s =>
    if nu < (fromBack s.R 1).get_degree ∨ mu < (fromBack s.V 1).get_degree then do
      let s ← euclidStep s
      euclidLoop mu nu budget s
    else .ok s

/-- The iteration budget given to the `while` loop. -/
def euclidBudget : Nat := 64

/-- The polynomial `x^21` as `euclideanAlgorithm` writes it. -/
def x21 : GF64_poly :=
  ofVector [0, 0, 0, 0, 0, 0, 0, 0, 0, 0, 0, 0, 0, 0, 0, 0, 0, 0, 0, 0, 0, 1]

/-- The start of the vectors `R`, `Q`, `U`, `V`. -/
def euclidInit (S_0 : GF64_poly) : EuclidState :=
  { R := [x21, S_0]
    Q := [ofVector [0], ofVector [0]]
    U := [ofVector [1], ofVector [0]]
    V := [ofVector [0], ofVector [1]] }

/-- The member `euclideanAlgorithm`: returns the error locator and the evaluator. -/
def euclideanAlgorithm (syndromes erasureLocator : GF64_poly) :
    Except Failure (GF64_poly × GF64_poly) := do
  let S_0 ← (erasureLocator.mul syndromes).mod_x21
  let num_of_erasures := erasureLocator.get_degree
  let mu := (21 - num_of_erasures) / 2
  let nu := (21 + num_of_erasures + 1) / 2 - 1
  let s ← euclidLoop mu nu euclidBudget (euclidInit S_0)
  pure (fromBack s.V 1, fromBack s.R 1)

/-- The loop body of `correctErrors` at position `i`. -/
def correctStep (locator derivative evaluator : GF64_poly) (st : Nat × List Nat) (i : Nat) :
    Except Failure (Nat × List Nat) :=
  let alpha := pow_table.getD ((63 - i) % 63) 0
  if locator.eval alpha = 0 ∧ derivative.eval alpha ≠ 0 then do
    let v ← GF64.div (evaluator.eval alpha) (derivative.eval alpha)
    pure (st.1 + 1, st.2.set i v)
  else pure (st.1, st.2.set i 0)

/-- The member `correctErrors`. -/
def correctErrors (erasureLocator errorLocator evaluator : GF64_poly) :
    Except Failure (Bool × GF64_poly) :=
  let locator := errorLocator.mul erasureLocator
  let err := List.replicate 63 0
  if locator.eval 0 = 0 then .ok (false, ofVector err)
  else if errorLocator.get_degree + erasureLocator.get_degree ≤ evaluator.get_degree then
    .ok (false, ofVector err)
  else do
    let derivative := locator.differentiate
    let st ← (List.range 63).foldlM (correctStep locator derivative evaluator) (0, err)
    pure (st.1 == locator.get_degree, ofVector st.2)

/-- The member `decode`. -/
def decode (received : List Nat) (erasures : List Bool) : Except Failure (Bool × GF64_poly) :=
  let received_poly := ofVector received
  let syndromes := calculateSyndromes received erasures
  if syndromes.is_zero then .ok (true, received_poly)
  else do
    let erasureLocator ← calculateErasureLocator erasures
    let result ← euclideanAlgorithm syndromes erasureLocator
    let error_correction_result ← correctErrors erasureLocator result.1 result.2
    pure (error_correction_result.1, received_poly.add error_correction_result.2)

end ReedSolomonDecoder

namespace Unchecked

open GF64_poly ReedSolomonDecoder

/-- The read `coefficients[i]` as `operator[]` of `std::vector` is compiled, without a
bounds test: at an index the vector stores it gives the stored coefficient, at an index at
or past the size the word `mem i` that lies behind the stored coefficients. -/
def read (mem : Nat → Nat) (p : GF64_poly) (i : Nat) : Nat :=
  match p.coefficients.get? i with
  | some c => c
  | none => mem i

/-- The member `mod_x21` as compiled: for `i = 20` down to `0` it reads `coefficients[i]`
and stores it in the result when it is not zero. -/
def mod_x21 (mem : Nat → Nat) (p : GF64_poly) : GF64_poly :=
  (List.range 21).foldl
    (fun r k =>
      if read mem p (20 - k) ≠ 0 then r.set_coefficients (20 - k) (read mem p (20 - k))
      else r)
    zero

/-- The member `euclideanAlgorithm` as compiled, `mem` holding the words behind the
product of erasure locator and syndromes. -/
def euclideanAlgorithm (mem : Nat → Nat) (syndromes erasureLocator : GF64_poly) :
    Except Failure (GF64_poly × GF64_poly) := do
  let S_0 := mod_x21 mem (erasureLocator.mul syndromes)
  let num_of_erasures := erasureLocator.get_degree
  let mu := (21 - num_of_erasures) / 2
  let nu := (21 + num_of_erasures + 1) / 2 - 1
  let s ← euclidLoop mu nu euclidBudget (euclidInit S_0)
  pure (fromBack s.V 1, fromBack s.R 1)

/-- The member `decode` as compiled. -/
def decode (mem : Nat → Nat) (received : List Nat) (erasures : List Bool) :
    Except Failure (Bool × GF64_poly) :=
  let received_poly := ofVector received
  let syndromes := calculateSyndromes received erasures
  if syndromes.is_zero then .ok (true, received_poly)
  else do
    let erasureLocator ← calculateErasureLocator erasures
    let result ← euclideanAlgorithm mem syndromes erasureLocator
    let error_correction_result ← correctErrors erasureLocator result.1 result.2
    pure (error_correction_result.1, received_poly.add error_correction_result.2)

end Unchecked

namespace ReedSolomonEncoder

/-- The constructor from a vector in `encoder.cpp`: the degree is the size minus one. -/
def ofVector (c : List Nat) : GF64_poly := ⟨c, c.length - 1⟩

/-- Polynomial `operator*` of `encoder.cpp`. -/
def mul (p q : GF64_poly) : GF64_poly :=
  let result := GF64_poly.mulLoop p q
  ofVector (popZeros result.length result)

/-- The member `createGeneratorPolynomial`. -/
def createGeneratorPolynomial : GF64_poly :=
  ofVector ((List.range 22).foldl (fun g i => g.set i (gen_poly.getD i 0)) (List.replicate 22 0))

/-- The member `encode`. -/
def encode (message : List Nat) : Except Failure (List Nat) :=
  if message.length ≠ 42 then .error .invalidMessageLength
  else
    let message_poly := ofVector message
    let codeword_poly := mul message_poly createGeneratorPolynomial
    .ok (resize codeword_poly.coefficients 63)

/-- `GF64::operator/` of `encoder.cpp`: it has no zero test and takes the difference of the
logarithms without adding 63; `%` on `int` truncates toward zero, so a negative difference
indexes `pow_table` below 0. The source reads the word it finds there and returns it; the
model marks that read by `indexOutOfRange`. It does not occur when the divisor is 1, the
only divisor the long division by the generator polynomial uses. -/
def gfDiv (a b : Nat) : Except Failure Nat :=
  let log_value : Int := (log_table.getD a 0 : Int) - (log_table.getD b 0 : Int)
  if Int.tmod log_value 63 < 0 then .error .indexOutOfRange
  else .ok (pow_table.getD (Int.tmod log_value 63).toNat 0)

/-- One round of the long division of `encoder.cpp`, at remainder index `i`. -/
def divStep (q : GF64_poly) (st : List Nat × List Nat) (i : Nat) :
    Except Failure (List Nat × List Nat) :=
  if st.2.getD i 0 ≠ 0 then do
    let coef ← gfDiv (st.2.getD i 0) (q.coefficients.getD q.degree 0)
    let quotient := st.1.set (i - q.degree) coef
    let remainder := (List.range (q.degree + 1)).foldl
      (fun r j => r.set (i - j) (GF64.add (r.getD (i - j) 0)
        (GF64.mul (q.coefficients.getD (q.degree - j) 0) coef))) st.2
    pure (quotient, remainder)
  else pure st

/-- The loop `for(i = degree; i >= other.degree; i--)` of the long division of
`encoder.cpp`. -/
def divLoop (p q : GF64_poly) : Except Failure (List Nat × List Nat) :=
  (List.range (p.degree - q.degree + 1)).foldlM
    (fun st k => divStep q st (p.degree - k))
    (List.replicate (p.degree - q.degree + 1) 0, p.coefficients)

/-- Polynomial `operator/` of `encoder.cpp`; with the zero polynomial as divisor it throws,
and `GF64_poly(0)` is the polynomial with the single coefficient 0. -/
def div (p q : GF64_poly) : Except Failure GF64_poly :=
  if q.degree = 0 ∧ q.coefficients.getD 0 0 = 0 then .error .divisionByZeroPolynomial
  else if p.degree < q.degree then .ok ⟨[0], 0⟩
  else do
    let st ← divLoop p q
    pure (ofVector (popZeros st.1.length st.1))

end ReedSolomonEncoder

namespace Verifier

open GF64_poly

/-- One round of the loop of `operator%`, at remainder index `i`. The field division is
that of the decoder; in `verify.cpp` its zero-divisor case throws `std::runtime_error`. -/
def modStep (q : GF64_poly) (remainder : List Nat) (i : Nat) : Except Failure (List Nat) :=
  if remainder.getD i 0 ≠ 0 then do
    let coef ← GF64.div (remainder.getD i 0) (q.coefficients.getD q.degree 0)
    pure ((List.range (q.degree + 1)).foldl
      (fun r j => r.set (i - j) (GF64.add (r.getD (i - j) 0)
        (GF64.mul (q.coefficients.getD (q.degree - j) 0) coef))) remainder)
  else pure remainder

/-- The loop `for(i = degree; i >= other.degree; i--)` of `operator%`. -/
def modLoop (p q : GF64_poly) : Except Failure (List Nat) :=
  (List.range (p.degree - q.degree + 1)).foldlM
    (fun r k => modStep q r (p.degree - k)) p.coefficients

/-- Polynomial `operator%` of `verify.cpp`; its constructor, its field arithmetic and the
way its `main` fills the log table are those of the decoder. -/
def mod (p q : GF64_poly) : Except Failure GF64_poly :=
  if q.degree = 0 ∧ q.coefficients.getD 0 0 = 0 then .error .moduloByZeroPolynomial
  else if p.degree < q.degree then .ok p
  else do
    let remainder ← modLoop p q
    pure (ofVector (popZeros remainder.length remainder))

/-- The function `verify_codeword`. -/
def verify_codeword (codeword : List Nat) : Except Failure Bool := do
  let generator := ofVector gen_poly
  let codeword_poly := ofVector codeword
  let remainder ← mod codeword_poly generator
  pure remainder.is_zero

end Verifier

/-! ## Auxiliary definitions of the verification

Names for intermediate values of the source functions and for the well-formedness of
its data, used to state the lemmas below. -/

/-- The multiplicative inverse through the tables (zero is sent to zero). -/
def GF64.inv (a : Nat) : Nat :=
  if a = 0 then 0 else pow_table.getD ((63 - log_table.getD a 0) % 63) 0

/-- Multiplication by the primitive element 2 in closed form: a shift, reduced by
`x^6 + x + 1` when the top bit is set. -/
def GF64.timesAlpha (b : Nat) : Nat := if b < 32 then 2 * b else (2 * b) ^^^ 67

/-- Every stored value is a field element. -/
def Small (l : List Nat) : Prop := ∀ x ∈ l, x < 64

/-- The tracked degree indexes a stored coefficient, and all stored values are field
elements. -/
structure WF (p : GF64_poly) : Prop where
  deg_lt : p.degree < p.coefficients.length
  small : Small p.coefficients

/-- Normal form: exactly `degree + 1` stored coefficients and, unless the degree is 0, a
nonzero leading one. -/
structure Norm (p : GF64_poly) : Prop where
  small : Small p.coefficients
  len : p.coefficients.length = p.degree + 1
  lead : p.degree ≠ 0 → p.coefficients.getD p.degree 0 ≠ 0

/-- The value `calculateSyndromes` computes in round `j` of its outer loop. -/
def syndromeAt (received : List Nat) (j : Nat) : Nat :=
  (List.range 63).foldl
    (fun syndrome i =>
      if received.getD i 0 ≠ 0 then
        GF64.add syndrome
          (GF64.mul (received.getD i 0) (pow_table.getD ((i * (j + 1)) % 63) 0))
      else syndrome) 0

/-- The list of the 21 syndromes that `calculateSyndromes` hands to the constructor. -/
def syndromeList (received : List Nat) : List Nat :=
  (List.range 21).foldl (fun s j => s.set j (syndromeAt received j)) (List.replicate 21 0)

/-- The coefficient vector `operator+` builds before it pops the trailing zeros. -/
def addLoop (p q : GF64_poly) : List Nat :=
  (List.range (q.degree + 1)).foldl
    (fun r i => r.set i (GF64.add (r.getD i 0) (q.coefficients.getD i 0)))
    ((List.range (p.degree + 1)).foldl
      (fun r i => r.set i (p.coefficients.getD i 0))
      (List.replicate (max p.degree q.degree + 1) 0))

/-- The erased positions of a mask, as a set of positions below 63. -/
def erasedSet (mask : List Bool) : Finset Nat :=
  (Finset.range 63).filter (fun i => mask.getD i false = true)

/-- The polynomial `calculateErasureLocator` builds before it tests the degree. -/
def erasureLoop (erasures : List Bool) : GF64_poly :=
  (List.range 63).foldl
    (fun loc i =>
      if erasures.getD i false then loc.mul (GF64_poly.ofVector [1, pow_table.getD i 0]) else loc)
    (GF64_poly.ofVector [1])

/-- The point at which `correctErrors` tests position `i`. -/
def testPoint (i : Nat) : Nat := pow_table.getD ((63 - i) % 63) 0

/-- Position `i` is taken for an error position: the locator vanishes at the test point
and its derivative does not. -/
def isRootAt (locator derivative : GF64_poly) (i : Nat) : Prop :=
  locator.eval (testPoint i) = 0 ∧ derivative.eval (testPoint i) ≠ 0

instance (locator derivative : GF64_poly) (i : Nat) : Decidable (isRootAt locator derivative i) := by
  unfold isRootAt
  exact inferInstance

/-- The value Forney's formula gives at position `i`. -/
def forneyValue (derivative evaluator : GF64_poly) (i : Nat) : Nat :=
  GF64.mul (evaluator.eval (testPoint i)) (GF64.inv (derivative.eval (testPoint i)))

/-- The difference between a received word and a codeword, position by position. -/
def errorPattern (r c : List Nat) : List Nat :=
  (List.range 63).map (fun i => GF64.add (r.getD i 0) (c.getD i 0))

/-- The number of non-erased positions at which the received word differs from the
codeword. -/
def errorCount (received codeword : List Nat) (erasures : List Bool) : Nat :=
  ((List.range 63).filter
    (fun i => !(erasures.getD i false) && (received.getD i 0 != codeword.getD i 0))).length

/-- The number of erased positions of a mask. -/
def erasureCount (erasures : List Bool) : Nat := erasures.count true

/-- The sum the encoder's contract names for position `i`: the field sum over
`j = 0 .. 41` with `0 ≤ i - j ≤ 21` of `M[j] * gen_poly[i - j]`. -/
def generatorSum (M : List Nat) (i : Nat) : Nat :=
  (List.range 42).foldl
    (fun acc j =>
      if j ≤ i ∧ i - j ≤ 21 then
        GF64.add acc (GF64.mul (M.getD j 0) (gen_poly.getD (i - j) 0))
      else acc) 0

/-- The invariant of the loop of `differentiate` after `k` rounds. -/
structure DiffInv (p : GF64_poly) (k : Nat) (r : GF64_poly) : Prop where
  len : r.coefficients.length = r.degree + 1
  deg : r.degree = k - 1
  small : Small r.coefficients
  val : ∀ i, r.coefficients.getD i 0
    = if i < k ∧ i % 2 = 0 then p.coefficients.getD (i + 1) 0 else 0

/-- The invariant of the loop of `mod_x21` after `k` rounds. -/
structure ModInv (p : GF64_poly) (k : Nat) (r : GF64_poly) : Prop where
  norm : Norm r
  val : ∀ i, r.coefficients.getD i 0
    = if 21 - k ≤ i ∧ i < 21 then p.coefficients.getD i 0 else 0

/-! ## The table arithmetic is the arithmetic of a field -/

namespace GF64

theorem log_table_eq : log_table =
    [0, 0, 1, 6, 2, 12, 7, 26, 3, 32, 13, 35, 8, 48, 27, 18, 4, 24, 33, 16, 14, 52, 36, 54,
     9, 45, 49, 38, 28, 41, 19, 56, 5, 62, 25, 11, 34, 31, 17, 47, 15, 23, 53, 51, 37, 44,
     55, 40, 10, 61, 46, 30, 50, 22, 39, 43, 29, 60, 42, 21, 20, 59, 57, 58] := by
  decide

theorem pow_log : ∀ x, x < 64 → 0 < x → pow_table.getD (log_table.getD x 0) 0 = x := by
  decide

theorem log_pow : ∀ i, i < 63 → log_table.getD (pow_table.getD i 0) 0 = i := by
  decide

theorem pow_pos : ∀ i, i < 63 → 0 < pow_table.getD i 0 := by
  decide

theorem pow_lt : ∀ i, i < 63 → pow_table.getD i 0 < 64 := by
  decide

theorem log_lt : ∀ x, x < 64 → log_table.getD x 0 < 63 := by
  decide

theorem xor_lt {a b : Nat} (ha : a < 64) (hb : b < 64) : a ^^^ b < 64 :=
  Nat.xor_lt_two_pow (n := 6) ha hb

theorem mul_two_timesAlpha : ∀ b, b < 64 → mul 2 b = timesAlpha b := by
  decide

set_option maxRecDepth 1000000 in
theorem timesAlpha_xor : ∀ b, b < 64 → ∀ c, c < 64 →
    timesAlpha (b ^^^ c) = timesAlpha b ^^^ timesAlpha c := by
  decide

theorem mul_two_xor : ∀ b, b < 64 → ∀ c, c < 64 →
    mul 2 (b ^^^ c) = mul 2 b ^^^ mul 2 c := by
  intro b hb c hc
  rw [mul_two_timesAlpha _ (xor_lt hb hc), mul_two_timesAlpha b hb, mul_two_timesAlpha c hc,
    timesAlpha_xor b hb c hc]

theorem add_lt {a b : Nat} (ha : a < 64) (hb : b < 64) : add a b < 64 := xor_lt ha hb

theorem mul_of_ne_zero {a b : Nat} (ha : a ≠ 0) (hb : b ≠ 0) :
    mul a b = pow_table.getD ((log_table.getD a 0 + log_table.getD b 0) % 63) 0 := by
  simp [mul, ha, hb]

theorem zero_mul (b : Nat) : mul 0 b = 0 := by simp [mul]

theorem mul_zero (a : Nat) : mul a 0 = 0 := by simp [mul]

theorem mul_lt (a b : Nat) : mul a b < 64 := by
  unfold mul
  split
  · decide
  · exact pow_lt _ (Nat.mod_lt _ (by decide))

theorem mul_pos {a b : Nat} (ha : a ≠ 0) (hb : b ≠ 0) : 0 < mul a b := by
  rw [mul_of_ne_zero ha hb]
  exact pow_pos _ (Nat.mod_lt _ (by decide))

theorem mul_comm (a b : Nat) : mul a b = mul b a := by
  unfold mul
  simp only [Nat.add_comm, Or.comm]

theorem log_mul {a b : Nat} (ha : a ≠ 0) (hb : b ≠ 0) :
    log_table.getD (mul a b) 0 = (log_table.getD a 0 + log_table.getD b 0) % 63 := by
  rw [mul_of_ne_zero ha hb]
  exact log_pow _ (Nat.mod_lt _ (by decide))

theorem mul_assoc (a b c : Nat) : mul (mul a b) c = mul a (mul b c) := by
  by_cases ha : a = 0
  · simp [ha, zero_mul]
  by_cases hb : b = 0
  · simp [hb, zero_mul, mul_zero]
  by_cases hc : c = 0
  · simp [hc, mul_zero]
  have hab := Nat.pos_iff_ne_zero.1 (mul_pos ha hb)
  have hbc := Nat.pos_iff_ne_zero.1 (mul_pos hb hc)
  rw [mul_of_ne_zero hab hc, mul_of_ne_zero ha hbc, log_mul ha hb, log_mul hb hc]
  congr 1
  omega

theorem one_mul {a : Nat} (ha : a < 64) : mul 1 a = a := by
  by_cases h0 : a = 0
  · simp [h0, mul_zero]
  rw [mul_of_ne_zero (by decide) h0]
  have h1 : log_table.getD 1 0 = 0 := by decide
  rw [h1, Nat.zero_add, Nat.mod_eq_of_lt (log_lt a ha)]
  exact pow_log a ha (Nat.pos_of_ne_zero h0)

theorem mul_one {a : Nat} (ha : a < 64) : mul a 1 = a := by
  rw [mul_comm, one_mul ha]

theorem mul_two_pow (k : Nat) :
    mul 2 (pow_table.getD (k % 63) 0) = pow_table.getD ((k + 1) % 63) 0 := by
  have hk : k % 63 < 63 := Nat.mod_lt _ (by decide)
  rw [mul_of_ne_zero (by decide) (Nat.pos_iff_ne_zero.1 (pow_pos _ hk)), log_pow _ hk]
  have h2 : log_table.getD 2 0 = 1 := by decide
  rw [h2]
  congr 1
  omega

theorem mul_pow_xor (k : Nat) : ∀ b c, b < 64 → c < 64 →
    mul (pow_table.getD (k % 63) 0) (b ^^^ c)
      = mul (pow_table.getD (k % 63) 0) b ^^^ mul (pow_table.getD (k % 63) 0) c := by
  induction k with
  | zero =>
    intro b c hb hc
    have h1 : pow_table.getD (0 % 63) 0 = 1 := by decide
    rw [h1, one_mul hb, one_mul hc, one_mul (xor_lt hb hc)]
  | succ k ih =>
    intro b c hb hc
    rw [← mul_two_pow k, mul_assoc, mul_assoc, mul_assoc, ih b c hb hc]
    exact mul_two_xor _ (mul_lt _ _) _ (mul_lt _ _)

theorem mul_xor {a b c : Nat} (ha : a < 64) (hb : b < 64) (hc : c < 64) :
    mul a (b ^^^ c) = mul a b ^^^ mul a c := by
  by_cases h0 : a = 0
  · simp [h0, zero_mul]
  have h := mul_pow_xor (log_table.getD a 0) b c hb hc
  rw [Nat.mod_eq_of_lt (log_lt a ha), pow_log a ha (Nat.pos_of_ne_zero h0)] at h
  exact h

theorem inv_lt (a : Nat) : inv a < 64 := by
  unfold inv
  split
  · decide
  · exact pow_lt _ (Nat.mod_lt _ (by decide))

theorem mul_inv {a : Nat} (ha : a < 64) (h0 : a ≠ 0) : mul a (inv a) = 1 := by
  have hk : (63 - log_table.getD a 0) % 63 < 63 := Nat.mod_lt _ (by decide)
  have hi : inv a ≠ 0 := by
    simp only [inv, h0, if_false]
    exact Nat.pos_iff_ne_zero.1 (pow_pos _ hk)
  rw [mul_of_ne_zero h0 hi]
  simp only [inv, h0, if_false]
  rw [log_pow _ hk]
  have hl := log_lt a ha
  have : (log_table.getD a 0 + (63 - log_table.getD a 0) % 63) % 63 = 0 := by omega
  rw [this]
  decide

theorem div_of_ne_zero {a b : Nat} (hb : b < 64) (h0 : b ≠ 0) :
    div a b = .ok (mul a (inv b)) := by
  unfold div
  rw [if_neg h0]
  by_cases ha0 : a = 0
  · simp [ha0, zero_mul]
  rw [if_neg ha0]
  have hk : (63 - log_table.getD b 0) % 63 < 63 := Nat.mod_lt _ (by decide)
  have hi : inv b ≠ 0 := by
    simp only [inv, h0, if_false]
    exact Nat.pos_iff_ne_zero.1 (pow_pos _ hk)
  rw [mul_of_ne_zero ha0 hi]
  simp only [inv, h0, if_false]
  rw [log_pow _ hk]
  have hl := log_lt b hb
  congr 2
  omega

end GF64

/-- The field with 64 elements, carried by the values `0 .. 63` of the source. -/
structure F64 where
  val : Nat
  isLt : val < 64
  deriving DecidableEq

namespace F64

theorem ext_val {a b : F64} (h : a.val = b.val) : a = b := by
  cases a; cases b; cases h; rfl

/-- The field element of a C `int` value (values outside `0 .. 63` are reduced). -/
def ofNat (n : Nat) : F64 := ⟨n % 64, Nat.mod_lt _ (by decide)⟩

instance : Zero F64 := ⟨⟨0, by decide⟩⟩
instance : One F64 := ⟨⟨1, by decide⟩⟩
instance : Add F64 := ⟨fun a b => ⟨GF64.add a.val b.val, GF64.add_lt a.isLt b.isLt⟩⟩
instance : Neg F64 := ⟨fun a => a⟩
instance : Mul F64 := ⟨fun a b => ⟨GF64.mul a.val b.val, GF64.mul_lt _ _⟩⟩
instance : Inv F64 := ⟨fun a => ⟨GF64.inv a.val, GF64.inv_lt _⟩⟩

@[simp] theorem val_zero : (0 : F64).val = 0 := rfl
@[simp] theorem val_one : (1 : F64).val = 1 := rfl
@[simp] theorem val_add (a b : F64) : (a + b).val = a.val ^^^ b.val := rfl
@[simp] theorem val_neg (a : F64) : (-a).val = a.val := rfl
@[simp] theorem val_mul (a b : F64) : (a * b).val = GF64.mul a.val b.val := rfl
@[simp] theorem val_inv (a : F64) : (a⁻¹).val = GF64.inv a.val := rfl

instance : Field F64 where
  add_assoc a b c := ext_val (by simp [Nat.xor_assoc])
  zero_add a := ext_val (by simp)
  add_zero a := ext_val (by simp)
  add_comm a b := ext_val (by simp [Nat.xor_comm])
  neg_add_cancel a := ext_val (by simp)
  nsmul := nsmulRec
  zsmul := zsmulRec
  mul_assoc a b c := ext_val (by simp [GF64.mul_assoc])
  one_mul a := ext_val (by simp [GF64.one_mul a.isLt])
  mul_one a := ext_val (by simp [GF64.mul_one a.isLt])
  left_distrib a b c := ext_val (by simp [GF64.mul_xor a.isLt b.isLt c.isLt])
  right_distrib a b c := ext_val (by
    simp [GF64.mul_comm _ c.val, GF64.mul_xor c.isLt a.isLt b.isLt])
  zero_mul a := ext_val (by simp [GF64.zero_mul])
  mul_zero a := ext_val (by simp [GF64.mul_zero])
  mul_comm a b := ext_val (by simp [GF64.mul_comm])
  exists_pair_ne := ⟨0, 1, by decide⟩
  mul_inv_cancel a h := ext_val (by
    have h0 : a.val ≠ 0 := fun e => h (ext_val e)
    simp [GF64.mul_inv a.isLt h0])
  inv_zero := ext_val (by simp [GF64.inv])
  nnqsmul := _
  nnqsmul_def := fun _ _ => rfl
  qsmul := _
  qsmul_def := fun _ _ => rfl

theorem ofNat_val {n : Nat} (h : n < 64) : (ofNat n).val = n := Nat.mod_eq_of_lt h

theorem ofNat_add {a b : Nat} (ha : a < 64) (hb : b < 64) :
    ofNat (GF64.add a b) = ofNat a + ofNat b :=
  ext_val (by
    rw [val_add, ofNat_val ha, ofNat_val hb, ofNat_val (GF64.add_lt ha hb)]; rfl)

theorem ofNat_mul {a b : Nat} (ha : a < 64) (hb : b < 64) :
    ofNat (GF64.mul a b) = ofNat a * ofNat b :=
  ext_val (by simp [ofNat_val, ha, hb, GF64.mul_lt])

theorem ofNat_zero : ofNat 0 = 0 := rfl

theorem ofNat_one : ofNat 1 = 1 := rfl

theorem ofNat_eq_zero {a : Nat} (ha : a < 64) : ofNat a = 0 ↔ a = 0 := by
  constructor
  · intro h
    have := congrArg F64.val h
    rwa [ofNat_val ha] at this
  · intro h
    rw [h]; rfl

theorem ofNat_inj {a b : Nat} (ha : a < 64) (hb : b < 64) (h : ofNat a = ofNat b) : a = b := by
  have := congrArg F64.val h
  rwa [ofNat_val ha, ofNat_val hb] at this

theorem add_self (a : F64) : a + a = 0 := ext_val (by simp)

theorem neg_eq (a : F64) : -a = a := rfl

theorem sub_eq_add' (a b : F64) : a - b = a + b := by
  rw [sub_eq_add_neg, neg_eq]

end F64

open Polynomial

/-! ## Polynomials over the field, and the invariants of the loops -/

/-- The polynomial whose coefficient list (constant term first) is `l`. -/
noncomputable def listPoly : List Nat → F64[X]
  | [] => 0
  | a :: l => C (F64.ofNat a) + X * listPoly l

/-- The polynomial a `GF64_poly` stands for: the coefficients up to the tracked degree. -/
noncomputable def toPoly (p : GF64_poly) : F64[X] :=
  ∑ i ∈ Finset.range (p.degree + 1), C (F64.ofNat (p.coefficients.getD i 0)) * X ^ i

/-- The primitive element of the field: the value 2. -/
def alpha : F64 := F64.ofNat 2

/-- The locator polynomial of a set of positions: the product of `1 + α^i x`. -/
noncomputable def locPoly (Z : Finset Nat) : F64[X] :=
  ∏ i ∈ Z, (1 + C (alpha ^ i) * X)

/-- The evaluator polynomial of the values `e` on the positions `Z`. -/
noncomputable def evaluatorPoly (Z : Finset Nat) (e : Nat → F64) : F64[X] :=
  ∑ i ∈ Z, C (e i * alpha ^ i) * ∏ l ∈ Z.erase i, (1 + C (alpha ^ l) * X)

/-- The syndrome polynomial of the values `e` on the positions `Z`. -/
noncomputable def synPoly (Z : Finset Nat) (e : Nat → F64) : F64[X] :=
  ∑ j ∈ Finset.range 21, C (∑ i ∈ Z, e i * (alpha ^ i) ^ (j + 1)) * X ^ j

/-- The invariant of the long-division loop after `k` rounds. -/
structure DivInv (p q : GF64_poly) (k : Nat) (st : List Nat × List Nat) : Prop where
  qlen : st.1.length = p.degree - q.degree + 1
  rlen : st.2.length = p.degree + 1
  qsmall : Small st.1
  rsmall : Small st.2
  qzero : ∀ j, j + k ≤ p.degree - q.degree → st.1.getD j 0 = 0
  rzero : ∀ j, p.degree < j + k → st.2.getD j 0 = 0
  eqn : listPoly st.1 * toPoly q + listPoly st.2 = toPoly p

/-- The invariant of the `while` loop of `euclideanAlgorithm`: the last two entries of the
vectors are normalised and satisfy `R = U * x^21 + V * T`. -/
structure EuclidInv (T : F64[X]) (s : ReedSolomonDecoder.EuclidState) : Prop where
  lenR : 1 ≤ s.R.length
  lenU : 1 ≤ s.U.length
  lenV : 1 ≤ s.V.length
  r1 : Norm (ReedSolomonDecoder.fromBack s.R 1)
  r2 : Norm (ReedSolomonDecoder.fromBack s.R 2)
  u1 : Norm (ReedSolomonDecoder.fromBack s.U 1)
  u2 : Norm (ReedSolomonDecoder.fromBack s.U 2)
  v1 : Norm (ReedSolomonDecoder.fromBack s.V 1)
  v2 : Norm (ReedSolomonDecoder.fromBack s.V 2)
  e1 : toPoly (ReedSolomonDecoder.fromBack s.R 1)
    = toPoly (ReedSolomonDecoder.fromBack s.U 1) * X ^ 21
      + toPoly (ReedSolomonDecoder.fromBack s.V 1) * T
  e2 : toPoly (ReedSolomonDecoder.fromBack s.R 2)
    = toPoly (ReedSolomonDecoder.fromBack s.U 2) * X ^ 21
      + toPoly (ReedSolomonDecoder.fromBack s.V 2) * T

/-- The number of rounds the loop can still make: 0 for a zero remainder, else its
degree plus one. -/
noncomputable def roundsLeft (s : ReedSolomonDecoder.EuclidState) : Nat :=
  if toPoly (ReedSolomonDecoder.fromBack s.R 1) = 0 then 0
  else (toPoly (ReedSolomonDecoder.fromBack s.R 1)).natDegree + 1

/-! ## Invariants of the verifier's remainder loop and of the Euclidean sequence -/

/-- The invariant of the loop of the verifier's `operator%` after `k` rounds: the
remainder vector keeps its length, is zero at the indices already handled, and differs from
the dividend by a multiple of the divisor. -/
structure RemInv (p q : GF64_poly) (k : Nat) (rem : List Nat) : Prop where
  rlen : rem.length = p.coefficients.length
  rsmall : Small rem
  rzero : ∀ j, p.degree < j + k → rem.getD j 0 = 0
  eqn : ∃ A : F64[X], A * toPoly q + listPoly rem = toPoly p

/-- The vectors after `n` rounds of the body of the `while` loop of `euclideanAlgorithm`,
whatever the loop test: started at `euclidInit T`, the last entries are the members
`R_(n+1)`, `V_(n+1)` of the sequence with `R_0 = x^21`, `R_1 = T`, `V_0 = 0`, `V_1 = 1`. -/
def euclidIter : Nat → ReedSolomonDecoder.EuclidState →
    Except Failure ReedSolomonDecoder.EuclidState
  | 0, s => .ok s
  | n + 1, s => do
    let s ← ReedSolomonDecoder.euclidStep s
    euclidIter n s

/-- The condition under which the `while` loop ends: both degree bounds hold at the last
entries of `R` and `V`. -/
def euclidStop (mu nu : Nat) (s : ReedSolomonDecoder.EuclidState) : Prop :=
  (ReedSolomonDecoder.fromBack s.R 1).get_degree ≤ nu ∧
  (ReedSolomonDecoder.fromBack s.V 1).get_degree ≤ mu

instance (mu nu : Nat) (s : ReedSolomonDecoder.EuclidState) : Decidable (euclidStop mu nu s) := by
  unfold euclidStop
  exact inferInstance

/-- The degree invariant of the `while` loop of `euclideanAlgorithm`: the remainders
decrease, the degrees of `V` increase, `deg V_i + deg R_(i-1) = 21`, and the remainder before
the last one is still above the bound `nu`. -/
structure EuclidDeg (nu : Nat) (s : ReedSolomonDecoder.EuclidState) : Prop where
  r2ne : toPoly (ReedSolomonDecoder.fromBack s.R 2) ≠ 0
  rdeg : (toPoly (ReedSolomonDecoder.fromBack s.R 1)).degree
    < (toPoly (ReedSolomonDecoder.fromBack s.R 2)).degree
  v1ne : toPoly (ReedSolomonDecoder.fromBack s.V 1) ≠ 0
  vdeg : (toPoly (ReedSolomonDecoder.fromBack s.V 2)).degree
    < (toPoly (ReedSolomonDecoder.fromBack s.V 1)).degree
  sum : (toPoly (ReedSolomonDecoder.fromBack s.V 1)).natDegree
    + (toPoly (ReedSolomonDecoder.fromBack s.R 2)).natDegree = 21
  above : nu < (toPoly (ReedSolomonDecoder.fromBack s.R 2)).natDegree

/-! ## The syndrome formula -/

/-- The sum the syndrome formula names for `j`: the field sum over `i = 0 .. 62` of
`r[i] * pow_table[(i * j) mod 63]`, every position taken. -/
def syndromeSum (r : List Nat) (j : Nat) : Nat :=
  (List.range 63).foldl
    (fun acc i => GF64.add acc (GF64.mul (r.getD i 0) (pow_table.getD ((i * j) % 63) 0))) 0

/-! ## Sums of words, and the division loop on a vector longer than the degree -/

/-- The invariant of the long-division loop after `k` rounds, for a dividend that may
store zero coefficients above its tracked degree. -/
structure DivInv2 (p q : GF64_poly) (k : Nat) (st : List Nat × List Nat) : Prop where
  qlen : st.1.length = p.degree - q.degree + 1
  rlen : st.2.length = p.coefficients.length
  qsmall : Small st.1
  rsmall : Small st.2
  qzero : ∀ j, j + k ≤ p.degree - q.degree → st.1.getD j 0 = 0
  rzero : ∀ j, p.degree < j + k → st.2.getD j 0 = 0
  eqn : listPoly st.1 * toPoly q + listPoly st.2 = toPoly p

/-- Every word that `mod_x21` reads behind the stored coefficients of `p` is zero; this
holds in particular when `p` stores at least 21 coefficients and no such word is read. -/
def strayZero (mem : Nat → Nat) (p : GF64_poly) : Prop :=
  ∀ i, p.coefficients.length ≤ i → i < 21 → mem i = 0

/-! ## Coefficient lists as polynomials over the field -/

theorem getD_lt_of_small {l : List Nat} (h : Small l) (i : Nat) : l.getD i 0 < 64 := by
  rw [List.getD_eq_getElem?_getD]
  by_cases hi : i < l.length
  · rw [List.getElem?_eq_getElem hi]
    exact h _ (List.getElem_mem hi)
  · rw [List.getElem?_eq_none (by omega)]
    decide

theorem getD_of_le {l : List Nat} {i : Nat} (h : l.length ≤ i) : l.getD i 0 = 0 := by
  rw [List.getD_eq_getElem?_getD, List.getElem?_eq_none h]
  rfl

theorem getD_set (l : List Nat) (i j a : Nat) :
    (l.set i a).getD j 0 = if i = j ∧ i < l.length then a else l.getD j 0 := by
  simp only [List.getD_eq_getElem?_getD, List.getElem?_set]
  by_cases h : i = j
  · subst h
    by_cases h2 : i < l.length
    · simp [h2]
    · simp [h2, List.getElem?_eq_none (Nat.le_of_not_lt h2)]
  · simp [h]

theorem small_set {l : List Nat} (h : Small l) (i : Nat) {a : Nat} (ha : a < 64) :
    Small (l.set i a) := by
  intro x hx
  rcases List.mem_or_eq_of_mem_set hx with h1 | h1
  · exact h x h1
  · rw [h1]; exact ha

theorem small_replicate (n : Nat) : Small (List.replicate n 0) := by
  intro x hx
  rw [(List.mem_replicate.1 hx).2]
  decide

theorem getD_replicate (n i : Nat) : (List.replicate n 0).getD i 0 = 0 := by
  rw [List.getD_eq_getElem?_getD]
  by_cases hi : i < n
  · rw [List.getElem?_eq_getElem (by simpa using hi)]
    simp
  · rw [List.getElem?_eq_none (by simpa using hi)]
    rfl

theorem coeff_listPoly (l : List Nat) (i : Nat) :
    (listPoly l).coeff i = F64.ofNat (l.getD i 0) := by
  induction l generalizing i with
  | nil => simp [listPoly, F64.ofNat_zero]
  | cons a l ih =>
    cases i with
    | zero => simp [listPoly]
    | succ i => simp [listPoly, ih, coeff_C]

theorem listPoly_eq_iff {l m : List Nat} :
    listPoly l = listPoly m ↔ ∀ i, F64.ofNat (l.getD i 0) = F64.ofNat (m.getD i 0) := by
  constructor
  · intro h i
    rw [← coeff_listPoly, ← coeff_listPoly, h]
  · intro h
    ext i
    rw [coeff_listPoly, coeff_listPoly, h]

theorem listPoly_replicate (n : Nat) : listPoly (List.replicate n 0) = 0 := by
  ext i
  rw [coeff_listPoly, getD_replicate]
  rfl

theorem listPoly_eq_sum (l : List Nat) :
    listPoly l = ∑ i ∈ Finset.range l.length, C (F64.ofNat (l.getD i 0)) * X ^ i := by
  ext k
  rw [coeff_listPoly, finset_sum_coeff]
  simp only [coeff_C_mul, coeff_X_pow]
  by_cases hk : k < l.length
  · rw [Finset.sum_eq_single k]
    · simp
    · intro b _ hb
      simp [Ne.symm hb]
    · intro h
      exact absurd (Finset.mem_range.2 hk) h
  · rw [getD_of_le (Nat.le_of_not_lt hk), Finset.sum_eq_zero]
    · rfl
    · intro b hb
      have : b < l.length := Finset.mem_range.1 hb
      have : k ≠ b := by omega
      simp [this]

theorem eval_listPoly (l : List Nat) (x : F64) :
    (listPoly l).eval x = ∑ i ∈ Finset.range l.length, F64.ofNat (l.getD i 0) * x ^ i := by
  rw [listPoly_eq_sum, eval_finset_sum]
  simp

theorem natDegree_listPoly_lt (l : List Nat) (h : l ≠ []) : (listPoly l).natDegree < l.length := by
  have hpos : 0 < l.length := List.length_pos.2 h
  by_cases h0 : listPoly l = 0
  · rw [h0]; simpa using hpos
  rw [natDegree_lt_iff_degree_lt h0, degree_lt_iff_coeff_zero]
  intro m hm
  rw [coeff_listPoly, getD_of_le hm]
  rfl

theorem listPoly_set (l : List Nat) (k v : Nat) (hk : k < l.length) :
    listPoly (l.set k v)
      = listPoly l + C (F64.ofNat v + F64.ofNat (l.getD k 0)) * X ^ k := by
  ext i
  rw [coeff_add, coeff_listPoly, coeff_listPoly, getD_set, coeff_C_mul, coeff_X_pow]
  by_cases h : k = i
  · subst h
    simp only [hk, and_self, if_true, mul_one]
    rw [add_comm (F64.ofNat v), ← add_assoc, F64.add_self, zero_add]
  · have h' : ¬ i = k := fun e => h e.symm
    simp [h, h']

/-- Writing `old + v` at index `k` adds the monomial `v * X^k`. -/
theorem listPoly_set_add (l : List Nat) (k v : Nat) (hk : k < l.length) (hl : Small l)
    (hv : v < 64) :
    listPoly (l.set k (GF64.add (l.getD k 0) v)) = listPoly l + C (F64.ofNat v) * X ^ k := by
  rw [listPoly_set l k _ hk, F64.ofNat_add (getD_lt_of_small hl k) hv]
  congr 2
  rw [add_comm (F64.ofNat (l.getD k 0)), add_assoc, F64.add_self, add_zero]

/-! ## The normalisation loops -/

theorem stripDegree_le (c : List Nat) (d : Nat) : stripDegree c d ≤ d := by
  induction d with
  | zero => simp [stripDegree]
  | succ d ih =>
    simp only [stripDegree]
    split
    · omega
    · omega

theorem stripDegree_zero_above (c : List Nat) (d i : Nat) (h1 : stripDegree c d < i) (h2 : i ≤ d) :
    c.getD i 0 = 0 := by
  induction d with
  | zero => simp [stripDegree] at h1; omega
  | succ d ih =>
    simp only [stripDegree] at h1
    split at h1
    · rename_i hz
      by_cases hi : i = d + 1
      · rw [hi]; exact hz
      · exact ih h1 (by omega)
    · omega

theorem stripDegree_ne_zero (c : List Nat) (d : Nat) (h : stripDegree c d ≠ 0) :
    c.getD (stripDegree c d) 0 ≠ 0 := by
  induction d with
  | zero => simp [stripDegree] at h
  | succ d ih =>
    simp only [stripDegree] at h ⊢
    split
    · rename_i hz
      rw [if_pos hz] at h
      exact ih h
    · rename_i hz
      exact hz

theorem popZeros_small {l : List Nat} (h : Small l) (n : Nat) : Small (popZeros n l) := by
  induction n generalizing l with
  | zero => exact h
  | succ n ih =>
    simp only [popZeros]
    split
    · exact ih (fun x hx => h x (List.mem_of_mem_dropLast hx))
    · exact h

theorem getD_dropLast (l : List Nat) (i : Nat) (h : l.getD (l.length - 1) 0 = 0) :
    l.dropLast.getD i 0 = l.getD i 0 := by
  by_cases hi : i < l.length - 1
  · simp only [List.getD_eq_getElem?_getD]
    rw [List.getElem?_eq_getElem (by simpa using hi), List.getElem?_eq_getElem (by omega)]
    simp [List.getElem_dropLast]
  · rw [getD_of_le (by simp; omega)]
    by_cases hi2 : i = l.length - 1
    · rw [hi2, h]
    · rw [getD_of_le (by omega)]

theorem popZeros_getD (n : Nat) (l : List Nat) (i : Nat) :
    (popZeros n l).getD i 0 = l.getD i 0 := by
  induction n generalizing l with
  | zero => rfl
  | succ n ih =>
    simp only [popZeros]
    split
    · rename_i hc
      rw [ih, getD_dropLast _ _ hc.2]
    · rfl

theorem popZeros_length_pos (n : Nat) (l : List Nat) (h : 0 < l.length) :
    0 < (popZeros n l).length := by
  induction n generalizing l with
  | zero => exact h
  | succ n ih =>
    simp only [popZeros]
    split
    · rename_i hc
      exact ih _ (by simp; omega)
    · exact h

theorem popZeros_length_le (n : Nat) (l : List Nat) : (popZeros n l).length ≤ l.length := by
  induction n generalizing l with
  | zero => exact Nat.le_refl _
  | succ n ih =>
    simp only [popZeros]
    split
    · exact Nat.le_trans (ih _) (by simp)
    · exact Nat.le_refl _

theorem popZeros_last (n : Nat) (l : List Nat) (hn : l.length ≤ n + 1) :
    (popZeros n l).length = 1 ∨ (popZeros n l).length = 0
      ∨ (popZeros n l).getD ((popZeros n l).length - 1) 0 ≠ 0 := by
  induction n generalizing l with
  | zero =>
    simp only [popZeros]
    omega
  | succ n ih =>
    simp only [popZeros]
    split
    · exact ih _ (by simp; omega)
    · rename_i hc
      by_cases h1 : 1 < l.length
      · right; right
        intro h
        exact hc ⟨h1, h⟩
      · omega

theorem listPoly_popZeros (n : Nat) (l : List Nat) : listPoly (popZeros n l) = listPoly l :=
  listPoly_eq_iff.2 (fun i => by rw [popZeros_getD])

/-! ## Loop invariants over `List.range` -/

theorem foldl_range_induct {β : Type} (f : β → Nat → β) (b : β) (n : Nat)
    (P : Nat → β → Prop) (h0 : P 0 b)
    (hs : ∀ k s, k < n → P k s → P (k + 1) (f s k)) :
    P n ((List.range n).foldl f b) := by
  induction n with
  | zero => exact h0
  | succ n ih =>
    rw [List.range_succ, List.foldl_append]
    simp only [List.foldl_cons, List.foldl_nil]
    exact hs n _ (Nat.lt_succ_self n)
      (ih (fun k s hk hP => hs k s (Nat.lt_succ_of_lt hk) hP))

theorem foldlM_range_induct {β : Type} (f : β → Nat → Except Failure β) (b : β) (n : Nat)
    (P : Nat → β → Prop) (h0 : P 0 b)
    (hs : ∀ k s, k < n → P k s → ∃ s', f s k = .ok s' ∧ P (k + 1) s') :
    ∃ s', (List.range n).foldlM f b = .ok s' ∧ P n s' := by
  induction n with
  | zero => exact ⟨b, rfl, h0⟩
  | succ n ih =>
    obtain ⟨s1, e1, p1⟩ := ih (fun k s hk hP => hs k s (Nat.lt_succ_of_lt hk) hP)
    obtain ⟨s2, e2, p2⟩ := hs n s1 (Nat.lt_succ_self n) p1
    refine ⟨s2, ?_, p2⟩
    rw [List.range_succ, List.foldlM_append, e1]
    simp only [List.foldlM_cons, List.foldlM_nil]
    show (f s1 n >>= fun x => pure x) = _
    rw [e2]
    rfl

/-! ## Polynomials with a tracked degree -/

theorem Norm.wf {p : GF64_poly} (h : Norm p) : WF p :=
  ⟨by rw [h.len]; exact Nat.lt_succ_self _, h.small⟩

theorem coeff_toPoly (p : GF64_poly) (i : Nat) :
    (toPoly p).coeff i = if i ≤ p.degree then F64.ofNat (p.coefficients.getD i 0) else 0 := by
  unfold toPoly
  rw [finset_sum_coeff]
  simp only [coeff_C_mul, coeff_X_pow]
  by_cases hi : i ≤ p.degree
  · rw [if_pos hi, Finset.sum_eq_single i]
    · simp
    · intro b _ hb
      simp [Ne.symm hb]
    · intro h
      exact absurd (Finset.mem_range.2 (Nat.lt_succ_of_le hi)) h
  · rw [if_neg hi, Finset.sum_eq_zero]
    intro b hb
    have : b < p.degree + 1 := Finset.mem_range.1 hb
    have : i ≠ b := by omega
    simp [this]

theorem toPoly_eq_listPoly_of_len {p : GF64_poly} (h : p.coefficients.length = p.degree + 1) :
    toPoly p = listPoly p.coefficients := by
  rw [listPoly_eq_sum, h]
  rfl

theorem Norm.toPoly_eq {p : GF64_poly} (h : Norm p) : toPoly p = listPoly p.coefficients :=
  toPoly_eq_listPoly_of_len h.len

theorem toPoly_ofVector (c : List Nat) : toPoly (GF64_poly.ofVector c) = listPoly c := by
  ext i
  rw [coeff_toPoly, coeff_listPoly]
  simp only [GF64_poly.ofVector]
  split
  · rfl
  · rename_i h
    by_cases hi : i ≤ c.length - 1
    · rw [stripDegree_zero_above c (c.length - 1) i (by omega) hi]
      rfl
    · rw [getD_of_le (by omega)]
      rfl

theorem wf_ofVector {c : List Nat} (hc : Small c) (hne : 0 < c.length) :
    WF (GF64_poly.ofVector c) :=
  ⟨by
    have := stripDegree_le c (c.length - 1)
    simp only [GF64_poly.ofVector]
    omega, hc⟩

/-- The two closing steps of every operator: pop the trailing zeros, then construct. -/
theorem norm_ofVector_popZeros {r : List Nat} (hr : Small r) (hne : 0 < r.length) :
    Norm (GF64_poly.ofVector (popZeros r.length r)) := by
  have hpos := popZeros_length_pos r.length r hne
  have hlast := popZeros_last r.length r (Nat.le_succ _)
  have hsm := popZeros_small hr r.length
  generalize popZeros r.length r = c at hpos hlast hsm
  have hdeg : stripDegree c (c.length - 1) = c.length - 1 := by
    rcases hlast with h | h | h
    · rw [h]; rfl
    · omega
    · cases hc : c.length - 1 with
      | zero => rfl
      | succ d =>
        rw [hc] at h
        simp only [stripDegree]
        rw [if_neg h]
  refine ⟨hsm, ?_, ?_⟩
  · simp only [GF64_poly.ofVector, hdeg]
    omega
  · simp only [GF64_poly.ofVector, hdeg]
    intro h0
    rcases hlast with h | h | h
    · omega
    · omega
    · exact h

theorem toPoly_ofVector_popZeros (r : List Nat) :
    toPoly (GF64_poly.ofVector (popZeros r.length r)) = listPoly r := by
  rw [toPoly_ofVector, listPoly_popZeros]

theorem Norm.natDegree {p : GF64_poly} (h : Norm p) : (toPoly p).natDegree = p.degree := by
  apply le_antisymm
  · rw [natDegree_le_iff_coeff_eq_zero]
    intro N hN
    rw [coeff_toPoly, if_neg (by omega)]
  · by_cases h0 : p.degree = 0
    · omega
    · apply le_natDegree_of_ne_zero
      rw [coeff_toPoly, if_pos (Nat.le_refl _)]
      intro hz
      exact h.lead h0 ((F64.ofNat_eq_zero (getD_lt_of_small h.small _)).1 hz)

theorem Norm.is_zero_iff {p : GF64_poly} (h : Norm p) : p.is_zero = true ↔ toPoly p = 0 := by
  constructor
  · intro hz
    simp only [GF64_poly.is_zero, Bool.and_eq_true, beq_iff_eq] at hz
    ext i
    rw [coeff_toPoly, hz.1]
    split
    · rename_i hi
      have : i = 0 := by omega
      rw [this, hz.2]; rfl
    · rfl
  · intro hz
    have hd : p.degree = 0 := by rw [← h.natDegree, hz]; rfl
    have hc := congrArg (fun f => f.coeff 0) hz
    simp only [coeff_toPoly, Nat.zero_le, if_true, coeff_zero] at hc
    have := (F64.ofNat_eq_zero (getD_lt_of_small h.small _)).1 hc
    simp only [GF64_poly.is_zero, hd, this, beq_self_eq_true, Bool.and_self]

theorem Norm.eq_of_toPoly_eq {p q : GF64_poly} (hp : Norm p) (hq : Norm q)
    (h : toPoly p = toPoly q) : p = q := by
  have hd : p.degree = q.degree := by rw [← hp.natDegree, ← hq.natDegree, h]
  have hl : p.coefficients.length = q.coefficients.length := by rw [hp.len, hq.len, hd]
  have hc : p.coefficients = q.coefficients := by
    apply List.ext_getElem hl
    intro i h1 h2
    have e := congrArg (fun f => f.coeff i) h
    simp only [coeff_toPoly] at e
    rw [if_pos (by rw [hp.len] at h1; omega), if_pos (by rw [hq.len] at h2; omega)] at e
    have e2 := F64.ofNat_inj (getD_lt_of_small hp.small _) (getD_lt_of_small hq.small _) e
    simp only [List.getD_eq_getElem?_getD, List.getElem?_eq_getElem h1,
      List.getElem?_eq_getElem h2, Option.getD_some] at e2
    exact e2
  cases p; cases q
  simp only at hd hc
  rw [hd, hc]

theorem norm_zero : Norm GF64_poly.zero :=
  ⟨by intro x hx; simp [GF64_poly.zero] at hx; omega, rfl, fun h => absurd rfl h⟩

theorem toPoly_zero : toPoly GF64_poly.zero = 0 := by
  ext i
  rw [coeff_toPoly]
  simp only [GF64_poly.zero]
  split
  · rename_i hi
    have : i = 0 := by omega
    rw [this]; rfl
  · rfl

/-! ## The product loop -/

theorem mulInner_spec (q : GF64_poly) (a i : Nat) (ha : a < 64) (hq : Small q.coefficients)
    (r : List Nat) (hr : Small r) (hlen : i + q.degree < r.length) :
    let r' := (List.range (q.degree + 1)).foldl
      (fun r j =>
        if q.coefficients.getD j 0 ≠ 0 then
          r.set (i + j) (GF64.add (r.getD (i + j) 0) (GF64.mul a (q.coefficients.getD j 0)))
        else r) r
    r'.length = r.length ∧ Small r' ∧
      listPoly r' = listPoly r + C (F64.ofNat a) * X ^ i * toPoly q := by
  intro r'
  have key := foldl_range_induct
    (fun r j =>
        if q.coefficients.getD j 0 ≠ 0 then
          r.set (i + j) (GF64.add (r.getD (i + j) 0) (GF64.mul a (q.coefficients.getD j 0)))
        else r) r (q.degree + 1)
    (fun k s => s.length = r.length ∧ Small s ∧
      listPoly s = listPoly r + C (F64.ofNat a) * X ^ i *
        ∑ j ∈ Finset.range k, C (F64.ofNat (q.coefficients.getD j 0)) * X ^ j)
    ⟨rfl, hr, by simp⟩
    (by
      intro k s hk ⟨h1, h2, h3⟩
      have hqk := getD_lt_of_small hq k
      simp only
      split
      · refine ⟨by simp [h1], small_set h2 _ (GF64.add_lt (getD_lt_of_small h2 _)
          (GF64.mul_lt _ _)), ?_⟩
        rw [listPoly_set_add s (i + k) _ (by omega) h2 (GF64.mul_lt _ _), h3,
          Finset.sum_range_succ, F64.ofNat_mul ha hqk]
        simp only [C_mul]
        ring
      · rename_i hz
        have hz' : q.coefficients.getD k 0 = 0 := by simpa using hz
        refine ⟨h1, h2, ?_⟩
        rw [h3, Finset.sum_range_succ, hz', F64.ofNat_zero]
        simp)
  exact key

theorem mulLoop_spec (p q : GF64_poly) (hp : Small p.coefficients) (hq : Small q.coefficients) :
    (GF64_poly.mulLoop p q).length = p.degree + q.degree + 1 ∧
      Small (GF64_poly.mulLoop p q) ∧
      listPoly (GF64_poly.mulLoop p q) = toPoly p * toPoly q := by
  have key := foldl_range_induct
    (fun r i =>
      if p.coefficients.getD i 0 ≠ 0 then
        (List.range (q.degree + 1)).foldl
          (fun r j =>
            if q.coefficients.getD j 0 ≠ 0 then
              r.set (i + j) (GF64.add (r.getD (i + j) 0)
                (GF64.mul (p.coefficients.getD i 0) (q.coefficients.getD j 0)))
            else r) r
      else r)
    (List.replicate (p.degree + q.degree + 1) 0) (p.degree + 1)
    (fun k s => s.length = p.degree + q.degree + 1 ∧ Small s ∧
      listPoly s = (∑ i ∈ Finset.range k, C (F64.ofNat (p.coefficients.getD i 0)) * X ^ i)
        * toPoly q)
    ⟨by simp, small_replicate _, by simp [listPoly_replicate]⟩
    (by
      intro k s hk ⟨h1, h2, h3⟩
      simp only
      split
      · have hin := mulInner_spec q (p.coefficients.getD k 0) k (getD_lt_of_small hp k) hq s h2
          (by omega)
        simp only at hin
        refine ⟨hin.1.trans h1, hin.2.1, ?_⟩
        rw [hin.2.2, h3, Finset.sum_range_succ]
        ring
      · rename_i hz
        have hz' : p.coefficients.getD k 0 = 0 := by simpa using hz
        refine ⟨h1, h2, ?_⟩
        rw [h3, Finset.sum_range_succ, hz', F64.ofNat_zero]
        simp)
  exact key

theorem norm_mul (p q : GF64_poly) (hp : Small p.coefficients) (hq : Small q.coefficients) :
    Norm (p.mul q) := by
  have h := mulLoop_spec p q hp hq
  exact norm_ofVector_popZeros h.2.1 (by rw [h.1]; omega)

theorem toPoly_mul (p q : GF64_poly) (hp : Small p.coefficients) (hq : Small q.coefficients) :
    toPoly (p.mul q) = toPoly p * toPoly q := by
  have h := mulLoop_spec p q hp hq
  simp only [GF64_poly.mul]
  rw [toPoly_ofVector_popZeros, h.2.2]

/-! ## Sums and evaluation -/

theorem foldl_add_eq_sum (n : Nat) (c : Nat → Prop) [DecidablePred c] (f : Nat → Nat)
    (hf : ∀ j, f j < 64) :
    (List.range n).foldl (fun acc j => if c j then GF64.add acc (f j) else acc) 0 < 64 ∧
    F64.ofNat ((List.range n).foldl (fun acc j => if c j then GF64.add acc (f j) else acc) 0)
      = ∑ j ∈ Finset.range n, if c j then F64.ofNat (f j) else 0 := by
  refine foldl_range_induct (fun acc j => if c j then GF64.add acc (f j) else acc) 0 n
    (fun k s => s < 64 ∧ F64.ofNat s = ∑ j ∈ Finset.range k, if c j then F64.ofNat (f j) else 0)
    ⟨by decide, by simp [F64.ofNat_zero]⟩ ?_
  intro k s _ ⟨h1, h2⟩
  simp only
  rw [Finset.sum_range_succ]
  split
  · exact ⟨GF64.add_lt h1 (hf k), by rw [F64.ofNat_add h1 (hf k), h2]⟩
  · exact ⟨h1, by rw [h2, add_zero]⟩

theorem eval_toPoly (p : GF64_poly) (x : F64) :
    (toPoly p).eval x
      = ∑ i ∈ Finset.range (p.degree + 1), F64.ofNat (p.coefficients.getD i 0) * x ^ i := by
  unfold toPoly
  rw [eval_finset_sum]
  simp

theorem eval_spec (p : GF64_poly) (hp : Small p.coefficients) (x : Nat) (hx : x < 64) :
    p.eval x < 64 ∧ F64.ofNat (p.eval x) = (toPoly p).eval (F64.ofNat x) := by
  unfold GF64_poly.eval
  split
  · rename_i h0
    refine ⟨getD_lt_of_small hp 0, ?_⟩
    rw [h0, F64.ofNat_zero, ← coeff_zero_eq_eval_zero, coeff_toPoly, if_pos (Nat.zero_le _)]
  · have key := foldl_range_induct
      (fun (st : Nat × Nat) i =>
        (GF64.add st.1 (GF64.mul (p.coefficients.getD i 0) st.2), GF64.mul st.2 x))
      (0, 1) (p.degree + 1)
      (fun k st => st.1 < 64 ∧ st.2 < 64 ∧
        F64.ofNat st.1
          = ∑ i ∈ Finset.range k, F64.ofNat (p.coefficients.getD i 0) * F64.ofNat x ^ i ∧
        F64.ofNat st.2 = F64.ofNat x ^ k)
      ⟨by decide, by decide, by simp [F64.ofNat_zero], by simp [F64.ofNat_one]⟩
      (by
        intro k st _ ⟨h1, h2, h3, h4⟩
        refine ⟨GF64.add_lt h1 (GF64.mul_lt _ _), GF64.mul_lt _ _, ?_, ?_⟩
        · simp only
          rw [F64.ofNat_add h1 (GF64.mul_lt _ _), F64.ofNat_mul (getD_lt_of_small hp k) h2,
            h3, h4, Finset.sum_range_succ]
        · simp only
          rw [F64.ofNat_mul h2 hx, h4, pow_succ])
    exact ⟨key.1, by rw [key.2.2.1, eval_toPoly]⟩

theorem pow_table_eq_alpha_pow (k : Nat) :
    F64.ofNat (pow_table.getD (k % 63) 0) = alpha ^ k := by
  induction k with
  | zero => rfl
  | succ k ih =>
    rw [← GF64.mul_two_pow, F64.ofNat_mul (by decide) (GF64.pow_lt _ (Nat.mod_lt _ (by decide))),
      ih, pow_succ, mul_comm]
    rfl

theorem alpha_pow_63 : alpha ^ 63 = 1 := by
  rw [← pow_table_eq_alpha_pow]
  rfl

theorem alpha_ne_zero : alpha ≠ 0 := by decide

theorem alpha_pow_ne_zero (k : Nat) : alpha ^ k ≠ 0 := pow_ne_zero _ alpha_ne_zero

/-! ## The encoder -/

theorem getD_resize (l : List Nat) (n i : Nat) (hi : i < n) :
    (resize l n).getD i 0 = l.getD i 0 := by
  unfold resize
  simp only [List.getD_eq_getElem?_getD]
  by_cases h : i < l.length
  · rw [List.getElem?_append_left (by simp; omega), List.getElem?_take_of_lt hi]
  · rw [List.getElem?_append_right (by simp; omega), List.getElem?_eq_none (Nat.le_of_not_lt h)]
    by_cases h2 : i - (List.take n l).length < n - l.length
    · rw [List.getElem?_eq_getElem (by simpa using h2)]
      simp
    · rw [List.getElem?_eq_none (by simpa using h2)]

theorem length_resize (l : List Nat) (n : Nat) : (resize l n).length = n := by
  unfold resize
  simp only [List.length_append, List.length_take, List.length_replicate]
  omega

theorem createGeneratorPolynomial_eq :
    ReedSolomonEncoder.createGeneratorPolynomial = ⟨gen_poly, 21⟩ := by
  decide

theorem small_gen_poly : Small gen_poly := by
  unfold Small
  decide

theorem encode_eq (M : List Nat) (h : M.length = 42) :
    ReedSolomonEncoder.encode M
      = .ok (resize (popZeros (GF64_poly.mulLoop ⟨M, 41⟩ ⟨gen_poly, 21⟩).length
          (GF64_poly.mulLoop ⟨M, 41⟩ ⟨gen_poly, 21⟩)) 63) := by
  unfold ReedSolomonEncoder.encode
  rw [if_neg (by simp [h])]
  simp only [ReedSolomonEncoder.mul, ReedSolomonEncoder.ofVector, createGeneratorPolynomial_eq, h]

theorem toPoly_of_length (c : List Nat) (d : Nat) (h : c.length = d + 1) :
    toPoly ⟨c, d⟩ = listPoly c :=
  toPoly_eq_listPoly_of_len h

/-- The codeword polynomial is message polynomial times generator polynomial. -/
theorem listPoly_encode (M : List Nat) (h : M.length = 42) (hM : Small M) :
    ∃ c, ReedSolomonEncoder.encode M = .ok c ∧ c.length = 63 ∧ Small c ∧
      listPoly c = listPoly M * listPoly gen_poly := by
  refine ⟨_, encode_eq M h, length_resize _ _, ?_, ?_⟩
  · have hs := (mulLoop_spec ⟨M, 41⟩ ⟨gen_poly, 21⟩ hM small_gen_poly).2.1
    have hp := popZeros_small hs (GF64_poly.mulLoop ⟨M, 41⟩ ⟨gen_poly, 21⟩).length
    intro x hx
    unfold resize at hx
    rcases List.mem_append.1 hx with h1 | h1
    · exact hp x (List.mem_of_mem_take h1)
    · rw [(List.mem_replicate.1 h1).2]; decide
  · have hs := mulLoop_spec ⟨M, 41⟩ ⟨gen_poly, 21⟩ hM small_gen_poly
    rw [toPoly_of_length M 41 h, toPoly_of_length gen_poly 21 rfl] at hs
    rw [← hs.2.2]
    apply listPoly_eq_iff.2
    intro i
    by_cases hi : i < 63
    · rw [getD_resize _ _ _ hi, popZeros_getD]
    · rw [getD_of_le (by rw [length_resize]; omega), getD_of_le (by rw [hs.1]; simp; omega)]

/-! ## Syndromes -/

theorem foldl_set_tabulate (n : Nat) (g : Nat → Nat) :
    ((List.range n).foldl (fun s j => s.set j (g j)) (List.replicate n 0)).length = n ∧
    ∀ j, ((List.range n).foldl (fun s j => s.set j (g j)) (List.replicate n 0)).getD j 0
      = if j < n then g j else 0 := by
  have key := foldl_range_induct (fun s j => s.set j (g j)) (List.replicate n 0) n
    (fun k s => s.length = n ∧ ∀ j, s.getD j 0 = if j < k then g j else 0)
    ⟨by simp, fun j => by simp [getD_replicate]⟩
    (by
      intro k s hk ⟨h1, h2⟩
      refine ⟨by simp [h1], fun j => ?_⟩
      rw [getD_set, h2]
      by_cases hj : k = j
      · subst hj
        simp [h1, hk]
      · have : (j < k + 1) = (j < k) := by
          apply propext
          constructor <;> intro h <;> omega
        simp [hj, this])
  have hlen := key.1
  refine ⟨hlen, fun j => ?_⟩
  rw [key.2 j]

theorem calculateSyndromes_eq (received : List Nat) (erasures : List Bool) :
    ReedSolomonDecoder.calculateSyndromes received erasures
      = GF64_poly.ofVector (syndromeList received) := rfl

theorem syndromeAt_spec (received : List Nat) (hr : Small received) (j : Nat) :
    syndromeAt received j < 64 ∧
    F64.ofNat (syndromeAt received j)
      = ∑ i ∈ Finset.range 63, F64.ofNat (received.getD i 0) * (alpha ^ (j + 1)) ^ i := by
  have key := foldl_add_eq_sum 63 (fun i => received.getD i 0 ≠ 0)
    (fun i => GF64.mul (received.getD i 0) (pow_table.getD ((i * (j + 1)) % 63) 0))
    (fun i => GF64.mul_lt _ _)
  refine ⟨key.1, ?_⟩
  unfold syndromeAt
  rw [key.2]
  apply Finset.sum_congr rfl
  intro i _
  split
  · rw [F64.ofNat_mul (getD_lt_of_small hr i) (GF64.pow_lt _ (Nat.mod_lt _ (by decide))),
      pow_table_eq_alpha_pow, ← pow_mul, Nat.mul_comm]
  · rename_i h
    have h0 : received.getD i 0 = 0 := by simpa using h
    rw [h0, F64.ofNat_zero, zero_mul]

theorem syndromeList_getD (received : List Nat) (j : Nat) :
    (syndromeList received).getD j 0 = if j < 21 then syndromeAt received j else 0 :=
  (foldl_set_tabulate 21 (syndromeAt received)).2 j

theorem syndromeList_length (received : List Nat) : (syndromeList received).length = 21 :=
  (foldl_set_tabulate 21 (syndromeAt received)).1

theorem small_of_getD {l : List Nat} (h : ∀ i, l.getD i 0 < 64) : Small l := by
  intro x hx
  obtain ⟨i, hi, rfl⟩ := List.getElem_of_mem hx
  have h3 := h i
  rw [List.getD_eq_getElem?_getD, List.getElem?_eq_getElem hi] at h3
  exact h3

theorem syndromeList_small (received : List Nat) (hr : Small received) :
    Small (syndromeList received) := by
  apply small_of_getD
  intro i
  rw [syndromeList_getD]
  split
  · exact (syndromeAt_spec received hr i).1
  · decide

theorem syndromeList_spec (received : List Nat) (hr : Small received)
    (hlen : received.length = 63) (j : Nat) (hj : j < 21) :
    F64.ofNat ((syndromeList received).getD j 0)
      = (listPoly received).eval (alpha ^ (j + 1)) := by
  rw [syndromeList_getD, if_pos hj, (syndromeAt_spec received hr j).2, eval_listPoly, hlen]

attribute [irreducible] syndromeList syndromeAt

theorem coefficients_ofVector (l : List Nat) : (GF64_poly.ofVector l).coefficients = l := rfl

theorem is_zero_ofVector (c : List Nat) :
    (GF64_poly.ofVector c).is_zero = true ↔ ∀ i, c.getD i 0 = 0 := by
  simp only [GF64_poly.is_zero, GF64_poly.ofVector, Bool.and_eq_true, beq_iff_eq]
  constructor
  · intro ⟨h1, h2⟩ i
    by_cases hi : i = 0
    · rw [hi]; exact h2
    by_cases hi2 : i ≤ c.length - 1
    · exact stripDegree_zero_above c (c.length - 1) i (by omega) hi2
    · exact getD_of_le (by omega)
  · intro h
    refine ⟨?_, h 0⟩
    by_contra hne
    exact stripDegree_ne_zero c (c.length - 1) hne (h _)

theorem all_zero_iff_listPoly {c : List Nat} (hc : Small c) :
    (∀ i, c.getD i 0 = 0) ↔ listPoly c = 0 := by
  constructor
  · intro h
    ext i
    rw [coeff_listPoly, h i]
    rfl
  · intro h i
    have := congrArg (fun f => f.coeff i) h
    simp only [coeff_listPoly, coeff_zero] at this
    exact (F64.ofNat_eq_zero (getD_lt_of_small hc i)).1 this

/-- The generator polynomial vanishes at the 21 points the syndromes are taken at. -/
theorem gen_poly_roots : ∀ j, j < 21 → (listPoly gen_poly).eval (alpha ^ (j + 1)) = 0 := by
  have h : ∀ j, j < 21 →
      GF64_poly.eval ⟨gen_poly, 21⟩ (pow_table.getD ((j + 1) % 63) 0) = 0 := by
    decide
  intro j hj
  have e := (eval_spec ⟨gen_poly, 21⟩ small_gen_poly _
    (GF64.pow_lt ((j + 1) % 63) (Nat.mod_lt _ (by decide)))).2
  rw [h j hj, pow_table_eq_alpha_pow, toPoly_of_length gen_poly 21 rfl] at e
  rw [← e]
  rfl

/-! ## Characteristic two -/

theorem poly_add_self (p : F64[X]) : p + p = 0 := by
  ext i
  rw [coeff_add, F64.add_self, coeff_zero]

theorem poly_neg (p : F64[X]) : -p = p :=
  neg_eq_of_add_eq_zero_left (poly_add_self p)

theorem poly_sub (p q : F64[X]) : p - q = p + q := by
  rw [sub_eq_add_neg, poly_neg]

theorem natCast_F64 (n : Nat) : ((n : Nat) : F64) = if n % 2 = 0 then 0 else 1 := by
  induction n with
  | zero => simp
  | succ n ih =>
    rw [Nat.cast_succ, ih]
    by_cases h : n % 2 = 0
    · have h2 : ¬ (n + 1) % 2 = 0 := by omega
      simp [h, h2]
    · have h2 : (n + 1) % 2 = 0 := by omega
      simp only [h, h2, if_false, if_true]
      exact F64.add_self 1

/-! ## Polynomial `operator+` -/

theorem foldl_set_pointwise (n : Nat) (h : Nat → Nat → Nat) (r0 : List Nat) :
    ((List.range n).foldl (fun r i => r.set i (h i (r.getD i 0))) r0).length = r0.length ∧
    ∀ j, ((List.range n).foldl (fun r i => r.set i (h i (r.getD i 0))) r0).getD j 0
      = if j < n ∧ j < r0.length then h j (r0.getD j 0) else r0.getD j 0 := by
  have key := foldl_range_induct (fun r i => r.set i (h i (r.getD i 0))) r0 n
    (fun k s => s.length = r0.length ∧
      ∀ j, s.getD j 0 = if j < k ∧ j < r0.length then h j (r0.getD j 0) else r0.getD j 0)
    ⟨rfl, fun j => by simp⟩
    (by
      intro k s _ ⟨h1, h2⟩
      refine ⟨by simp [h1], fun j => ?_⟩
      rw [getD_set, h2 j, h2 k, h1]
      by_cases hj : k = j
      · subst hj
        by_cases hk : k < r0.length
        · simp [hk]
        · simp [hk]
      · have e : (j < k + 1) = (j < k) := by
          apply propext
          constructor <;> intro h <;> omega
        simp only [hj, false_and, if_false, e])
  exact key

theorem add_eq (p q : GF64_poly) :
    p.add q = GF64_poly.ofVector (popZeros (addLoop p q).length (addLoop p q)) := rfl

theorem addLoop_length (p q : GF64_poly) : (addLoop p q).length = max p.degree q.degree + 1 := by
  unfold addLoop
  rw [(foldl_set_pointwise (q.degree + 1)
      (fun i old => GF64.add old (q.coefficients.getD i 0)) _).1,
    (foldl_set_pointwise (p.degree + 1) (fun i _ => p.coefficients.getD i 0) _).1]
  simp

theorem addLoop_getD (p q : GF64_poly) (j : Nat) :
    (addLoop p q).getD j 0
      = GF64.add (if j ≤ p.degree then p.coefficients.getD j 0 else 0)
          (if j ≤ q.degree then q.coefficients.getD j 0 else 0) := by
  unfold addLoop
  rw [(foldl_set_pointwise (q.degree + 1)
      (fun i old => GF64.add old (q.coefficients.getD i 0)) _).2,
    (foldl_set_pointwise (p.degree + 1) (fun i _ => p.coefficients.getD i 0) _).1,
    (foldl_set_pointwise (p.degree + 1) (fun i _ => p.coefficients.getD i 0) _).2]
  simp only [List.length_replicate, getD_replicate]
  have e1 : (j < p.degree + 1 ∧ j < max p.degree q.degree + 1) ↔ j ≤ p.degree := by omega
  have e2 : (j < q.degree + 1 ∧ j < max p.degree q.degree + 1) ↔ j ≤ q.degree := by omega
  simp only [e1, e2]
  by_cases h1 : j ≤ p.degree <;> by_cases h2 : j ≤ q.degree <;>
    simp only [h1, h2, if_true, if_false, GF64.add, Nat.xor_zero]

theorem addLoop_small (p q : GF64_poly) (hp : Small p.coefficients) (hq : Small q.coefficients) :
    Small (addLoop p q) := by
  apply small_of_getD
  intro j
  rw [addLoop_getD]
  apply GF64.add_lt
  · split
    · exact getD_lt_of_small hp j
    · decide
  · split
    · exact getD_lt_of_small hq j
    · decide

theorem norm_add (p q : GF64_poly) (hp : Small p.coefficients) (hq : Small q.coefficients) :
    Norm (p.add q) := by
  rw [add_eq]
  exact norm_ofVector_popZeros (addLoop_small p q hp hq) (by rw [addLoop_length]; omega)

theorem toPoly_add (p q : GF64_poly) (hp : Small p.coefficients) (hq : Small q.coefficients) :
    toPoly (p.add q) = toPoly p + toPoly q := by
  rw [add_eq, toPoly_ofVector_popZeros]
  ext j
  rw [coeff_listPoly, addLoop_getD, coeff_add, coeff_toPoly, coeff_toPoly, F64.ofNat_add]
  · by_cases h1 : j ≤ p.degree <;> by_cases h2 : j ≤ q.degree <;>
      simp only [h1, h2, if_true, if_false, F64.ofNat_zero]
  · split
    · exact getD_lt_of_small hp j
    · decide
  · split
    · exact getD_lt_of_small hq j
    · decide

/-- Coefficient `j` of the sum, read from the stored vector. -/
theorem add_getD (p q : GF64_poly) (j : Nat) :
    (p.add q).coefficients.getD j 0
      = GF64.add (if j ≤ p.degree then p.coefficients.getD j 0 else 0)
          (if j ≤ q.degree then q.coefficients.getD j 0 else 0) := by
  rw [add_eq, coefficients_ofVector, popZeros_getD, addLoop_getD]

/-! ## Polynomial `operator/` -/

theorem divInner_spec (q : GF64_poly) (hq : Small q.coefficients) (c i : Nat) (hc : c < 64)
    (hi : q.degree ≤ i) (r : List Nat) (hr : Small r) (hlen : i < r.length) :
    ((List.range (q.degree + 1)).foldl
      (fun r j => r.set (i - j) (GF64.add (r.getD (i - j) 0)
        (GF64.mul (q.coefficients.getD (q.degree - j) 0) c))) r).length = r.length ∧
    Small ((List.range (q.degree + 1)).foldl
      (fun r j => r.set (i - j) (GF64.add (r.getD (i - j) 0)
        (GF64.mul (q.coefficients.getD (q.degree - j) 0) c))) r) ∧
    listPoly ((List.range (q.degree + 1)).foldl
      (fun r j => r.set (i - j) (GF64.add (r.getD (i - j) 0)
        (GF64.mul (q.coefficients.getD (q.degree - j) 0) c))) r)
      = listPoly r + C (F64.ofNat c) * X ^ (i - q.degree) * toPoly q := by
  have key := foldl_range_induct
    (fun r j => r.set (i - j) (GF64.add (r.getD (i - j) 0)
        (GF64.mul (q.coefficients.getD (q.degree - j) 0) c))) r (q.degree + 1)
    (fun k s => s.length = r.length ∧ Small s ∧
      listPoly s = listPoly r + C (F64.ofNat c) * X ^ (i - q.degree) *
        ∑ j ∈ Finset.range k,
          C (F64.ofNat (q.coefficients.getD (q.degree - j) 0)) * X ^ (q.degree - j))
    ⟨rfl, hr, by simp⟩
    (by
      intro k s hk ⟨h1, h2, h3⟩
      refine ⟨by simp [h1], small_set h2 _ (GF64.add_lt (getD_lt_of_small h2 _)
        (GF64.mul_lt _ _)), ?_⟩
      rw [listPoly_set_add s (i - k) _ (by omega) h2 (GF64.mul_lt _ _), h3,
        Finset.sum_range_succ, F64.ofNat_mul (getD_lt_of_small hq _) hc]
      have e : i - k = (i - q.degree) + (q.degree - k) := by omega
      rw [e, pow_add]
      simp only [C_mul]
      ring)
  refine ⟨key.1, key.2.1, ?_⟩
  rw [key.2.2]
  congr 2
  unfold toPoly
  exact Finset.sum_range_reflect
    (fun j => C (F64.ofNat (q.coefficients.getD j 0)) * X ^ j) (q.degree + 1)

theorem divStep_of_ne (q : GF64_poly) (st : List Nat × List Nat) (i : Nat)
    (h : st.2.getD i 0 ≠ 0) (hl : q.coefficients.getD q.degree 0 < 64)
    (hl0 : q.coefficients.getD q.degree 0 ≠ 0) :
    GF64_poly.divStep q st i
      = .ok (st.1.set (i - q.degree)
          (GF64.mul (st.2.getD i 0) (GF64.inv (q.coefficients.getD q.degree 0))),
        (List.range (q.degree + 1)).foldl
          (fun r j => r.set (i - j) (GF64.add (r.getD (i - j) 0)
            (GF64.mul (q.coefficients.getD (q.degree - j) 0)
              (GF64.mul (st.2.getD i 0) (GF64.inv (q.coefficients.getD q.degree 0)))))) st.2) := by
  unfold GF64_poly.divStep
  rw [if_pos h, GF64.div_of_ne_zero hl hl0]
  rfl

theorem divStep_of_eq (q : GF64_poly) (st : List Nat × List Nat) (i : Nat)
    (h : st.2.getD i 0 = 0) : GF64_poly.divStep q st i = .ok st := by
  unfold GF64_poly.divStep
  rw [if_neg (not_not.2 h)]
  rfl

theorem Norm.lead_ne_zero {q : GF64_poly} (hq : Norm q) (h0 : toPoly q ≠ 0) :
    q.coefficients.getD q.degree 0 ≠ 0 := by
  by_cases hd : q.degree = 0
  · intro hz
    apply h0
    ext i
    rw [coeff_toPoly, hd]
    split
    · rename_i hi
      have : i = 0 := by omega
      rw [hd] at hz
      rw [this, hz]; rfl
    · rfl
  · exact hq.lead hd

theorem Norm.degree_eq {q : GF64_poly} (hq : Norm q) (h0 : toPoly q ≠ 0) :
    (toPoly q).degree = (q.degree : WithBot Nat) := by
  rw [degree_eq_natDegree h0, hq.natDegree]

theorem Norm.coeff {q : GF64_poly} (hq : Norm q) (i : Nat) :
    (toPoly q).coeff i = F64.ofNat (q.coefficients.getD i 0) := by
  rw [hq.toPoly_eq, coeff_listPoly]

theorem divInv_step (p q : GF64_poly) (hq : Norm q) (h0 : toPoly q ≠ 0)
    (hdeg : q.degree ≤ p.degree) (k : Nat) (st : List Nat × List Nat)
    (hk : k < p.degree - q.degree + 1) (inv : DivInv p q k st) :
    ∃ st', GF64_poly.divStep q st (p.degree - k) = .ok st' ∧ DivInv p q (k + 1) st' := by
  have hlead := hq.lead_ne_zero h0
  have hlt := getD_lt_of_small hq.small q.degree
  by_cases hz : st.2.getD (p.degree - k) 0 = 0
  · refine ⟨st, divStep_of_eq q st _ hz, inv.qlen, inv.rlen, inv.qsmall, inv.rsmall, ?_, ?_,
      inv.eqn⟩
    · intro j hj
      exact inv.qzero j (by omega)
    · intro j hj
      by_cases hj2 : j = p.degree - k
      · rw [hj2]; exact hz
      · exact inv.rzero j (by omega)
  · have hc : GF64.mul (st.2.getD (p.degree - k) 0) (GF64.inv (q.coefficients.getD q.degree 0))
        < 64 := GF64.mul_lt _ _
    have hin := divInner_spec q hq.small _ (p.degree - k) hc (by omega) st.2 inv.rsmall
      (by rw [inv.rlen]; omega)
    have hrk := getD_lt_of_small inv.rsmall (p.degree - k)
    have hcoef : F64.ofNat (GF64.mul (st.2.getD (p.degree - k) 0)
          (GF64.inv (q.coefficients.getD q.degree 0))) * F64.ofNat (q.coefficients.getD q.degree 0)
        = F64.ofNat (st.2.getD (p.degree - k) 0) := by
      rw [← F64.ofNat_mul hc hlt, GF64.mul_assoc, GF64.mul_comm (GF64.inv _),
        GF64.mul_inv hlt hlead, GF64.mul_one hrk]
    refine ⟨_, divStep_of_ne q st _ hz hlt hlead, ?_⟩
    refine ⟨by simp [inv.qlen], by rw [hin.1, inv.rlen], small_set inv.qsmall _ hc, hin.2.1,
      ?_, ?_, ?_⟩
    · intro j hj
      simp only
      rw [getD_set, if_neg (by omega)]
      exact inv.qzero j (by omega)
    · intro j hj
      simp only
      apply (F64.ofNat_eq_zero (getD_lt_of_small hin.2.1 j)).1
      rw [← coeff_listPoly, hin.2.2, coeff_add, coeff_listPoly, mul_assoc, coeff_C_mul,
        coeff_X_pow_mul']
      by_cases hj2 : j = p.degree - k
      · have e1 : p.degree - k - q.degree ≤ j := by omega
        have e2 : j - (p.degree - k - q.degree) = q.degree := by omega
        rw [if_pos e1, e2, hq.coeff, hcoef, hj2, F64.add_self]
      · rw [inv.rzero j (by omega), F64.ofNat_zero, zero_add]
        have e1 : p.degree - k - q.degree ≤ j := by omega
        rw [if_pos e1, coeff_toPoly, if_neg (by omega), mul_zero]
    · simp only
      rw [listPoly_set _ _ _ (by rw [inv.qlen]; omega), inv.qzero _ (by omega), hin.2.2,
        F64.ofNat_zero, add_zero, ← inv.eqn]
      have e : ∀ a b c r : F64[X], (a + c) * b + (r + c * b) = a * b + r := by
        intro a b c r
        linear_combination poly_add_self (c * b)
      exact e _ _ _ _

theorem div_spec (p q : GF64_poly) (hp : Norm p) (hq : Norm q) (h0 : toPoly q ≠ 0) :
    ∃ d, p.div q = .ok d ∧ Norm d ∧
      ∃ rem : F64[X], toPoly p = toPoly d * toPoly q + rem ∧ rem.degree < (toPoly q).degree := by
  have hnz : ¬ (q.degree = 0 ∧ q.coefficients.getD 0 0 = 0) := by
    intro ⟨h1, h2⟩
    have := hq.lead_ne_zero h0
    rw [h1] at this
    exact this h2
  unfold GF64_poly.div
  rw [if_neg hnz]
  by_cases hlt : p.degree < q.degree
  · rw [if_pos hlt]
    refine ⟨_, rfl, norm_zero, toPoly p, by rw [toPoly_zero, zero_mul, zero_add], ?_⟩
    rw [hq.degree_eq h0]
    apply lt_of_le_of_lt degree_le_natDegree
    rw [hp.natDegree]
    exact_mod_cast hlt
  · rw [if_neg hlt]
    have hdeg : q.degree ≤ p.degree := Nat.le_of_not_lt hlt
    obtain ⟨st, hst, inv⟩ := foldlM_range_induct
      (fun st k => GF64_poly.divStep q st (p.degree - k))
      (List.replicate (p.degree - q.degree + 1) 0, p.coefficients) (p.degree - q.degree + 1)
      (DivInv p q)
      ⟨by simp, hp.len, small_replicate _, hp.small, fun j _ => getD_replicate _ _,
        fun j hj => getD_of_le (by rw [hp.len]; omega),
        by simp only [listPoly_replicate, zero_mul, zero_add]; exact hp.toPoly_eq.symm⟩
      (fun k st hk inv => divInv_step p q hq h0 hdeg k st hk inv)
    have hst' : GF64_poly.divLoop p q = .ok st := hst
    rw [hst']
    refine ⟨_, rfl, norm_ofVector_popZeros inv.qsmall (by rw [inv.qlen]; omega), listPoly st.2,
      ?_, ?_⟩
    · rw [toPoly_ofVector_popZeros, inv.eqn]
    · rw [hq.degree_eq h0, degree_lt_iff_coeff_zero]
      intro m hm
      have hm' : q.degree ≤ m := by exact_mod_cast hm
      rw [coeff_listPoly, inv.rzero m (by omega)]
      rfl

/-! ## `set_coefficients`, `differentiate`, `mod_x21` -/

theorem getD_resize_all (l : List Nat) (n i : Nat) :
    (resize l n).getD i 0 = if i < n then l.getD i 0 else 0 := by
  by_cases hi : i < n
  · rw [if_pos hi, getD_resize l n i hi]
  · rw [if_neg hi, getD_of_le (by rw [length_resize]; omega)]

theorem small_resize {l : List Nat} (h : Small l) (n : Nat) : Small (resize l n) := by
  apply small_of_getD
  intro i
  rw [getD_resize_all]
  split
  · exact getD_lt_of_small h i
  · decide

theorem set_coefficients_degree (r : GF64_poly) (i v : Nat) :
    (r.set_coefficients i v).degree = if r.degree < i then i else r.degree := by
  unfold GF64_poly.set_coefficients
  split <;> rfl

theorem set_coefficients_length (r : GF64_poly) (i v : Nat) :
    (r.set_coefficients i v).coefficients.length
      = if r.degree < i then i + 1 else r.coefficients.length := by
  unfold GF64_poly.set_coefficients
  split
  · simp [length_resize]
  · simp

theorem set_coefficients_getD (r : GF64_poly) (i v j : Nat)
    (h : r.degree < r.coefficients.length) :
    (r.set_coefficients i v).coefficients.getD j 0
      = if j = i then v else if r.degree < i ∧ i < j then 0 else r.coefficients.getD j 0 := by
  unfold GF64_poly.set_coefficients
  split
  · rename_i hlt
    simp only
    rw [getD_set, length_resize, getD_resize_all]
    by_cases hj : j = i
    · subst hj
      simp
    · have hj' : ¬ i = j := fun e => hj e.symm
      simp only [hj, hj', false_and, if_false, hlt, true_and]
      by_cases h2 : i < j
      · rw [if_pos h2, if_neg (by omega)]
      · rw [if_neg h2, if_pos (by omega)]
  · rename_i hlt
    simp only
    rw [getD_set]
    by_cases hj : j = i
    · subst hj
      have : j < r.coefficients.length := by omega
      simp [this]
    · have hj' : ¬ i = j := fun e => hj e.symm
      simp only [hj, hj', false_and, if_false, hlt]

theorem set_coefficients_small (r : GF64_poly) (i v : Nat) (hr : Small r.coefficients)
    (hv : v < 64) : Small (r.set_coefficients i v).coefficients := by
  unfold GF64_poly.set_coefficients
  split
  · exact small_set (small_resize hr _) _ hv
  · exact small_set hr _ hv

theorem differentiate_inv (p : GF64_poly) (hp : Small p.coefficients) :
    DiffInv p p.degree p.differentiate := by
  refine foldl_range_induct
    (fun r i =>
      if i % 2 = 0 then r.set_coefficients i (p.coefficients.getD (i + 1) 0)
      else r.set_coefficients i 0)
    GF64_poly.zero p.degree (DiffInv p)
    ⟨rfl, rfl, norm_zero.small, fun i => ?_⟩ ?_
  · rw [if_neg (by omega)]
    cases i <;> rfl
  · intro k r _ inv
    have hv : (fun r i =>
      if i % 2 = 0 then GF64_poly.set_coefficients r i (p.coefficients.getD (i + 1) 0)
      else GF64_poly.set_coefficients r i 0) r k
        = r.set_coefficients k (if k % 2 = 0 then p.coefficients.getD (k + 1) 0 else 0) := by
      simp only
      split <;> rfl
    rw [hv]
    have hwf : r.degree < r.coefficients.length := by rw [inv.len]; omega
    have hvlt : (if k % 2 = 0 then p.coefficients.getD (k + 1) 0 else 0) < 64 := by
      split
      · exact getD_lt_of_small hp _
      · decide
    refine ⟨?_, ?_, set_coefficients_small _ _ _ inv.small hvlt, fun i => ?_⟩
    · rw [set_coefficients_length, set_coefficients_degree, inv.len, inv.deg]
      split <;> omega
    · rw [set_coefficients_degree, inv.deg]
      split <;> omega
    · rw [set_coefficients_getD _ _ _ _ hwf, inv.val i]
      by_cases hi : i = k
      · subst hi
        by_cases h2 : i % 2 = 0
        · simp [h2]
        · simp [h2]
      · rw [if_neg hi]
        by_cases h3 : r.degree < k ∧ k < i
        · rw [if_pos h3, if_neg (by omega)]
        · rw [if_neg h3]
          have e : (i < k + 1 ∧ i % 2 = 0) ↔ (i < k ∧ i % 2 = 0) := by omega
          simp only [e]

theorem small_differentiate (p : GF64_poly) (hp : Small p.coefficients) :
    Small p.differentiate.coefficients :=
  (differentiate_inv p hp).small

theorem toPoly_differentiate (p : GF64_poly) (hp : Small p.coefficients) :
    toPoly p.differentiate = derivative (toPoly p) := by
  have inv := differentiate_inv p hp
  ext i
  rw [coeff_toPoly, coeff_derivative, coeff_toPoly, inv.val i, ← Nat.cast_succ, natCast_F64]
  by_cases h1 : i < p.degree
  · have a1 : i ≤ p.differentiate.degree := by rw [inv.deg]; omega
    have a2 : i + 1 ≤ p.degree := h1
    by_cases h2 : i % 2 = 0
    · have a3 : ¬ (i + 1) % 2 = 0 := by omega
      simp [h1, h2, a1, a2, a3]
    · have a3 : (i + 1) % 2 = 0 := by omega
      simp [h1, h2, a1, a2, a3, F64.ofNat_zero]
  · have a2 : ¬ i + 1 ≤ p.degree := by omega
    simp [h1, a2, F64.ofNat_zero]

theorem modInv_step (p : GF64_poly) (hp : Small p.coefficients) (k : Nat) (hk : k < 21)
    (r : GF64_poly) (inv : ModInv p k r) (hc : p.coefficients.getD (20 - k) 0 ≠ 0) :
    ModInv p (k + 1) (r.set_coefficients (20 - k) (p.coefficients.getD (20 - k) 0)) := by
  have hwf := inv.norm.wf.deg_lt
  have hdeg : r.degree = 0 ∨ 20 - k < r.degree := by
    by_cases h0 : r.degree = 0
    · exact Or.inl h0
    · right
      have := inv.norm.lead h0
      rw [inv.val] at this
      by_contra hcon
      rw [if_neg (by omega)] at this
      exact this rfl
  have hval : ∀ i, (r.set_coefficients (20 - k) (p.coefficients.getD (20 - k) 0)).coefficients.getD
      i 0 = if 21 - (k + 1) ≤ i ∧ i < 21 then p.coefficients.getD i 0 else 0 := by
    intro i
    rw [set_coefficients_getD _ _ _ _ hwf, inv.val i]
    by_cases hi : i = 20 - k
    · rw [if_pos hi, if_pos (by omega), hi]
    · rw [if_neg hi]
      by_cases h3 : r.degree < 20 - k ∧ 20 - k < i
      · rw [if_pos h3]
        have hr0 : r.degree = 0 := by omega
        have hlen : r.coefficients.length = 1 := by rw [inv.norm.len, hr0]
        have hz : r.coefficients.getD i 0 = 0 := getD_of_le (by omega)
        rw [inv.val i] at hz
        by_cases h4 : 21 - (k + 1) ≤ i ∧ i < 21
        · rw [if_pos h4]
          rw [if_pos (by omega)] at hz
          exact hz.symm
        · rw [if_neg h4]
      · rw [if_neg h3]
        by_cases h4 : 21 - k ≤ i ∧ i < 21
        · rw [if_pos h4, if_pos (by omega)]
        · rw [if_neg h4, if_neg (by omega)]
  refine ⟨⟨set_coefficients_small _ _ _ inv.norm.small (getD_lt_of_small hp _), ?_, ?_⟩, hval⟩
  · rw [set_coefficients_length, set_coefficients_degree, inv.norm.len]
    split <;> rfl
  · intro hd
    rw [hval]
    rw [set_coefficients_degree] at hd ⊢
    by_cases h5 : r.degree < 20 - k
    · rw [if_pos h5, if_pos (by omega)]
      exact hc
    · rw [if_neg h5] at hd ⊢
      have h6 : 20 - k < r.degree := by omega
      have := inv.norm.lead hd
      rw [inv.val] at this
      by_cases h7 : 21 - k ≤ r.degree ∧ r.degree < 21
      · rw [if_pos h7] at this
        rw [if_pos (by omega)]
        exact this
      · rw [if_neg h7] at this
        exact absurd rfl this

theorem mod_x21_spec (p : GF64_poly) (hp : Small p.coefficients)
    (hlen : 21 ≤ p.coefficients.length) :
    ∃ r, p.mod_x21 = .ok r ∧ Norm r ∧
      ∀ i, r.coefficients.getD i 0 = if i < 21 then p.coefficients.getD i 0 else 0 := by
  obtain ⟨r, hr, inv⟩ := foldlM_range_induct
    (fun r k =>
      match p.coefficients.get? (20 - k) with
      | none => .error .indexOutOfRange
      | some c => if c ≠ 0 then .ok (r.set_coefficients (20 - k) c) else .ok r)
    GF64_poly.zero 21 (ModInv p)
    ⟨norm_zero, fun i => by
      rw [if_neg (by omega)]
      cases i <;> rfl⟩
    (by
      intro k r hk inv
      have hget : p.coefficients.get? (20 - k) = some (p.coefficients.getD (20 - k) 0) := by
        rw [List.get?_eq_getElem?, List.getD_eq_getElem?_getD,
          List.getElem?_eq_getElem (by omega)]
        rfl
      simp only [hget]
      by_cases hc : p.coefficients.getD (20 - k) 0 = 0
      · rw [if_neg (not_not.2 hc)]
        refine ⟨r, rfl, inv.norm, fun i => ?_⟩
        rw [inv.val i]
        by_cases hi : i = 20 - k
        · rw [if_neg (by omega), if_pos (by omega), hi, hc]
        · by_cases h4 : 21 - k ≤ i ∧ i < 21
          · rw [if_pos h4, if_pos (by omega)]
          · rw [if_neg h4, if_neg (by omega)]
      · rw [if_pos hc]
        exact ⟨_, rfl, modInv_step p hp k hk r inv hc⟩)
  refine ⟨r, hr, inv.norm, fun i => ?_⟩
  rw [inv.val i]
  simp

theorem mod_x21_out_of_range (p : GF64_poly) (hlen : p.coefficients.length < 21) :
    p.mod_x21 = .error .indexOutOfRange := by
  unfold GF64_poly.mod_x21
  have h : p.coefficients.get? 20 = none := by
    rw [List.get?_eq_getElem?, List.getElem?_eq_none (by omega)]
  have e : List.range 21 = 0 :: (List.range 20).map (· + 1) := by decide
  rw [e, List.foldlM_cons]
  simp only [Nat.sub_zero, h]
  rfl

/-! ## Locator, evaluator and syndrome polynomials of an error pattern -/

theorem alpha_pow_inj {i l : Nat} (hi : i < 63) (hl : l < 63) (h : alpha ^ i = alpha ^ l) :
    i = l := by
  rw [← pow_table_eq_alpha_pow, ← pow_table_eq_alpha_pow, Nat.mod_eq_of_lt hi,
    Nat.mod_eq_of_lt hl] at h
  have h2 := F64.ofNat_inj (GF64.pow_lt i hi) (GF64.pow_lt l hl) h
  have h3 := congrArg (fun x => log_table.getD x 0) h2
  simp only at h3
  rwa [GF64.log_pow i hi, GF64.log_pow l hl] at h3

theorem alpha_pow_mul_inv {i : Nat} (hi : i ≤ 63) : alpha ^ i * alpha ^ (63 - i) = 1 := by
  rw [← pow_add, Nat.add_sub_cancel' hi, alpha_pow_63]

theorem alpha_pow_inv {i : Nat} (hi : i ≤ 63) : (alpha ^ i)⁻¹ = alpha ^ (63 - i) :=
  inv_eq_of_mul_eq_one_right (alpha_pow_mul_inv hi)

theorem F64.one_add_eq_zero_iff (z : F64) : 1 + z = 0 ↔ z = 1 := by
  constructor
  · intro h
    have := congrArg (fun t => t + 1) h
    simp only [zero_add] at this
    rw [add_comm 1 z, add_assoc, F64.add_self, add_zero] at this
    exact this
  · intro h
    rw [h, F64.add_self]

theorem linear_ne_zero (i : Nat) : (1 + C (alpha ^ i) * X : F64[X]) ≠ 0 := by
  intro h
  have := congrArg (fun f => f.coeff 0) h
  simp at this

theorem natDegree_one_add (i : Nat) : (1 + C (alpha ^ i) * X : F64[X]).natDegree = 1 := by
  rw [add_comm, ← C_1]
  exact Polynomial.natDegree_linear (alpha_pow_ne_zero i)

theorem locPoly_ne_zero (Z : Finset Nat) : locPoly Z ≠ 0 :=
  Finset.prod_ne_zero_iff.2 (fun i _ => linear_ne_zero i)

theorem natDegree_locPoly (Z : Finset Nat) : (locPoly Z).natDegree = Z.card := by
  unfold locPoly
  rw [natDegree_prod _ _ (fun i _ => linear_ne_zero i),
    Finset.sum_congr rfl (fun i _ => natDegree_one_add i)]
  simp

theorem eval_zero_locPoly (Z : Finset Nat) : (locPoly Z).eval 0 = 1 := by
  unfold locPoly
  rw [eval_prod]
  simp

theorem eval_linear (l : Nat) (x : F64) :
    (1 + C (alpha ^ l) * X : F64[X]).eval x = 1 + alpha ^ l * x := by
  simp

theorem eval_linear_eq_zero {i l : Nat} (hi : i < 63) (hl : l < 63) :
    (1 + C (alpha ^ l) * X : F64[X]).eval (alpha ^ (63 - i)) = 0 ↔ l = i := by
  rw [eval_linear, F64.one_add_eq_zero_iff]
  constructor
  · intro h
    have h2 : alpha ^ l * alpha ^ (63 - i) * alpha ^ i = alpha ^ i := by rw [h, one_mul]
    rw [mul_assoc, mul_comm (alpha ^ (63 - i)), alpha_pow_mul_inv (Nat.le_of_lt hi), mul_one] at h2
    exact alpha_pow_inj hl hi h2
  · intro h
    rw [h]
    exact alpha_pow_mul_inv (Nat.le_of_lt hi)

theorem eval_locPoly_eq_zero (Z : Finset Nat) (hZ : ∀ l ∈ Z, l < 63) {i : Nat} (hi : i < 63) :
    (locPoly Z).eval (alpha ^ (63 - i)) = 0 ↔ i ∈ Z := by
  unfold locPoly
  rw [eval_prod, Finset.prod_eq_zero_iff]
  constructor
  · intro ⟨l, hl, h⟩
    rw [eval_linear_eq_zero hi (hZ l hl)] at h
    rwa [← h]
  · intro h
    exact ⟨i, h, (eval_linear_eq_zero hi hi).2 rfl⟩

theorem eval_erase_ne_zero (Z : Finset Nat) (hZ : ∀ l ∈ Z, l < 63) {i : Nat} (hi : i < 63) :
    (∏ l ∈ Z.erase i, (1 + C (alpha ^ l) * X : F64[X])).eval (alpha ^ (63 - i)) ≠ 0 := by
  rw [eval_prod, Finset.prod_ne_zero_iff]
  intro l hl h
  rw [eval_linear_eq_zero hi (hZ l (Finset.mem_of_mem_erase hl))] at h
  exact (Finset.ne_of_mem_erase hl) h

theorem eval_evaluatorPoly (Z : Finset Nat) (hZ : ∀ l ∈ Z, l < 63) (e : Nat → F64) {i : Nat}
    (hi : i ∈ Z) :
    (evaluatorPoly Z e).eval (alpha ^ (63 - i))
      = e i * alpha ^ i
        * (∏ l ∈ Z.erase i, (1 + C (alpha ^ l) * X : F64[X])).eval (alpha ^ (63 - i)) := by
  unfold evaluatorPoly
  rw [eval_finset_sum, Finset.sum_eq_single i]
  · simp
  · intro k hk hki
    rw [eval_mul, eval_prod, Finset.prod_eq_zero (Finset.mem_erase.2 ⟨Ne.symm hki, hi⟩), mul_zero]
    exact (eval_linear_eq_zero (hZ i hi) (hZ i hi)).2 rfl
  · intro h
    exact absurd hi h

theorem eval_derivative_locPoly (Z : Finset Nat) (hZ : ∀ l ∈ Z, l < 63) {i : Nat} (hi : i ∈ Z) :
    (derivative (locPoly Z)).eval (alpha ^ (63 - i))
      = alpha ^ i
        * (∏ l ∈ Z.erase i, (1 + C (alpha ^ l) * X : F64[X])).eval (alpha ^ (63 - i)) := by
  unfold locPoly
  rw [← Finset.mul_prod_erase Z _ hi, derivative_mul, eval_add, eval_mul, eval_mul,
    (eval_linear_eq_zero (hZ i hi) (hZ i hi)).2 rfl, zero_mul, add_zero, derivative_add,
    derivative_one, zero_add, derivative_C_mul, derivative_X, mul_one, eval_C]

theorem degree_evaluatorPoly_lt (Z : Finset Nat) (e : Nat → F64) :
    (evaluatorPoly Z e).degree < (Z.card : WithBot Nat) := by
  unfold evaluatorPoly
  apply lt_of_le_of_lt (degree_sum_le _ _)
  rw [Finset.sup_lt_iff (by exact WithBot.bot_lt_coe _)]
  intro i hi
  apply lt_of_le_of_lt (degree_mul_le _ _)
  apply lt_of_le_of_lt (add_le_add degree_C_le degree_le_natDegree)
  rw [zero_add, natDegree_prod _ _ (fun l _ => linear_ne_zero l),
    Finset.sum_congr rfl (fun l _ => natDegree_one_add l)]
  simp only [Finset.sum_const, smul_eq_mul, mul_one]
  rw [Finset.card_erase_of_mem hi]
  have : 0 < Z.card := Finset.card_pos.2 ⟨i, hi⟩
  exact_mod_cast Nat.sub_lt this Nat.one_pos

theorem geom_char_two (y : F64[X]) (n : Nat) :
    (1 + y) * ∑ j ∈ Finset.range n, y ^ j = 1 + y ^ n := by
  have h := mul_neg_geom_sum y n
  rwa [poly_sub, poly_sub] at h

theorem synPoly_eq (Z : Finset Nat) (e : Nat → F64) :
    synPoly Z e
      = ∑ i ∈ Z, C (e i * alpha ^ i) * ∑ j ∈ Finset.range 21, (C (alpha ^ i) * X) ^ j := by
  unfold synPoly
  simp only [Finset.mul_sum]
  rw [Finset.sum_comm]
  apply Finset.sum_congr rfl
  intro j _
  rw [map_sum, Finset.sum_mul]
  apply Finset.sum_congr rfl
  intro i _
  simp only [map_mul, map_pow]
  ring

/-- The key identity: locator times syndrome polynomial is the evaluator plus a multiple
of `x^21`. -/
theorem locPoly_mul_synPoly (Z : Finset Nat) (e : Nat → F64) :
    locPoly Z * synPoly Z e
      = evaluatorPoly Z e + X ^ 21 * evaluatorPoly Z (fun i => e i * (alpha ^ i) ^ 21) := by
  rw [synPoly_eq]
  unfold evaluatorPoly
  rw [Finset.mul_sum, Finset.mul_sum, ← Finset.sum_add_distrib]
  apply Finset.sum_congr rfl
  intro i hi
  have hg := geom_char_two (C (alpha ^ i) * X) 21
  have hl : locPoly Z = (1 + C (alpha ^ i) * X) * ∏ l ∈ Z.erase i, (1 + C (alpha ^ l) * X) :=
    (Finset.mul_prod_erase Z _ hi).symm
  rw [hl]
  have e1 : ∀ a b c d : F64[X], a * b * (c * d) = c * b * (a * d) := by
    intro a b c d; ring
  rw [e1, hg]
  simp only [map_mul, map_pow]
  ring

/-! ## The erasure locator -/

theorem erasedSet_lt (mask : List Bool) : ∀ l ∈ erasedSet mask, l < 63 := by
  intro l hl
  exact Finset.mem_range.1 (Finset.mem_filter.1 hl).1

theorem card_filter_getD (l : List Bool) :
    ((Finset.range l.length).filter (fun i => l.getD i false = true)).card = l.count true := by
  induction l using List.reverseRecOn with
  | nil => rfl
  | append_singleton l b ih =>
    rw [List.length_append, List.length_singleton, Finset.range_succ, Finset.filter_insert,
      List.count_append]
    have hcongr : (Finset.range l.length).filter (fun i => (l ++ [b]).getD i false = true)
        = (Finset.range l.length).filter (fun i => l.getD i false = true) := by
      apply Finset.filter_congr
      intro i hi
      have hi' : i < l.length := Finset.mem_range.1 hi
      simp only [List.getD_eq_getElem?_getD]
      rw [List.getElem?_append_left hi']
    have hlast : (l ++ [b]).getD l.length false = b := by
      simp only [List.getD_eq_getElem?_getD]
      rw [List.getElem?_append_right (Nat.le_refl _)]
      simp
    rw [hlast, hcongr]
    cases b
    · rw [if_neg (by decide), ih]
      simp
    · rw [if_pos rfl, Finset.card_insert_of_not_mem, ih]
      · simp
      · intro h
        have := Finset.mem_range.1 (Finset.mem_filter.1 h).1
        omega

theorem card_erasedSet (mask : List Bool) (h : mask.length = 63) :
    (erasedSet mask).card = mask.count true := by
  unfold erasedSet
  rw [← h]
  exact card_filter_getD mask

theorem norm_ofVector_one : Norm (GF64_poly.ofVector [1]) :=
  ⟨by
    intro x hx
    rw [coefficients_ofVector] at hx
    simp only [List.mem_singleton] at hx
    omega, rfl, fun h => absurd rfl h⟩

theorem toPoly_ofVector_one : toPoly (GF64_poly.ofVector [1]) = 1 := by
  rw [toPoly_ofVector]
  simp [listPoly, F64.ofNat_one]

theorem toPoly_factor (i : Nat) (hi : i < 63) :
    toPoly (GF64_poly.ofVector [1, pow_table.getD i 0]) = 1 + C (alpha ^ i) * X := by
  rw [toPoly_ofVector]
  have h := pow_table_eq_alpha_pow i
  rw [Nat.mod_eq_of_lt hi] at h
  simp only [listPoly, h, F64.ofNat_one, mul_zero, add_zero, C_1]
  ring

theorem small_factor (i : Nat) (hi : i < 63) :
    Small (GF64_poly.ofVector [1, pow_table.getD i 0]).coefficients := by
  rw [coefficients_ofVector]
  intro x hx
  simp only [List.mem_cons, List.mem_singleton, List.not_mem_nil, or_false] at hx
  rcases hx with h | h
  · rw [h]; decide
  · rw [h]; exact GF64.pow_lt i hi

theorem calculateErasureLocator_eq (erasures : List Bool) :
    ReedSolomonDecoder.calculateErasureLocator erasures
      = if 21 < (erasureLoop erasures).degree then .error .erasureCapacityExceeded
        else .ok (erasureLoop erasures) := rfl

theorem erasureLoop_spec (erasures : List Bool) :
    Norm (erasureLoop erasures) ∧ toPoly (erasureLoop erasures) = locPoly (erasedSet erasures) := by
  refine foldl_range_induct
    (fun loc i =>
      if erasures.getD i false then loc.mul (GF64_poly.ofVector [1, pow_table.getD i 0]) else loc)
    (GF64_poly.ofVector [1]) 63
    (fun k loc => Norm loc ∧
      toPoly loc = locPoly ((Finset.range k).filter (fun i => erasures.getD i false = true)))
    ⟨norm_ofVector_one, by rw [toPoly_ofVector_one]; rfl⟩ ?_
  intro k loc hk ⟨h1, h2⟩
  simp only
  rw [Finset.range_succ, Finset.filter_insert]
  by_cases hb : erasures.getD k false = true
  · rw [if_pos hb, if_pos hb]
    refine ⟨norm_mul _ _ h1.small (small_factor k hk), ?_⟩
    rw [toPoly_mul _ _ h1.small (small_factor k hk), h2, toPoly_factor k hk]
    unfold locPoly
    rw [Finset.prod_insert, mul_comm]
    intro h
    have := Finset.mem_range.1 (Finset.mem_filter.1 h).1
    omega
  · rw [if_neg hb, if_neg hb]
    exact ⟨h1, h2⟩

theorem erasureLoop_degree (erasures : List Bool) :
    (erasureLoop erasures).degree = (erasedSet erasures).card := by
  rw [← (erasureLoop_spec erasures).1.natDegree, (erasureLoop_spec erasures).2, natDegree_locPoly]

attribute [irreducible] erasureLoop

/-! ## The loop of `correctErrors` -/

theorem testPoint_lt (i : Nat) : testPoint i < 64 := GF64.pow_lt _ (Nat.mod_lt _ (by decide))

theorem ofNat_testPoint (i : Nat) : F64.ofNat (testPoint i) = alpha ^ (63 - i) :=
  pow_table_eq_alpha_pow (63 - i)

theorem correctStep_eq (locator derivative evaluator : GF64_poly)
    (hd : Small derivative.coefficients) (st : Nat × List Nat) (i : Nat) :
    ReedSolomonDecoder.correctStep locator derivative evaluator st i
      = .ok (if isRootAt locator derivative i then
          (st.1 + 1, st.2.set i (forneyValue derivative evaluator i))
        else (st.1, st.2.set i 0)) := by
  change (if isRootAt locator derivative i then
      (GF64.div (evaluator.eval (testPoint i)) (derivative.eval (testPoint i)) >>= fun v =>
        pure (st.1 + 1, st.2.set i v))
    else pure (st.1, st.2.set i 0)) = _
  by_cases h : isRootAt locator derivative i
  · rw [if_pos h, if_pos h,
      GF64.div_of_ne_zero (eval_spec derivative hd _ (testPoint_lt i)).1 h.2]
    rfl
  · rw [if_neg h, if_neg h]
    rfl

/-- The result of the 63 rounds of the loop of `correctErrors`. -/
theorem correctLoop_spec (locator derivative evaluator : GF64_poly)
    (hd : Small derivative.coefficients) :
    ∃ st, (List.range 63).foldlM
        (ReedSolomonDecoder.correctStep locator derivative evaluator) (0, List.replicate 63 0)
          = .ok st ∧
      st.1 = ((Finset.range 63).filter (isRootAt locator derivative)).card ∧
      st.2.length = 63 ∧
      ∀ i, st.2.getD i 0
        = if i < 63 ∧ isRootAt locator derivative i then forneyValue derivative evaluator i
          else 0 := by
  obtain ⟨st, h1, h2, h3, h4⟩ := foldlM_range_induct
    (ReedSolomonDecoder.correctStep locator derivative evaluator) (0, List.replicate 63 0) 63
    (fun k st => st.1 = ((Finset.range k).filter (isRootAt locator derivative)).card ∧
      st.2.length = 63 ∧
      ∀ i, st.2.getD i 0
        = if i < k ∧ isRootAt locator derivative i then forneyValue derivative evaluator i
          else 0)
    ⟨rfl, by simp, fun i => by
      rw [getD_replicate, if_neg (fun h => Nat.not_lt_zero _ h.1)]⟩
    (by
      intro k st hk ⟨h1, h2, h3⟩
      refine ⟨_, correctStep_eq locator derivative evaluator hd st k, ?_⟩
      dsimp only
      rw [Finset.range_succ, Finset.filter_insert]
      by_cases hr : isRootAt locator derivative k
      · rw [if_pos hr, if_pos hr]
        refine ⟨?_, by simp [h2], fun i => ?_⟩
        · rw [Finset.card_insert_of_not_mem, h1]
          intro h
          have := Finset.mem_range.1 (Finset.mem_filter.1 h).1
          omega
        · simp only
          rw [getD_set, h3 i, h2]
          by_cases hi : k = i
          · subst hi
            simp [hk, hr]
          · have e : (i < k + 1 ∧ isRootAt locator derivative i)
                ↔ (i < k ∧ isRootAt locator derivative i) := by
              constructor
              · intro ⟨a, b⟩; exact ⟨by omega, b⟩
              · intro ⟨a, b⟩; exact ⟨by omega, b⟩
            simp only [hi, false_and, if_false, e]
      · rw [if_neg hr, if_neg hr]
        refine ⟨h1, by simp [h2], fun i => ?_⟩
        simp only
        rw [getD_set, h3 i, h2]
        by_cases hi : k = i
        · subst hi
          simp [hk, hr]
        · have e : (i < k + 1 ∧ isRootAt locator derivative i)
              ↔ (i < k ∧ isRootAt locator derivative i) := by
            constructor
            · intro ⟨a, b⟩; exact ⟨by omega, b⟩
            · intro ⟨a, b⟩; exact ⟨by omega, b⟩
          simp only [hi, false_and, if_false, e])
  exact ⟨st, h1, h2, h3, h4⟩

/-! ## Small facts used by the decoder proofs -/

theorem list_eq_of_getD {l m : List Nat} (hlen : l.length = m.length)
    (h : ∀ i, l.getD i 0 = m.getD i 0) : l = m := by
  apply List.ext_getElem hlen
  intro i h1 h2
  have e := h i
  simp only [List.getD_eq_getElem?_getD, List.getElem?_eq_getElem h1,
    List.getElem?_eq_getElem h2, Option.getD_some] at e
  exact e

theorem F64.ofNat_inv {a : Nat} (ha : a < 64) : F64.ofNat (GF64.inv a) = (F64.ofNat a)⁻¹ :=
  F64.ext_val (by rw [F64.val_inv, F64.ofNat_val ha, F64.ofNat_val (GF64.inv_lt a)])

theorem ofVector_getD_above (c : List Nat) (i : Nat) (h : (GF64_poly.ofVector c).degree < i) :
    c.getD i 0 = 0 := by
  by_cases hi : i ≤ c.length - 1
  · exact stripDegree_zero_above c (c.length - 1) i h hi
  · exact getD_of_le (by omega)

theorem ofVector_add_getD (r e : List Nat) (i : Nat) :
    ((GF64_poly.ofVector r).add (GF64_poly.ofVector e)).coefficients.getD i 0
      = r.getD i 0 ^^^ e.getD i 0 := by
  rw [add_getD, coefficients_ofVector, coefficients_ofVector]
  have h1 : (if i ≤ (GF64_poly.ofVector r).degree then r.getD i 0 else 0) = r.getD i 0 := by
    split
    · rfl
    · rename_i h
      exact (ofVector_getD_above r i (by omega)).symm
  have h2 : (if i ≤ (GF64_poly.ofVector e).degree then e.getD i 0 else 0) = e.getD i 0 := by
    split
    · rfl
    · rename_i h
      exact (ofVector_getD_above e i (by omega)).symm
  rw [h1, h2]
  rfl

theorem small_ofVector {c : List Nat} (h : Small c) : Small (GF64_poly.ofVector c).coefficients := h

/-! ## Syndromes of a word and the syndrome polynomial -/

theorem synPoly_subset {Z Z' : Finset Nat} (hsub : Z ⊆ Z') (e : Nat → F64)
    (h0 : ∀ i, i ∈ Z' → i ∉ Z → e i = 0) : synPoly Z e = synPoly Z' e := by
  unfold synPoly
  apply Finset.sum_congr rfl
  intro j _
  congr 2
  apply Finset.sum_subset hsub
  intro i hi hn
  rw [h0 i hi hn, zero_mul]

theorem listPoly_syndromeList (w : List Nat) (hw : Small w) (hlen : w.length = 63) :
    listPoly (syndromeList w)
      = synPoly (Finset.range 63) (fun i => F64.ofNat (w.getD i 0)) := by
  rw [listPoly_eq_sum, syndromeList_length]
  unfold synPoly
  apply Finset.sum_congr rfl
  intro j hj
  rw [syndromeList_spec w hw hlen j (Finset.mem_range.1 hj), eval_listPoly, hlen]
  congr 2
  apply Finset.sum_congr rfl
  intro i _
  rw [← pow_mul, ← pow_mul, Nat.mul_comm]

theorem listPoly_syndromeList_of_support (w : List Nat) (hw : Small w) (hlen : w.length = 63)
    (Z : Finset Nat) (hZ : ∀ l ∈ Z, l < 63) (hsupp : ∀ i, i ∉ Z → w.getD i 0 = 0) :
    listPoly (syndromeList w) = synPoly Z (fun i => F64.ofNat (w.getD i 0)) := by
  rw [listPoly_syndromeList w hw hlen]
  symm
  apply synPoly_subset
  · intro l hl
    exact Finset.mem_range.2 (hZ l hl)
  · intro i _ hn
    rw [hsupp i hn]
    rfl

theorem degree_synPoly_lt (Z : Finset Nat) (e : Nat → F64) :
    (synPoly Z e).degree < (21 : WithBot Nat) := by
  unfold synPoly
  apply lt_of_le_of_lt (degree_sum_le _ _)
  rw [Finset.sup_lt_iff (by exact WithBot.bot_lt_coe _)]
  intro j hj
  apply lt_of_le_of_lt (degree_C_mul_X_pow_le _ _)
  exact_mod_cast Finset.mem_range.1 hj

/-- Two words with the same syndrome polynomial have the same syndrome list. -/
theorem syndromeList_eq_of_listPoly_eq (w w' : List Nat) (hw : Small w) (hw' : Small w')
    (h : listPoly (syndromeList w) = listPoly (syndromeList w')) :
    syndromeList w = syndromeList w' := by
  apply list_eq_of_getD (by rw [syndromeList_length, syndromeList_length])
  intro i
  exact F64.ofNat_inj (getD_lt_of_small (syndromeList_small w hw) i)
    (getD_lt_of_small (syndromeList_small w' hw') i) (listPoly_eq_iff.1 h i)

/-! ## Unfolding `decode` and `euclideanAlgorithm` -/

theorem decode_of_syndromes_zero (received : List Nat) (erasures : List Bool)
    (h : (ReedSolomonDecoder.calculateSyndromes received erasures).is_zero = true) :
    ReedSolomonDecoder.decode received erasures = .ok (true, GF64_poly.ofVector received) := by
  unfold ReedSolomonDecoder.decode
  simp only [h, if_true]

theorem decode_slow (received : List Nat) (erasures : List Bool)
    (hz : (ReedSolomonDecoder.calculateSyndromes received erasures).is_zero = false)
    (loc v r e : GF64_poly) (b : Bool)
    (h1 : ReedSolomonDecoder.calculateErasureLocator erasures = .ok loc)
    (h2 : ReedSolomonDecoder.euclideanAlgorithm
      (ReedSolomonDecoder.calculateSyndromes received erasures) loc = .ok (v, r))
    (h3 : ReedSolomonDecoder.correctErrors loc v r = .ok (b, e)) :
    ReedSolomonDecoder.decode received erasures
      = .ok (b, (GF64_poly.ofVector received).add e) := by
  unfold ReedSolomonDecoder.decode
  simp only [hz, h1]
  show (ReedSolomonDecoder.euclideanAlgorithm
      (ReedSolomonDecoder.calculateSyndromes received erasures) loc >>= _) = _
  rw [h2]
  show (ReedSolomonDecoder.correctErrors loc v r >>= _) = _
  rw [h3]
  rfl

theorem euclideanAlgorithm_eq (syndromes loc S_0 : GF64_poly) (s : ReedSolomonDecoder.EuclidState)
    (h1 : (loc.mul syndromes).mod_x21 = .ok S_0)
    (h2 : ReedSolomonDecoder.euclidLoop ((21 - loc.degree) / 2) ((21 + loc.degree + 1) / 2 - 1)
      ReedSolomonDecoder.euclidBudget (ReedSolomonDecoder.euclidInit S_0) = .ok s) :
    ReedSolomonDecoder.euclideanAlgorithm syndromes loc
      = .ok (ReedSolomonDecoder.fromBack s.V 1, ReedSolomonDecoder.fromBack s.R 1) := by
  unfold ReedSolomonDecoder.euclideanAlgorithm
  rw [h1]
  show (ReedSolomonDecoder.euclidLoop ((21 - loc.degree) / 2) ((21 + loc.degree + 1) / 2 - 1)
      ReedSolomonDecoder.euclidBudget (ReedSolomonDecoder.euclidInit S_0) >>= _) = _
  rw [h2]
  rfl

/-! ## `correctErrors` on a locator that splits over the error positions -/

theorem correctErrors_run (loc v r : GF64_poly) (h0 : (v.mul loc).eval 0 ≠ 0)
    (hd : ¬ (v.degree + loc.degree ≤ r.degree)) (st : Nat × List Nat)
    (hst : (List.range 63).foldlM
      (ReedSolomonDecoder.correctStep (v.mul loc) (v.mul loc).differentiate r)
        (0, List.replicate 63 0) = .ok st) :
    ReedSolomonDecoder.correctErrors loc v r
      = .ok (st.1 == (v.mul loc).degree, GF64_poly.ofVector st.2) := by
  unfold ReedSolomonDecoder.correctErrors
  simp only [GF64_poly.get_degree]
  rw [if_neg h0, if_neg hd]
  show ((List.range 63).foldlM
      (ReedSolomonDecoder.correctStep (v.mul loc) (v.mul loc).differentiate r)
        (0, List.replicate 63 0) >>= _) = _
  rw [hst]
  rfl

theorem correctErrors_true (loc v r e : GF64_poly)
    (h : ReedSolomonDecoder.correctErrors loc v r = .ok (true, e)) :
    (v.mul loc).eval 0 ≠ 0 ∧ ¬ (v.degree + loc.degree ≤ r.degree) ∧
    ∃ st, (List.range 63).foldlM
        (ReedSolomonDecoder.correctStep (v.mul loc) (v.mul loc).differentiate r)
          (0, List.replicate 63 0) = .ok st ∧
      st.1 = (v.mul loc).degree ∧ e = GF64_poly.ofVector st.2 := by
  unfold ReedSolomonDecoder.correctErrors at h
  simp only [GF64_poly.get_degree] at h
  by_cases h0 : (v.mul loc).eval 0 = 0
  · rw [if_pos h0] at h
    cases h
  rw [if_neg h0] at h
  by_cases hd : v.degree + loc.degree ≤ r.degree
  · rw [if_pos hd] at h
    cases h
  rw [if_neg hd] at h
  refine ⟨h0, hd, ?_⟩
  cases hst : (List.range 63).foldlM
      (ReedSolomonDecoder.correctStep (v.mul loc) (v.mul loc).differentiate r)
        (0, List.replicate 63 0) with
  | error x =>
    change ((List.range 63).foldlM
      (ReedSolomonDecoder.correctStep (v.mul loc) (v.mul loc).differentiate r)
        (0, List.replicate 63 0) >>= _) = _ at h
    rw [hst] at h
    cases h
  | ok st =>
    change ((List.range 63).foldlM
      (ReedSolomonDecoder.correctStep (v.mul loc) (v.mul loc).differentiate r)
        (0, List.replicate 63 0) >>= _) = _ at h
    rw [hst] at h
    have h' : (Except.ok (st.1 == (v.mul loc).degree, GF64_poly.ofVector st.2)
        : Except Failure (Bool × GF64_poly)) = .ok (true, e) := h
    injection h' with h'
    injection h' with ha hb
    exact ⟨st, rfl, by simpa using ha, hb.symm⟩

theorem ofNat_eval_testPoint (p : GF64_poly) (hp : Small p.coefficients) (i : Nat) :
    F64.ofNat (p.eval (testPoint i)) = (toPoly p).eval (alpha ^ (63 - i)) := by
  rw [(eval_spec p hp _ (testPoint_lt i)).2, ofNat_testPoint]

theorem eval_testPoint_eq_zero (p : GF64_poly) (hp : Small p.coefficients) (i : Nat) :
    p.eval (testPoint i) = 0 ↔ (toPoly p).eval (alpha ^ (63 - i)) = 0 := by
  rw [← ofNat_eval_testPoint p hp i,
    F64.ofNat_eq_zero (eval_spec p hp _ (testPoint_lt i)).1]

theorem isRootAt_iff (l : GF64_poly) (hl : Small l.coefficients) (i : Nat) :
    isRootAt l l.differentiate i ↔
      (toPoly l).eval (alpha ^ (63 - i)) = 0 ∧
      (derivative (toPoly l)).eval (alpha ^ (63 - i)) ≠ 0 := by
  unfold isRootAt
  rw [eval_testPoint_eq_zero l hl i, Ne,
    eval_testPoint_eq_zero _ (small_differentiate l hl) i, toPoly_differentiate l hl]

theorem isRootAt_of_split (l : GF64_poly) (hl : Small l.coefficients) (Z : Finset Nat)
    (hZ : ∀ k ∈ Z, k < 63) (c : F64) (hc : c ≠ 0) (h : toPoly l = C c * locPoly Z)
    (i : Nat) (hi : i < 63) : isRootAt l l.differentiate i ↔ i ∈ Z := by
  rw [isRootAt_iff l hl i, h, eval_mul, eval_C, derivative_C_mul, eval_mul, eval_C]
  constructor
  · intro ⟨h1, _⟩
    rcases mul_eq_zero.1 h1 with h3 | h3
    · exact absurd h3 hc
    · exact (eval_locPoly_eq_zero Z hZ hi).1 h3
  · intro hmem
    refine ⟨by rw [(eval_locPoly_eq_zero Z hZ hi).2 hmem, mul_zero], ?_⟩
    rw [eval_derivative_locPoly Z hZ hmem]
    exact mul_ne_zero hc (mul_ne_zero (alpha_pow_ne_zero i) (eval_erase_ne_zero Z hZ hi))

theorem forneyValue_of_split (l r : GF64_poly) (hl : Small l.coefficients)
    (hr : Small r.coefficients) (Z : Finset Nat) (hZ : ∀ k ∈ Z, k < 63) (c : F64) (hc : c ≠ 0)
    (h : toPoly l = C c * locPoly Z) (e : Nat → F64)
    (hev : toPoly r = C c * evaluatorPoly Z e) (i : Nat) (hi : i ∈ Z) :
    F64.ofNat (forneyValue l.differentiate r i) = e i := by
  unfold forneyValue
  have hd := small_differentiate l hl
  rw [F64.ofNat_mul (eval_spec r hr _ (testPoint_lt i)).1 (GF64.inv_lt _),
    F64.ofNat_inv (eval_spec _ hd _ (testPoint_lt i)).1,
    ofNat_eval_testPoint r hr i, ofNat_eval_testPoint _ hd i, toPoly_differentiate l hl, h, hev,
    derivative_C_mul, eval_mul, eval_mul, eval_C, eval_derivative_locPoly Z hZ hi,
    eval_evaluatorPoly Z hZ e hi]
  have hP := eval_erase_ne_zero Z hZ (hZ i hi)
  have ha := alpha_pow_ne_zero i
  generalize (∏ l ∈ Z.erase i, (1 + C (alpha ^ l) * X : F64[X])).eval (alpha ^ (63 - i)) = P
    at hP ⊢
  generalize alpha ^ i = a at ha ⊢
  rw [← div_eq_mul_inv]
  field_simp
  ring

/-- When locator and evaluator are the scaled locator and evaluator of an error pattern
`E` supported on `Z`, `correctErrors` succeeds and returns exactly `E`. -/
theorem correctErrors_of_key (Z : Finset Nat) (hZ : ∀ k ∈ Z, k < 63) (E : List Nat)
    (hE : Small E) (hElen : E.length = 63) (hsupp : ∀ i, i ∉ Z → E.getD i 0 = 0)
    (loc v r : GF64_poly) (hloc : Small loc.coefficients) (hv : Small v.coefficients)
    (hr : Small r.coefficients) (c : F64) (hc : c ≠ 0)
    (hsplit : toPoly v * toPoly loc = C c * locPoly Z)
    (hev : toPoly r = C c * evaluatorPoly Z (fun i => F64.ofNat (E.getD i 0)))
    (hdeg : r.degree < v.degree + loc.degree) :
    ReedSolomonDecoder.correctErrors loc v r = .ok (true, GF64_poly.ofVector E) := by
  have hL := norm_mul v loc hv hloc
  have hLp : toPoly (v.mul loc) = C c * locPoly Z := by rw [toPoly_mul v loc hv hloc, hsplit]
  have h0 : (v.mul loc).eval 0 ≠ 0 := by
    intro h
    have e := (eval_spec (v.mul loc) hL.small 0 (by decide)).2
    rw [h, hLp, F64.ofNat_zero, eval_mul, eval_C, eval_zero_locPoly, mul_one] at e
    exact hc e.symm
  obtain ⟨st, hst, h1, h2, h3⟩ := correctLoop_spec (v.mul loc) (v.mul loc).differentiate r
    (small_differentiate _ hL.small)
  rw [correctErrors_run loc v r h0 (by omega) st hst]
  have hfilter : (Finset.range 63).filter (isRootAt (v.mul loc) (v.mul loc).differentiate) = Z := by
    ext i
    rw [Finset.mem_filter, Finset.mem_range]
    constructor
    · intro ⟨a, b⟩
      exact (isRootAt_of_split _ hL.small Z hZ c hc hLp i a).1 b
    · intro hmem
      exact ⟨hZ i hmem, (isRootAt_of_split _ hL.small Z hZ c hc hLp i (hZ i hmem)).2 hmem⟩
  have hcount : st.1 = (v.mul loc).degree := by
    rw [h1, hfilter, ← hL.natDegree, hLp, natDegree_C_mul hc, natDegree_locPoly]
  have hlist : st.2 = E := by
    apply list_eq_of_getD (by rw [h2, hElen])
    intro i
    rw [h3 i]
    by_cases hi : i < 63
    · by_cases hmem : i ∈ Z
      · rw [if_pos ⟨hi, (isRootAt_of_split _ hL.small Z hZ c hc hLp i hi).2 hmem⟩]
        apply F64.ofNat_inj (GF64.mul_lt _ _) (getD_lt_of_small hE i)
        exact forneyValue_of_split _ r hL.small hr Z hZ c hc hLp _ hev i hmem
      · rw [if_neg (fun h => hmem ((isRootAt_of_split _ hL.small Z hZ c hc hLp i hi).1 h.2)),
          hsupp i hmem]
    · rw [if_neg (fun h => hi h.1), getD_of_le (by omega)]
  rw [hcount, hlist]
  simp

/-! ## The error pattern of a received word against a codeword -/

theorem errorPattern_length (r c : List Nat) : (errorPattern r c).length = 63 := by
  simp [errorPattern]

theorem errorPattern_getD (r c : List Nat) (i : Nat) :
    (errorPattern r c).getD i 0 = if i < 63 then r.getD i 0 ^^^ c.getD i 0 else 0 := by
  unfold errorPattern
  rw [List.getD_eq_getElem?_getD]
  by_cases hi : i < 63
  · rw [if_pos hi, List.getElem?_eq_getElem (by simpa using hi)]
    simp [GF64.add]
  · rw [if_neg hi, List.getElem?_eq_none (by simpa using hi)]
    rfl

theorem errorPattern_small (r c : List Nat) (hr : Small r) (hc : Small c) :
    Small (errorPattern r c) := by
  apply small_of_getD
  intro i
  rw [errorPattern_getD]
  split
  · exact GF64.xor_lt (getD_lt_of_small hr i) (getD_lt_of_small hc i)
  · decide

theorem xor_errorPattern (r c : List Nat) (hr : r.length = 63) (i : Nat) :
    r.getD i 0 ^^^ (errorPattern r c).getD i 0 = if i < 63 then c.getD i 0 else 0 := by
  rw [errorPattern_getD]
  by_cases hi : i < 63
  · rw [if_pos hi, if_pos hi, ← Nat.xor_assoc, Nat.xor_self, Nat.zero_xor]
  · rw [if_neg hi, if_neg hi, getD_of_le (by omega)]
    rfl

theorem synPoly_add (Z : Finset Nat) (e e' : Nat → F64) :
    synPoly Z (fun i => e i + e' i) = synPoly Z e + synPoly Z e' := by
  unfold synPoly
  rw [← Finset.sum_add_distrib]
  apply Finset.sum_congr rfl
  intro j _
  rw [← add_mul, ← C_add, ← Finset.sum_add_distrib]
  congr 2
  apply Finset.sum_congr rfl
  intro i _
  ring

/-- Adding a word with zero syndromes does not change the syndromes. -/
theorem syndromeList_errorPattern (r c : List Nat) (hr : Small r) (hc : Small c)
    (hrlen : r.length = 63) (hclen : c.length = 63)
    (hzero : ∀ j, (syndromeList c).getD j 0 = 0) :
    syndromeList r = syndromeList (errorPattern r c) := by
  apply syndromeList_eq_of_listPoly_eq r _ hr (errorPattern_small r c hr hc)
  rw [listPoly_syndromeList r hr hrlen,
    listPoly_syndromeList _ (errorPattern_small r c hr hc) (errorPattern_length r c)]
  have h0 : synPoly (Finset.range 63) (fun i => F64.ofNat (c.getD i 0)) = 0 := by
    rw [← listPoly_syndromeList c hc hclen]
    exact (all_zero_iff_listPoly (syndromeList_small c hc)).1 hzero
  have e : synPoly (Finset.range 63) (fun i => F64.ofNat (r.getD i 0))
      = synPoly (Finset.range 63)
          (fun i => F64.ofNat (c.getD i 0) + F64.ofNat ((errorPattern r c).getD i 0)) := by
    unfold synPoly
    apply Finset.sum_congr rfl
    intro j _
    congr 2
    apply Finset.sum_congr rfl
    intro i hi
    have hi' : i < 63 := Finset.mem_range.1 hi
    dsimp only
    rw [errorPattern_getD, if_pos hi',
      ← F64.ofNat_add (getD_lt_of_small hc i)
        (GF64.xor_lt (getD_lt_of_small hr i) (getD_lt_of_small hc i))]
    congr 2
    show r.getD i 0 = c.getD i 0 ^^^ (r.getD i 0 ^^^ c.getD i 0)
    rw [Nat.xor_comm (r.getD i 0), ← Nat.xor_assoc, Nat.xor_self, Nat.zero_xor]
  rw [e, synPoly_add, h0, zero_add]

/-! ## Consequences of the key identity -/

theorem eq_zero_of_evaluatorPoly_eq_zero (Z : Finset Nat) (hZ : ∀ k ∈ Z, k < 63)
    (e : Nat → F64) (h : evaluatorPoly Z e = 0) : ∀ i ∈ Z, e i = 0 := by
  intro i hi
  have h2 := eval_evaluatorPoly Z hZ e hi
  rw [h, eval_zero] at h2
  rcases mul_eq_zero.1 h2.symm with h3 | h3
  · rcases mul_eq_zero.1 h3 with h4 | h4
    · exact h4
    · exact absurd h4 (alpha_pow_ne_zero i)
  · exact absurd h3 (eval_erase_ne_zero Z hZ (hZ i hi))

theorem eq_zero_of_synPoly_eq_zero (Z : Finset Nat) (hZ : ∀ k ∈ Z, k < 63)
    (hcard : Z.card ≤ 21) (e : Nat → F64) (h : synPoly Z e = 0) : ∀ i ∈ Z, e i = 0 := by
  apply eq_zero_of_evaluatorPoly_eq_zero Z hZ e
  have key := locPoly_mul_synPoly Z e
  rw [h, mul_zero] at key
  have hdvd : (X : F64[X]) ^ 21 ∣ evaluatorPoly Z e := by
    refine ⟨evaluatorPoly Z (fun i => e i * (alpha ^ i) ^ 21), ?_⟩
    have := congrArg (fun f => f + X ^ 21 * evaluatorPoly Z (fun i => e i * (alpha ^ i) ^ 21)) key
    simp only [zero_add, add_assoc, poly_add_self, add_zero] at this
    exact this.symm
  apply eq_zero_of_dvd_of_degree_lt hdvd
  rw [degree_X_pow]
  apply lt_of_lt_of_le (degree_evaluatorPoly_lt Z e)
  exact_mod_cast hcard

theorem tail_ne_zero (Z : Finset Nat) (hZ : ∀ k ∈ Z, k < 63) (e : Nat → F64)
    (i : Nat) (hi : i ∈ Z) (hne : e i ≠ 0) :
    evaluatorPoly Z (fun i => e i * (alpha ^ i) ^ 21) ≠ 0 := by
  intro h
  have := eq_zero_of_evaluatorPoly_eq_zero Z hZ _ h i hi
  rcases mul_eq_zero.1 this with h3 | h3
  · exact hne h3
  · exact absurd h3 (pow_ne_zero _ (alpha_pow_ne_zero i))

/-- With a nonzero error value the product locator times syndromes reaches degree 21. -/
theorem natDegree_loc_mul_syn (Z : Finset Nat) (hZ : ∀ k ∈ Z, k < 63) (hcard : Z.card ≤ 21)
    (e : Nat → F64) (i : Nat) (hi : i ∈ Z) (hne : e i ≠ 0) :
    21 ≤ (locPoly Z * synPoly Z e).natDegree := by
  rw [locPoly_mul_synPoly]
  have hΨ := tail_ne_zero Z hZ e i hi hne
  have hc : (evaluatorPoly Z e + X ^ 21 * evaluatorPoly Z (fun i => e i * (alpha ^ i) ^ 21)).coeff
      (21 + (evaluatorPoly Z (fun i => e i * (alpha ^ i) ^ 21)).natDegree) ≠ 0 := by
    rw [coeff_add, coeff_X_pow_mul', if_pos (Nat.le_add_right _ _), Nat.add_sub_cancel_left,
      coeff_eq_zero_of_degree_lt, zero_add]
    · exact leadingCoeff_ne_zero.2 hΨ
    · apply lt_of_lt_of_le (degree_evaluatorPoly_lt Z e)
      exact_mod_cast (by omega : Z.card ≤ 21 + _)
  exact le_trans (Nat.le_add_right _ _) (le_natDegree_of_ne_zero hc)

/-- The polynomial that keeps the coefficients below `x^21`: what `mod_x21` returns. -/
theorem toPoly_of_mod_x21 (p t : GF64_poly) (hp : Norm p) (ht : Norm t)
    (h : ∀ i, t.coefficients.getD i 0 = if i < 21 then p.coefficients.getD i 0 else 0)
    (i : Nat) : (toPoly t).coeff i = if i < 21 then (toPoly p).coeff i else 0 := by
  rw [ht.coeff, h i, hp.coeff]
  split
  · rfl
  · rfl

theorem trunc_eq_evaluator (f Ω Ψ : F64[X]) (hf : f = Ω + X ^ 21 * Ψ)
    (hΩ : Ω.degree < (21 : WithBot Nat)) (t : F64[X])
    (ht : ∀ i, t.coeff i = if i < 21 then f.coeff i else 0) : t = Ω := by
  ext i
  rw [ht i, hf, coeff_add, coeff_X_pow_mul']
  by_cases hi : i < 21
  · rw [if_pos hi, if_neg (by omega), add_zero]
  · rw [if_neg hi, coeff_eq_zero_of_degree_lt]
    apply lt_of_lt_of_le hΩ
    exact_mod_cast (by omega : 21 ≤ i)

/-! ## Decoding a word whose error pattern the locator covers -/

theorem xor_eq_zero_imp {a b : Nat} (h : a ^^^ b = 0) : a = b := by
  have e : a ^^^ (a ^^^ b) = b := by rw [← Nat.xor_assoc, Nat.xor_self, Nat.zero_xor]
  rw [h, Nat.xor_zero] at e
  exact e

theorem synPoly_of_zero (Z : Finset Nat) (e : Nat → F64) (h : ∀ i ∈ Z, e i = 0) :
    synPoly Z e = 0 := by
  unfold synPoly
  apply Finset.sum_eq_zero
  intro j _
  rw [Finset.sum_eq_zero, C_0, zero_mul]
  intro i hi
  rw [h i hi, zero_mul]

theorem is_zero_calculateSyndromes (r : List Nat) (mask : List Bool) :
    (ReedSolomonDecoder.calculateSyndromes r mask).is_zero = true
      ↔ ∀ j, (syndromeList r).getD j 0 = 0 := by
  rw [calculateSyndromes_eq]
  exact is_zero_ofVector _

/-- The zero-syndrome path: a received word with zero syndromes whose differences from a
codeword lie in at most 21 known positions is that codeword. -/
theorem decode_fast_correct (r c : List Nat) (mask : List Bool) (hr : Small r) (hc : Small c)
    (hrlen : r.length = 63) (hclen : c.length = 63)
    (hzero : ∀ j, (syndromeList c).getD j 0 = 0)
    (Z : Finset Nat) (hZ : ∀ k ∈ Z, k < 63) (hcard : Z.card ≤ 21)
    (hsupp : ∀ i, i ∉ Z → (errorPattern r c).getD i 0 = 0)
    (hfast : (ReedSolomonDecoder.calculateSyndromes r mask).is_zero = true) :
    ∃ P, ReedSolomonDecoder.decode r mask = .ok (true, P) ∧
      ∀ i, i < 63 → P.coefficients.getD i 0 = c.getD i 0 := by
  refine ⟨_, decode_of_syndromes_zero r mask hfast, fun i hi => ?_⟩
  rw [coefficients_ofVector]
  have hs := (is_zero_calculateSyndromes r mask).1 hfast
  rw [syndromeList_errorPattern r c hr hc hrlen hclen hzero] at hs
  have hE := errorPattern_small r c hr hc
  have hpoly : synPoly Z (fun i => F64.ofNat ((errorPattern r c).getD i 0)) = 0 := by
    rw [← listPoly_syndromeList_of_support _ hE (errorPattern_length r c) Z hZ hsupp]
    exact (all_zero_iff_listPoly (syndromeList_small _ hE)).1 hs
  have hEi : (errorPattern r c).getD i 0 = 0 := by
    by_cases hmem : i ∈ Z
    · exact (F64.ofNat_eq_zero (getD_lt_of_small hE i)).1
        (eq_zero_of_synPoly_eq_zero Z hZ hcard _ hpoly i hmem)
    · exact hsupp i hmem
  rw [errorPattern_getD, if_pos hi] at hEi
  exact xor_eq_zero_imp hEi

/-- The slow path, once the Euclidean algorithm has returned a scaled locator and evaluator
of the error pattern. -/
theorem decode_of_euclid (r c : List Nat) (mask : List Bool) (hr : Small r) (hc : Small c)
    (hrlen : r.length = 63)
    (Z : Finset Nat) (hZ : ∀ k ∈ Z, k < 63)
    (hsupp : ∀ i, i ∉ Z → (errorPattern r c).getD i 0 = 0)
    (hslow : (ReedSolomonDecoder.calculateSyndromes r mask).is_zero = false)
    (loc v ω : GF64_poly)
    (hloc : ReedSolomonDecoder.calculateErasureLocator mask = .ok loc)
    (heuc : ReedSolomonDecoder.euclideanAlgorithm
      (ReedSolomonDecoder.calculateSyndromes r mask) loc = .ok (v, ω))
    (hlocs : Small loc.coefficients) (hv : Small v.coefficients) (hω : Small ω.coefficients)
    (k : F64) (hk : k ≠ 0)
    (hsplit : toPoly v * toPoly loc = C k * locPoly Z)
    (hev : toPoly ω
      = C k * evaluatorPoly Z (fun i => F64.ofNat ((errorPattern r c).getD i 0)))
    (hdeg : ω.degree < v.degree + loc.degree) :
    ∃ P, ReedSolomonDecoder.decode r mask = .ok (true, P) ∧
      ∀ i, i < 63 → P.coefficients.getD i 0 = c.getD i 0 := by
  have hcorr := correctErrors_of_key Z hZ (errorPattern r c) (errorPattern_small r c hr hc)
    (errorPattern_length r c) hsupp loc v ω hlocs hv hω k hk hsplit hev hdeg
  refine ⟨_, decode_slow r mask hslow loc v ω _ true hloc heuc hcorr, fun i hi => ?_⟩
  rw [ofVector_add_getD, xor_errorPattern r c hrlen, if_pos hi]

/-! ## The Euclidean loop -/

theorem euclidLoop_stop (mu nu n : Nat) (s : ReedSolomonDecoder.EuclidState)
    (h1 : (ReedSolomonDecoder.fromBack s.R 1).degree ≤ nu)
    (h2 : (ReedSolomonDecoder.fromBack s.V 1).degree ≤ mu) :
    ReedSolomonDecoder.euclidLoop mu nu n s = .ok s := by
  have hc : ¬ (nu < (ReedSolomonDecoder.fromBack s.R 1).get_degree ∨
      mu < (ReedSolomonDecoder.fromBack s.V 1).get_degree) := by
    simp only [GF64_poly.get_degree]
    omega
  cases n with
  | zero => simp only [ReedSolomonDecoder.euclidLoop, if_neg hc]
  | succ n => simp only [ReedSolomonDecoder.euclidLoop, if_neg hc]

theorem euclidLoop_step (mu nu n : Nat) (s s' : ReedSolomonDecoder.EuclidState)
    (h : nu < (ReedSolomonDecoder.fromBack s.R 1).degree ∨
      mu < (ReedSolomonDecoder.fromBack s.V 1).degree)
    (hs : ReedSolomonDecoder.euclidStep s = .ok s') :
    ReedSolomonDecoder.euclidLoop mu nu (n + 1) s = ReedSolomonDecoder.euclidLoop mu nu n s' := by
  have hc : nu < (ReedSolomonDecoder.fromBack s.R 1).get_degree ∨
      mu < (ReedSolomonDecoder.fromBack s.V 1).get_degree := h
  simp only [ReedSolomonDecoder.euclidLoop, if_pos hc]
  show (ReedSolomonDecoder.euclidStep s >>= _) = _
  rw [hs]
  rfl

theorem natDegree_lt_card_of_evaluator (Z : Finset Nat) (e : Nat → F64) (hpos : 0 < Z.card) :
    (evaluatorPoly Z e).natDegree < Z.card := by
  by_cases h0 : evaluatorPoly Z e = 0
  · rw [h0]; simpa using hpos
  · exact (natDegree_lt_iff_degree_lt h0).2 (degree_evaluatorPoly_lt Z e)

/-- The erasure-only case, stated on a word `c` with zero syndromes. -/
theorem decode_erasures_core (r c : List Nat) (mask : List Bool) (hr : Small r) (hc : Small c)
    (hrlen : r.length = 63) (hclen : c.length = 63) (hmlen : mask.length = 63)
    (hcount : mask.count true ≤ 21)
    (hzero : ∀ j, (syndromeList c).getD j 0 = 0)
    (hagree : ∀ i, i < 63 → mask.getD i false = false → r.getD i 0 = c.getD i 0) :
    ∃ P, ReedSolomonDecoder.decode r mask = .ok (true, P) ∧
      ∀ i, i < 63 → P.coefficients.getD i 0 = c.getD i 0 := by
  have hZ := erasedSet_lt mask
  have hcard : (erasedSet mask).card ≤ 21 := by rw [card_erasedSet mask hmlen]; exact hcount
  have hE := errorPattern_small r c hr hc
  have hsupp : ∀ i, i ∉ erasedSet mask → (errorPattern r c).getD i 0 = 0 := by
    intro i hi
    rw [errorPattern_getD]
    split
    · rename_i h63
      have hm : mask.getD i false = false := by
        cases hb : mask.getD i false
        · rfl
        · exact absurd (Finset.mem_filter.2 ⟨Finset.mem_range.2 h63, hb⟩) hi
      rw [hagree i h63 hm, Nat.xor_self]
    · rfl
  cases hfast : (ReedSolomonDecoder.calculateSyndromes r mask).is_zero with
  | true =>
    exact decode_fast_correct r c mask hr hc hrlen hclen hzero _ hZ hcard hsupp hfast
  | false =>
    have hsyn : syndromeList r = syndromeList (errorPattern r c) :=
      syndromeList_errorPattern r c hr hc hrlen hclen hzero
    have hlp := listPoly_syndromeList_of_support _ hE (errorPattern_length r c) _ hZ hsupp
    -- some erased position carries a nonzero error value
    have hex : ∃ i ∈ erasedSet mask, F64.ofNat ((errorPattern r c).getD i 0) ≠ 0 := by
      by_contra hcon
      have hall : ∀ i ∈ erasedSet mask, F64.ofNat ((errorPattern r c).getD i 0) = 0 := by
        intro i hi
        by_contra hne
        exact hcon ⟨i, hi, hne⟩
      have h0 := synPoly_of_zero (erasedSet mask) _ hall
      rw [← hlp] at h0
      have := (is_zero_calculateSyndromes r mask).2
        (by rw [hsyn]; exact (all_zero_iff_listPoly (syndromeList_small _ hE)).2 h0)
      rw [hfast] at this
      cases this
    obtain ⟨i0, hi0, hne0⟩ := hex
    have hpos : 0 < (erasedSet mask).card := Finset.card_pos.2 ⟨i0, hi0⟩
    -- the erasure locator
    have hΓ := erasureLoop_spec mask
    have hΓdeg := erasureLoop_degree mask
    have hloc : ReedSolomonDecoder.calculateErasureLocator mask = .ok (erasureLoop mask) := by
      rw [calculateErasureLocator_eq, if_neg (by omega)]
    -- the modified syndrome polynomial
    have hSsmall : Small (GF64_poly.ofVector (syndromeList r)).coefficients :=
      syndromeList_small r hr
    have hprodN := norm_mul (erasureLoop mask) _ hΓ.1.small hSsmall
    have hprod : toPoly ((erasureLoop mask).mul (GF64_poly.ofVector (syndromeList r)))
        = locPoly (erasedSet mask)
          * synPoly (erasedSet mask) (fun i => F64.ofNat ((errorPattern r c).getD i 0)) := by
      rw [toPoly_mul _ _ hΓ.1.small hSsmall, hΓ.2, toPoly_ofVector, hsyn, hlp]
    have hlen : 21 ≤ ((erasureLoop mask).mul
        (GF64_poly.ofVector (syndromeList r))).coefficients.length := by
      have := natDegree_loc_mul_syn (erasedSet mask) hZ hcard
        (fun i => F64.ofNat ((errorPattern r c).getD i 0)) i0 hi0 hne0
      rw [← hprod, hprodN.natDegree] at this
      rw [hprodN.len]
      omega
    obtain ⟨T, hT, hTn, hTv⟩ := mod_x21_spec _ hprodN.small hlen
    have hTp : toPoly T
        = evaluatorPoly (erasedSet mask) (fun i => F64.ofNat ((errorPattern r c).getD i 0)) := by
      apply trunc_eq_evaluator _ _ _ (hprod.trans (locPoly_mul_synPoly _ _))
      · apply lt_of_lt_of_le (degree_evaluatorPoly_lt _ _)
        exact_mod_cast hcard
      · exact toPoly_of_mod_x21 _ T hprodN hTn hTv
    have hTdeg : T.degree < (erasedSet mask).card := by
      rw [← hTn.natDegree, hTp]
      exact natDegree_lt_card_of_evaluator _ _ hpos
    -- the loop stops at once
    have hloop : ReedSolomonDecoder.euclidLoop ((21 - (erasureLoop mask).degree) / 2)
        ((21 + (erasureLoop mask).degree + 1) / 2 - 1) ReedSolomonDecoder.euclidBudget
        (ReedSolomonDecoder.euclidInit T) = .ok (ReedSolomonDecoder.euclidInit T) := by
      apply euclidLoop_stop
      · show T.degree ≤ _
        omega
      · show (GF64_poly.ofVector [1]).degree ≤ _
        exact Nat.zero_le _
    have heuc : ReedSolomonDecoder.euclideanAlgorithm
        (ReedSolomonDecoder.calculateSyndromes r mask) (erasureLoop mask)
          = .ok (GF64_poly.ofVector [1], T) := by
      rw [calculateSyndromes_eq]
      exact euclideanAlgorithm_eq (GF64_poly.ofVector (syndromeList r)) (erasureLoop mask) T
        (ReedSolomonDecoder.euclidInit T) hT hloop
    exact decode_of_euclid r c mask hr hc hrlen _ hZ hsupp hfast (erasureLoop mask)
      (GF64_poly.ofVector [1]) T hloc heuc hΓ.1.small norm_ofVector_one.small hTn.small
      1 one_ne_zero (by rw [toPoly_ofVector_one, one_mul, C_1, one_mul, hΓ.2])
      (by rw [hTp, C_1, one_mul])
      (by
        show T.degree < (GF64_poly.ofVector [1]).degree + (erasureLoop mask).degree
        rw [hΓdeg]
        exact Nat.lt_of_lt_of_le hTdeg (Nat.le_add_left _ _))

/-! ## One substitution error, no erasure -/

theorem getD_replicate_false (n i : Nat) : (List.replicate n false).getD i false = false := by
  induction n generalizing i with
  | zero => rfl
  | succ n ih =>
    cases i with
    | zero => rfl
    | succ i => exact ih i

theorem erasedSet_replicate_false : erasedSet (List.replicate 63 false) = ∅ := by
  unfold erasedSet
  apply Finset.filter_false_of_mem
  intro i _
  rw [getD_replicate_false]
  decide

theorem norm_x21 : Norm ReedSolomonDecoder.x21 := by
  refine ⟨?_, rfl, fun _ => by decide⟩
  unfold Small
  decide

theorem toPoly_x21 : toPoly ReedSolomonDecoder.x21 = X ^ 21 := by
  unfold ReedSolomonDecoder.x21
  rw [toPoly_ofVector]
  simp only [listPoly, F64.ofNat_zero, F64.ofNat_one, C_0, C_1, zero_add, mul_zero, add_zero]
  ring

theorem norm_ofVector_zero : Norm (GF64_poly.ofVector [0]) := norm_zero

theorem toPoly_ofVector_zero : toPoly (GF64_poly.ofVector [0]) = 0 := toPoly_zero

theorem evaluatorPoly_singleton (p : Nat) (e : Nat → F64) :
    evaluatorPoly {p} e = C (e p * alpha ^ p) := by
  unfold evaluatorPoly
  rw [Finset.sum_singleton, Finset.erase_singleton, Finset.prod_empty, mul_one]

theorem locPoly_singleton (p : Nat) : locPoly {p} = 1 + C (alpha ^ p) * X := by
  unfold locPoly
  rw [Finset.prod_singleton]

/-- Uniqueness of quotient and remainder, in the shape the Euclidean step needs. -/
theorem div_unique (f g q q' rem rem' : F64[X]) (hg : g ≠ 0)
    (h1 : f = q * g + rem) (h2 : f = q' * g + rem')
    (d1 : rem.degree < g.degree) (d2 : rem'.degree < g.degree) : q = q' ∧ rem = rem' := by
  have e : (q + q') * g = rem + rem' := by
    have h3 : q * g + rem = q' * g + rem' := h1.symm.trans h2
    have h4 := congrArg (fun t => t + (q' * g + rem)) h3
    simp only at h4
    have e1 : q * g + rem + (q' * g + rem) = (q + q') * g + (rem + rem) := by ring
    have e2 : q' * g + rem' + (q' * g + rem) = rem + rem' + (q' * g + q' * g) := by ring
    rw [e1, e2, poly_add_self, poly_add_self, add_zero, add_zero] at h4
    exact h4
  have hr : rem + rem' = 0 := by
    apply eq_zero_of_dvd_of_degree_lt ⟨q + q', by rw [← e, mul_comm]⟩
    exact lt_of_le_of_lt (degree_add_le _ _) (max_lt d1 d2)
  have hq : q + q' = 0 := by
    rw [hr] at e
    rcases mul_eq_zero.1 e with h | h
    · exact h
    · exact absurd h hg
  constructor
  · have := congrArg (fun t => t + q') hq
    simp only [add_assoc, poly_add_self, add_zero, zero_add] at this
    exact this
  · have := congrArg (fun t => t + rem') hr
    simp only [add_assoc, poly_add_self, add_zero, zero_add] at this
    exact this

theorem euclidStep_init (T d : GF64_poly) (h : ReedSolomonDecoder.x21.div T = .ok d) :
    ReedSolomonDecoder.euclidStep (ReedSolomonDecoder.euclidInit T)
      = .ok
        { Q := [GF64_poly.ofVector [0], GF64_poly.ofVector [0], d]
          R := [ReedSolomonDecoder.x21, T, ReedSolomonDecoder.x21.add (T.mul d)]
          U := [GF64_poly.ofVector [1], GF64_poly.ofVector [0],
            (GF64_poly.ofVector [1]).add ((GF64_poly.ofVector [0]).mul d)]
          V := [GF64_poly.ofVector [0], GF64_poly.ofVector [1],
            (GF64_poly.ofVector [0]).add ((GF64_poly.ofVector [1]).mul d)] } := by
  unfold ReedSolomonDecoder.euclidStep
  show (ReedSolomonDecoder.x21.div T >>= _) = _
  rw [h]
  rfl

/-- The single-error case, stated on a word `c` with zero syndromes. -/
theorem decode_single_core (c : List Nat) (hc : Small c) (hclen : c.length = 63)
    (hzero : ∀ j, (syndromeList c).getD j 0 = 0)
    (p v : Nat) (hp : p < 63) (hv : v < 64) (hne : v ≠ c.getD p 0) :
    ∃ P, ReedSolomonDecoder.decode (c.set p v) (List.replicate 63 false) = .ok (true, P) ∧
      ∀ i, i < 63 → P.coefficients.getD i 0 = c.getD i 0 := by
  have hr : Small (c.set p v) := small_set hc p hv
  have hrlen : (c.set p v).length = 63 := by simp [hclen]
  have hE := errorPattern_small (c.set p v) c hr hc
  have hZ : ∀ k ∈ ({p} : Finset Nat), k < 63 := by
    intro k hk
    rw [Finset.mem_singleton.1 hk]; exact hp
  have hsupp : ∀ i, i ∉ ({p} : Finset Nat) → (errorPattern (c.set p v) c).getD i 0 = 0 := by
    intro i hi
    have hip : ¬ p = i := fun e => hi (Finset.mem_singleton.2 e.symm)
    rw [errorPattern_getD]
    split
    · rw [getD_set, if_neg (fun h => hip h.1), Nat.xor_self]
    · rfl
  have hEp : (errorPattern (c.set p v) c).getD p 0 ≠ 0 := by
    rw [errorPattern_getD, if_pos hp, getD_set, if_pos ⟨rfl, by omega⟩]
    intro h
    exact hne (xor_eq_zero_imp h)
  have hε : F64.ofNat ((errorPattern (c.set p v) c).getD p 0) ≠ 0 := by
    intro h
    exact hEp ((F64.ofNat_eq_zero (getD_lt_of_small hE p)).1 h)
  have hsyn := syndromeList_errorPattern (c.set p v) c hr hc hrlen hclen hzero
  have hlp := listPoly_syndromeList_of_support _ hE (errorPattern_length (c.set p v) c) _ hZ hsupp
  generalize hedef : (fun i => F64.ofNat ((errorPattern (c.set p v) c).getD i 0)) = e at hlp
  have hεe : e p ≠ 0 := by rw [← hedef]; exact hε
  -- the syndromes are not all zero
  have hSne : synPoly {p} e ≠ 0 := by
    intro h
    exact hεe (eq_zero_of_synPoly_eq_zero {p} hZ (by simp) e h p (Finset.mem_singleton.2 rfl))
  have hslow : (ReedSolomonDecoder.calculateSyndromes (c.set p v)
      (List.replicate 63 false)).is_zero = false := by
    cases hfast : (ReedSolomonDecoder.calculateSyndromes (c.set p v)
      (List.replicate 63 false)).is_zero with
    | false => rfl
    | true =>
      have hs := (is_zero_calculateSyndromes _ _).1 hfast
      rw [hsyn] at hs
      exact absurd ((all_zero_iff_listPoly (syndromeList_small _ hE)).1 hs) (by rw [hlp]; exact hSne)
  -- the erasure locator is the constant one
  have hΓ := erasureLoop_spec (List.replicate 63 false)
  have hΓdeg : (erasureLoop (List.replicate 63 false)).degree = 0 := by
    rw [erasureLoop_degree, erasedSet_replicate_false]; rfl
  have hΓp : toPoly (erasureLoop (List.replicate 63 false)) = 1 := by
    rw [hΓ.2, erasedSet_replicate_false]; rfl
  have hloc : ReedSolomonDecoder.calculateErasureLocator (List.replicate 63 false)
      = .ok (erasureLoop (List.replicate 63 false)) := by
    rw [calculateErasureLocator_eq, if_neg (by omega)]
  -- the key identity for one position
  have ha : e p * (alpha ^ p) ^ 21 * alpha ^ p ≠ 0 :=
    mul_ne_zero (mul_ne_zero hεe (pow_ne_zero _ (alpha_pow_ne_zero p))) (alpha_pow_ne_zero p)
  have hkey : locPoly {p} * synPoly {p} e
      = C (e p * alpha ^ p) + X ^ 21 * C (e p * (alpha ^ p) ^ 21 * alpha ^ p) := by
    rw [locPoly_mul_synPoly, evaluatorPoly_singleton, evaluatorPoly_singleton]
  obtain ⟨a, hadef⟩ : ∃ a, a = e p * (alpha ^ p) ^ 21 * alpha ^ p := ⟨_, rfl⟩
  obtain ⟨b, hbdef⟩ : ∃ b, b = e p * alpha ^ p := ⟨_, rfl⟩
  rw [← hadef] at ha
  rw [← hadef, ← hbdef] at hkey
  have hdeg20 : (synPoly {p} e).natDegree = 20 := by
    have h1 : (locPoly {p} * synPoly {p} e).natDegree = 21 := by
      rw [hkey, add_comm, mul_comm, natDegree_add_C, natDegree_C_mul_X_pow _ _ ha]
    rw [natDegree_mul (locPoly_ne_zero _) hSne, natDegree_locPoly, Finset.card_singleton] at h1
    omega
  -- the modified syndrome polynomial is the syndrome polynomial
  have hSsmall : Small (GF64_poly.ofVector (syndromeList (c.set p v))).coefficients :=
    syndromeList_small _ hr
  have hprodN := norm_mul (erasureLoop (List.replicate 63 false)) _ hΓ.1.small hSsmall
  have hprod : toPoly ((erasureLoop (List.replicate 63 false)).mul
      (GF64_poly.ofVector (syndromeList (c.set p v)))) = synPoly {p} e := by
    rw [toPoly_mul _ _ hΓ.1.small hSsmall, hΓp, one_mul, toPoly_ofVector, hsyn, hlp]
  have hlen : 21 ≤ ((erasureLoop (List.replicate 63 false)).mul
      (GF64_poly.ofVector (syndromeList (c.set p v)))).coefficients.length := by
    rw [hprodN.len, ← hprodN.natDegree, hprod, hdeg20]
  obtain ⟨T, hT, hTn, hTv⟩ := mod_x21_spec _ hprodN.small hlen
  have hTp : toPoly T = synPoly {p} e := by
    ext i
    rw [toPoly_of_mod_x21 _ T hprodN hTn hTv i, hprod]
    split
    · rfl
    · rename_i hi
      exact (coeff_eq_zero_of_natDegree_lt (by rw [hdeg20]; omega)).symm
  have hTdeg : T.degree = 20 := by rw [← hTn.natDegree, hTp, hdeg20]
  have hTne : toPoly T ≠ 0 := by rw [hTp]; exact hSne
  -- the one division of the Euclidean loop
  obtain ⟨d, hd, hdn, rem, hrem, hremdeg⟩ := div_spec _ T norm_x21 hTn hTne
  rw [toPoly_x21, hTp] at hrem
  rw [hTp] at hremdeg
  have hu := div_unique (X ^ 21) (synPoly {p} e) (toPoly d)
    (C a⁻¹ * locPoly {p}) rem
    (C (a⁻¹ * b)) hSne hrem
    (by
      have h1 : C a⁻¹ * C a
          = (1 : F64[X]) := by
        rw [← C_mul, inv_mul_cancel₀ ha, C_1]
      rw [mul_assoc, hkey, C_mul]
      linear_combination (-(X ^ 21)) * h1
        - poly_add_self (C a⁻¹ * C b))
    hremdeg
    (by
      apply lt_of_le_of_lt degree_C_le
      rw [degree_eq_natDegree hSne, hdeg20]
      exact_mod_cast (by decide : 0 < 20))
  have hk : a⁻¹ ≠ 0 := inv_ne_zero ha
  -- the state after one round
  have hV2n := norm_add (GF64_poly.ofVector [0]) ((GF64_poly.ofVector [1]).mul d)
    norm_ofVector_zero.small (norm_mul _ _ norm_ofVector_one.small hdn.small).small
  have hV2p : toPoly ((GF64_poly.ofVector [0]).add ((GF64_poly.ofVector [1]).mul d))
      = C a⁻¹ * locPoly {p} := by
    rw [toPoly_add _ _ norm_ofVector_zero.small (norm_mul _ _ norm_ofVector_one.small hdn.small).small,
      toPoly_mul _ _ norm_ofVector_one.small hdn.small, toPoly_ofVector_zero,
      toPoly_ofVector_one, zero_add, one_mul, hu.1]
  have hR2n := norm_add ReedSolomonDecoder.x21 (T.mul d) norm_x21.small
    (norm_mul _ _ hTn.small hdn.small).small
  have hR2p : toPoly (ReedSolomonDecoder.x21.add (T.mul d))
      = C (a⁻¹ * b) := by
    rw [toPoly_add _ _ norm_x21.small (norm_mul _ _ hTn.small hdn.small).small,
      toPoly_mul _ _ hTn.small hdn.small, toPoly_x21, hTp]
    linear_combination hrem + hu.2 + poly_add_self (synPoly {p} e * toPoly d)
  have hV2deg : ((GF64_poly.ofVector [0]).add ((GF64_poly.ofVector [1]).mul d)).degree = 1 := by
    rw [← hV2n.natDegree, hV2p, natDegree_C_mul hk, natDegree_locPoly, Finset.card_singleton]
  have hR2deg : (ReedSolomonDecoder.x21.add (T.mul d)).degree = 0 := by
    rw [← hR2n.natDegree, hR2p, natDegree_C]
  have hloop : ReedSolomonDecoder.euclidLoop ((21 - (erasureLoop (List.replicate 63 false)).degree) / 2)
      ((21 + (erasureLoop (List.replicate 63 false)).degree + 1) / 2 - 1)
      ReedSolomonDecoder.euclidBudget (ReedSolomonDecoder.euclidInit T)
        = .ok
          { Q := [GF64_poly.ofVector [0], GF64_poly.ofVector [0], d]
            R := [ReedSolomonDecoder.x21, T, ReedSolomonDecoder.x21.add (T.mul d)]
            U := [GF64_poly.ofVector [1], GF64_poly.ofVector [0],
              (GF64_poly.ofVector [1]).add ((GF64_poly.ofVector [0]).mul d)]
            V := [GF64_poly.ofVector [0], GF64_poly.ofVector [1],
              (GF64_poly.ofVector [0]).add ((GF64_poly.ofVector [1]).mul d)] } := by
    rw [hΓdeg]
    show ReedSolomonDecoder.euclidLoop _ _ (63 + 1) _ = _
    rw [euclidLoop_step _ _ 63 _ _ (Or.inl (by
        show _ < T.degree
        rw [hTdeg]
        decide)) (euclidStep_init T d hd)]
    apply euclidLoop_stop
    · show (ReedSolomonDecoder.x21.add (T.mul d)).degree ≤ _
      rw [hR2deg]
      exact Nat.zero_le _
    · show ((GF64_poly.ofVector [0]).add ((GF64_poly.ofVector [1]).mul d)).degree ≤ _
      rw [hV2deg]
      decide
  have heuc : ReedSolomonDecoder.euclideanAlgorithm
      (ReedSolomonDecoder.calculateSyndromes (c.set p v) (List.replicate 63 false))
      (erasureLoop (List.replicate 63 false))
        = .ok ((GF64_poly.ofVector [0]).add ((GF64_poly.ofVector [1]).mul d),
          ReedSolomonDecoder.x21.add (T.mul d)) := by
    rw [calculateSyndromes_eq]
    exact euclideanAlgorithm_eq (GF64_poly.ofVector (syndromeList (c.set p v)))
      (erasureLoop (List.replicate 63 false)) T _ hT hloop
  refine decode_of_euclid (c.set p v) c _ hr hc hrlen {p} hZ hsupp hslow _ _ _ hloc heuc
    hΓ.1.small hV2n.small hR2n.small _ hk ?_ ?_ ?_
  · rw [hV2p, hΓp, mul_one]
  · rw [hR2p, hedef, evaluatorPoly_singleton, ← hbdef, C_mul]
  · rw [hR2deg, hV2deg, hΓdeg]
    decide

/-! ## What a successful run of `decode` went through -/

theorem decode_slow_inv (received : List Nat) (erasures : List Bool) (b : Bool) (P : GF64_poly)
    (hz : (ReedSolomonDecoder.calculateSyndromes received erasures).is_zero = false)
    (h : ReedSolomonDecoder.decode received erasures = .ok (b, P)) :
    ∃ loc v ω e,
      ReedSolomonDecoder.calculateErasureLocator erasures = .ok loc ∧
      ReedSolomonDecoder.euclideanAlgorithm
        (ReedSolomonDecoder.calculateSyndromes received erasures) loc = .ok (v, ω) ∧
      ReedSolomonDecoder.correctErrors loc v ω = .ok (b, e) ∧
      P = (GF64_poly.ofVector received).add e := by
  unfold ReedSolomonDecoder.decode at h
  simp only [hz] at h
  cases h1 : ReedSolomonDecoder.calculateErasureLocator erasures with
  | error x =>
    rw [h1] at h
    cases h
  | ok loc =>
    rw [h1] at h
    cases h2 : ReedSolomonDecoder.euclideanAlgorithm
        (ReedSolomonDecoder.calculateSyndromes received erasures) loc with
    | error x =>
      change (ReedSolomonDecoder.euclideanAlgorithm
        (ReedSolomonDecoder.calculateSyndromes received erasures) loc >>= _) = _ at h
      rw [h2] at h
      cases h
    | ok vr =>
      change (ReedSolomonDecoder.euclideanAlgorithm
        (ReedSolomonDecoder.calculateSyndromes received erasures) loc >>= _) = _ at h
      rw [h2] at h
      cases h3 : ReedSolomonDecoder.correctErrors loc vr.1 vr.2 with
      | error x =>
        change (ReedSolomonDecoder.correctErrors loc vr.1 vr.2 >>= _) = _ at h
        rw [h3] at h
        cases h
      | ok be =>
        change (ReedSolomonDecoder.correctErrors loc vr.1 vr.2 >>= _) = _ at h
        rw [h3] at h
        have h' : (Except.ok (be.1, (GF64_poly.ofVector received).add be.2)
            : Except Failure (Bool × GF64_poly)) = .ok (b, P) := h
        injection h' with h'
        injection h' with ha hb
        refine ⟨loc, vr.1, vr.2, be.2, rfl, h2, ?_, hb.symm⟩
        rw [h3, ← ha]

theorem euclideanAlgorithm_inv (syndromes loc v ω : GF64_poly)
    (h : ReedSolomonDecoder.euclideanAlgorithm syndromes loc = .ok (v, ω)) :
    ∃ T s, (loc.mul syndromes).mod_x21 = .ok T ∧
      ReedSolomonDecoder.euclidLoop ((21 - loc.degree) / 2) ((21 + loc.degree + 1) / 2 - 1)
        ReedSolomonDecoder.euclidBudget (ReedSolomonDecoder.euclidInit T) = .ok s ∧
      v = ReedSolomonDecoder.fromBack s.V 1 ∧ ω = ReedSolomonDecoder.fromBack s.R 1 := by
  unfold ReedSolomonDecoder.euclideanAlgorithm at h
  cases h1 : (loc.mul syndromes).mod_x21 with
  | error x =>
    rw [h1] at h
    cases h
  | ok T =>
    rw [h1] at h
    cases h2 : ReedSolomonDecoder.euclidLoop ((21 - loc.degree) / 2)
        ((21 + loc.degree + 1) / 2 - 1) ReedSolomonDecoder.euclidBudget
        (ReedSolomonDecoder.euclidInit T) with
    | error x =>
      change (ReedSolomonDecoder.euclidLoop ((21 - loc.degree) / 2)
        ((21 + loc.degree + 1) / 2 - 1) ReedSolomonDecoder.euclidBudget
        (ReedSolomonDecoder.euclidInit T) >>= _) = _ at h
      rw [h2] at h
      cases h
    | ok s =>
      change (ReedSolomonDecoder.euclidLoop ((21 - loc.degree) / 2)
        ((21 + loc.degree + 1) / 2 - 1) ReedSolomonDecoder.euclidBudget
        (ReedSolomonDecoder.euclidInit T) >>= _) = _ at h
      rw [h2] at h
      have h' : (Except.ok (ReedSolomonDecoder.fromBack s.V 1, ReedSolomonDecoder.fromBack s.R 1)
          : Except Failure (GF64_poly × GF64_poly)) = .ok (v, ω) := h
      injection h' with h'
      injection h' with ha hb
      exact ⟨T, s, rfl, h2, ha.symm, hb.symm⟩

/-! ## The invariant of the Euclidean loop -/

theorem fromBack_append_one (X : List GF64_poly) (a : GF64_poly) :
    ReedSolomonDecoder.fromBack (X ++ [a]) 1 = a := by
  unfold ReedSolomonDecoder.fromBack
  rw [List.getD_eq_getElem?_getD, List.length_append, List.length_singleton,
    Nat.add_sub_cancel, List.getElem?_append_right (Nat.le_refl _)]
  simp

theorem fromBack_append_two (X : List GF64_poly) (a : GF64_poly) (h : 1 ≤ X.length) :
    ReedSolomonDecoder.fromBack (X ++ [a]) 2 = ReedSolomonDecoder.fromBack X 1 := by
  unfold ReedSolomonDecoder.fromBack
  rw [List.getD_eq_getElem?_getD, List.getD_eq_getElem?_getD, List.length_append,
    List.length_singleton]
  have e : X.length + 1 - 2 = X.length - 1 := by omega
  rw [e, List.getElem?_append_left (by omega)]

theorem euclidInv_init (T : GF64_poly) (hT : Norm T) :
    EuclidInv (toPoly T) (ReedSolomonDecoder.euclidInit T) where
  lenR := by simp [ReedSolomonDecoder.euclidInit]
  lenU := by simp [ReedSolomonDecoder.euclidInit]
  lenV := by simp [ReedSolomonDecoder.euclidInit]
  r1 := hT
  r2 := norm_x21
  u1 := norm_ofVector_zero
  u2 := norm_ofVector_one
  v1 := norm_ofVector_one
  v2 := norm_ofVector_zero
  e1 := by
    show toPoly T = toPoly (GF64_poly.ofVector [0]) * X ^ 21
      + toPoly (GF64_poly.ofVector [1]) * toPoly T
    rw [toPoly_ofVector_zero, toPoly_ofVector_one, zero_mul, zero_add, one_mul]
  e2 := by
    show toPoly ReedSolomonDecoder.x21 = toPoly (GF64_poly.ofVector [1]) * X ^ 21
      + toPoly (GF64_poly.ofVector [0]) * toPoly T
    rw [toPoly_ofVector_zero, toPoly_ofVector_one, zero_mul, add_zero, one_mul, toPoly_x21]

theorem div_zero_divisor (p q : GF64_poly) (hq : Norm q) (h0 : toPoly q = 0) :
    p.div q = .error .divisionByZeroPolynomial := by
  have hz := (hq.is_zero_iff).2 h0
  simp only [GF64_poly.is_zero, Bool.and_eq_true, beq_iff_eq] at hz
  unfold GF64_poly.div
  rw [if_pos hz]

theorem euclidInv_step (T : F64[X]) (s s' : ReedSolomonDecoder.EuclidState)
    (inv : EuclidInv T s) (h : ReedSolomonDecoder.euclidStep s = .ok s') : EuclidInv T s' := by
  unfold ReedSolomonDecoder.euclidStep at h
  have hne : toPoly (ReedSolomonDecoder.fromBack s.R 1) ≠ 0 := by
    intro h0
    rw [div_zero_divisor _ _ inv.r1 h0] at h
    cases h
  obtain ⟨d, hd, hdn, -⟩ := div_spec _ _ inv.r2 inv.r1 hne
  rw [hd] at h
  have h' : (Except.ok
      { Q := s.Q ++ [d]
        R := s.R ++ [(ReedSolomonDecoder.fromBack s.R 2).add
          ((ReedSolomonDecoder.fromBack s.R 1).mul d)]
        U := s.U ++ [(ReedSolomonDecoder.fromBack s.U 2).add
          ((ReedSolomonDecoder.fromBack s.U 1).mul d)]
        V := s.V ++ [(ReedSolomonDecoder.fromBack s.V 2).add
          ((ReedSolomonDecoder.fromBack s.V 1).mul d)] }
      : Except Failure ReedSolomonDecoder.EuclidState) = .ok s' := h
  injection h' with h'
  subst h'
  have tp : ∀ a b : GF64_poly, Norm a → Norm b →
      toPoly (a.add (b.mul d)) = toPoly a + toPoly b * toPoly d := by
    intro a b ha hb
    rw [toPoly_add _ _ ha.small (norm_mul _ _ hb.small hdn.small).small,
      toPoly_mul _ _ hb.small hdn.small]
  have nm : ∀ a b : GF64_poly, Norm a → Norm b → Norm (a.add (b.mul d)) := by
    intro a b ha hb
    exact norm_add _ _ ha.small (norm_mul _ _ hb.small hdn.small).small
  refine ⟨by simp, by simp, by simp, ?_, ?_, ?_, ?_, ?_, ?_, ?_, ?_⟩
  · simp only [fromBack_append_one]
    exact nm _ _ inv.r2 inv.r1
  · simp only [fromBack_append_two _ _ inv.lenR]
    exact inv.r1
  · simp only [fromBack_append_one]
    exact nm _ _ inv.u2 inv.u1
  · simp only [fromBack_append_two _ _ inv.lenU]
    exact inv.u1
  · simp only [fromBack_append_one]
    exact nm _ _ inv.v2 inv.v1
  · simp only [fromBack_append_two _ _ inv.lenV]
    exact inv.v1
  · simp only [fromBack_append_one]
    rw [tp _ _ inv.r2 inv.r1, tp _ _ inv.u2 inv.u1, tp _ _ inv.v2 inv.v1, inv.e1, inv.e2]
    ring
  · simp only [fromBack_append_two _ _ inv.lenR, fromBack_append_two _ _ inv.lenU,
      fromBack_append_two _ _ inv.lenV]
    exact inv.e1

theorem euclidInv_loop (T : F64[X]) (mu nu n : Nat) (s s' : ReedSolomonDecoder.EuclidState)
    (inv : EuclidInv T s) (h : ReedSolomonDecoder.euclidLoop mu nu n s = .ok s') :
    EuclidInv T s' := by
  induction n generalizing s with
  | zero =>
    simp only [ReedSolomonDecoder.euclidLoop] at h
    split at h
    · cases h
    · injection h with h
      rw [← h]
      exact inv
  | succ n ih =>
    simp only [ReedSolomonDecoder.euclidLoop] at h
    split at h
    · cases hs : ReedSolomonDecoder.euclidStep s with
      | error x =>
        change (ReedSolomonDecoder.euclidStep s >>= _) = _ at h
        rw [hs] at h
        cases h
      | ok s1 =>
        change (ReedSolomonDecoder.euclidStep s >>= _) = _ at h
        rw [hs] at h
        exact ih s1 (euclidInv_step T s s1 inv hs) h
    · injection h with h
      rw [← h]
      exact inv

/-! ## A locator with as many simple roots as its degree splits -/

theorem testPoint_injOn (Z : Finset Nat) (hZ : ∀ k ∈ Z, k < 63) :
    Set.InjOn (fun i => alpha ^ (63 - i)) (Z : Set Nat) := by
  intro i hi l hl h
  simp only at h
  have hi' := hZ i hi
  have hl' := hZ l hl
  rw [← alpha_pow_inv (Nat.le_of_lt hi'), ← alpha_pow_inv (Nat.le_of_lt hl')] at h
  exact alpha_pow_inj hi' hl' (inv_injective h)

theorem card_image_testPoint (Z : Finset Nat) (hZ : ∀ k ∈ Z, k < 63) :
    (Z.image (fun i => alpha ^ (63 - i))).card = Z.card :=
  Finset.card_image_of_injOn (testPoint_injOn Z hZ)

theorem split_of_roots (lam : F64[X]) (Z : Finset Nat) (hZ : ∀ k ∈ Z, k < 63)
    (hne : lam ≠ 0) (hcard : Z.card = lam.natDegree)
    (hroot : ∀ i ∈ Z, lam.eval (alpha ^ (63 - i)) = 0) :
    ∃ c : F64, c ≠ 0 ∧ lam = C c * locPoly Z := by
  have hl0 : (locPoly Z).leadingCoeff ≠ 0 := leadingCoeff_ne_zero.2 (locPoly_ne_zero Z)
  have hc : lam.leadingCoeff * (locPoly Z).leadingCoeff⁻¹ ≠ 0 :=
    mul_ne_zero (leadingCoeff_ne_zero.2 hne) (inv_ne_zero hl0)
  refine ⟨_, hc, ?_⟩
  have hg0 : C (lam.leadingCoeff * (locPoly Z).leadingCoeff⁻¹) * locPoly Z ≠ 0 :=
    mul_ne_zero (C_ne_zero.2 hc) (locPoly_ne_zero Z)
  apply eq_of_degree_sub_lt_of_eval_finset_eq (Z.image (fun i => alpha ^ (63 - i)))
  · rw [card_image_testPoint Z hZ, hcard, ← degree_eq_natDegree hne]
    apply degree_sub_lt
    · rw [degree_eq_natDegree hne, degree_eq_natDegree hg0, natDegree_C_mul hc,
        natDegree_locPoly, hcard]
    · exact hne
    · rw [leadingCoeff_mul, leadingCoeff_C, mul_assoc, inv_mul_cancel₀ hl0, mul_one]
  · intro x hx
    obtain ⟨i, hi, rfl⟩ := Finset.mem_image.1 hx
    rw [hroot i hi, eval_mul, (eval_locPoly_eq_zero Z hZ (hZ i hi)).2 hi, mul_zero]

/-- The core of the soundness argument: on success the error values that Forney's formula
gives have the syndromes of the received word. -/
theorem syn_of_success (lam rho S : F64[X]) (Z : Finset Nat) (hZ : ∀ k ∈ Z, k < 63)
    (h0 : lam.eval 0 ≠ 0) (hcard : Z.card = lam.natDegree)
    (hroot : ∀ i ∈ Z, lam.eval (alpha ^ (63 - i)) = 0)
    (hdeg : rho.natDegree < lam.natDegree)
    (hdvd : X ^ 21 ∣ lam * S + rho) (hS : S.degree < (21 : WithBot Nat)) :
    synPoly Z (fun i => rho.eval (alpha ^ (63 - i))
      * ((derivative lam).eval (alpha ^ (63 - i)))⁻¹) = S := by
  have hne : lam ≠ 0 := by
    intro h
    rw [h, eval_zero] at h0
    exact h0 rfl
  obtain ⟨c, hc, hsplit⟩ := split_of_roots lam Z hZ hne hcard hroot
  -- the evaluator
  have hder : ∀ i ∈ Z, (derivative lam).eval (alpha ^ (63 - i))
      = c * (alpha ^ i
        * (∏ l ∈ Z.erase i, (1 + C (alpha ^ l) * X : F64[X])).eval (alpha ^ (63 - i))) := by
    intro i hi
    rw [hsplit, derivative_C_mul, eval_mul, eval_C, eval_derivative_locPoly Z hZ hi]
  have hder0 : ∀ i ∈ Z, (derivative lam).eval (alpha ^ (63 - i)) ≠ 0 := by
    intro i hi
    rw [hder i hi]
    exact mul_ne_zero hc (mul_ne_zero (alpha_pow_ne_zero i) (eval_erase_ne_zero Z hZ (hZ i hi)))
  have hrho : rho = C c * evaluatorPoly Z (fun i => rho.eval (alpha ^ (63 - i))
      * ((derivative lam).eval (alpha ^ (63 - i)))⁻¹) := by
    apply eq_of_degree_sub_lt_of_eval_finset_eq (Z.image (fun i => alpha ^ (63 - i)))
    · rw [card_image_testPoint Z hZ]
      apply lt_of_le_of_lt (degree_sub_le _ _)
      apply max_lt
      · apply lt_of_le_of_lt degree_le_natDegree
        rw [hcard]
        exact_mod_cast hdeg
      · rw [degree_C_mul hc]
        exact degree_evaluatorPoly_lt Z _
    · intro x hx
      obtain ⟨i, hi, rfl⟩ := Finset.mem_image.1 hx
      rw [eval_mul, eval_C, eval_evaluatorPoly Z hZ _ hi]
      have h1 := hder i hi
      have h2 := hder0 i hi
      generalize (derivative lam).eval (alpha ^ (63 - i)) = D at h1 h2
      generalize (∏ l ∈ Z.erase i, (1 + C (alpha ^ l) * X : F64[X])).eval (alpha ^ (63 - i)) = P
        at h1
      generalize rho.eval (alpha ^ (63 - i)) = ρ
      have e1 : c * (ρ * D⁻¹ * alpha ^ i * P) = ρ * D⁻¹ * (c * (alpha ^ i * P)) := by ring
      rw [e1, ← h1, mul_assoc, inv_mul_cancel₀ h2, mul_one]
  -- the key identity, scaled
  have hkey := locPoly_mul_synPoly Z (fun i => rho.eval (alpha ^ (63 - i))
      * ((derivative lam).eval (alpha ^ (63 - i)))⁻¹)
  have hS' := degree_synPoly_lt Z (fun i => rho.eval (alpha ^ (63 - i))
      * ((derivative lam).eval (alpha ^ (63 - i)))⁻¹)
  generalize synPoly Z (fun i => rho.eval (alpha ^ (63 - i))
      * ((derivative lam).eval (alpha ^ (63 - i)))⁻¹) = S' at hkey hS' ⊢
  generalize evaluatorPoly Z (fun i => rho.eval (alpha ^ (63 - i))
      * ((derivative lam).eval (alpha ^ (63 - i)))⁻¹) = Ω at hkey hrho
  generalize evaluatorPoly Z (fun i => rho.eval (alpha ^ (63 - i))
      * ((derivative lam).eval (alpha ^ (63 - i)))⁻¹ * (alpha ^ i) ^ 21) = Ψ at hkey
  have hdvd2 : X ^ 21 ∣ lam * S' + rho := by
    refine ⟨C c * Ψ, ?_⟩
    rw [hsplit, mul_assoc, hkey, hrho]
    linear_combination poly_add_self (C c * Ω)
  have hdvd3 : X ^ 21 ∣ lam * (S' + S) := by
    have h := dvd_add hdvd2 hdvd
    have e : lam * S' + rho + (lam * S + rho) = lam * (S' + S) := by
      linear_combination poly_add_self rho
    rwa [e] at h
  have hcop : IsCoprime ((X : F64[X]) ^ 21) lam := by
    apply IsCoprime.pow_left
    rw [irreducible_X.coprime_iff_not_dvd, X_dvd_iff, coeff_zero_eq_eval_zero]
    exact h0
  have hdvd4 : X ^ 21 ∣ S' + S := hcop.dvd_of_dvd_mul_left hdvd3
  have hsum : S' + S = 0 := by
    apply eq_zero_of_dvd_of_degree_lt hdvd4
    rw [degree_X_pow]
    exact lt_of_le_of_lt (degree_add_le _ _) (max_lt hS' hS)
  have := congrArg (fun t => t + S) hsum
  simp only [add_assoc, poly_add_self, add_zero, zero_add] at this
  exact this

/-! ## Success implies a valid codeword -/

theorem mod_x21_inv (p T : GF64_poly) (hp : Norm p) (h : p.mod_x21 = .ok T) :
    Norm T ∧ ∀ i, (toPoly T).coeff i = if i < 21 then (toPoly p).coeff i else 0 := by
  by_cases hlen : 21 ≤ p.coefficients.length
  · obtain ⟨r, hr, hrn, hrv⟩ := mod_x21_spec p hp.small hlen
    rw [h] at hr
    injection hr with hr
    subst hr
    exact ⟨hrn, toPoly_of_mod_x21 p T hp hrn hrv⟩
  · rw [mod_x21_out_of_range p (by omega)] at h
    cases h

theorem dvd_of_mod_x21 (p T : GF64_poly) (hp : Norm p) (h : p.mod_x21 = .ok T) :
    (X : F64[X]) ^ 21 ∣ toPoly p + toPoly T := by
  rw [X_pow_dvd_iff]
  intro d hd
  rw [coeff_add, (mod_x21_inv p T hp h).2 d, if_pos hd, F64.add_self]

theorem listPoly_syndromeList_xor (a b w : List Nat) (ha : Small a) (hb : Small b)
    (hw : Small w) (halen : a.length = 63) (hblen : b.length = 63) (hwlen : w.length = 63)
    (h : ∀ i, i < 63 → w.getD i 0 = a.getD i 0 ^^^ b.getD i 0) :
    listPoly (syndromeList w) = listPoly (syndromeList a) + listPoly (syndromeList b) := by
  rw [listPoly_syndromeList w hw hwlen, listPoly_syndromeList a ha halen,
    listPoly_syndromeList b hb hblen, ← synPoly_add]
  unfold synPoly
  apply Finset.sum_congr rfl
  intro j _
  congr 2
  apply Finset.sum_congr rfl
  intro i hi
  dsimp only
  rw [h i (Finset.mem_range.1 hi), ← F64.ofNat_add (getD_lt_of_small ha i) (getD_lt_of_small hb i)]
  rfl

theorem degree_listPoly_syndromeList (w : List Nat) :
    (listPoly (syndromeList w)).degree < (21 : WithBot Nat) := by
  have h := (degree_lt_iff_coeff_zero (listPoly (syndromeList w)) 21).2 (by
    intro m hm
    rw [coeff_listPoly, getD_of_le (by rw [syndromeList_length]; exact hm)]
    rfl)
  exact_mod_cast h

theorem small_resize_coefficients {P : GF64_poly} (h : Small P.coefficients) :
    Small (resize P.coefficients 63) := small_resize h 63

/-- On the slow path, success means the error pattern found has the syndromes of the
received word. -/
theorem syndromes_of_correction (r : List Nat) (mask : List Bool) (hr : Small r)
    (hrlen : r.length = 63)
    (loc v ω e : GF64_poly)
    (h1 : ReedSolomonDecoder.calculateErasureLocator mask = .ok loc)
    (h2 : ReedSolomonDecoder.euclideanAlgorithm
      (ReedSolomonDecoder.calculateSyndromes r mask) loc = .ok (v, ω))
    (h3 : ReedSolomonDecoder.correctErrors loc v ω = .ok (true, e)) :
    ∃ err, e = GF64_poly.ofVector err ∧ Small err ∧ err.length = 63 ∧
      syndromeList err = syndromeList r := by
  -- the erasure locator
  have hlocN : Norm loc := by
    rw [calculateErasureLocator_eq] at h1
    split at h1
    · cases h1
    · injection h1 with h1
      rw [← h1]
      exact (erasureLoop_spec mask).1
  -- the Euclidean algorithm
  rw [calculateSyndromes_eq] at h2
  obtain ⟨T, s, hT, hloop, hv, hω⟩ := euclideanAlgorithm_inv _ loc v ω h2
  have hSsmall : Small (GF64_poly.ofVector (syndromeList r)).coefficients :=
    syndromeList_small r hr
  have hprodN := norm_mul loc _ hlocN.small hSsmall
  have hTinv := mod_x21_inv _ T hprodN hT
  have inv := euclidInv_loop (toPoly T) _ _ _ _ s (euclidInv_init T hTinv.1) hloop
  have hvN : Norm v := by rw [hv]; exact inv.v1
  have hωN : Norm ω := by rw [hω]; exact inv.r1
  have hkeyeq : toPoly ω = toPoly (ReedSolomonDecoder.fromBack s.U 1) * X ^ 21
      + toPoly v * toPoly T := by
    rw [hv, hω]; exact inv.e1
  -- the correction step
  obtain ⟨h0, hd, st, hst, hcount, he⟩ := correctErrors_true loc v ω e h3
  have hLN := norm_mul v loc hvN.small hlocN.small
  have hLp := toPoly_mul v loc hvN.small hlocN.small
  obtain ⟨st', hst', c1, c2, c3⟩ := correctLoop_spec (v.mul loc) (v.mul loc).differentiate ω
    (small_differentiate _ hLN.small)
  rw [hst] at hst'
  injection hst' with hst'
  subst hst'
  have hZ : ∀ k ∈ (Finset.range 63).filter (isRootAt (v.mul loc) (v.mul loc).differentiate),
      k < 63 := fun k hk => Finset.mem_range.1 (Finset.mem_filter.1 hk).1
  have hlam0 : (toPoly (v.mul loc)).eval 0 ≠ 0 := by
    have e0 := (eval_spec (v.mul loc) hLN.small 0 (by decide)).2
    rw [F64.ofNat_zero] at e0
    rw [← e0]
    intro h
    exact h0 ((F64.ofNat_eq_zero (eval_spec (v.mul loc) hLN.small 0 (by decide)).1).1 h)
  have hlamne : toPoly (v.mul loc) ≠ 0 := by
    intro h
    rw [h, eval_zero] at hlam0
    exact hlam0 rfl
  have hvne : toPoly v ≠ 0 := by
    intro h
    rw [hLp, h, zero_mul] at hlamne
    exact hlamne rfl
  have hlocne : toPoly loc ≠ 0 := by
    intro h
    rw [hLp, h, mul_zero] at hlamne
    exact hlamne rfl
  have hsyn := syn_of_success (toPoly (v.mul loc)) (toPoly ω) (listPoly (syndromeList r))
    ((Finset.range 63).filter (isRootAt (v.mul loc) (v.mul loc).differentiate)) hZ hlam0
    (by rw [← c1, hcount, hLN.natDegree])
    (fun i hi => ((isRootAt_iff _ hLN.small i).1 (Finset.mem_filter.1 hi).2).1)
    (by
      rw [hωN.natDegree, hLp, natDegree_mul hvne hlocne, hvN.natDegree, hlocN.natDegree]
      omega)
    (by
      have hd1 := dvd_of_mod_x21 _ T hprodN hT
      rw [toPoly_mul loc _ hlocN.small hSsmall, toPoly_ofVector] at hd1
      have e : toPoly (v.mul loc) * listPoly (syndromeList r) + toPoly ω
          = toPoly v * (toPoly loc * listPoly (syndromeList r) + toPoly T)
            + toPoly (ReedSolomonDecoder.fromBack s.U 1) * X ^ 21 := by
        rw [hLp, hkeyeq]
        ring
      rw [e]
      exact dvd_add (dvd_mul_of_dvd_right hd1 _) (dvd_mul_left _ _))
    (degree_listPoly_syndromeList r)
  -- the error pattern
  have hsmall : Small st.2 := by
    apply small_of_getD
    intro i
    rw [c3 i]
    split
    · exact GF64.mul_lt _ _
    · decide
  refine ⟨st.2, he, hsmall, c2, ?_⟩
  apply syndromeList_eq_of_listPoly_eq _ _ hsmall hr
  rw [listPoly_syndromeList_of_support st.2 hsmall c2 _ hZ
    (by
      intro i hi
      rw [c3 i, if_neg]
      intro h
      exact hi (Finset.mem_filter.2 ⟨Finset.mem_range.2 h.1, h.2⟩)), ← hsyn]
  unfold synPoly
  apply Finset.sum_congr rfl
  intro j _
  refine congrArg (fun t => C t * X ^ j) ?_
  apply Finset.sum_congr rfl
  intro i hi
  have hi' := Finset.mem_filter.1 hi
  dsimp only
  rw [c3 i, if_pos ⟨Finset.mem_range.1 hi'.1, hi'.2⟩]
  unfold forneyValue
  have hdsm := small_differentiate _ hLN.small
  rw [F64.ofNat_mul (eval_spec ω hωN.small _ (testPoint_lt i)).1 (GF64.inv_lt _),
    F64.ofNat_inv (eval_spec _ hdsm _ (testPoint_lt i)).1,
    ofNat_eval_testPoint ω hωN.small i, ofNat_eval_testPoint _ hdsm i,
    toPoly_differentiate _ hLN.small]

/-- Soundness of `decode`: whenever it reports success, the word it returns, padded with
zeros to 63 symbols, has 21 zero syndromes. -/
theorem decode_sound (r : List Nat) (mask : List Bool) (hr : Small r) (hrlen : r.length = 63)
    (P : GF64_poly) (h : ReedSolomonDecoder.decode r mask = .ok (true, P)) :
    Small (resize P.coefficients 63) ∧
    ∀ j, (syndromeList (resize P.coefficients 63)).getD j 0 = 0 := by
  cases hfast : (ReedSolomonDecoder.calculateSyndromes r mask).is_zero with
  | true =>
    rw [decode_of_syndromes_zero r mask hfast] at h
    injection h with h
    injection h with _ hP
    subst hP
    rw [coefficients_ofVector]
    have e : resize r 63 = r := by
      apply list_eq_of_getD (by rw [length_resize, hrlen])
      intro i
      rw [getD_resize_all]
      split
      · rfl
      · exact (getD_of_le (by omega)).symm
    rw [e]
    exact ⟨hr, (is_zero_calculateSyndromes r mask).1 hfast⟩
  | false =>
    obtain ⟨loc, v, ω, e, h1, h2, h3, hP⟩ := decode_slow_inv r mask true P hfast h
    obtain ⟨err, he, hes, helen, hsyn⟩ := syndromes_of_correction r mask hr hrlen loc v ω e h1 h2 h3
    have hPs : Small P.coefficients := by
      rw [hP, he]
      exact (norm_add _ _ hr hes).small
    have hw := small_resize hPs 63
    refine ⟨hw, ?_⟩
    apply (all_zero_iff_listPoly (syndromeList_small _ hw)).2
    rw [listPoly_syndromeList_xor r err _ hr hes hw hrlen helen (length_resize _ _)
      (by
        intro i hi
        rw [getD_resize _ _ _ hi, hP, he, ofVector_add_getD]), hsyn, poly_add_self]

/-! ## The iteration budget of the Euclidean loop is never used up -/

theorem roundsLeft_step (T : F64[X]) (s s' : ReedSolomonDecoder.EuclidState)
    (inv : EuclidInv T s) (h : ReedSolomonDecoder.euclidStep s = .ok s') :
    roundsLeft s' < roundsLeft s := by
  unfold ReedSolomonDecoder.euclidStep at h
  have hne : toPoly (ReedSolomonDecoder.fromBack s.R 1) ≠ 0 := by
    intro h0
    rw [div_zero_divisor _ _ inv.r1 h0] at h
    cases h
  obtain ⟨d, hd, hdn, rem, hrem, hdeg⟩ := div_spec _ _ inv.r2 inv.r1 hne
  rw [hd] at h
  have h' : (Except.ok
      { Q := s.Q ++ [d]
        R := s.R ++ [(ReedSolomonDecoder.fromBack s.R 2).add
          ((ReedSolomonDecoder.fromBack s.R 1).mul d)]
        U := s.U ++ [(ReedSolomonDecoder.fromBack s.U 2).add
          ((ReedSolomonDecoder.fromBack s.U 1).mul d)]
        V := s.V ++ [(ReedSolomonDecoder.fromBack s.V 2).add
          ((ReedSolomonDecoder.fromBack s.V 1).mul d)] }
      : Except Failure ReedSolomonDecoder.EuclidState) = .ok s' := h
  injection h' with h'
  subst h'
  have hnew : toPoly (ReedSolomonDecoder.fromBack
      (s.R ++ [(ReedSolomonDecoder.fromBack s.R 2).add
        ((ReedSolomonDecoder.fromBack s.R 1).mul d)]) 1) = rem := by
    rw [fromBack_append_one,
      toPoly_add _ _ inv.r2.small (norm_mul _ _ inv.r1.small hdn.small).small,
      toPoly_mul _ _ inv.r1.small hdn.small]
    linear_combination hrem
      + poly_add_self (toPoly (ReedSolomonDecoder.fromBack s.R 1) * toPoly d)
  unfold roundsLeft
  simp only [hnew]
  rw [if_neg hne]
  by_cases hr0 : rem = 0
  · rw [if_pos hr0]
    exact Nat.succ_pos _
  · rw [if_neg hr0]
    have := (natDegree_lt_natDegree hr0 hdeg)
    omega

theorem euclidLoop_budget (T : F64[X]) (mu nu n : Nat) (s : ReedSolomonDecoder.EuclidState)
    (inv : EuclidInv T s) (hn : roundsLeft s < n) :
    ReedSolomonDecoder.euclidLoop mu nu n s ≠ .error .loopBudgetExhausted := by
  induction n generalizing s with
  | zero => omega
  | succ n ih =>
    simp only [ReedSolomonDecoder.euclidLoop]
    split
    · cases hs : ReedSolomonDecoder.euclidStep s with
      | error x =>
        have hx : x = .divisionByZeroPolynomial ∨ x = .divisionByZero := by
          unfold ReedSolomonDecoder.euclidStep at hs
          by_cases h0 : toPoly (ReedSolomonDecoder.fromBack s.R 1) = 0
          · rw [div_zero_divisor _ _ inv.r1 h0] at hs
            left
            injection hs with hs
            exact hs.symm
          · obtain ⟨d, hd, -⟩ := div_spec _ _ inv.r2 inv.r1 h0
            rw [hd] at hs
            cases hs
        show (Except.error x >>= _) ≠ _
        intro hcon
        injection hcon with hcon
        rcases hx with hx | hx <;> rw [hx] at hcon <;> cases hcon
      | ok s1 =>
        show (Except.ok s1 >>= _) ≠ _
        have hlt := roundsLeft_step T s s1 inv hs
        exact ih s1 (euclidInv_step T s s1 inv hs) (by omega)
    · intro hcon
      cases hcon

theorem roundsLeft_init (T : GF64_poly) (hT : Norm T) (hdeg : T.degree ≤ 20) :
    roundsLeft (ReedSolomonDecoder.euclidInit T) < ReedSolomonDecoder.euclidBudget := by
  unfold roundsLeft
  have e : ReedSolomonDecoder.fromBack (ReedSolomonDecoder.euclidInit T).R 1 = T := rfl
  rw [e]
  split
  · decide
  · rw [hT.natDegree]
    show T.degree + 1 < 64
    omega

theorem mod_x21_degree (p T : GF64_poly) (hp : Norm p) (h : p.mod_x21 = .ok T) :
    T.degree ≤ 20 := by
  have hinv := mod_x21_inv p T hp h
  rw [← hinv.1.natDegree, natDegree_le_iff_coeff_eq_zero]
  intro N hN
  rw [hinv.2 N, if_neg (by omega)]

theorem euclideanAlgorithm_budget (syndromes loc : GF64_poly) (hs : Small syndromes.coefficients)
    (hloc : Small loc.coefficients) :
    ReedSolomonDecoder.euclideanAlgorithm syndromes loc ≠ .error .loopBudgetExhausted := by
  unfold ReedSolomonDecoder.euclideanAlgorithm
  cases h1 : (loc.mul syndromes).mod_x21 with
  | error x =>
    have hlen : (loc.mul syndromes).coefficients.length < 21 := by
      by_contra hcon
      obtain ⟨r, hr, -⟩ := mod_x21_spec _ (norm_mul loc syndromes hloc hs).small (by omega)
      rw [hr] at h1
      cases h1
    rw [mod_x21_out_of_range _ hlen] at h1
    injection h1 with h1
    rw [← h1]
    intro hcon
    cases hcon
  | ok T =>
    have hN := norm_mul loc syndromes hloc hs
    have hT := mod_x21_inv _ T hN h1
    have hb := euclidLoop_budget (toPoly T) ((21 - loc.get_degree) / 2)
      ((21 + loc.get_degree + 1) / 2 - 1) ReedSolomonDecoder.euclidBudget _
      (euclidInv_init T hT.1) (roundsLeft_init T hT.1 (mod_x21_degree _ T hN h1))
    cases h2 : ReedSolomonDecoder.euclidLoop ((21 - loc.get_degree) / 2)
        ((21 + loc.get_degree + 1) / 2 - 1) ReedSolomonDecoder.euclidBudget
        (ReedSolomonDecoder.euclidInit T) with
    | error x =>
      show (ReedSolomonDecoder.euclidLoop ((21 - loc.get_degree) / 2)
        ((21 + loc.get_degree + 1) / 2 - 1) ReedSolomonDecoder.euclidBudget
        (ReedSolomonDecoder.euclidInit T) >>= _) ≠ _
      rw [h2]
      intro hcon
      injection hcon with hcon
      rw [hcon] at h2
      exact hb h2
    | ok s =>
      show (ReedSolomonDecoder.euclidLoop ((21 - loc.get_degree) / 2)
        ((21 + loc.get_degree + 1) / 2 - 1) ReedSolomonDecoder.euclidBudget
        (ReedSolomonDecoder.euclidInit T) >>= _) ≠ _
      rw [h2]
      intro hcon
      cases hcon

theorem bind_ne_error {α β : Type} (x : Except Failure α) (f : α → Except Failure β)
    (e : Failure) (hx : x ≠ .error e) (hf : ∀ a, x = .ok a → f a ≠ .error e) :
    (x >>= f) ≠ .error e := by
  cases x with
  | error y =>
    intro hcon
    injection hcon with hcon
    rw [hcon] at hx
    exact hx rfl
  | ok a => exact hf a rfl

theorem euclideanAlgorithm_norm (syndromes loc v ω : GF64_poly)
    (hs : Small syndromes.coefficients) (hloc : Small loc.coefficients)
    (h : ReedSolomonDecoder.euclideanAlgorithm syndromes loc = .ok (v, ω)) :
    Norm v ∧ Norm ω := by
  obtain ⟨T, s, hT, hloop, hv, hω⟩ := euclideanAlgorithm_inv _ loc v ω h
  have hTinv := mod_x21_inv _ T (norm_mul loc _ hloc hs) hT
  have inv := euclidInv_loop (toPoly T) _ _ _ _ s (euclidInv_init T hTinv.1) hloop
  exact ⟨by rw [hv]; exact inv.v1, by rw [hω]; exact inv.r1⟩

theorem correctErrors_ne_error (loc v ω : GF64_poly) (hloc : Small loc.coefficients)
    (hv : Small v.coefficients) (e : Failure) :
    ReedSolomonDecoder.correctErrors loc v ω ≠ .error e := by
  unfold ReedSolomonDecoder.correctErrors
  simp only
  split
  · intro hcon
    cases hcon
  · split
    · intro hcon
      cases hcon
    · obtain ⟨st, hst, -⟩ := correctLoop_spec (v.mul loc) (v.mul loc).differentiate ω
        (small_differentiate _ (norm_mul v loc hv hloc).small)
      show ((List.range 63).foldlM
        (ReedSolomonDecoder.correctStep (v.mul loc) (v.mul loc).differentiate ω)
        (0, List.replicate 63 0) >>= _) ≠ _
      rw [hst]
      intro hcon
      cases hcon

theorem decode_eq (r : List Nat) (mask : List Bool) :
    ReedSolomonDecoder.decode r mask
      = if (ReedSolomonDecoder.calculateSyndromes r mask).is_zero then
          .ok (true, GF64_poly.ofVector r)
        else
          ReedSolomonDecoder.calculateErasureLocator mask >>= fun loc =>
          ReedSolomonDecoder.euclideanAlgorithm
            (ReedSolomonDecoder.calculateSyndromes r mask) loc >>= fun res =>
          ReedSolomonDecoder.correctErrors loc res.1 res.2 >>= fun ecr =>
          pure (ecr.1, (GF64_poly.ofVector r).add ecr.2) := rfl

/-- The budget the model gives the `while` loop never decides a run of `decode`. -/
theorem decode_budget (r : List Nat) (mask : List Bool) (hr : Small r) :
    ReedSolomonDecoder.decode r mask ≠ .error .loopBudgetExhausted := by
  rw [decode_eq]
  split
  · intro hcon
    cases hcon
  · apply bind_ne_error
    · rw [calculateErasureLocator_eq]
      split
      · intro hcon
        cases hcon
      · intro hcon
        cases hcon
    · intro loc h1
      have hlocN : Norm loc := by
        rw [calculateErasureLocator_eq] at h1
        split at h1
        · cases h1
        · injection h1 with h1
          rw [← h1]
          exact (erasureLoop_spec mask).1
      have hS : Small (ReedSolomonDecoder.calculateSyndromes r mask).coefficients := by
        rw [calculateSyndromes_eq]; exact syndromeList_small r hr
      apply bind_ne_error
      · exact euclideanAlgorithm_budget _ loc hS hlocN.small
      · intro res h2
        have hn := euclideanAlgorithm_norm _ loc res.1 res.2 hS hlocN.small h2
        apply bind_ne_error
        · exact correctErrors_ne_error loc res.1 res.2 hlocN.small hn.1.small _
        · intro ecr _ hcon
          cases hcon

theorem syndromes_zero_of_encode (M : List Nat) (hlen : M.length = 42) (hM : Small M)
    (c : List Nat) (hc : ReedSolomonEncoder.encode M = .ok c) :
    ∀ j, (syndromeList c).getD j 0 = 0 := by
  obtain ⟨c', h1, h2, h3, h4⟩ := listPoly_encode M hlen hM
  rw [hc] at h1
  cases h1
  intro j
  by_cases hj : j < 21
  · have e := syndromeList_spec c h3 h2 j hj
    rw [h4, eval_mul, gen_poly_roots j hj, mul_zero] at e
    exact (F64.ofNat_eq_zero (getD_lt_of_small (syndromeList_small c h3) j)).1 e
  · exact getD_of_le (by rw [syndromeList_length]; omega)

/-- C2. Round trip: the encoder's output has 21 zero syndromes, and the decoder, given it
with no erasure, takes the zero-syndrome path and returns success with a polynomial that
stores exactly the 63 symbols it was given. -/
theorem decode_encode_roundtrip (M : List Nat) (hlen : M.length = 42)
    (hM : ∀ x ∈ M, x < 64) :
    ∃ c, ReedSolomonEncoder.encode M = .ok c ∧
      (∀ j, j < 21 →
        (ReedSolomonDecoder.calculateSyndromes c (List.replicate 63 false)).coefficients.getD j 0
          = 0) ∧
      (ReedSolomonDecoder.calculateSyndromes c (List.replicate 63 false)).is_zero = true ∧
      ∃ P, ReedSolomonDecoder.decode c (List.replicate 63 false) = .ok (true, P) ∧
        P.coefficients = c := by
  obtain ⟨c, h1, _, _, _⟩ := listPoly_encode M hlen hM
  have hz := syndromes_zero_of_encode M hlen hM c h1
  have hzero : (ReedSolomonDecoder.calculateSyndromes c (List.replicate 63 false)).is_zero
      = true := by
    rw [calculateSyndromes_eq]
    exact (is_zero_ofVector _).2 hz
  refine ⟨c, h1, fun j _ => ?_, hzero, _, decode_of_syndromes_zero c _ hzero,
    coefficients_ofVector c⟩
  rw [calculateSyndromes_eq, coefficients_ofVector]
  exact hz j

theorem decode_encode_roundtrip_witness :
    ∃ c, ReedSolomonEncoder.encode (List.replicate 42 1) = .ok c ∧
      (∀ j, j < 21 →
        (ReedSolomonDecoder.calculateSyndromes c (List.replicate 63 false)).coefficients.getD j 0
          = 0) ∧
      (ReedSolomonDecoder.calculateSyndromes c (List.replicate 63 false)).is_zero = true ∧
      ∃ P, ReedSolomonDecoder.decode c (List.replicate 63 false) = .ok (true, P) ∧
        P.coefficients = c :=
  decode_encode_roundtrip (List.replicate 42 1) (by decide) (by decide)

/-- C9. Encoder length contract: `encode` fails with the invalid-message-length error
exactly when the message has not 42 symbols, and a 42-symbol message gives a vector of
exactly 63 elements. -/
theorem encode_length_contract (M : List Nat) :
    (ReedSolomonEncoder.encode M = .error .invalidMessageLength ↔ M.length ≠ 42) ∧
    (M.length = 42 → ∃ c, ReedSolomonEncoder.encode M = .ok c ∧ c.length = 63) := by
  constructor
  · constructor
    · intro h hlen
      rw [encode_eq M hlen] at h
      cases h
    · intro h
      unfold ReedSolomonEncoder.encode
      rw [if_pos h]
  · intro hlen
    exact ⟨_, encode_eq M hlen, length_resize _ _⟩

theorem encode_length_contract_witness :
    ∃ c, ReedSolomonEncoder.encode (List.replicate 42 7) = .ok c ∧ c.length = 63 :=
  (encode_length_contract (List.replicate 42 7)).2 (by decide)

theorem generatorSum_spec (M : List Nat) (hM : Small M) (i : Nat) :
    generatorSum M i < 64 ∧
    F64.ofNat (generatorSum M i)
      = ∑ j ∈ Finset.range 42, if j ≤ i ∧ i - j ≤ 21 then
          F64.ofNat (M.getD j 0) * F64.ofNat (gen_poly.getD (i - j) 0) else 0 := by
  have key := foldl_add_eq_sum 42 (fun j => j ≤ i ∧ i - j ≤ 21)
    (fun j => GF64.mul (M.getD j 0) (gen_poly.getD (i - j) 0)) (fun j => GF64.mul_lt _ _)
  refine ⟨key.1, ?_⟩
  unfold generatorSum
  rw [key.2]
  apply Finset.sum_congr rfl
  intro j _
  split
  · rw [F64.ofNat_mul (getD_lt_of_small hM j) (getD_lt_of_small small_gen_poly _)]
  · rfl

theorem coeff_mul_gen (M : List Nat) (hlen : M.length = 42) (i : Nat) :
    (listPoly M * listPoly gen_poly).coeff i
      = ∑ j ∈ Finset.range 42, if j ≤ i ∧ i - j ≤ 21 then
          F64.ofNat (M.getD j 0) * F64.ofNat (gen_poly.getD (i - j) 0) else 0 := by
  rw [coeff_mul, Finset.Nat.sum_antidiagonal_eq_sum_range_succ
    (fun a b => (listPoly M).coeff a * (listPoly gen_poly).coeff b)]
  simp only [coeff_listPoly]
  rw [← Finset.sum_filter]
  symm
  apply Finset.sum_subset_zero_on_sdiff
  · intro j hj
    rw [Finset.mem_filter, Finset.mem_range] at hj
    rw [Finset.mem_range]
    omega
  · intro j hj
    rw [Finset.mem_sdiff, Finset.mem_filter, Finset.mem_range, Finset.mem_range] at hj
    by_cases h42 : j < 42
    · have h21 : 22 ≤ i - j := by omega
      rw [getD_of_le (l := gen_poly) (by simpa using h21), F64.ofNat_zero, mul_zero]
    · rw [getD_of_le (l := M) (by omega), F64.ofNat_zero, zero_mul]
  · intro j _
    rfl

/-- C10. The encoder multiplies by the generator: position `i` of the codeword is the
field sum over `j = 0 .. 41` with `0 ≤ i - j ≤ 21` of `M[j] * gen_poly[i - j]`; the
all-zero message gives 63 zeros. -/
theorem encode_is_generator_product (M : List Nat) (hlen : M.length = 42)
    (hM : ∀ x ∈ M, x < 64) :
    (∃ c, ReedSolomonEncoder.encode M = .ok c ∧
      ∀ i, i < 63 → c.getD i 0 = generatorSum M i) ∧
    ReedSolomonEncoder.encode (List.replicate 42 0) = .ok (List.replicate 63 0) := by
  constructor
  · obtain ⟨c, h1, _, h3, h4⟩ := listPoly_encode M hlen hM
    refine ⟨c, h1, fun i _ => ?_⟩
    apply F64.ofNat_inj (getD_lt_of_small h3 i) (generatorSum_spec M hM i).1
    rw [(generatorSum_spec M hM i).2, ← coeff_mul_gen M hlen i, ← h4, coeff_listPoly]
  · rfl

theorem encode_is_generator_product_witness :
    (∃ c, ReedSolomonEncoder.encode ([1] ++ List.replicate 41 0) = .ok c ∧
      ∀ i, i < 63 → c.getD i 0 = generatorSum ([1] ++ List.replicate 41 0) i) ∧
    ReedSolomonEncoder.encode (List.replicate 42 0) = .ok (List.replicate 63 0) :=
  encode_is_generator_product ([1] ++ List.replicate 41 0) (by decide) (by decide)

/-! ## Runs of the model on concrete words -/

theorem encode_zero_message :
    ReedSolomonEncoder.encode (List.replicate 42 0) = .ok (List.replicate 63 0) := rfl

theorem decode_five_at_zero :
    ReedSolomonDecoder.decode ([5] ++ List.replicate 62 0) (List.replicate 63 false)
      = .ok (true, ⟨[0], 0⟩) := rfl

theorem decode_generator_word :
    ReedSolomonDecoder.decode (gen_poly ++ List.replicate 41 0) (List.replicate 63 false)
      = .ok (true, GF64_poly.ofVector (gen_poly ++ List.replicate 41 0)) := rfl

/-- C3. Single-error correction: replacing one symbol of an encoder output by a different
field element, with no erasure, is undone by `decode`. -/
theorem decode_corrects_single_error (M C : List Nat) (hlen : M.length = 42)
    (hM : ∀ x ∈ M, x < 64) (hC : ReedSolomonEncoder.encode M = .ok C)
    (p v : Nat) (hp : p < 63) (hv : v < 64) (hne : v ≠ C.getD p 0) :
    ∃ P, ReedSolomonDecoder.decode (C.set p v) (List.replicate 63 false) = .ok (true, P) ∧
      ∀ i, i < 63 → P.coefficients.getD i 0 = C.getD i 0 := by
  obtain ⟨c, h1, h2, h3, _⟩ := listPoly_encode M hlen hM
  rw [hC] at h1
  injection h1 with h1
  subst h1
  exact decode_single_core C h3 h2 (syndromes_zero_of_encode M hlen hM C hC) p v hp hv hne

theorem decode_corrects_single_error_witness :
    ∃ P, ReedSolomonDecoder.decode ((List.replicate 63 0).set 0 5) (List.replicate 63 false)
        = .ok (true, P) ∧
      ∀ i, i < 63 → P.coefficients.getD i 0 = (List.replicate 63 0).getD i 0 :=
  decode_corrects_single_error (List.replicate 42 0) (List.replicate 63 0) (by decide)
    (by decide) encode_zero_message 0 5 (by decide) (by decide) (by decide)

/-- C4. Erasure-only correction: a word that agrees with an encoder output outside at
most 21 erased positions, whatever field elements stand at the erased positions, is
decoded to that codeword. -/
theorem decode_corrects_erasures (M C : List Nat) (hlen : M.length = 42)
    (hM : ∀ x ∈ M, x < 64) (hC : ReedSolomonEncoder.encode M = .ok C)
    (mask : List Bool) (hmask : mask.length = 63) (hcount : erasureCount mask ≤ 21)
    (r : List Nat) (hrlen : r.length = 63) (hr : ∀ x ∈ r, x < 64)
    (hagree : ∀ i, i < 63 → mask.getD i false = false → r.getD i 0 = C.getD i 0) :
    ∃ P, ReedSolomonDecoder.decode r mask = .ok (true, P) ∧
      ∀ i, i < 63 → P.coefficients.getD i 0 = C.getD i 0 := by
  obtain ⟨c, h1, h2, h3, _⟩ := listPoly_encode M hlen hM
  rw [hC] at h1
  injection h1 with h1
  subst h1
  exact decode_erasures_core r C mask hr h3 hrlen h2 hmask hcount
    (syndromes_zero_of_encode M hlen hM C hC) hagree

theorem decode_corrects_erasures_witness :
    ∃ P, ReedSolomonDecoder.decode ([5, 9] ++ List.replicate 61 0)
        ([true, true] ++ List.replicate 61 false) = .ok (true, P) ∧
      ∀ i, i < 63 → P.coefficients.getD i 0 = (List.replicate 63 0).getD i 0 :=
  decode_corrects_erasures (List.replicate 42 0) (List.replicate 63 0) (by decide)
    (by decide) encode_zero_message ([true, true] ++ List.replicate 61 false) (by decide)
    (by decide)
    ([5, 9] ++ List.replicate 61 0) (by decide) (by decide) (by decide)

/-- C6 (code defect). The word `5, 0, ..., 0` with no erasure is decoded with success,
but the returned polynomial stores one coefficient, not 63: `operator+` pops the trailing
zeros of `received + error`. -/
theorem decode_single_error_stores_one_coefficient :
    ReedSolomonDecoder.decode ([5] ++ List.replicate 62 0) (List.replicate 63 false)
      = .ok (true, ⟨[0], 0⟩) ∧
    (GF64_poly.mk [0] 0).coefficients.length = 1 :=
  ⟨decode_five_at_zero, rfl⟩

theorem modStep_of_ne (q : GF64_poly) (rem : List Nat) (i : Nat)
    (h : rem.getD i 0 ≠ 0) (hl : q.coefficients.getD q.degree 0 < 64)
    (hl0 : q.coefficients.getD q.degree 0 ≠ 0) :
    Verifier.modStep q rem i
      = .ok ((List.range (q.degree + 1)).foldl
          (fun r j => r.set (i - j) (GF64.add (r.getD (i - j) 0)
            (GF64.mul (q.coefficients.getD (q.degree - j) 0)
              (GF64.mul (rem.getD i 0) (GF64.inv (q.coefficients.getD q.degree 0)))))) rem) := by
  unfold Verifier.modStep
  rw [if_pos h, GF64.div_of_ne_zero hl hl0]
  rfl

theorem modStep_of_eq (q : GF64_poly) (rem : List Nat) (i : Nat)
    (h : rem.getD i 0 = 0) : Verifier.modStep q rem i = .ok rem := by
  unfold Verifier.modStep
  rw [if_neg (not_not.2 h)]
  rfl

theorem remInv_step (p q : GF64_poly) (hp : p.degree < p.coefficients.length)
    (hq : Small q.coefficients) (hlead : q.coefficients.getD q.degree 0 ≠ 0)
    (hdeg : q.degree ≤ p.degree) (k : Nat) (rem : List Nat)
    (hk : k < p.degree - q.degree + 1) (inv : RemInv p q k rem) :
    ∃ rem', Verifier.modStep q rem (p.degree - k) = .ok rem' ∧ RemInv p q (k + 1) rem' := by
  have hlt := getD_lt_of_small hq q.degree
  by_cases hz : rem.getD (p.degree - k) 0 = 0
  · refine ⟨rem, modStep_of_eq q rem _ hz, inv.rlen, inv.rsmall, ?_, inv.eqn⟩
    intro j hj
    by_cases hj2 : j = p.degree - k
    · rw [hj2]; exact hz
    · exact inv.rzero j (by omega)
  · have hc : GF64.mul (rem.getD (p.degree - k) 0) (GF64.inv (q.coefficients.getD q.degree 0))
        < 64 := GF64.mul_lt _ _
    have hin := divInner_spec q hq _ (p.degree - k) hc (by omega) rem inv.rsmall
      (by rw [inv.rlen]; omega)
    have hrk := getD_lt_of_small inv.rsmall (p.degree - k)
    have hcoef : F64.ofNat (GF64.mul (rem.getD (p.degree - k) 0)
          (GF64.inv (q.coefficients.getD q.degree 0))) * F64.ofNat (q.coefficients.getD q.degree 0)
        = F64.ofNat (rem.getD (p.degree - k) 0) := by
      rw [← F64.ofNat_mul hc hlt, GF64.mul_assoc, GF64.mul_comm (GF64.inv _),
        GF64.mul_inv hlt hlead, GF64.mul_one hrk]
    refine ⟨_, modStep_of_ne q rem _ hz hlt hlead, ?_⟩
    refine ⟨by rw [hin.1, inv.rlen], hin.2.1, ?_, ?_⟩
    · intro j hj
      apply (F64.ofNat_eq_zero (getD_lt_of_small hin.2.1 j)).1
      rw [← coeff_listPoly, hin.2.2, coeff_add, coeff_listPoly, mul_assoc, coeff_C_mul,
        coeff_X_pow_mul']
      by_cases hj2 : j = p.degree - k
      · have e1 : p.degree - k - q.degree ≤ j := by omega
        have e2 : j - (p.degree - k - q.degree) = q.degree := by omega
        rw [if_pos e1, e2, coeff_toPoly, if_pos (Nat.le_refl _), hcoef, hj2, F64.add_self]
      · rw [inv.rzero j (by omega), F64.ofNat_zero, zero_add]
        have e1 : p.degree - k - q.degree ≤ j := by omega
        rw [if_pos e1, coeff_toPoly, if_neg (by omega), mul_zero]
    · obtain ⟨A, hA⟩ := inv.eqn
      refine ⟨A + C (F64.ofNat (GF64.mul (rem.getD (p.degree - k) 0)
          (GF64.inv (q.coefficients.getD q.degree 0)))) * X ^ (p.degree - k - q.degree), ?_⟩
      rw [hin.2.2, ← hA]
      have e : ∀ a b c r : F64[X], (a + c) * b + (r + c * b) = a * b + r := by
        intro a b c r
        linear_combination poly_add_self (c * b)
      exact e _ _ _ _

theorem toPoly_eq_listPoly_of_tidy (p : GF64_poly)
    (htidy : ∀ j, p.degree < j → p.coefficients.getD j 0 = 0) :
    toPoly p = listPoly p.coefficients := by
  ext i
  rw [coeff_toPoly, coeff_listPoly]
  split
  · rfl
  · rw [htidy i (by omega)]; rfl

theorem modLoop_spec (p q : GF64_poly) (hp : WF p)
    (htidy : ∀ j, p.degree < j → p.coefficients.getD j 0 = 0)
    (hq : Small q.coefficients) (hlead : q.coefficients.getD q.degree 0 ≠ 0)
    (hdeg : q.degree ≤ p.degree) :
    ∃ rem, Verifier.modLoop p q = .ok rem ∧ RemInv p q (p.degree - q.degree + 1) rem :=
  foldlM_range_induct (fun r k => Verifier.modStep q r (p.degree - k)) p.coefficients
    (p.degree - q.degree + 1) (RemInv p q)
    ⟨rfl, hp.small, fun j hj => htidy j (by omega),
      ⟨0, by rw [zero_mul, zero_add, toPoly_eq_listPoly_of_tidy p htidy]⟩⟩
    (fun k rem hk inv => remInv_step p q hp.deg_lt hq hlead hdeg k rem hk inv)

theorem natDegree_toPoly_of_lead (q : GF64_poly) (hq : Small q.coefficients)
    (hlead : q.coefficients.getD q.degree 0 ≠ 0) :
    toPoly q ≠ 0 ∧ (toPoly q).natDegree = q.degree := by
  have hc : (toPoly q).coeff q.degree ≠ 0 := by
    rw [coeff_toPoly, if_pos (Nat.le_refl _)]
    intro h
    exact hlead ((F64.ofNat_eq_zero (getD_lt_of_small hq _)).1 h)
  have hne : toPoly q ≠ 0 := by
    intro h
    rw [h, coeff_zero] at hc
    exact hc rfl
  refine ⟨hne, le_antisymm ?_ (le_natDegree_of_ne_zero hc)⟩
  rw [natDegree_le_iff_coeff_eq_zero]
  intro N hN
  rw [coeff_toPoly, if_neg (by omega)]

theorem degree_toPoly_le (p : GF64_poly) : (toPoly p).natDegree ≤ p.degree := by
  rw [natDegree_le_iff_coeff_eq_zero]
  intro N hN
  rw [coeff_toPoly, if_neg (by omega)]

/-- The verifier's `operator%` on a dividend whose stored coefficients above the tracked
degree are zero, and a divisor with a nonzero leading coefficient: it returns a remainder
of smaller degree that differs from the dividend by a multiple of the divisor. -/
theorem mod_spec (p q : GF64_poly) (hp : WF p)
    (htidy : ∀ j, p.degree < j → p.coefficients.getD j 0 = 0)
    (hpl : p.degree ≠ 0 → p.coefficients.getD p.degree 0 ≠ 0)
    (hq : Small q.coefficients) (hlead : q.coefficients.getD q.degree 0 ≠ 0) :
    ∃ r, Verifier.mod p q = .ok r ∧ Small r.coefficients ∧
      (r.is_zero = true ↔ toPoly r = 0) ∧
      (∃ A : F64[X], toPoly p = A * toPoly q + toPoly r) ∧
      (toPoly r).degree < (toPoly q).degree ∧
      (p.degree < q.degree → r = p) ∧ (q.degree ≤ p.degree → Norm r) := by
  have hnz : ¬ (q.degree = 0 ∧ q.coefficients.getD 0 0 = 0) := by
    intro ⟨h1, h2⟩
    rw [h1] at hlead
    exact hlead h2
  obtain ⟨hq0, hqd⟩ := natDegree_toPoly_of_lead q hq hlead
  unfold Verifier.mod
  rw [if_neg hnz]
  by_cases hlt : p.degree < q.degree
  · rw [if_pos hlt]
    refine ⟨p, rfl, hp.small, ?_, ⟨0, by rw [zero_mul, zero_add]⟩, ?_, fun _ => rfl,
      fun h => absurd hlt (by omega)⟩
    · rw [toPoly_eq_listPoly_of_tidy p htidy, ← all_zero_iff_listPoly hp.small]
      simp only [GF64_poly.is_zero, Bool.and_eq_true, beq_iff_eq]
      constructor
      · intro ⟨h1, h2⟩ i
        by_cases hi : i = 0
        · rw [hi]; exact h2
        · exact htidy i (by omega)
      · intro h
        refine ⟨?_, h 0⟩
        by_contra hne
        exact hpl hne (h _)
    · rw [degree_eq_natDegree hq0, hqd]
      apply lt_of_le_of_lt degree_le_natDegree
      exact_mod_cast lt_of_le_of_lt (degree_toPoly_le p) hlt
  · rw [if_neg hlt]
    have hdeg : q.degree ≤ p.degree := Nat.le_of_not_lt hlt
    obtain ⟨rem, hrem, inv⟩ := modLoop_spec p q hp htidy hq hlead hdeg
    rw [hrem]
    have hpos : 0 < rem.length := by rw [inv.rlen]; exact lt_of_le_of_lt (Nat.zero_le _) hp.deg_lt
    have hN := norm_ofVector_popZeros inv.rsmall hpos
    refine ⟨_, rfl, hN.small, hN.is_zero_iff, ?_, ?_, fun h => absurd h hlt, fun _ => hN⟩
    · obtain ⟨A, hA⟩ := inv.eqn
      exact ⟨A, by rw [toPoly_ofVector_popZeros, hA]⟩
    · rw [toPoly_ofVector_popZeros, degree_eq_natDegree hq0, hqd, degree_lt_iff_coeff_zero]
      intro m hm
      have hm' : q.degree ≤ m := by exact_mod_cast hm
      rw [coeff_listPoly, inv.rzero m (by omega)]
      rfl

/-! ## The verifier accepts exactly the words with zero syndromes -/

theorem ofVector_gen_poly : GF64_poly.ofVector gen_poly = ⟨gen_poly, 21⟩ := rfl

theorem toPoly_generator : toPoly (GF64_poly.ofVector gen_poly) = listPoly gen_poly :=
  toPoly_ofVector gen_poly

theorem natDegree_generator :
    listPoly gen_poly ≠ 0 ∧ (listPoly gen_poly).natDegree = 21 := by
  have h := natDegree_toPoly_of_lead (GF64_poly.ofVector gen_poly) small_gen_poly (by decide)
  rw [toPoly_generator] at h
  exact h

theorem syndromePoints_card :
    ((Finset.range 21).image (fun j => alpha ^ (j + 1))).card = 21 := by
  rw [Finset.card_image_of_injOn, Finset.card_range]
  intro a ha b hb h
  have ha' : a < 21 := Finset.mem_range.1 ha
  have hb' : b < 21 := Finset.mem_range.1 hb
  have := alpha_pow_inj (i := a + 1) (l := b + 1) (by omega) (by omega) h
  omega

/-- A remainder of division by the generator polynomial vanishes exactly when the
dividend vanishes at the 21 points the syndromes are taken at. -/
theorem remainder_zero_iff_roots (f A r : F64[X]) (h : f = A * listPoly gen_poly + r)
    (hdeg : r.degree < (listPoly gen_poly).degree) :
    r = 0 ↔ ∀ j, j < 21 → f.eval (alpha ^ (j + 1)) = 0 := by
  constructor
  · intro hr j hj
    rw [h, hr, add_zero, eval_mul, gen_poly_roots j hj, mul_zero]
  · intro hroots
    apply eq_zero_of_degree_lt_of_eval_finset_eq_zero
      ((Finset.range 21).image (fun j => alpha ^ (j + 1)))
    · rw [syndromePoints_card]
      rw [degree_eq_natDegree natDegree_generator.1, natDegree_generator.2] at hdeg
      exact hdeg
    · intro x hx
      obtain ⟨j, hj, rfl⟩ := Finset.mem_image.1 hx
      have hj' := Finset.mem_range.1 hj
      have e := hroots j hj'
      rw [h, eval_add, eval_mul, gen_poly_roots j hj', mul_zero, zero_add] at e
      exact e

theorem syndromes_zero_iff_roots (c : List Nat) (hc : Small c) (hlen : c.length = 63) :
    (∀ j, (syndromeList c).getD j 0 = 0)
      ↔ ∀ j, j < 21 → (listPoly c).eval (alpha ^ (j + 1)) = 0 := by
  constructor
  · intro h j hj
    rw [← syndromeList_spec c hc hlen j hj, h j, F64.ofNat_zero]
  · intro h j
    by_cases hj : j < 21
    · have e := syndromeList_spec c hc hlen j hj
      rw [h j hj] at e
      exact (F64.ofNat_eq_zero (getD_lt_of_small (syndromeList_small c hc) j)).1 e
    · rw [syndromeList_getD, if_neg hj]

theorem generator_lead : (GF64_poly.ofVector gen_poly).coefficients.getD
    (GF64_poly.ofVector gen_poly).degree 0 ≠ 0 := by decide

theorem verify_codeword_unfold (c : List Nat) :
    Verifier.verify_codeword c
      = (Verifier.mod (GF64_poly.ofVector c) (GF64_poly.ofVector gen_poly)
          >>= fun rem => pure rem.is_zero) := rfl

/-- The flag `verify_codeword` returns is the flag `is_zero` of the syndrome polynomial. -/
theorem verify_codeword_eq (c : List Nat) (hc : Small c) (hlen : c.length = 63)
    (mask : List Bool) :
    Verifier.verify_codeword c
      = .ok (ReedSolomonDecoder.calculateSyndromes c mask).is_zero := by
  have hwf : WF (GF64_poly.ofVector c) := wf_ofVector hc (by rw [hlen]; decide)
  have htidy : ∀ j, (GF64_poly.ofVector c).degree < j →
      (GF64_poly.ofVector c).coefficients.getD j 0 = 0 :=
    fun j hj => ofVector_getD_above c j hj
  have hpl : (GF64_poly.ofVector c).degree ≠ 0 →
      (GF64_poly.ofVector c).coefficients.getD (GF64_poly.ofVector c).degree 0 ≠ 0 :=
    fun h => stripDegree_ne_zero c (c.length - 1) h
  obtain ⟨r, hr, -, hz, ⟨A, hA⟩, hdeg, -, -⟩ := mod_spec (GF64_poly.ofVector c)
    (GF64_poly.ofVector gen_poly) hwf htidy hpl small_gen_poly generator_lead
  rw [toPoly_ofVector, toPoly_generator] at hA
  rw [toPoly_generator] at hdeg
  rw [verify_codeword_unfold, hr]
  have hb : r.is_zero = (ReedSolomonDecoder.calculateSyndromes c mask).is_zero := by
    rw [Bool.eq_iff_iff, hz, remainder_zero_iff_roots _ A _ hA hdeg,
      is_zero_calculateSyndromes, syndromes_zero_iff_roots c hc hlen]
  rw [← hb]
  rfl

/-! ## The stopping rule of the Euclidean loop -/

theorem euclidLoop_first (mu nu n : Nat) (s s' : ReedSolomonDecoder.EuclidState)
    (h : ReedSolomonDecoder.euclidLoop mu nu n s = .ok s') :
    ∃ k, k ≤ n ∧ euclidIter k s = .ok s' ∧ euclidStop mu nu s' ∧
      ∀ m, m < k → ∃ sm, euclidIter m s = .ok sm ∧ ¬ euclidStop mu nu sm := by
  induction n generalizing s with
  | zero =>
    simp only [ReedSolomonDecoder.euclidLoop] at h
    split at h
    · cases h
    · rename_i hc
      injection h with h
      subst h
      refine ⟨0, Nat.le_refl _, rfl, ?_, fun m hm => absurd hm (Nat.not_lt_zero m)⟩
      unfold euclidStop GF64_poly.get_degree
      simp only [GF64_poly.get_degree] at hc
      omega
  | succ n ih =>
    simp only [ReedSolomonDecoder.euclidLoop] at h
    split at h
    · rename_i hc
      cases hs : ReedSolomonDecoder.euclidStep s with
      | error x =>
        change (ReedSolomonDecoder.euclidStep s >>= _) = _ at h
        rw [hs] at h
        cases h
      | ok s1 =>
        change (ReedSolomonDecoder.euclidStep s >>= _) = _ at h
        rw [hs] at h
        obtain ⟨k, hk, hit, hstop, hfirst⟩ := ih s1 h
        refine ⟨k + 1, by omega, ?_, hstop, ?_⟩
        · show (ReedSolomonDecoder.euclidStep s >>= euclidIter k) = _
          rw [hs]
          exact hit
        · intro m hm
          cases m with
          | zero =>
            refine ⟨s, rfl, ?_⟩
            unfold euclidStop GF64_poly.get_degree
            simp only [GF64_poly.get_degree] at hc
            omega
          | succ m =>
            obtain ⟨sm, hsm, hstop'⟩ := hfirst m (by omega)
            refine ⟨sm, ?_, hstop'⟩
            show (ReedSolomonDecoder.euclidStep s >>= euclidIter m) = _
            rw [hs]
            exact hsm
    · rename_i hc
      injection h with h
      subst h
      refine ⟨0, Nat.zero_le _, rfl, ?_, fun m hm => absurd hm (Nat.not_lt_zero m)⟩
      unfold euclidStop GF64_poly.get_degree
      simp only [GF64_poly.get_degree] at hc
      omega

theorem euclidDeg_init (T : GF64_poly) (hT : Norm T) (hdeg : T.degree ≤ 20) (nu : Nat)
    (hnu : nu ≤ 20) : EuclidDeg nu (ReedSolomonDecoder.euclidInit T) where
  r2ne := by
    show toPoly ReedSolomonDecoder.x21 ≠ 0
    rw [toPoly_x21]
    exact pow_ne_zero _ X_ne_zero
  rdeg := by
    show (toPoly T).degree < (toPoly ReedSolomonDecoder.x21).degree
    rw [toPoly_x21, degree_X_pow]
    apply lt_of_le_of_lt degree_le_natDegree
    rw [hT.natDegree]
    exact_mod_cast Nat.lt_succ_of_le hdeg
  v1ne := by
    show toPoly (GF64_poly.ofVector [1]) ≠ 0
    rw [toPoly_ofVector_one]
    exact one_ne_zero
  vdeg := by
    show (toPoly (GF64_poly.ofVector [0])).degree < (toPoly (GF64_poly.ofVector [1])).degree
    rw [toPoly_ofVector_zero, toPoly_ofVector_one, degree_zero, degree_one]
    exact WithBot.bot_lt_coe 0
  sum := by
    show (toPoly (GF64_poly.ofVector [1])).natDegree
      + (toPoly ReedSolomonDecoder.x21).natDegree = 21
    rw [toPoly_ofVector_one, toPoly_x21, natDegree_one, natDegree_X_pow]
  above := by
    show nu < (toPoly ReedSolomonDecoder.x21).natDegree
    rw [toPoly_x21, natDegree_X_pow]
    omega

/-- One round of the loop body under the invariants: when the loop test asks for another
round, the division does not fail and the invariants hold again. -/
theorem euclidDeg_step (T : F64[X]) (mu nu : Nat) (hmunu : mu + nu = 20)
    (s : ReedSolomonDecoder.EuclidState) (inv : EuclidInv T s) (dinv : EuclidDeg nu s)
    (hc : ¬ euclidStop mu nu s) :
    ∃ s', ReedSolomonDecoder.euclidStep s = .ok s' ∧ EuclidDeg nu s' := by
  have hv1 := inv.v1.natDegree
  have hr1 := inv.r1.natDegree
  have hnu : nu < (ReedSolomonDecoder.fromBack s.R 1).degree := by
    unfold euclidStop GF64_poly.get_degree at hc
    have hs := dinv.sum
    have ha := dinv.above
    rw [hv1] at hs
    omega
  have hne : toPoly (ReedSolomonDecoder.fromBack s.R 1) ≠ 0 := by
    intro h0
    rw [h0, natDegree_zero] at hr1
    omega
  obtain ⟨d, hd, hdn, rem, hrem, hdeg⟩ := div_spec _ _ inv.r2 inv.r1 hne
  have hstep : ReedSolomonDecoder.euclidStep s = .ok
      { Q := s.Q ++ [d]
        R := s.R ++ [(ReedSolomonDecoder.fromBack s.R 2).add
          ((ReedSolomonDecoder.fromBack s.R 1).mul d)]
        U := s.U ++ [(ReedSolomonDecoder.fromBack s.U 2).add
          ((ReedSolomonDecoder.fromBack s.U 1).mul d)]
        V := s.V ++ [(ReedSolomonDecoder.fromBack s.V 2).add
          ((ReedSolomonDecoder.fromBack s.V 1).mul d)] } := by
    unfold ReedSolomonDecoder.euclidStep
    rw [hd]
    rfl
  refine ⟨_, hstep, ?_⟩
  have tp : ∀ a b : GF64_poly, Norm a → Norm b →
      toPoly (a.add (b.mul d)) = toPoly a + toPoly b * toPoly d := by
    intro a b ha hb
    rw [toPoly_add _ _ ha.small (norm_mul _ _ hb.small hdn.small).small,
      toPoly_mul _ _ hb.small hdn.small]
  have hnewR : toPoly ((ReedSolomonDecoder.fromBack s.R 2).add
      ((ReedSolomonDecoder.fromBack s.R 1).mul d)) = rem := by
    rw [tp _ _ inv.r2 inv.r1]
    linear_combination hrem
      + poly_add_self (toPoly (ReedSolomonDecoder.fromBack s.R 1) * toPoly d)
  -- the degree of the quotient
  have hdR : (toPoly d * toPoly (ReedSolomonDecoder.fromBack s.R 1)).degree
      = (toPoly (ReedSolomonDecoder.fromBack s.R 2)).degree := by
    have hlt : rem.degree < (toPoly (ReedSolomonDecoder.fromBack s.R 2)).degree :=
      lt_trans hdeg dinv.rdeg
    have e : toPoly d * toPoly (ReedSolomonDecoder.fromBack s.R 1)
        = toPoly (ReedSolomonDecoder.fromBack s.R 2) + rem := by
      linear_combination (-1 : F64[X]) * hrem - poly_add_self rem
    rw [e, degree_add_eq_left_of_degree_lt hlt]
  have hd0 : toPoly d ≠ 0 := by
    intro h0
    rw [h0, zero_mul, degree_zero] at hdR
    exact dinv.r2ne (degree_eq_bot.1 hdR.symm)
  have hdnat : (toPoly d).natDegree + (toPoly (ReedSolomonDecoder.fromBack s.R 1)).natDegree
      = (toPoly (ReedSolomonDecoder.fromBack s.R 2)).natDegree := by
    rw [← natDegree_mul hd0 hne]
    exact natDegree_eq_of_degree_eq hdR
  have hrlt : (toPoly (ReedSolomonDecoder.fromBack s.R 1)).natDegree
      < (toPoly (ReedSolomonDecoder.fromBack s.R 2)).natDegree :=
    natDegree_lt_natDegree hne dinv.rdeg
  have hdpos : 0 < (toPoly d).natDegree := by omega
  have hVd : toPoly (ReedSolomonDecoder.fromBack s.V 1) * toPoly d ≠ 0 :=
    mul_ne_zero dinv.v1ne hd0
  have hV2lt : (toPoly (ReedSolomonDecoder.fromBack s.V 2)).degree
      < (toPoly (ReedSolomonDecoder.fromBack s.V 1) * toPoly d).degree := by
    apply lt_of_lt_of_le dinv.vdeg
    rw [degree_mul]
    exact le_add_of_nonneg_right (zero_le_degree_iff.2 hd0)
  have hnewV : (toPoly ((ReedSolomonDecoder.fromBack s.V 2).add
      ((ReedSolomonDecoder.fromBack s.V 1).mul d))).degree
      = (toPoly (ReedSolomonDecoder.fromBack s.V 1) * toPoly d).degree := by
    rw [tp _ _ inv.v2 inv.v1, degree_add_eq_right_of_degree_lt hV2lt]
  have hnewVne : toPoly ((ReedSolomonDecoder.fromBack s.V 2).add
      ((ReedSolomonDecoder.fromBack s.V 1).mul d)) ≠ 0 := by
    intro h0
    rw [h0, degree_zero] at hnewV
    exact hVd (degree_eq_bot.1 hnewV.symm)
  have hnewVnat : (toPoly ((ReedSolomonDecoder.fromBack s.V 2).add
      ((ReedSolomonDecoder.fromBack s.V 1).mul d))).natDegree
      = (toPoly (ReedSolomonDecoder.fromBack s.V 1)).natDegree + (toPoly d).natDegree := by
    rw [natDegree_eq_of_degree_eq hnewV, natDegree_mul dinv.v1ne hd0]
  refine ⟨?_, ?_, ?_, ?_, ?_, ?_⟩
  · simp only [fromBack_append_two _ _ inv.lenR]
    exact hne
  · simp only [fromBack_append_one, fromBack_append_two _ _ inv.lenR]
    rw [hnewR]
    exact hdeg
  · simp only [fromBack_append_one]
    exact hnewVne
  · simp only [fromBack_append_one, fromBack_append_two _ _ inv.lenV]
    rw [degree_eq_natDegree dinv.v1ne, degree_eq_natDegree hnewVne, hnewVnat]
    exact_mod_cast Nat.lt_add_of_pos_right hdpos
  · simp only [fromBack_append_one, fromBack_append_two _ _ inv.lenR]
    have hs := dinv.sum
    rw [hnewVnat]
    omega
  · simp only [fromBack_append_two _ _ inv.lenR]
    rw [hr1]
    exact hnu

theorem euclidLoop_total (T : F64[X]) (mu nu : Nat) (hmunu : mu + nu = 20) (n : Nat)
    (s : ReedSolomonDecoder.EuclidState) (inv : EuclidInv T s) (dinv : EuclidDeg nu s)
    (hn : roundsLeft s < n) :
    ∃ s', ReedSolomonDecoder.euclidLoop mu nu n s = .ok s' := by
  induction n generalizing s with
  | zero => omega
  | succ n ih =>
    simp only [ReedSolomonDecoder.euclidLoop]
    split
    · rename_i hc
      have hstop : ¬ euclidStop mu nu s := by
        unfold euclidStop
        omega
      obtain ⟨s1, hs, d1⟩ := euclidDeg_step T mu nu hmunu s inv dinv hstop
      show ∃ s', (ReedSolomonDecoder.euclidStep s >>= _) = Except.ok s'
      rw [hs]
      have hlt := roundsLeft_step T s s1 inv hs
      exact ih s1 (euclidInv_step T s s1 inv hs) d1 (by omega)
    · exact ⟨s, rfl⟩

/-- The Euclidean algorithm when `mod_x21` reads in range: it returns, and the pair it
returns is the first of the sequence at which both degree bounds hold. -/
theorem euclideanAlgorithm_spec (S loc : GF64_poly) (hS : Small S.coefficients)
    (hloc : Small loc.coefficients) (he : loc.degree ≤ 21)
    (hrange : 21 ≤ (loc.mul S).coefficients.length) :
    ∃ T n s, (loc.mul S).mod_x21 = .ok T ∧ Norm T ∧ T.degree ≤ 20 ∧
      euclidIter n (ReedSolomonDecoder.euclidInit T) = .ok s ∧
      ReedSolomonDecoder.euclideanAlgorithm S loc
        = .ok (ReedSolomonDecoder.fromBack s.V 1, ReedSolomonDecoder.fromBack s.R 1) ∧
      euclidStop ((21 - loc.degree) / 2) ((21 + loc.degree + 1) / 2 - 1) s ∧
      ∀ m, m < n → ∃ sm, euclidIter m (ReedSolomonDecoder.euclidInit T) = .ok sm ∧
        ¬ euclidStop ((21 - loc.degree) / 2) ((21 + loc.degree + 1) / 2 - 1) sm := by
  have hN := norm_mul loc S hloc hS
  obtain ⟨T, hT, hTn, -⟩ := mod_x21_spec _ hN.small hrange
  have hTd := mod_x21_degree _ T hN hT
  obtain ⟨s, hs⟩ := euclidLoop_total (toPoly T) ((21 - loc.degree) / 2)
    ((21 + loc.degree + 1) / 2 - 1) (by omega) ReedSolomonDecoder.euclidBudget _
    (euclidInv_init T hTn) (euclidDeg_init T hTn hTd _ (by omega)) (roundsLeft_init T hTn hTd)
  obtain ⟨n, -, hit, hstop, hfirst⟩ := euclidLoop_first _ _ _ _ _ hs
  exact ⟨T, n, s, hT, hTn, hTd, hit, euclideanAlgorithm_eq S loc T s hT hs, hstop, hfirst⟩

theorem euclideanAlgorithm_out_of_range (S loc : GF64_poly)
    (hrange : (loc.mul S).coefficients.length < 21) :
    ReedSolomonDecoder.euclideanAlgorithm S loc = .error .indexOutOfRange := by
  unfold ReedSolomonDecoder.euclideanAlgorithm
  rw [mod_x21_out_of_range _ hrange]
  rfl

/-! ## The outcomes of `decode` -/

theorem erasureLoop_degree_eq_count (mask : List Bool) (hmask : mask.length = 63) :
    (erasureLoop mask).degree = erasureCount mask := by
  rw [erasureLoop_degree, card_erasedSet mask hmask]
  rfl

/-- The four outcomes of `decode` on a word of 63 field elements and a mask of 63 entries:
the zero-syndrome return, the erasure-capacity exit, the out-of-range read of `mod_x21`,
and the ordinary return of a flag and a polynomial. -/
theorem decode_outcome (r : List Nat) (mask : List Bool) (hr : Small r)
    (hmask : mask.length = 63) :
    ((ReedSolomonDecoder.calculateSyndromes r mask).is_zero = true →
      ReedSolomonDecoder.decode r mask = .ok (true, GF64_poly.ofVector r)) ∧
    ((ReedSolomonDecoder.calculateSyndromes r mask).is_zero = false →
      21 < erasureCount mask →
      ReedSolomonDecoder.decode r mask = .error .erasureCapacityExceeded) ∧
    ((ReedSolomonDecoder.calculateSyndromes r mask).is_zero = false →
      erasureCount mask ≤ 21 →
      ((erasureLoop mask).mul (ReedSolomonDecoder.calculateSyndromes r mask)).coefficients.length
        < 21 →
      ReedSolomonDecoder.decode r mask = .error .indexOutOfRange) ∧
    ((ReedSolomonDecoder.calculateSyndromes r mask).is_zero = false →
      erasureCount mask ≤ 21 →
      21 ≤ ((erasureLoop mask).mul
        (ReedSolomonDecoder.calculateSyndromes r mask)).coefficients.length →
      ∃ b P, ReedSolomonDecoder.decode r mask = .ok (b, P)) := by
  have hdeg := erasureLoop_degree_eq_count mask hmask
  have hlocN := (erasureLoop_spec mask).1
  have hS : Small (ReedSolomonDecoder.calculateSyndromes r mask).coefficients := by
    rw [calculateSyndromes_eq]; exact syndromeList_small r hr
  refine ⟨decode_of_syndromes_zero r mask, ?_, ?_, ?_⟩
  · intro hz hcount
    rw [decode_eq, hz, if_neg Bool.false_ne_true, calculateErasureLocator_eq,
      if_pos (by rw [hdeg]; exact hcount)]
    rfl
  · intro hz hcount hlen
    rw [decode_eq, hz, if_neg Bool.false_ne_true, calculateErasureLocator_eq,
      if_neg (by rw [hdeg]; omega)]
    show (ReedSolomonDecoder.euclideanAlgorithm _ (erasureLoop mask) >>= _) = _
    rw [euclideanAlgorithm_out_of_range _ _ hlen]
    rfl
  · intro hz hcount hlen
    have hloc : ReedSolomonDecoder.calculateErasureLocator mask = .ok (erasureLoop mask) := by
      rw [calculateErasureLocator_eq, if_neg (by rw [hdeg]; omega)]
    obtain ⟨T, n, s, -, -, -, -, heuc, -, -⟩ := euclideanAlgorithm_spec _ (erasureLoop mask) hS
      hlocN.small (by rw [hdeg]; exact hcount) hlen
    have hn := euclideanAlgorithm_norm _ _ _ _ hS hlocN.small heuc
    cases hce : ReedSolomonDecoder.correctErrors (erasureLoop mask)
        (ReedSolomonDecoder.fromBack s.V 1) (ReedSolomonDecoder.fromBack s.R 1) with
    | error x => exact absurd hce (correctErrors_ne_error _ _ _ hlocN.small hn.1.small x)
    | ok be =>
      exact ⟨be.1, _, decode_slow r mask hz _ _ _ be.2 be.1 hloc heuc hce⟩

/-! ## The operators return normalised polynomials -/

theorem foldlM_range_ok_induct {β : Type} (f : β → Nat → Except Failure β) (b : β) (n : Nat)
    (P : Nat → β → Prop) (h0 : P 0 b)
    (hs : ∀ k s s', k < n → P k s → f s k = .ok s' → P (k + 1) s')
    (s' : β) (h : (List.range n).foldlM f b = .ok s') : P n s' := by
  induction n generalizing s' with
  | zero =>
    have e : (Except.ok b : Except Failure β) = .ok s' := h
    injection e with e
    rw [← e]
    exact h0
  | succ n ih =>
    rw [List.range_succ, List.foldlM_append] at h
    cases h1 : (List.range n).foldlM f b with
    | error x =>
      rw [h1] at h
      cases h
    | ok s1 =>
      rw [h1] at h
      simp only [List.foldlM_cons, List.foldlM_nil] at h
      have p1 := ih (fun k s s' hk hP => hs k s s' (Nat.lt_succ_of_lt hk) hP) s1 h1
      cases h2 : f s1 n with
      | error x =>
        change (f s1 n >>= fun x => pure x) = _ at h
        rw [h2] at h
        cases h
      | ok s2 =>
        change (f s1 n >>= fun x => pure x) = _ at h
        rw [h2] at h
        have e : (Except.ok s2 : Except Failure β) = .ok s' := h
        injection e with e
        rw [← e]
        exact hs n s1 s2 (Nat.lt_succ_self n) p1 h2

theorem GF64.div_lt {a b d : Nat} (h : GF64.div a b = .ok d) : d < 64 := by
  unfold GF64.div at h
  split at h
  · cases h
  · split at h
    · injection h with h
      rw [← h]
      decide
    · injection h with h
      rw [← h]
      exact GF64.pow_lt _ (Nat.mod_lt _ (by decide))

theorem norm_smul (p : GF64_poly) (c : Nat) : Norm (p.smul c) := by
  have key := foldl_set_pointwise (p.degree + 1)
    (fun i _ => GF64.mul (p.coefficients.getD i 0) c) (List.replicate (p.degree + 1) 0)
  unfold GF64_poly.smul
  apply norm_ofVector_popZeros
  · apply small_of_getD
    intro i
    have h := key.2 i
    rw [h]
    split
    · exact GF64.mul_lt _ _
    · rw [getD_replicate]
      decide
  · have h := key.1
    rw [h, List.length_replicate]
    exact Nat.succ_pos _

theorem divStep_quotient (q : GF64_poly) (st st' : List Nat × List Nat) (i : Nat)
    (h : GF64_poly.divStep q st i = .ok st') (hs : Small st.1) :
    st'.1.length = st.1.length ∧ Small st'.1 := by
  unfold GF64_poly.divStep at h
  split at h
  · cases hd : GF64.div (st.2.getD i 0) (q.coefficients.getD q.degree 0) with
    | error x =>
      rw [hd] at h
      cases h
    | ok coef =>
      rw [hd] at h
      have e : (Except.ok (st.1.set (i - q.degree) coef,
          (List.range (q.degree + 1)).foldl
            (fun r j => r.set (i - j) (GF64.add (r.getD (i - j) 0)
              (GF64.mul (q.coefficients.getD (q.degree - j) 0) coef))) st.2)
          : Except Failure (List Nat × List Nat)) = .ok st' := h
      injection e with e
      rw [← e]
      exact ⟨List.length_set _ _ _, small_set hs _ (GF64.div_lt hd)⟩
  · have e : (Except.ok st : Except Failure (List Nat × List Nat)) = .ok st' := h
    injection e with e
    rw [← e]
    exact ⟨rfl, hs⟩

/-- Whatever the operands, a quotient that `operator/` returns is normalised. -/
theorem div_ok_norm (p q d : GF64_poly) (h : p.div q = .ok d) : Norm d := by
  unfold GF64_poly.div at h
  split at h
  · cases h
  · split at h
    · injection h with h
      rw [← h]
      exact norm_zero
    · cases hl : GF64_poly.divLoop p q with
      | error x =>
        rw [hl] at h
        cases h
      | ok st =>
        rw [hl] at h
        have e : (Except.ok (GF64_poly.ofVector (popZeros st.1.length st.1))
            : Except Failure GF64_poly) = .ok d := h
        injection e with e
        rw [← e]
        have inv := foldlM_range_ok_induct
          (fun st k => GF64_poly.divStep q st (p.degree - k))
          (List.replicate (p.degree - q.degree + 1) 0, p.coefficients)
          (p.degree - q.degree + 1)
          (fun _ st => st.1.length = p.degree - q.degree + 1 ∧ Small st.1)
          ⟨List.length_replicate _ _, small_replicate _⟩
          (fun k s s' _ hP hstep => by
            have := divStep_quotient q s s' _ hstep hP.2
            exact ⟨by rw [this.1, hP.1], this.2⟩)
          st hl
        exact norm_ofVector_popZeros inv.2 (by rw [inv.1]; exact Nat.succ_pos _)

/-- With a divisor whose stored coefficient at the tracked degree is nonzero,
`operator/` returns. -/
theorem div_returns (p q : GF64_poly) (hq : Small q.coefficients)
    (hlead : q.coefficients.getD q.degree 0 ≠ 0) : ∃ d, p.div q = .ok d := by
  have hnz : ¬ (q.degree = 0 ∧ q.coefficients.getD 0 0 = 0) := by
    intro ⟨h1, h2⟩
    rw [h1] at hlead
    exact hlead h2
  unfold GF64_poly.div
  rw [if_neg hnz]
  by_cases hlt : p.degree < q.degree
  · rw [if_pos hlt]
    exact ⟨_, rfl⟩
  · rw [if_neg hlt]
    obtain ⟨st, hst, -⟩ := foldlM_range_induct
      (fun st k => GF64_poly.divStep q st (p.degree - k))
      (List.replicate (p.degree - q.degree + 1) 0, p.coefficients) (p.degree - q.degree + 1)
      (fun _ _ => True) trivial
      (fun k st _ _ => by
        by_cases hz : st.2.getD (p.degree - k) 0 = 0
        · exact ⟨st, divStep_of_eq q st _ hz, trivial⟩
        · exact ⟨_, divStep_of_ne q st _ hz (getD_lt_of_small hq _) hlead, trivial⟩)
    have hst' : GF64_poly.divLoop p q = .ok st := hst
    rw [hst']
    exact ⟨_, rfl⟩

/-! ## The verifier, and the laws of the field arithmetic -/

theorem generator_monic : (listPoly gen_poly).Monic := by
  unfold Monic leadingCoeff
  rw [natDegree_generator.2, coeff_listPoly]
  exact F64.ofNat_one

theorem generator_dvd_iff_roots (f : F64[X]) :
    listPoly gen_poly ∣ f ↔ ∀ j, j < 21 → f.eval (alpha ^ (j + 1)) = 0 := by
  rw [← modByMonic_eq_zero_iff_dvd generator_monic]
  apply remainder_zero_iff_roots f (f /ₘ listPoly gen_poly)
  · rw [mul_comm, add_comm]
    exact (modByMonic_add_div f generator_monic).symm
  · exact degree_modByMonic_lt f generator_monic

theorem encode_unit_message :
    ReedSolomonEncoder.encode ([1] ++ List.replicate 41 0)
      = .ok (gen_poly ++ List.replicate 41 0) := rfl

/-- C11. Every encoder output passes the verifier: for a message of 42 field elements,
`verify_codeword` returns `true` on the word `encode` returns, that is the remainder of the
word's polynomial by the generator polynomial under `operator%` is the zero polynomial. -/
theorem verify_accepts_encoder_output (M C : List Nat) (hlen : M.length = 42)
    (hM : ∀ x ∈ M, x < 64) (hC : ReedSolomonEncoder.encode M = .ok C) :
    Verifier.verify_codeword C = .ok true := by
  obtain ⟨c, h1, h2, h3, _⟩ := listPoly_encode M hlen hM
  rw [hC] at h1
  injection h1 with h1
  subst h1
  rw [verify_codeword_eq C h3 h2 [],
    (is_zero_calculateSyndromes C []).2 (syndromes_zero_of_encode M hlen hM C hC)]

theorem verify_accepts_encoder_output_witness :
    Verifier.verify_codeword (gen_poly ++ List.replicate 41 0) = .ok true :=
  verify_accepts_encoder_output ([1] ++ List.replicate 41 0) (gen_poly ++ List.replicate 41 0)
    (by decide) (by decide) encode_unit_message

/-- C12. Zero syndromes characterise valid codewords: on a word of 63 field elements
`verify_codeword` returns (without failure) the flag `is_zero` of the syndrome polynomial,
and that flag is `true` exactly when the generator polynomial divides the word's
polynomial. -/
theorem zero_syndromes_iff_verified (c : List Nat) (mask : List Bool) (hlen : c.length = 63)
    (hc : ∀ x ∈ c, x < 64) :
    Verifier.verify_codeword c
      = .ok (ReedSolomonDecoder.calculateSyndromes c mask).is_zero ∧
    ((ReedSolomonDecoder.calculateSyndromes c mask).is_zero = true
      ↔ Verifier.verify_codeword c = .ok true) ∧
    ((ReedSolomonDecoder.calculateSyndromes c mask).is_zero = true
      ↔ listPoly gen_poly ∣ listPoly c) := by
  have h := verify_codeword_eq c hc hlen mask
  refine ⟨h, ?_, ?_⟩
  · rw [h]
    constructor
    · intro e; rw [e]
    · intro e
      injection e
  · rw [is_zero_calculateSyndromes, syndromes_zero_iff_roots c hc hlen,
      generator_dvd_iff_roots]

theorem zero_syndromes_iff_verified_witness :
    Verifier.verify_codeword ([5] ++ List.replicate 62 0)
      = .ok (ReedSolomonDecoder.calculateSyndromes ([5] ++ List.replicate 62 0)
          (List.replicate 63 false)).is_zero ∧
    ((ReedSolomonDecoder.calculateSyndromes ([5] ++ List.replicate 62 0)
        (List.replicate 63 false)).is_zero = true
      ↔ Verifier.verify_codeword ([5] ++ List.replicate 62 0) = .ok true) ∧
    ((ReedSolomonDecoder.calculateSyndromes ([5] ++ List.replicate 62 0)
        (List.replicate 63 false)).is_zero = true
      ↔ listPoly gen_poly ∣ listPoly ([5] ++ List.replicate 62 0)) :=
  zero_syndromes_iff_verified ([5] ++ List.replicate 62 0) (List.replicate 63 false)
    (by decide) (by decide)

/-- C13. Division inverts multiplication: for `a`, `b` in `1 .. 63`, `divide(a, b)`
returns a value whose product with `b` is `a`. -/
theorem gf64_divide_then_multiply (a b : Nat) (ha1 : 1 ≤ a) (ha : a ≤ 63) (hb1 : 1 ≤ b)
    (hb : b ≤ 63) : ∃ d, GF64.div a b = .ok d ∧ GF64.mul d b = a := by
  have hb64 : b < 64 := by omega
  refine ⟨_, GF64.div_of_ne_zero hb64 (by omega), ?_⟩
  rw [GF64.mul_assoc, GF64.mul_comm (GF64.inv b), GF64.mul_inv hb64 (by omega),
    GF64.mul_one (by omega)]

theorem gf64_divide_then_multiply_witness : ∃ d, GF64.div 5 7 = .ok d ∧ GF64.mul d 7 = 5 :=
  gf64_divide_then_multiply 5 7 (by decide) (by decide) (by decide) (by decide)

/-- C14. The value 1 is the multiplicative identity: for every `a` in `0 .. 63`,
`multiply(a, 1) = a` and `multiply(1, a) = a`. -/
theorem gf64_one_is_identity (a : Nat) (ha : a ≤ 63) :
    GF64.mul a 1 = a ∧ GF64.mul 1 a = a :=
  ⟨GF64.mul_one (by omega), GF64.one_mul (by omega)⟩

theorem gf64_one_is_identity_witness : GF64.mul 37 1 = 37 ∧ GF64.mul 1 37 = 37 :=
  gf64_one_is_identity 37 (by decide)

/-- C15. Error handling of the field division: for `a`, `b` in `0 .. 63`, `divide(a, b)`
fails exactly when `b = 0`, and then with the division-by-zero error; it returns 0 when
`b ≠ 0` and `a = 0`; when both are nonzero it returns
`pow_table[(log_table[a] - log_table[b] + 63) mod 63]` (the exponent computed in the
integers, as the source does), a value in `1 .. 63`. -/
theorem gf64_divide_contract (a b : Nat) (ha : a ≤ 63) (hb : b ≤ 63) :
    (GF64.div a b = .error .divisionByZero ↔ b = 0) ∧
    ((∃ e, GF64.div a b = .error e) ↔ b = 0) ∧
    (b ≠ 0 → a = 0 → GF64.div a b = .ok 0) ∧
    (a ≠ 0 → b ≠ 0 → ∃ k : Nat,
      (k : Int) = ((log_table.getD a 0 : Int) - (log_table.getD b 0 : Int) + 63) % 63 ∧
      GF64.div a b = .ok (pow_table.getD k 0) ∧
      1 ≤ pow_table.getD k 0 ∧ pow_table.getD k 0 ≤ 63) := by
  unfold GF64.div
  refine ⟨?_, ?_, ?_, ?_⟩
  · constructor
    · intro h
      by_contra hb0
      rw [if_neg hb0] at h
      split at h <;> cases h
    · intro h
      rw [if_pos h]
  · constructor
    · intro ⟨e, h⟩
      by_contra hb0
      rw [if_neg hb0] at h
      split at h <;> cases h
    · intro h
      exact ⟨_, by rw [if_pos h]⟩
  · intro hb0 ha0
    rw [if_neg hb0, if_pos ha0]
  · intro ha0 hb0
    rw [if_neg hb0, if_neg ha0]
    have hlb := GF64.log_lt b (by omega)
    have hk : (log_table.getD a 0 + 63 - log_table.getD b 0) % 63 < 63 :=
      Nat.mod_lt _ (by decide)
    refine ⟨(log_table.getD a 0 + 63 - log_table.getD b 0) % 63, ?_, rfl, GF64.pow_pos _ hk, ?_⟩
    · generalize log_table.getD a 0 = la at *
      generalize log_table.getD b 0 = lb at *
      omega
    · have := GF64.pow_lt _ hk
      omega

theorem gf64_divide_contract_witness :
    (GF64.div 5 7 = .error .divisionByZero ↔ 7 = 0) ∧
    ((∃ e, GF64.div 5 7 = .error e) ↔ 7 = 0) ∧
    (7 ≠ 0 → 5 = 0 → GF64.div 5 7 = .ok 0) ∧
    (5 ≠ 0 → 7 ≠ 0 → ∃ k : Nat,
      (k : Int) = ((log_table.getD 5 0 : Int) - (log_table.getD 7 0 : Int) + 63) % 63 ∧
      GF64.div 5 7 = .ok (pow_table.getD k 0) ∧
      1 ≤ pow_table.getD k 0 ∧ pow_table.getD k 0 ≤ 63) :=
  gf64_divide_contract 5 7 (by decide) (by decide)

/-- C16. The power and log tables are mutually inverse after the initialisation loop of
`main`: `pow_table[log_table[x]] = x` for `x` in `1 .. 63`, `log_table[pow_table[i]] = i`
for `i` in `0 .. 62`; the 63 entries of `pow_table` are pairwise distinct and are exactly
the values `1 .. 63`. -/
theorem tables_mutually_inverse :
    (∀ x, x < 64 → 1 ≤ x → pow_table.getD (log_table.getD x 0) 0 = x) ∧
    (∀ i, i < 63 → log_table.getD (pow_table.getD i 0) 0 = i) ∧
    pow_table.length = 63 ∧ log_table.length = 64 ∧ pow_table.Nodup ∧
    (∀ v ∈ pow_table, 1 ≤ v ∧ v ≤ 63) ∧
    (∀ v, v < 64 → 1 ≤ v → v ∈ pow_table) := by
  refine ⟨GF64.pow_log, GF64.log_pow, rfl, ?_, ?_, ?_, ?_⟩
  · rw [GF64.log_table_eq]; rfl
  · decide
  · decide
  · decide

/-! ## Division law and normalisation -/

/-- C17. Polynomial division law: for a normalised `P` and a normalised nonzero `Q`,
`operator/` returns a quotient and the verifier's `operator%` a remainder; the remainder is
`P + Q * quotient` as the Euclidean loop computes it, `quotient * Q + remainder` is `P`
(as polynomials over the field, and as values of the operators), the remainder is the zero
polynomial or has a tracked degree below that of `Q`, and when `deg P < deg Q` the
quotient is the zero polynomial and the remainder is `P`. -/
theorem polynomial_division_law (P Q : GF64_poly) (hP : Norm P) (hQ : Norm Q)
    (hQ0 : Q.is_zero = false) :
    ∃ quotient remainder, P.div Q = .ok quotient ∧ Verifier.mod P Q = .ok remainder ∧
      remainder = P.add (Q.mul quotient) ∧
      (quotient.mul Q).add remainder = P ∧
      toPoly P = toPoly quotient * toPoly Q + toPoly remainder ∧
      (remainder.is_zero = true ∨ remainder.degree < Q.degree) ∧
      (P.degree < Q.degree → quotient = GF64_poly.zero ∧ remainder = P) := by
  have h0 : toPoly Q ≠ 0 := by
    intro h
    have := hQ.is_zero_iff.2 h
    rw [hQ0] at this
    cases this
  obtain ⟨d, hd, hdn, rem, hrem, hdeg⟩ := div_spec P Q hP hQ h0
  obtain ⟨r, hr, -, hz, ⟨A, hA⟩, hdeg', hlt', hnorm'⟩ := mod_spec P Q hP.wf
    (fun j hj => getD_of_le (by rw [hP.len]; omega)) hP.lead hQ.small (hQ.lead_ne_zero h0)
  have hrn : Norm r := by
    by_cases hlt : P.degree < Q.degree
    · rw [hlt' hlt]; exact hP
    · exact hnorm' (Nat.le_of_not_lt hlt)
  obtain ⟨-, hrr⟩ := div_unique (toPoly P) (toPoly Q) (toPoly d) A rem (toPoly r) h0 hrem hA
    hdeg hdeg'
  rw [hrr] at hrem
  have hQd := norm_mul Q d hQ.small hdn.small
  have hdQ := norm_mul d Q hdn.small hQ.small
  refine ⟨d, r, hd, hr, ?_, ?_, hrem, ?_, ?_⟩
  · apply Norm.eq_of_toPoly_eq hrn (norm_add _ _ hP.small hQd.small)
    rw [toPoly_add _ _ hP.small hQd.small, toPoly_mul _ _ hQ.small hdn.small]
    linear_combination hrem + poly_add_self (toPoly r) - poly_add_self (toPoly P)
  · apply Norm.eq_of_toPoly_eq (norm_add _ _ hdQ.small hrn.small) hP
    rw [toPoly_add _ _ hdQ.small hrn.small, toPoly_mul _ _ hdn.small hQ.small]
    exact hrem.symm
  · by_cases hr0 : toPoly r = 0
    · exact Or.inl (hz.2 hr0)
    · right
      have := natDegree_lt_natDegree hr0 hdeg'
      rw [hrn.natDegree, hQ.natDegree] at this
      exact this
  · intro hlt
    refine ⟨?_, hlt' hlt⟩
    have hnz : ¬ (Q.degree = 0 ∧ Q.coefficients.getD 0 0 = 0) := by
      intro ⟨h1, h2⟩
      have := hQ.lead_ne_zero h0
      rw [h1] at this
      exact this h2
    unfold GF64_poly.div at hd
    rw [if_neg hnz, if_pos hlt] at hd
    injection hd with hd
    exact hd.symm

theorem polynomial_division_law_witness :
    ∃ quotient remainder,
      (GF64_poly.mk [1, 0, 1] 2).div (GF64_poly.mk [1, 1] 1) = .ok quotient ∧
      Verifier.mod (GF64_poly.mk [1, 0, 1] 2) (GF64_poly.mk [1, 1] 1) = .ok remainder ∧
      remainder = (GF64_poly.mk [1, 0, 1] 2).add ((GF64_poly.mk [1, 1] 1).mul quotient) ∧
      (quotient.mul (GF64_poly.mk [1, 1] 1)).add remainder = GF64_poly.mk [1, 0, 1] 2 ∧
      toPoly (GF64_poly.mk [1, 0, 1] 2)
        = toPoly quotient * toPoly (GF64_poly.mk [1, 1] 1) + toPoly remainder ∧
      (remainder.is_zero = true ∨ remainder.degree < (GF64_poly.mk [1, 1] 1).degree) ∧
      ((GF64_poly.mk [1, 0, 1] 2).degree < (GF64_poly.mk [1, 1] 1).degree →
        quotient = GF64_poly.zero ∧ remainder = GF64_poly.mk [1, 0, 1] 2) :=
  polynomial_division_law (GF64_poly.mk [1, 0, 1] 2) (GF64_poly.mk [1, 1] 1)
    ⟨by unfold Small; decide, rfl, by decide⟩ ⟨by unfold Small; decide, rfl, by decide⟩ rfl

/-- C18 (counterexample). The polynomial `differentiate` returns for `x^2 + x` stores the
coefficients `1, 0` with tracked degree 1: the degree indexes a stored coefficient and the
polynomial is not zero, but the coefficient at the tracked degree is 0. Dividing `x` by it
ends in the field's division-by-zero error, so `operator/` has no result to normalise. -/
theorem div_by_unnormalised_divisor_fails :
    (GF64_poly.ofVector [0, 1, 1]).differentiate = GF64_poly.mk [1, 0] 1 ∧
    (GF64_poly.mk [1, 0] 1).degree < (GF64_poly.mk [1, 0] 1).coefficients.length ∧
    (GF64_poly.mk [1, 0] 1).is_zero = false ∧
    (GF64_poly.mk [0, 1] 1).degree < (GF64_poly.mk [0, 1] 1).coefficients.length ∧
    (GF64_poly.mk [0, 1] 1).div (GF64_poly.mk [1, 0] 1) = .error .divisionByZero :=
  ⟨rfl, by decide, rfl, by decide, rfl⟩

/-- C18 (amended). For polynomials `P`, `Q` of field elements whose tracked degree indexes
a stored coefficient and a field element `c`: `P + Q`, `P * c`, `P * Q` and, when `P`
stores at least 21 coefficients, `P.mod_x21()` are normalised (exactly `degree + 1` stored
coefficients, a nonzero coefficient at the tracked degree unless that degree is 0);
`P / Q` returns when the coefficient of `Q` at its tracked degree is nonzero, and every
result `P / Q` returns is normalised. -/
theorem operators_return_normalised (P Q : GF64_poly) (c : Nat) (hP : WF P) (hQ : WF Q)
    (hc : c < 64) :
    Norm (P.add Q) ∧ Norm (P.smul c) ∧ Norm (P.mul Q) ∧
    (Q.coefficients.getD Q.degree 0 ≠ 0 → ∃ d, P.div Q = .ok d ∧ Norm d) ∧
    (∀ d, P.div Q = .ok d → Norm d) ∧
    (21 ≤ P.coefficients.length → ∃ T, P.mod_x21 = .ok T ∧ Norm T) := by
  refine ⟨norm_add P Q hP.small hQ.small, norm_smul P c, norm_mul P Q hP.small hQ.small,
    ?_, fun d hd => div_ok_norm P Q d hd, ?_⟩
  · intro hlead
    obtain ⟨d, hd⟩ := div_returns P Q hQ.small hlead
    exact ⟨d, hd, div_ok_norm P Q d hd⟩
  · intro hlen
    obtain ⟨T, hT, hTn, -⟩ := mod_x21_spec P hP.small hlen
    exact ⟨T, hT, hTn⟩

theorem operators_return_normalised_witness :
    Norm ((GF64_poly.mk [1, 0, 1] 2).add (GF64_poly.mk [1, 1] 1)) ∧
    Norm ((GF64_poly.mk [1, 0, 1] 2).smul 0) ∧
    Norm ((GF64_poly.mk [1, 0, 1] 2).mul (GF64_poly.mk [1, 1] 1)) ∧
    ((GF64_poly.mk [1, 1] 1).coefficients.getD (GF64_poly.mk [1, 1] 1).degree 0 ≠ 0 →
      ∃ d, (GF64_poly.mk [1, 0, 1] 2).div (GF64_poly.mk [1, 1] 1) = .ok d ∧ Norm d) ∧
    (∀ d, (GF64_poly.mk [1, 0, 1] 2).div (GF64_poly.mk [1, 1] 1) = .ok d → Norm d) ∧
    (21 ≤ (GF64_poly.mk [1, 0, 1] 2).coefficients.length →
      ∃ T, (GF64_poly.mk [1, 0, 1] 2).mod_x21 = .ok T ∧ Norm T) :=
  operators_return_normalised (GF64_poly.mk [1, 0, 1] 2) (GF64_poly.mk [1, 1] 1) 0
    ⟨by decide, by unfold Small; decide⟩ ⟨by decide, by unfold Small; decide⟩ (by decide)

/-! ## The run of the Euclidean loop, round by round -/

theorem euclidStep_R (s s1 : ReedSolomonDecoder.EuclidState)
    (h : ReedSolomonDecoder.euclidStep s = .ok s1) : ∃ x, s1.R = s.R ++ [x] := by
  unfold ReedSolomonDecoder.euclidStep at h
  cases hd : (ReedSolomonDecoder.fromBack s.R 2).div (ReedSolomonDecoder.fromBack s.R 1) with
  | error x =>
    rw [hd] at h
    cases h
  | ok d =>
    rw [hd] at h
    have h' : (Except.ok
        { Q := s.Q ++ [d]
          R := s.R ++ [(ReedSolomonDecoder.fromBack s.R 2).add
            ((ReedSolomonDecoder.fromBack s.R 1).mul d)]
          U := s.U ++ [(ReedSolomonDecoder.fromBack s.U 2).add
            ((ReedSolomonDecoder.fromBack s.U 1).mul d)]
          V := s.V ++ [(ReedSolomonDecoder.fromBack s.V 2).add
            ((ReedSolomonDecoder.fromBack s.V 1).mul d)] }
        : Except Failure ReedSolomonDecoder.EuclidState) = .ok s1 := h
    injection h' with h'
    rw [← h']
    exact ⟨_, rfl⟩

/-- When the loop test asks for another round it is because the last remainder is above
the bound `nu`. -/
theorem euclid_continue (T : F64[X]) (mu nu : Nat) (hmunu : mu + nu = 20)
    (s : ReedSolomonDecoder.EuclidState) (inv : EuclidInv T s) (dinv : EuclidDeg nu s)
    (hc : ¬ euclidStop mu nu s) : nu < (ReedSolomonDecoder.fromBack s.R 1).degree := by
  have hv1 := inv.v1.natDegree
  unfold euclidStop GF64_poly.get_degree at hc
  have hs := dinv.sum
  have ha := dinv.above
  rw [hv1] at hs
  omega

/-- At every state of the loop the bound `mu` on the degree of `V` holds. -/
theorem euclid_V_bound (T : F64[X]) (mu nu : Nat) (hmunu : mu + nu = 20)
    (s : ReedSolomonDecoder.EuclidState) (inv : EuclidInv T s) (dinv : EuclidDeg nu s) :
    (ReedSolomonDecoder.fromBack s.V 1).degree ≤ mu := by
  have hv1 := inv.v1.natDegree
  have hs := dinv.sum
  have ha := dinv.above
  rw [hv1] at hs
  omega

theorem euclid_R_decrease (T : F64[X]) (nu : Nat)
    (s s1 : ReedSolomonDecoder.EuclidState) (inv : EuclidInv T s)
    (hs : ReedSolomonDecoder.euclidStep s = .ok s1) (d1 : EuclidDeg nu s1)
    (hnu : nu < (ReedSolomonDecoder.fromBack s.R 1).degree) :
    (ReedSolomonDecoder.fromBack s1.R 1).degree < (ReedSolomonDecoder.fromBack s.R 1).degree := by
  have inv1 := euclidInv_step T s s1 inv hs
  obtain ⟨x, hx⟩ := euclidStep_R s s1 hs
  have e2 : ReedSolomonDecoder.fromBack s1.R 2 = ReedSolomonDecoder.fromBack s.R 1 := by
    rw [hx, fromBack_append_two _ _ inv.lenR]
  have hlt := d1.rdeg
  rw [e2] at hlt
  by_cases h0 : toPoly (ReedSolomonDecoder.fromBack s1.R 1) = 0
  · have := inv1.r1.natDegree
    rw [h0, natDegree_zero] at this
    omega
  · have := natDegree_lt_natDegree h0 hlt
    rw [inv1.r1.natDegree, inv.r1.natDegree] at this
    exact this

/-- The run of the `while` loop: it makes `k` rounds, each of them because the last
remainder is above `nu`, each lowering the degree of the remainder, and stops at the first
state where both bounds hold. -/
theorem euclidLoop_trace (T : F64[X]) (mu nu : Nat) (hmunu : mu + nu = 20) (b : Nat)
    (s s' : ReedSolomonDecoder.EuclidState) (inv : EuclidInv T s) (dinv : EuclidDeg nu s)
    (h : ReedSolomonDecoder.euclidLoop mu nu b s = .ok s') :
    ∃ k, euclidIter k s = .ok s' ∧ euclidStop mu nu s' ∧
      (0 < k → k + nu ≤ (ReedSolomonDecoder.fromBack s.R 1).degree) ∧
      (ReedSolomonDecoder.fromBack s'.V 1).degree ≤ mu ∧
      ∀ m, m < k → ∃ sm sm', euclidIter m s = .ok sm ∧
        ReedSolomonDecoder.euclidStep sm = .ok sm' ∧
        nu < (ReedSolomonDecoder.fromBack sm.R 1).degree ∧
        (ReedSolomonDecoder.fromBack sm.V 1).degree ≤ mu ∧
        (ReedSolomonDecoder.fromBack sm'.R 1).degree
          < (ReedSolomonDecoder.fromBack sm.R 1).degree := by
  induction b generalizing s with
  | zero =>
    simp only [ReedSolomonDecoder.euclidLoop] at h
    split at h
    · cases h
    · rename_i hc
      injection h with h
      subst h
      refine ⟨0, rfl, ?_, fun hk => absurd hk (Nat.lt_irrefl 0),
        euclid_V_bound T mu nu hmunu s inv dinv, fun m hm => absurd hm (Nat.not_lt_zero m)⟩
      unfold euclidStop GF64_poly.get_degree
      simp only [GF64_poly.get_degree] at hc
      omega
  | succ b ih =>
    simp only [ReedSolomonDecoder.euclidLoop] at h
    split at h
    · rename_i hc
      have hstop : ¬ euclidStop mu nu s := by
        unfold euclidStop
        omega
      obtain ⟨s1, hs, d1⟩ := euclidDeg_step T mu nu hmunu s inv dinv hstop
      have inv1 := euclidInv_step T s s1 inv hs
      have hnu := euclid_continue T mu nu hmunu s inv dinv hstop
      have hdec := euclid_R_decrease T nu s s1 inv hs d1 hnu
      change (ReedSolomonDecoder.euclidStep s >>= _) = _ at h
      rw [hs] at h
      obtain ⟨k, hit, hst, hbound, hV, htrace⟩ := ih s1 inv1 d1 h
      refine ⟨k + 1, ?_, hst, ?_, hV, ?_⟩
      · show (ReedSolomonDecoder.euclidStep s >>= euclidIter k) = _
        rw [hs]
        exact hit
      · intro _
        by_cases hk : 0 < k
        · have := hbound hk
          omega
        · omega
      · intro m hm
        cases m with
        | zero =>
          exact ⟨s, s1, rfl, hs, hnu, euclid_V_bound T mu nu hmunu s inv dinv, hdec⟩
        | succ m =>
          obtain ⟨sm, sm', h1, h2, h3, h4, h5⟩ := htrace m (by omega)
          refine ⟨sm, sm', ?_, h2, h3, h4, h5⟩
          show (ReedSolomonDecoder.euclidStep s >>= euclidIter m) = _
          rw [hs]
          exact h1
    · rename_i hc
      injection h with h
      subst h
      refine ⟨0, rfl, ?_, fun hk => absurd hk (Nat.lt_irrefl 0),
        euclid_V_bound T mu nu hmunu s inv dinv, fun m hm => absurd hm (Nat.not_lt_zero m)⟩
      unfold euclidStop GF64_poly.get_degree
      simp only [GF64_poly.get_degree] at hc
      omega

/-- The loop of `euclideanAlgorithm` started at a truncated product `T`: it returns after
at most `20 - nu` rounds. -/
theorem euclidLoop_run (T : GF64_poly) (hT : Norm T) (hdeg : T.degree ≤ 20) (e0 : Nat)
    (he : e0 ≤ 21) :
    ∃ n s, n ≤ 21 ∧ n + ((21 + e0 + 1) / 2 - 1) ≤ 20 ∧
      ReedSolomonDecoder.euclidLoop ((21 - e0) / 2) ((21 + e0 + 1) / 2 - 1)
        ReedSolomonDecoder.euclidBudget (ReedSolomonDecoder.euclidInit T) = .ok s ∧
      euclidIter n (ReedSolomonDecoder.euclidInit T) = .ok s ∧
      euclidStop ((21 - e0) / 2) ((21 + e0 + 1) / 2 - 1) s ∧
      ∀ m, m < n → ∃ sm sm', euclidIter m (ReedSolomonDecoder.euclidInit T) = .ok sm ∧
        ReedSolomonDecoder.euclidStep sm = .ok sm' ∧
        (21 + e0 + 1) / 2 - 1 < (ReedSolomonDecoder.fromBack sm.R 1).degree ∧
        (ReedSolomonDecoder.fromBack sm.V 1).degree ≤ (21 - e0) / 2 ∧
        (ReedSolomonDecoder.fromBack sm'.R 1).degree
          < (ReedSolomonDecoder.fromBack sm.R 1).degree := by
  have hmunu : (21 - e0) / 2 + ((21 + e0 + 1) / 2 - 1) = 20 := by omega
  have inv := euclidInv_init T hT
  have dinv := euclidDeg_init T hT hdeg ((21 + e0 + 1) / 2 - 1) (by omega)
  obtain ⟨s, hs⟩ := euclidLoop_total (toPoly T) _ _ hmunu ReedSolomonDecoder.euclidBudget _
    inv dinv (roundsLeft_init T hT hdeg)
  obtain ⟨k, hit, hst, hbound, -, htrace⟩ := euclidLoop_trace (toPoly T) _ _ hmunu _ _ s inv
    dinv hs
  have hR : (ReedSolomonDecoder.fromBack (ReedSolomonDecoder.euclidInit T).R 1).degree
      = T.degree := rfl
  rw [hR] at hbound
  have hk : k + ((21 + e0 + 1) / 2 - 1) ≤ 20 := by
    by_cases hk0 : 0 < k
    · have := hbound hk0
      omega
    · omega
  exact ⟨k, s, by omega, hk, hs, hit, hst, htrace⟩

/-! ## The checked truncation -/

theorem mod_x21_in_range (p T : GF64_poly) (h : p.mod_x21 = .ok T) :
    21 ≤ p.coefficients.length := by
  by_contra hcon
  rw [mod_x21_out_of_range p (Nat.lt_of_not_le hcon)] at h
  cases h

/-- The ways a run of `decode` ends on a word of 63 field elements and a mask of 63
entries: an ordinary return, the erasure-capacity exit, or the out-of-range read. -/
theorem decode_failure_modes (r : List Nat) (mask : List Bool) (hr : Small r)
    (hmask : mask.length = 63) :
    (∃ b P, ReedSolomonDecoder.decode r mask = .ok (b, P)) ∨
    ReedSolomonDecoder.decode r mask = .error .erasureCapacityExceeded ∨
    ReedSolomonDecoder.decode r mask = .error .indexOutOfRange := by
  obtain ⟨o1, o2, o3, o4⟩ := decode_outcome r mask hr hmask
  cases hz : (ReedSolomonDecoder.calculateSyndromes r mask).is_zero with
  | true => exact Or.inl ⟨_, _, o1 hz⟩
  | false =>
    by_cases hcount : 21 < erasureCount mask
    · exact Or.inr (Or.inl (o2 hz hcount))
    · by_cases hlen : ((erasureLoop mask).mul
          (ReedSolomonDecoder.calculateSyndromes r mask)).coefficients.length < 21
      · exact Or.inr (Or.inr (o3 hz (Nat.le_of_not_lt hcount) hlen))
      · exact Or.inl (o4 hz (Nat.le_of_not_lt hcount) (Nat.le_of_not_lt hlen))

theorem locator_of_ok (mask : List Bool) (Γ : GF64_poly)
    (h : ReedSolomonDecoder.calculateErasureLocator mask = .ok Γ) :
    Γ = erasureLoop mask ∧ Norm Γ ∧ Γ.degree ≤ 21 := by
  rw [calculateErasureLocator_eq] at h
  split at h
  · cases h
  · rename_i hd
    injection h with h
    rw [← h]
    exact ⟨rfl, (erasureLoop_spec mask).1, Nat.le_of_not_lt hd⟩

theorem mod_x21_top (p T : GF64_poly) (hp : Small p.coefficients)
    (hlen : 21 ≤ p.coefficients.length) (h : p.mod_x21 = .ok T) :
    Norm T ∧ T.degree ≤ 20 ∧
    ∀ i, T.coefficients.getD i 0 = if i < 21 then p.coefficients.getD i 0 else 0 := by
  obtain ⟨r, hr, hrn, hval⟩ := mod_x21_spec p hp hlen
  rw [hr] at h
  injection h with h
  subst h
  refine ⟨hrn, ?_, hval⟩
  by_contra hcon
  have hl := hrn.lead (by omega)
  rw [hval, if_neg (by omega)] at hl
  exact hl rfl

/-- C25 (code defect). `mod_x21` reads `coefficients[20]` down to `coefficients[0]`
whatever the polynomial stores: on every polynomial with fewer than 21 stored coefficients
it reads out of range, as on the constant 1 and on the product `Gamma * S` that `decode`
forms for the word `59, 1, 0, ..., 0`. On a polynomial with at least 21 stored
coefficients it returns the polynomial of the coefficients `0 .. 20`. -/
theorem mod_x21_reads_out_of_range :
    (∀ P : GF64_poly, P.coefficients.length < 21 → P.mod_x21 = .error .indexOutOfRange) ∧
    (∀ P : GF64_poly, (∀ x ∈ P.coefficients, x < 64) → 21 ≤ P.coefficients.length →
      ∃ T, P.mod_x21 = .ok T ∧ T.get_degree ≤ 20 ∧
        ∀ i, T.coefficients.getD i 0 = if i < 21 then P.coefficients.getD i 0 else 0) ∧
    (GF64_poly.ofVector [1]).coefficients.length = 1 ∧
    (GF64_poly.ofVector [1]).mod_x21 = .error .indexOutOfRange ∧
    ReedSolomonDecoder.calculateErasureLocator (List.replicate 63 false)
      = .ok (GF64_poly.ofVector [1]) ∧
    ((GF64_poly.ofVector [1]).mul (ReedSolomonDecoder.calculateSyndromes
      ([59, 1] ++ List.replicate 61 0) (List.replicate 63 false))).coefficients.length = 20 ∧
    ((GF64_poly.ofVector [1]).mul (ReedSolomonDecoder.calculateSyndromes
      ([59, 1] ++ List.replicate 61 0) (List.replicate 63 false))).mod_x21
      = .error .indexOutOfRange := by
  refine ⟨mod_x21_out_of_range, ?_, rfl, rfl, rfl, rfl, rfl⟩
  intro P hP hlen
  obtain ⟨T, hT, -, -⟩ := mod_x21_spec P hP hlen
  obtain ⟨-, hd, hval⟩ := mod_x21_top P T hP hlen hT
  exact ⟨T, hT, hd, hval⟩

theorem mod_x21_reads_out_of_range_witness :
    ∃ T, ReedSolomonDecoder.x21.mod_x21 = .ok T ∧ T.get_degree ≤ 20 ∧
      ∀ i, T.coefficients.getD i 0
        = if i < 21 then ReedSolomonDecoder.x21.coefficients.getD i 0 else 0 :=
  mod_x21_reads_out_of_range.2.1 ReedSolomonDecoder.x21 (by decide) (by decide)

/-! ## Syndromes, erasure locator, generator polynomial and derivative -/

theorem syndromeAt_eq_sum (r : List Nat) (j : Nat) :
    syndromeAt r j = syndromeSum r (j + 1) := by
  unfold syndromeAt syndromeSum
  apply List.foldl_ext
  intro acc i _
  by_cases h : r.getD i 0 = 0
  · rw [if_neg (not_not.2 h), h, GF64.zero_mul]
    unfold GF64.add
    rw [Nat.xor_zero]
  · rw [if_pos h]

theorem syndrome_eq_eval (r : List Nat) (hr : Small r) (hlen : r.length = 63) (j : Nat)
    (hj : j < 21) :
    (syndromeList r).getD j 0 = (GF64_poly.ofVector r).eval (pow_table.getD (j + 1) 0) := by
  have hx : pow_table.getD (j + 1) 0 < 64 := GF64.pow_lt _ (by omega)
  have he := eval_spec (GF64_poly.ofVector r) (small_ofVector hr) _ hx
  apply F64.ofNat_inj (getD_lt_of_small (syndromeList_small r hr) j) he.1
  have hm : (j + 1) % 63 = j + 1 := Nat.mod_eq_of_lt (by omega)
  have hp := pow_table_eq_alpha_pow (j + 1)
  rw [hm] at hp
  rw [he.2, toPoly_ofVector, hp, syndromeList_spec r hr hlen j hj]

/-- C26. Syndrome formula: for a word `r` of 63 field elements and `j` in `1 .. 21`,
coefficient `j - 1` of the polynomial `calculateSyndromes` returns is the field sum over
`i = 0 .. 62` of `r[i] * pow_table[(i * j) mod 63]`, and it is the value `operator()` gives
for the polynomial of `r` at `pow_table[j]`; the erasure mask does not enter. -/
theorem syndrome_formula (r : List Nat) (mask : List Bool) (j : Nat) (hrlen : r.length = 63)
    (hr : ∀ x ∈ r, x < 64) (hj1 : 1 ≤ j) (hj : j ≤ 21) :
    (ReedSolomonDecoder.calculateSyndromes r mask).coefficients.getD (j - 1) 0
      = syndromeSum r j ∧
    (ReedSolomonDecoder.calculateSyndromes r mask).coefficients.getD (j - 1) 0
      = (GF64_poly.ofVector r).eval (pow_table.getD j 0) ∧
    ∀ mask', ReedSolomonDecoder.calculateSyndromes r mask'
      = ReedSolomonDecoder.calculateSyndromes r mask := by
  have e : j - 1 + 1 = j := by omega
  refine ⟨?_, ?_, fun _ => rfl⟩
  · rw [calculateSyndromes_eq, coefficients_ofVector, syndromeList_getD, if_pos (by omega),
      syndromeAt_eq_sum r, e]
  · rw [calculateSyndromes_eq, coefficients_ofVector,
      syndrome_eq_eval r hr hrlen (j - 1) (by omega), e]

theorem syndrome_formula_witness :
    (ReedSolomonDecoder.calculateSyndromes ([5] ++ List.replicate 62 0)
        (List.replicate 63 false)).coefficients.getD (3 - 1) 0
      = syndromeSum ([5] ++ List.replicate 62 0) 3 ∧
    (ReedSolomonDecoder.calculateSyndromes ([5] ++ List.replicate 62 0)
        (List.replicate 63 false)).coefficients.getD (3 - 1) 0
      = (GF64_poly.ofVector ([5] ++ List.replicate 62 0)).eval (pow_table.getD 3 0) ∧
    ∀ mask', ReedSolomonDecoder.calculateSyndromes ([5] ++ List.replicate 62 0) mask'
      = ReedSolomonDecoder.calculateSyndromes ([5] ++ List.replicate 62 0)
          (List.replicate 63 false) :=
  syndrome_formula ([5] ++ List.replicate 62 0) (List.replicate 63 false) 3 (by decide)
    (by decide) (by decide) (by decide)

/-- C27. Shape and roots of the erasure locator: for a mask of 63 entries with at most 21
erased positions `calculateErasureLocator` returns a polynomial with constant term 1 and
degree the number of erased positions, which vanishes at `pow_table[(63 - i) mod 63]`, the
point `correctErrors` tests for position `i`, exactly when position `i` is erased. -/
theorem erasure_locator_shape (mask : List Bool) (hmask : mask.length = 63)
    (hcount : erasureCount mask ≤ 21) :
    ∃ Γ, ReedSolomonDecoder.calculateErasureLocator mask = .ok Γ ∧
      Γ.coefficients.getD 0 0 = 1 ∧ Γ.get_degree = erasureCount mask ∧
      ∀ i, i < 63 →
        (Γ.eval (pow_table.getD ((63 - i) % 63) 0) = 0 ↔ mask.getD i false = true) := by
  have hdeg := erasureLoop_degree_eq_count mask hmask
  obtain ⟨hN, hP⟩ := erasureLoop_spec mask
  refine ⟨erasureLoop mask, ?_, ?_, hdeg, ?_⟩
  · rw [calculateErasureLocator_eq, if_neg (by rw [hdeg]; omega)]
  · apply F64.ofNat_inj (getD_lt_of_small hN.small 0) (by decide)
    rw [← hN.coeff, hP, coeff_zero_eq_eval_zero, eval_zero_locPoly, F64.ofNat_one]
  · intro i hi
    have h1 := eval_testPoint_eq_zero (erasureLoop mask) hN.small i
    have h2 := eval_locPoly_eq_zero (erasedSet mask) (erasedSet_lt mask) hi
    rw [hP] at h1
    show (erasureLoop mask).eval (testPoint i) = 0 ↔ _
    rw [h1, h2]
    unfold erasedSet
    rw [Finset.mem_filter, Finset.mem_range]
    exact ⟨fun h => h.2, fun h => ⟨hi, h⟩⟩

theorem erasure_locator_shape_witness :
    ∃ Γ, ReedSolomonDecoder.calculateErasureLocator
        ([false, false, true] ++ List.replicate 60 false) = .ok Γ ∧
      Γ.coefficients.getD 0 0 = 1 ∧
      Γ.get_degree = erasureCount ([false, false, true] ++ List.replicate 60 false) ∧
      ∀ i, i < 63 →
        (Γ.eval (pow_table.getD ((63 - i) % 63) 0) = 0
          ↔ ([false, false, true] ++ List.replicate 60 false).getD i false = true) :=
  erasure_locator_shape ([false, false, true] ++ List.replicate 60 false) (by decide)
    (by decide)

theorem generator_product :
    listPoly gen_poly = ∏ j ∈ Finset.range 21, (X + C (alpha ^ (j + 1))) := by
  have hm : (∏ j ∈ Finset.range 21, (X + C (alpha ^ (j + 1)) : F64[X])).Monic :=
    monic_prod_of_monic _ _ (fun j _ => monic_X_add_C _)
  have hd : (∏ j ∈ Finset.range 21, (X + C (alpha ^ (j + 1)) : F64[X])).natDegree = 21 := by
    rw [natDegree_prod_of_monic _ _ (fun j _ => monic_X_add_C _),
      Finset.sum_congr rfl (fun j _ => natDegree_X_add_C (alpha ^ (j + 1))),
      Finset.sum_const, Finset.card_range]
    rfl
  have hg := natDegree_generator
  apply eq_of_degree_sub_lt_of_eval_finset_eq
    ((Finset.range 21).image (fun j => alpha ^ (j + 1)))
  · rw [syndromePoints_card]
    have h21 : (listPoly gen_poly).degree = ((21 : Nat) : WithBot Nat) := by
      rw [degree_eq_natDegree hg.1, hg.2]
    rw [← h21]
    apply degree_sub_lt
    · rw [degree_eq_natDegree hg.1, degree_eq_natDegree hm.ne_zero, hg.2, hd]
    · exact hg.1
    · rw [generator_monic.leadingCoeff, hm.leadingCoeff]
  · intro x hx
    obtain ⟨j, hj, rfl⟩ := Finset.mem_image.1 hx
    rw [gen_poly_roots j (Finset.mem_range.1 hj), eval_prod]
    symm
    apply Finset.prod_eq_zero hj
    rw [eval_add, eval_X, eval_C, F64.add_self]

theorem generator_root_iff (x : F64) :
    (listPoly gen_poly).eval x = 0 ↔ ∃ j, j < 21 ∧ x = alpha ^ (j + 1) := by
  rw [generator_product, eval_prod, Finset.prod_eq_zero_iff]
  constructor
  · intro ⟨j, hj, h⟩
    refine ⟨j, Finset.mem_range.1 hj, ?_⟩
    rw [eval_add, eval_X, eval_C] at h
    have := add_eq_zero_iff_eq_neg.1 h
    rw [F64.neg_eq] at this
    exact this
  · intro ⟨j, hj, h⟩
    refine ⟨j, Finset.mem_range.2 hj, ?_⟩
    rw [eval_add, eval_X, eval_C, h, F64.add_self]

/-- C28. Roots of the generator polynomial: `gen_poly` has 22 coefficients, the last of
them 1, so degree 21; evaluated by `operator()` it vanishes at `pow_table[j]` for every `j`
in `1 .. 21` and at no other nonzero field element; as a polynomial over the field it is
the product of `x + α^j` over `j = 1 .. 21`, the points of the syndromes. -/
theorem generator_roots :
    gen_poly.length = 22 ∧ gen_poly.getD 21 0 = 1 ∧
    (GF64_poly.ofVector gen_poly).get_degree = 21 ∧
    (∀ j, 1 ≤ j → j ≤ 21 →
      (GF64_poly.ofVector gen_poly).eval (pow_table.getD j 0) = 0) ∧
    (∀ x, 1 ≤ x → x ≤ 63 → (GF64_poly.ofVector gen_poly).eval x = 0 →
      ∃ j, 1 ≤ j ∧ j ≤ 21 ∧ x = pow_table.getD j 0) ∧
    listPoly gen_poly = ∏ j ∈ Finset.range 21, (X + C (alpha ^ (j + 1))) ∧
    (listPoly gen_poly).Monic := by
  have key : ∀ x, x < 64 →
      ((GF64_poly.ofVector gen_poly).eval x = 0 ↔ (listPoly gen_poly).eval (F64.ofNat x) = 0) := by
    intro x hx
    have he := eval_spec (GF64_poly.ofVector gen_poly) small_gen_poly x hx
    rw [toPoly_generator] at he
    rw [← he.2, F64.ofNat_eq_zero he.1]
  have hpow : ∀ j, j < 63 → F64.ofNat (pow_table.getD j 0) = alpha ^ j := by
    intro j hj
    have := pow_table_eq_alpha_pow j
    rw [Nat.mod_eq_of_lt hj] at this
    exact this
  refine ⟨rfl, rfl, rfl, ?_, ?_, generator_product, generator_monic⟩
  · intro j hj1 hj
    rw [key _ (GF64.pow_lt j (by omega)), hpow j (by omega), generator_root_iff]
    exact ⟨j - 1, by omega, by rw [Nat.sub_add_cancel hj1]⟩
  · intro x hx1 hx h
    rw [key x (by omega), generator_root_iff] at h
    obtain ⟨j, hj, hxj⟩ := h
    refine ⟨j + 1, by omega, by omega, ?_⟩
    apply F64.ofNat_inj (by omega) (GF64.pow_lt (j + 1) (by omega))
    rw [hxj, hpow (j + 1) (by omega)]

/-- C29. Coefficients of the formal derivative: for a normalised `P` of degree `d ≥ 1` and
`i < d`, coefficient `i` of `P.differentiate()` is coefficient `i + 1` of `P` when `i` is
even and 0 when `i` is odd; for `P` of degree 0 the result is the zero polynomial. -/
theorem derivative_coefficients (P : GF64_poly) (hP : Norm P) :
    (1 ≤ P.degree → ∀ i, i < P.degree →
      P.differentiate.coefficients.getD i 0
        = if i % 2 = 0 then P.coefficients.getD (i + 1) 0 else 0) ∧
    (P.degree = 0 → P.differentiate = GF64_poly.zero) := by
  constructor
  · intro _ i hi
    rw [(differentiate_inv P hP.small).val i]
    by_cases h2 : i % 2 = 0
    · rw [if_pos ⟨hi, h2⟩, if_pos h2]
    · rw [if_neg (fun h => h2 h.2), if_neg h2]
  · intro h0
    unfold GF64_poly.differentiate
    rw [h0]
    rfl

theorem derivative_coefficients_witness :
    (1 ≤ (GF64_poly.mk [7, 1, 0, 5] 3).degree → ∀ i, i < (GF64_poly.mk [7, 1, 0, 5] 3).degree →
      (GF64_poly.mk [7, 1, 0, 5] 3).differentiate.coefficients.getD i 0
        = if i % 2 = 0 then (GF64_poly.mk [7, 1, 0, 5] 3).coefficients.getD (i + 1) 0 else 0) ∧
    ((GF64_poly.mk [7, 1, 0, 5] 3).degree = 0 →
      (GF64_poly.mk [7, 1, 0, 5] 3).differentiate = GF64_poly.zero) :=
  derivative_coefficients (GF64_poly.mk [7, 1, 0, 5] 3)
    ⟨by unfold Small; decide, rfl, by decide⟩

/-- C30 (code defect). `differentiate` does not normalise its result: for a normalised `P`
of degree `d` the result stores `d` coefficients (one for `d = 0`) and has tracked degree
`d - 1`, whatever they are. For odd `d`, and for `d = 0`, the result is normalised; for even
`d ≥ 2` the coefficient at the tracked degree is 0. For `x^2 + x` the result stores
`1, 0` with tracked degree 1. -/
theorem derivative_keeps_trailing_zero :
    (∀ P : GF64_poly, Norm P →
      P.differentiate.coefficients.length = P.differentiate.degree + 1 ∧
      P.differentiate.degree = P.degree - 1) ∧
    (∀ P : GF64_poly, Norm P → P.degree = 0 ∨ P.degree % 2 = 1 → Norm P.differentiate) ∧
    (∀ P : GF64_poly, Norm P → 2 ≤ P.degree → P.degree % 2 = 0 →
      P.differentiate.degree ≠ 0 ∧
      P.differentiate.coefficients.getD P.differentiate.degree 0 = 0) ∧
    Norm (GF64_poly.mk [0, 1, 1] 2) ∧
    (GF64_poly.mk [0, 1, 1] 2).differentiate = GF64_poly.mk [1, 0] 1 ∧
    (GF64_poly.mk [1, 0] 1).coefficients.getD (GF64_poly.mk [1, 0] 1).degree 0 = 0 := by
  refine ⟨?_, ?_, ?_, ⟨by unfold Small; decide, rfl, by decide⟩, rfl, rfl⟩
  · intro P hP
    have inv := differentiate_inv P hP.small
    exact ⟨inv.len, inv.deg⟩
  · intro P hP hd
    have inv := differentiate_inv P hP.small
    refine ⟨inv.small, inv.len, ?_⟩
    intro hne
    rw [inv.val, inv.deg]
    have hdeg := inv.deg
    have hodd : P.degree % 2 = 1 := by
      rcases hd with h | h
      · omega
      · exact h
    rw [if_pos ⟨by omega, by omega⟩]
    have e : P.degree - 1 + 1 = P.degree := by omega
    rw [e]
    exact hP.lead (by omega)
  · intro P hP h2 heven
    have inv := differentiate_inv P hP.small
    refine ⟨by rw [inv.deg]; omega, ?_⟩
    rw [inv.val, inv.deg, if_neg]
    intro h
    omega

theorem derivative_keeps_trailing_zero_witness :
    (GF64_poly.mk [0, 0, 0, 0, 1] 4).differentiate.degree ≠ 0 ∧
      (GF64_poly.mk [0, 0, 0, 0, 1] 4).differentiate.coefficients.getD
        (GF64_poly.mk [0, 0, 0, 0, 1] 4).differentiate.degree 0 = 0 :=
  derivative_keeps_trailing_zero.2.2.1 (GF64_poly.mk [0, 0, 0, 0, 1] 4)
    ⟨by unfold Small; decide, rfl, by decide⟩ (by decide) (by decide)

/-! ## Long division of a product by its factor -/

theorem divInv2_step (p q : GF64_poly) (hp : p.degree < p.coefficients.length)
    (hq : Small q.coefficients) (hlead : q.coefficients.getD q.degree 0 ≠ 0)
    (hdeg : q.degree ≤ p.degree) (k : Nat) (st : List Nat × List Nat)
    (hk : k < p.degree - q.degree + 1) (inv : DivInv2 p q k st) :
    ∃ st', GF64_poly.divStep q st (p.degree - k) = .ok st' ∧ DivInv2 p q (k + 1) st' := by
  have hlt := getD_lt_of_small hq q.degree
  by_cases hz : st.2.getD (p.degree - k) 0 = 0
  · refine ⟨st, divStep_of_eq q st _ hz, inv.qlen, inv.rlen, inv.qsmall, inv.rsmall, ?_, ?_,
      inv.eqn⟩
    · intro j hj
      exact inv.qzero j (by omega)
    · intro j hj
      by_cases hj2 : j = p.degree - k
      · rw [hj2]; exact hz
      · exact inv.rzero j (by omega)
  · have hc : GF64.mul (st.2.getD (p.degree - k) 0) (GF64.inv (q.coefficients.getD q.degree 0))
        < 64 := GF64.mul_lt _ _
    have hin := divInner_spec q hq _ (p.degree - k) hc (by omega) st.2 inv.rsmall
      (by rw [inv.rlen]; omega)
    have hrk := getD_lt_of_small inv.rsmall (p.degree - k)
    have hcoef : F64.ofNat (GF64.mul (st.2.getD (p.degree - k) 0)
          (GF64.inv (q.coefficients.getD q.degree 0))) * F64.ofNat (q.coefficients.getD q.degree 0)
        = F64.ofNat (st.2.getD (p.degree - k) 0) := by
      rw [← F64.ofNat_mul hc hlt, GF64.mul_assoc, GF64.mul_comm (GF64.inv _),
        GF64.mul_inv hlt hlead, GF64.mul_one hrk]
    refine ⟨_, divStep_of_ne q st _ hz hlt hlead, ?_⟩
    refine ⟨by simp [inv.qlen], by rw [hin.1, inv.rlen], small_set inv.qsmall _ hc, hin.2.1,
      ?_, ?_, ?_⟩
    · intro j hj
      simp only
      rw [getD_set, if_neg (by omega)]
      exact inv.qzero j (by omega)
    · intro j hj
      simp only
      apply (F64.ofNat_eq_zero (getD_lt_of_small hin.2.1 j)).1
      rw [← coeff_listPoly, hin.2.2, coeff_add, coeff_listPoly, mul_assoc, coeff_C_mul,
        coeff_X_pow_mul']
      by_cases hj2 : j = p.degree - k
      · have e1 : p.degree - k - q.degree ≤ j := by omega
        have e2 : j - (p.degree - k - q.degree) = q.degree := by omega
        rw [if_pos e1, e2, coeff_toPoly, if_pos (Nat.le_refl _), hcoef, hj2, F64.add_self]
      · rw [inv.rzero j (by omega), F64.ofNat_zero, zero_add]
        have e1 : p.degree - k - q.degree ≤ j := by omega
        rw [if_pos e1, coeff_toPoly, if_neg (by omega), mul_zero]
    · simp only
      rw [listPoly_set _ _ _ (by rw [inv.qlen]; omega), inv.qzero _ (by omega), hin.2.2,
        F64.ofNat_zero, add_zero, ← inv.eqn]
      have e : ∀ a b c r : F64[X], (a + c) * b + (r + c * b) = a * b + r := by
        intro a b c r
        linear_combination poly_add_self (c * b)
      exact e _ _ _ _

theorem divInv2_init (p q : GF64_poly) (hp : WF p)
    (htidy : ∀ j, p.degree < j → p.coefficients.getD j 0 = 0) :
    DivInv2 p q 0 (List.replicate (p.degree - q.degree + 1) 0, p.coefficients) :=
  ⟨List.length_replicate _ _, rfl, small_replicate _, hp.small, fun j _ => getD_replicate _ _,
    fun j hj => htidy j (by omega),
    by simp only [listPoly_replicate, zero_mul, zero_add]
       exact (toPoly_eq_listPoly_of_tidy p htidy).symm⟩

theorem divLoop_tidy (p q : GF64_poly) (hp : WF p)
    (htidy : ∀ j, p.degree < j → p.coefficients.getD j 0 = 0)
    (hq : Small q.coefficients) (hlead : q.coefficients.getD q.degree 0 ≠ 0)
    (hdeg : q.degree ≤ p.degree) :
    ∃ st, GF64_poly.divLoop p q = .ok st ∧ DivInv2 p q (p.degree - q.degree + 1) st :=
  foldlM_range_induct (fun st k => GF64_poly.divStep q st (p.degree - k))
    (List.replicate (p.degree - q.degree + 1) 0, p.coefficients) (p.degree - q.degree + 1)
    (DivInv2 p q) (divInv2_init p q hp htidy)
    (fun k st hk inv => divInv2_step p q hp.deg_lt hq hlead hdeg k st hk inv)

/-! ### The division of `encoder.cpp` by a monic divisor -/

theorem GF64.div_one {a : Nat} (ha : a < 64) : GF64.div a 1 = .ok a := by
  rw [GF64.div_of_ne_zero (by decide) (by decide)]
  have h1 : GF64.inv 1 = 1 := by decide
  rw [h1, GF64.mul_one ha]

theorem gfDiv_one {a : Nat} (ha : a < 64) (h0 : a ≠ 0) :
    ReedSolomonEncoder.gfDiv a 1 = .ok a := by
  unfold ReedSolomonEncoder.gfDiv
  have h1 : log_table.getD 1 0 = 0 := by decide
  have hl := GF64.log_lt a ha
  have hp := GF64.pow_log a ha (Nat.pos_of_ne_zero h0)
  simp only [h1]
  have e : Int.tmod ((log_table.getD a 0 : Int) - ((0 : Nat) : Int)) 63
      = ((log_table.getD a 0 : Nat) : Int) := by
    rw [Int.tmod_eq_emod (by omega) (by decide)]
    omega
  rw [e, if_neg (by omega), Int.toNat_ofNat, hp]

theorem enc_divStep_eq (q : GF64_poly) (hlead : q.coefficients.getD q.degree 0 = 1)
    (st : List Nat × List Nat) (hs : Small st.2) (i : Nat) :
    ReedSolomonEncoder.divStep q st i = GF64_poly.divStep q st i := by
  unfold ReedSolomonEncoder.divStep GF64_poly.divStep
  by_cases hz : st.2.getD i 0 = 0
  · rw [if_neg (not_not.2 hz), if_neg (not_not.2 hz)]
  · rw [if_pos hz, if_pos hz, hlead, gfDiv_one (getD_lt_of_small hs i) hz,
      GF64.div_one (getD_lt_of_small hs i)]

theorem enc_divLoop_tidy (p q : GF64_poly) (hp : WF p)
    (htidy : ∀ j, p.degree < j → p.coefficients.getD j 0 = 0)
    (hq : Small q.coefficients) (hlead : q.coefficients.getD q.degree 0 = 1)
    (hdeg : q.degree ≤ p.degree) :
    ∃ st, ReedSolomonEncoder.divLoop p q = .ok st ∧
      DivInv2 p q (p.degree - q.degree + 1) st :=
  foldlM_range_induct (fun st k => ReedSolomonEncoder.divStep q st (p.degree - k))
    (List.replicate (p.degree - q.degree + 1) 0, p.coefficients) (p.degree - q.degree + 1)
    (DivInv2 p q) (divInv2_init p q hp htidy)
    (fun k st hk inv => by
      dsimp only
      rw [enc_divStep_eq q hlead st inv.rsmall]
      exact divInv2_step p q hp.deg_lt hq (by rw [hlead]; decide) hdeg k st hk inv)

/-- The quotient vector the loop leaves when the dividend is a multiple of the divisor. -/
theorem quotient_of_product (p q : GF64_poly) (hq : Small q.coefficients)
    (hlead : q.coefficients.getD q.degree 0 ≠ 0) (hdeg : q.degree ≤ p.degree)
    (st : List Nat × List Nat) (inv : DivInv2 p q (p.degree - q.degree + 1) st)
    (m : F64[X]) (hprod : toPoly p = m * toPoly q) : listPoly st.1 = m := by
  obtain ⟨hq0, hqd⟩ := natDegree_toPoly_of_lead q hq hlead
  have hrem : (listPoly st.2).degree < (toPoly q).degree := by
    rw [degree_eq_natDegree hq0, hqd, degree_lt_iff_coeff_zero]
    intro i hi
    have hi' : q.degree ≤ i := by exact_mod_cast hi
    rw [coeff_listPoly, inv.rzero i (by omega)]
    rfl
  have h0 : (0 : F64[X]).degree < (toPoly q).degree := by
    rw [degree_zero]
    exact bot_lt_iff_ne_bot.2 (fun h => hq0 (degree_eq_bot.1 h))
  exact (div_unique (toPoly p) (toPoly q) (listPoly st.1) m (listPoly st.2) 0 hq0
    inv.eqn.symm (by rw [add_zero]; exact hprod) hrem h0).1

theorem popZeros_eq_of_listPoly_eq (l m : List Nat) (hl : Small l) (hm : Small m)
    (hl0 : 0 < l.length) (hm0 : 0 < m.length) (h : listPoly l = listPoly m) :
    popZeros l.length l = popZeros m.length m := by
  have e := Norm.eq_of_toPoly_eq (norm_ofVector_popZeros hl hl0)
    (norm_ofVector_popZeros hm hm0)
    (by rw [toPoly_ofVector_popZeros, toPoly_ofVector_popZeros, h])
  exact congrArg GF64_poly.coefficients e

/-! ## Laws of the product, of the field multiplication and of the evaluation -/

theorem Norm.ne_zero_of_not_is_zero {p : GF64_poly} (hp : Norm p) (h : p.is_zero = false) :
    toPoly p ≠ 0 := by
  intro h0
  have := hp.is_zero_iff.2 h0
  rw [h] at this
  cases this

theorem Norm.eq_zero_of_is_zero {p : GF64_poly} (hp : Norm p) (h : p.is_zero = true) :
    p = GF64_poly.zero :=
  Norm.eq_of_toPoly_eq hp norm_zero (by rw [hp.is_zero_iff.1 h, toPoly_zero])

/-- C31. Degrees add under multiplication: for normalised `P` and `Q`, both nonzero, the
tracked degree of `P * Q` is `deg P + deg Q` and the coefficient at that degree is the field
product of the two leading coefficients; if `P` or `Q` is the zero polynomial, so is the
product. -/
theorem product_degree (P Q : GF64_poly) (hP : Norm P) (hQ : Norm Q) :
    (P.is_zero = false → Q.is_zero = false →
      (P.mul Q).degree = P.degree + Q.degree ∧
      (P.mul Q).coefficients.getD (P.mul Q).degree 0
        = GF64.mul (P.coefficients.getD P.degree 0) (Q.coefficients.getD Q.degree 0)) ∧
    (P.is_zero = true ∨ Q.is_zero = true →
      P.mul Q = GF64_poly.zero ∧ (P.mul Q).is_zero = true) := by
  have hN := norm_mul P Q hP.small hQ.small
  have hT := toPoly_mul P Q hP.small hQ.small
  constructor
  · intro hP0 hQ0
    have hp0 := hP.ne_zero_of_not_is_zero hP0
    have hq0 := hQ.ne_zero_of_not_is_zero hQ0
    have hd : (P.mul Q).degree = P.degree + Q.degree := by
      rw [← hN.natDegree, hT, natDegree_mul hp0 hq0, hP.natDegree, hQ.natDegree]
    refine ⟨hd, ?_⟩
    apply F64.ofNat_inj (getD_lt_of_small hN.small _) (GF64.mul_lt _ _)
    rw [F64.ofNat_mul (getD_lt_of_small hP.small _) (getD_lt_of_small hQ.small _), ← hN.coeff,
      ← hP.coeff, ← hQ.coeff, hT, hd]
    have e := coeff_mul_degree_add_degree (toPoly P) (toPoly Q)
    rw [hP.natDegree, hQ.natDegree] at e
    rw [e]
    unfold leadingCoeff
    rw [hP.natDegree, hQ.natDegree]
  · intro h
    have hz : toPoly (P.mul Q) = 0 := by
      rw [hT]
      rcases h with h | h
      · rw [hP.is_zero_iff.1 h, zero_mul]
      · rw [hQ.is_zero_iff.1 h, mul_zero]
    have hzz := hN.is_zero_iff.2 hz
    exact ⟨hN.eq_zero_of_is_zero hzz, hzz⟩

theorem product_degree_witness :
    ((GF64_poly.mk [1, 0, 1] 2).is_zero = false → (GF64_poly.mk [1, 1] 1).is_zero = false →
      ((GF64_poly.mk [1, 0, 1] 2).mul (GF64_poly.mk [1, 1] 1)).degree
        = (GF64_poly.mk [1, 0, 1] 2).degree + (GF64_poly.mk [1, 1] 1).degree ∧
      ((GF64_poly.mk [1, 0, 1] 2).mul (GF64_poly.mk [1, 1] 1)).coefficients.getD
          ((GF64_poly.mk [1, 0, 1] 2).mul (GF64_poly.mk [1, 1] 1)).degree 0
        = GF64.mul
          ((GF64_poly.mk [1, 0, 1] 2).coefficients.getD (GF64_poly.mk [1, 0, 1] 2).degree 0)
          ((GF64_poly.mk [1, 1] 1).coefficients.getD (GF64_poly.mk [1, 1] 1).degree 0)) ∧
    ((GF64_poly.mk [1, 0, 1] 2).is_zero = true ∨ (GF64_poly.mk [1, 1] 1).is_zero = true →
      (GF64_poly.mk [1, 0, 1] 2).mul (GF64_poly.mk [1, 1] 1) = GF64_poly.zero ∧
      ((GF64_poly.mk [1, 0, 1] 2).mul (GF64_poly.mk [1, 1] 1)).is_zero = true) :=
  product_degree (GF64_poly.mk [1, 0, 1] 2) (GF64_poly.mk [1, 1] 1)
    ⟨by unfold Small; decide, rfl, by decide⟩ ⟨by unfold Small; decide, rfl, by decide⟩

/-- C32. The table multiplication distributes over the addition: for `a`, `b`, `c` in
`0 .. 63`, `multiply(a, add(b, c)) = add(multiply(a, b), multiply(a, c))`. -/
theorem gf64_multiplication_distributes (a b c : Nat) (ha : a ≤ 63) (hb : b ≤ 63)
    (hc : c ≤ 63) :
    GF64.mul a (GF64.add b c) = GF64.add (GF64.mul a b) (GF64.mul a c) :=
  GF64.mul_xor (Nat.lt_succ_of_le ha) (Nat.lt_succ_of_le hb) (Nat.lt_succ_of_le hc)

theorem gf64_multiplication_distributes_witness :
    GF64.mul 37 (GF64.add 5 62) = GF64.add (GF64.mul 37 5) (GF64.mul 37 62) :=
  gf64_multiplication_distributes 37 5 62 (by decide) (by decide) (by decide)

/-- C33. Evaluation is a ring homomorphism: for normalised `P`, `Q` and `x` in `0 .. 63`,
`operator()` gives `(P + Q)(x) = P(x) + Q(x)` and `(P * Q)(x) = P(x) * Q(x)`, also at
`x = 0` where it returns the constant term. -/
theorem evaluation_is_homomorphism (P Q : GF64_poly) (x : Nat) (hP : Norm P) (hQ : Norm Q)
    (hx : x ≤ 63) :
    (P.add Q).eval x = GF64.add (P.eval x) (Q.eval x) ∧
    (P.mul Q).eval x = GF64.mul (P.eval x) (Q.eval x) := by
  have hx' : x < 64 := Nat.lt_succ_of_le hx
  have eP := eval_spec P hP.small x hx'
  have eQ := eval_spec Q hQ.small x hx'
  have eA := eval_spec (P.add Q) (norm_add P Q hP.small hQ.small).small x hx'
  have eM := eval_spec (P.mul Q) (norm_mul P Q hP.small hQ.small).small x hx'
  constructor
  · apply F64.ofNat_inj eA.1 (GF64.add_lt eP.1 eQ.1)
    rw [eA.2, F64.ofNat_add eP.1 eQ.1, eP.2, eQ.2, toPoly_add P Q hP.small hQ.small, eval_add]
  · apply F64.ofNat_inj eM.1 (GF64.mul_lt _ _)
    rw [eM.2, F64.ofNat_mul eP.1 eQ.1, eP.2, eQ.2, toPoly_mul P Q hP.small hQ.small, eval_mul]

theorem evaluation_is_homomorphism_witness :
    ((GF64_poly.mk [1, 0, 1] 2).add (GF64_poly.mk [1, 1] 1)).eval 0
      = GF64.add ((GF64_poly.mk [1, 0, 1] 2).eval 0) ((GF64_poly.mk [1, 1] 1).eval 0) ∧
    ((GF64_poly.mk [1, 0, 1] 2).mul (GF64_poly.mk [1, 1] 1)).eval 0
      = GF64.mul ((GF64_poly.mk [1, 0, 1] 2).eval 0) ((GF64_poly.mk [1, 1] 1).eval 0) :=
  evaluation_is_homomorphism (GF64_poly.mk [1, 0, 1] 2) (GF64_poly.mk [1, 1] 1) 0
    ⟨by unfold Small; decide, rfl, by decide⟩ ⟨by unfold Small; decide, rfl, by decide⟩
    (by decide)

/-! ## Sums of words and counts of differing positions -/

theorem errorCount_self (r : List Nat) (mask : List Bool) : errorCount r r mask = 0 := by
  unfold errorCount
  rw [List.length_eq_zero, List.filter_eq_nil_iff]
  intro i _
  simp

theorem errorCount_le_card (r c : List Nat) (mask : List Bool) (A : Finset Nat)
    (h : ∀ i, i < 63 → mask.getD i false = false → r.getD i 0 ≠ c.getD i 0 → i ∈ A) :
    errorCount r c mask ≤ A.card := by
  unfold errorCount
  rw [← List.toFinset_card_of_nodup (List.Nodup.filter _ (List.nodup_range 63))]
  apply Finset.card_le_card
  intro i hi
  rw [List.mem_toFinset, List.mem_filter, List.mem_range, Bool.and_eq_true,
    Bool.not_eq_true', bne_iff_ne] at hi
  exact h i hi.1 hi.2.1 hi.2.2

/-! ## Recovering the message from the codeword -/

theorem enc_div_eq (p q : GF64_poly) (h1 : q.degree ≠ 0) (h2 : q.degree ≤ p.degree)
    (st : List Nat × List Nat) (hst : ReedSolomonEncoder.divLoop p q = .ok st) :
    ReedSolomonEncoder.div p q
      = .ok (ReedSolomonEncoder.ofVector (popZeros st.1.length st.1)) := by
  unfold ReedSolomonEncoder.div
  rw [if_neg (not_and_of_not_left _ h1), if_neg (Nat.not_lt.2 h2), hst]
  rfl

theorem dec_div_eq (p q : GF64_poly) (h1 : q.degree ≠ 0) (h2 : q.degree ≤ p.degree)
    (st : List Nat × List Nat) (hst : GF64_poly.divLoop p q = .ok st) :
    p.div q = .ok (GF64_poly.ofVector (popZeros st.1.length st.1)) := by
  unfold GF64_poly.div
  rw [if_neg (not_and_of_not_left _ h1), if_neg (Nat.not_lt.2 h2), hst]
  rfl

theorem dec_div_small (p q : GF64_poly) (h1 : q.degree ≠ 0) (h2 : p.degree < q.degree) :
    p.div q = .ok GF64_poly.zero := by
  unfold GF64_poly.div
  rw [if_neg (not_and_of_not_left _ h1), if_pos h2]

theorem listPoly_inj {l m : List Nat} (hl : Small l) (hm : Small m)
    (hlen : l.length = m.length) (h : listPoly l = listPoly m) : l = m :=
  list_eq_of_getD hlen (fun i =>
    F64.ofNat_inj (getD_lt_of_small hl i) (getD_lt_of_small hm i) (listPoly_eq_iff.1 h i))

/-- Division of a stored codeword by the generator, with the constructor of
`encoder.cpp`. -/
theorem enc_div_codeword (M C : List Nat) (hlen : M.length = 42) (hM : Small M)
    (hClen : C.length = 63) (hC : Small C)
    (hprod : listPoly C = listPoly M * listPoly gen_poly) :
    ReedSolomonEncoder.div (ReedSolomonEncoder.ofVector C)
        ReedSolomonEncoder.createGeneratorPolynomial
      = .ok (ReedSolomonEncoder.ofVector (popZeros M.length M)) := by
  have hp : ReedSolomonEncoder.ofVector C = ⟨C, 62⟩ := by
    unfold ReedSolomonEncoder.ofVector
    rw [hClen]
  rw [hp, createGeneratorPolynomial_eq]
  have hwf : WF (⟨C, 62⟩ : GF64_poly) := ⟨by show 62 < C.length; omega, hC⟩
  have htidy : ∀ j, (⟨C, 62⟩ : GF64_poly).degree < j
      → (⟨C, 62⟩ : GF64_poly).coefficients.getD j 0 = 0 := by
    intro j hj
    have hj62 : 62 < j := hj
    exact getD_of_le (by
      show C.length ≤ j
      omega)
  have hdeg : (⟨gen_poly, 21⟩ : GF64_poly).degree ≤ (⟨C, 62⟩ : GF64_poly).degree := by
    show 21 ≤ 62
    omega
  obtain ⟨st, hst, inv⟩ := enc_divLoop_tidy ⟨C, 62⟩ ⟨gen_poly, 21⟩ hwf htidy small_gen_poly
    (by decide) hdeg
  rw [enc_div_eq ⟨C, 62⟩ ⟨gen_poly, 21⟩ (by decide) hdeg st hst]
  have hq := quotient_of_product ⟨C, 62⟩ ⟨gen_poly, 21⟩ small_gen_poly (by decide) hdeg
    st inv (listPoly M)
    (by rw [toPoly_of_length C 62 hClen, toPoly_of_length gen_poly 21 rfl, hprod])
  have hqlen : 0 < st.1.length := by
    rw [inv.qlen]
    omega
  rw [popZeros_eq_of_listPoly_eq st.1 M inv.qsmall hM hqlen (by omega) hq]

/-- Division of a stored codeword by the generator, with the constructor and the
operator of the decoder. -/
theorem dec_div_codeword (M C : List Nat) (hlen : M.length = 42) (hM : Small M)
    (hClen : C.length = 63) (hC : Small C)
    (hprod : listPoly C = listPoly M * listPoly gen_poly) :
    (GF64_poly.ofVector C).div (GF64_poly.ofVector gen_poly)
      = .ok (GF64_poly.ofVector (popZeros M.length M)) := by
  rw [ofVector_gen_poly]
  by_cases hlt : (GF64_poly.ofVector C).degree < 21
  · rw [dec_div_small _ ⟨gen_poly, 21⟩ (by decide) hlt]
    have hM0 : listPoly M = 0 := by
      by_contra hne
      have hd := degree_toPoly_le (GF64_poly.ofVector C)
      rw [toPoly_ofVector, hprod, natDegree_mul hne natDegree_generator.1,
        natDegree_generator.2] at hd
      omega
    refine congrArg Except.ok ?_
    exact Norm.eq_of_toPoly_eq norm_zero (norm_ofVector_popZeros hM (by omega))
      (by rw [toPoly_zero, toPoly_ofVector_popZeros, hM0])
  · have hdeg : (⟨gen_poly, 21⟩ : GF64_poly).degree ≤ (GF64_poly.ofVector C).degree :=
      Nat.le_of_not_lt hlt
    obtain ⟨st, hst, inv⟩ := divLoop_tidy (GF64_poly.ofVector C) ⟨gen_poly, 21⟩
      (wf_ofVector hC (by omega)) (fun j hj => ofVector_getD_above C j hj) small_gen_poly
      (by decide) hdeg
    rw [dec_div_eq _ ⟨gen_poly, 21⟩ (by decide) hdeg st hst]
    have hq := quotient_of_product (GF64_poly.ofVector C) ⟨gen_poly, 21⟩ small_gen_poly
      (by decide) hdeg st inv (listPoly M)
      (by rw [toPoly_ofVector, toPoly_of_length gen_poly 21 rfl, hprod])
    have hqlen : 0 < st.1.length := by
      rw [inv.qlen]
      omega
    rw [popZeros_eq_of_listPoly_eq st.1 M inv.qsmall hM hqlen (by omega) hq]

/-- C36. The message is recoverable from the codeword: for a message `M` of 42 field
elements `encode` returns a word `C`; dividing the polynomial of `C` by the generator
polynomial returns the polynomial of `M` with its trailing zeros stripped, both with
`operator/` of `encoder.cpp` and with `operator/` of the decoder; and every message of 42
field elements that `encode` maps to `C` is `M`. -/
theorem message_recoverable (M : List Nat) (hlen : M.length = 42) (hM : ∀ x ∈ M, x < 64) :
    ∃ C, ReedSolomonEncoder.encode M = .ok C ∧
      ReedSolomonEncoder.div (ReedSolomonEncoder.ofVector C)
          ReedSolomonEncoder.createGeneratorPolynomial
        = .ok (ReedSolomonEncoder.ofVector (popZeros M.length M)) ∧
      (GF64_poly.ofVector C).div (GF64_poly.ofVector gen_poly)
        = .ok (GF64_poly.ofVector (popZeros M.length M)) ∧
      ∀ M', M'.length = 42 → (∀ x ∈ M', x < 64) →
        ReedSolomonEncoder.encode M' = .ok C → M' = M := by
  obtain ⟨C, hC, hClen, hCs, hprod⟩ := listPoly_encode M hlen hM
  refine ⟨C, hC, enc_div_codeword M C hlen hM hClen hCs hprod,
    dec_div_codeword M C hlen hM hClen hCs hprod, ?_⟩
  intro M' hlen' hM' hC'
  obtain ⟨C', hC'', -, -, hprod'⟩ := listPoly_encode M' hlen' hM'
  rw [hC'] at hC''
  injection hC'' with hC''
  subst hC''
  rw [hprod] at hprod'
  exact listPoly_inj hM' hM (by rw [hlen', hlen])
    (mul_right_cancel₀ natDegree_generator.1 hprod').symm

theorem message_recoverable_witness :
    ∃ C, ReedSolomonEncoder.encode ([1] ++ List.replicate 41 0) = .ok C ∧
      ReedSolomonEncoder.div (ReedSolomonEncoder.ofVector C)
          ReedSolomonEncoder.createGeneratorPolynomial
        = .ok (ReedSolomonEncoder.ofVector
            (popZeros ([1] ++ List.replicate 41 0).length ([1] ++ List.replicate 41 0))) ∧
      (GF64_poly.ofVector C).div (GF64_poly.ofVector gen_poly)
        = .ok (GF64_poly.ofVector
            (popZeros ([1] ++ List.replicate 41 0).length ([1] ++ List.replicate 41 0))) ∧
      ∀ M', M'.length = 42 → (∀ x ∈ M', x < 64) →
        ReedSolomonEncoder.encode M' = .ok C → M' = [1] ++ List.replicate 41 0 :=
  message_recoverable ([1] ++ List.replicate 41 0) (by decide) (by decide)

/-! ## The truncation without the bounds test -/

theorem foldlM_all_ok {α β : Type} (f : β → α → Except Failure β) (g : β → α → β)
    (l : List α) (h : ∀ b a, a ∈ l → f b a = .ok (g b a)) (b : β) :
    l.foldlM f b = .ok (l.foldl g b) := by
  induction l generalizing b with
  | nil => rfl
  | cons a l ih =>
    rw [List.foldlM_cons, h b a (List.mem_cons_self a l), List.foldl_cons]
    exact ih (fun b a ha => h b a (List.mem_cons_of_mem _ ha)) (g b a)

theorem read_of_lt (mem : Nat → Nat) (p : GF64_poly) (i : Nat)
    (h : i < p.coefficients.length) :
    Unchecked.read mem p i = p.coefficients.getD i 0 := by
  unfold Unchecked.read
  rw [List.get?_eq_getElem?, List.getD_eq_getElem?_getD, List.getElem?_eq_getElem h]
  rfl

theorem read_of_le (mem : Nat → Nat) (p : GF64_poly) (i : Nat)
    (h : p.coefficients.length ≤ i) : Unchecked.read mem p i = mem i := by
  unfold Unchecked.read
  rw [List.get?_eq_getElem?, List.getElem?_eq_none h]

theorem get?_of_lt (mem : Nat → Nat) (p : GF64_poly) (i : Nat)
    (h : i < p.coefficients.length) :
    p.coefficients.get? i = some (Unchecked.read mem p i) := by
  rw [read_of_lt mem p i h, List.get?_eq_getElem?, List.getD_eq_getElem?_getD,
    List.getElem?_eq_getElem h]
  rfl

theorem read_lt (mem : Nat → Nat) (hmem : ∀ i, mem i < 64) (p : GF64_poly)
    (hp : Small p.coefficients) (i : Nat) : Unchecked.read mem p i < 64 := by
  by_cases h : i < p.coefficients.length
  · rw [read_of_lt mem p i h]
    exact getD_lt_of_small hp i
  · rw [read_of_le mem p i (Nat.le_of_not_lt h)]
    exact hmem i

theorem read_of_strayZero (mem : Nat → Nat) (p : GF64_poly) (h : strayZero mem p) (i : Nat)
    (hi : i < 21) : Unchecked.read mem p i = p.coefficients.getD i 0 := by
  by_cases hlt : i < p.coefficients.length
  · exact read_of_lt mem p i hlt
  · rw [read_of_le mem p i (Nat.le_of_not_lt hlt), h i (Nat.le_of_not_lt hlt) hi,
      getD_of_le (Nat.le_of_not_lt hlt)]

/-- The checked truncation of a polynomial whose first 21 stored coefficients are the
words the unchecked truncation of `p` reads returns what the unchecked truncation of `p`
returns. -/
theorem mod_x21_of_reads (mem : Nat → Nat) (p q : GF64_poly)
    (h : ∀ i, i < 21 → q.coefficients.get? i = some (Unchecked.read mem p i)) :
    q.mod_x21 = .ok (Unchecked.mod_x21 mem p) := by
  unfold GF64_poly.mod_x21 Unchecked.mod_x21
  apply foldlM_all_ok
  intro r k hk
  rw [List.mem_range] at hk
  rw [h (20 - k) (by omega)]
  dsimp only
  split <;> rfl

/-- The checked truncation, when it reads in range, returns the value of the unchecked
one, whatever lies behind the vector. -/
theorem mod_x21_eq_unchecked (mem : Nat → Nat) (p : GF64_poly)
    (hlen : 21 ≤ p.coefficients.length) :
    p.mod_x21 = .ok (Unchecked.mod_x21 mem p) :=
  mod_x21_of_reads mem p p (fun i hi => get?_of_lt mem p i (by omega))

theorem unchecked_mod_x21_of_ok (mem : Nat → Nat) (p T : GF64_poly) (h : p.mod_x21 = .ok T) :
    Unchecked.mod_x21 mem p = T := by
  rw [mod_x21_eq_unchecked mem p (mod_x21_in_range p T h)] at h
  injection h

/-- The unchecked truncation returns a normalised polynomial of degree at most 20 whose
coefficient `i` is the word read at index `i`. -/
theorem unchecked_mod_x21_spec (mem : Nat → Nat) (p : GF64_poly)
    (hread : ∀ i, i < 21 → Unchecked.read mem p i < 64) :
    Norm (Unchecked.mod_x21 mem p) ∧ (Unchecked.mod_x21 mem p).degree ≤ 20 ∧
    ∀ i, (Unchecked.mod_x21 mem p).coefficients.getD i 0
      = if i < 21 then Unchecked.read mem p i else 0 := by
  have hget : ∀ i, i < 21 →
      ((List.range 21).map (Unchecked.read mem p)).get? i
        = some (Unchecked.read mem p i) := by
    intro i hi
    rw [List.get?_eq_getElem?, List.getElem?_map, List.getElem?_range hi]
    rfl
  have hq := mod_x21_of_reads mem p ⟨(List.range 21).map (Unchecked.read mem p), 20⟩ hget
  have hsmall : Small
      (GF64_poly.mk ((List.range 21).map (Unchecked.read mem p)) 20).coefficients := by
    intro x hx
    obtain ⟨i, hi, rfl⟩ := List.mem_map.1 hx
    exact hread i (List.mem_range.1 hi)
  have hlen : 21
      ≤ (GF64_poly.mk ((List.range 21).map (Unchecked.read mem p)) 20).coefficients.length := by
    show 21 ≤ ((List.range 21).map (Unchecked.read mem p)).length
    rw [List.length_map, List.length_range]
  obtain ⟨hn, hd, hval⟩ := mod_x21_top _ _ hsmall hlen hq
  refine ⟨hn, hd, fun i => ?_⟩
  rw [hval i]
  split
  · rename_i hi
    have := hget i hi
    rw [List.get?_eq_getElem?] at this
    show ((List.range 21).map (Unchecked.read mem p)).getD i 0 = _
    rw [List.getD_eq_getElem?_getD, this]
    rfl
  · rfl

theorem unchecked_mod_x21_norm (mem : Nat → Nat) (hmem : ∀ i, mem i < 64) (p : GF64_poly)
    (hp : Small p.coefficients) :
    Norm (Unchecked.mod_x21 mem p) ∧ (Unchecked.mod_x21 mem p).degree ≤ 20 :=
  let h := unchecked_mod_x21_spec mem p (fun i _ => read_lt mem hmem p hp i)
  ⟨h.1, h.2.1⟩

/-- When every word read behind the vector is zero, the unchecked truncation returns the
polynomial of the coefficients `0 .. 20`. -/
theorem unchecked_mod_x21_clean (mem : Nat → Nat) (p : GF64_poly) (hp : Norm p)
    (hclean : strayZero mem p) :
    Norm (Unchecked.mod_x21 mem p) ∧
    (∀ i, (Unchecked.mod_x21 mem p).coefficients.getD i 0
      = if i < 21 then p.coefficients.getD i 0 else 0) ∧
    (X : F64[X]) ^ 21 ∣ toPoly p + toPoly (Unchecked.mod_x21 mem p) := by
  have hread : ∀ i, i < 21 → Unchecked.read mem p i < 64 := by
    intro i hi
    rw [read_of_strayZero mem p hclean i hi]
    exact getD_lt_of_small hp.small i
  obtain ⟨hn, -, hval⟩ := unchecked_mod_x21_spec mem p hread
  have hval' : ∀ i, (Unchecked.mod_x21 mem p).coefficients.getD i 0
      = if i < 21 then p.coefficients.getD i 0 else 0 := by
    intro i
    rw [hval i]
    split
    · rename_i hi
      exact read_of_strayZero mem p hclean i hi
    · rfl
  refine ⟨hn, hval', ?_⟩
  rw [X_pow_dvd_iff]
  intro d hd
  rw [coeff_add, toPoly_of_mod_x21 p _ hp hn hval' d, if_pos hd, F64.add_self]

/-! ## The Euclidean algorithm and the decoder without the bounds test -/

theorem unchecked_euclid_eq (mem : Nat → Nat) (S loc : GF64_poly)
    (s : ReedSolomonDecoder.EuclidState)
    (h : ReedSolomonDecoder.euclidLoop ((21 - loc.degree) / 2) ((21 + loc.degree + 1) / 2 - 1)
      ReedSolomonDecoder.euclidBudget
      (ReedSolomonDecoder.euclidInit (Unchecked.mod_x21 mem (loc.mul S))) = .ok s) :
    Unchecked.euclideanAlgorithm mem S loc
      = .ok (ReedSolomonDecoder.fromBack s.V 1, ReedSolomonDecoder.fromBack s.R 1) := by
  unfold Unchecked.euclideanAlgorithm
  show (ReedSolomonDecoder.euclidLoop ((21 - loc.degree) / 2) ((21 + loc.degree + 1) / 2 - 1)
      ReedSolomonDecoder.euclidBudget
      (ReedSolomonDecoder.euclidInit (Unchecked.mod_x21 mem (loc.mul S))) >>= _) = _
  rw [h]
  rfl

theorem unchecked_euclid_inv (mem : Nat → Nat) (S loc v ω : GF64_poly)
    (h : Unchecked.euclideanAlgorithm mem S loc = .ok (v, ω)) :
    ∃ s, ReedSolomonDecoder.euclidLoop ((21 - loc.degree) / 2)
        ((21 + loc.degree + 1) / 2 - 1) ReedSolomonDecoder.euclidBudget
        (ReedSolomonDecoder.euclidInit (Unchecked.mod_x21 mem (loc.mul S))) = .ok s ∧
      v = ReedSolomonDecoder.fromBack s.V 1 ∧ ω = ReedSolomonDecoder.fromBack s.R 1 := by
  unfold Unchecked.euclideanAlgorithm at h
  cases h2 : ReedSolomonDecoder.euclidLoop ((21 - loc.degree) / 2)
      ((21 + loc.degree + 1) / 2 - 1) ReedSolomonDecoder.euclidBudget
      (ReedSolomonDecoder.euclidInit (Unchecked.mod_x21 mem (loc.mul S))) with
  | error x =>
    change (ReedSolomonDecoder.euclidLoop ((21 - loc.degree) / 2)
      ((21 + loc.degree + 1) / 2 - 1) ReedSolomonDecoder.euclidBudget
      (ReedSolomonDecoder.euclidInit (Unchecked.mod_x21 mem (loc.mul S))) >>= _) = _ at h
    rw [h2] at h
    cases h
  | ok s =>
    change (ReedSolomonDecoder.euclidLoop ((21 - loc.degree) / 2)
      ((21 + loc.degree + 1) / 2 - 1) ReedSolomonDecoder.euclidBudget
      (ReedSolomonDecoder.euclidInit (Unchecked.mod_x21 mem (loc.mul S))) >>= _) = _ at h
    rw [h2] at h
    have h' : (Except.ok (ReedSolomonDecoder.fromBack s.V 1, ReedSolomonDecoder.fromBack s.R 1)
        : Except Failure (GF64_poly × GF64_poly)) = .ok (v, ω) := h
    injection h' with h'
    injection h' with ha hb
    exact ⟨s, rfl, ha.symm, hb.symm⟩

/-- Where the checked Euclidean algorithm returns, the unchecked one returns the same
pair, whatever lies behind the vector. -/
theorem unchecked_euclid_of_checked (mem : Nat → Nat) (S loc : GF64_poly)
    (res : GF64_poly × GF64_poly)
    (h : ReedSolomonDecoder.euclideanAlgorithm S loc = .ok res) :
    Unchecked.euclideanAlgorithm mem S loc = .ok res := by
  obtain ⟨T, s, hT, hloop, hv, hω⟩ := euclideanAlgorithm_inv S loc res.1 res.2 h
  rw [← unchecked_mod_x21_of_ok mem _ T hT] at hloop
  rw [unchecked_euclid_eq mem S loc s hloop, ← hv, ← hω]

theorem unchecked_euclid_norm (mem : Nat → Nat) (hmem : ∀ i, mem i < 64)
    (S loc v ω : GF64_poly) (hS : Small S.coefficients) (hloc : Small loc.coefficients)
    (h : Unchecked.euclideanAlgorithm mem S loc = .ok (v, ω)) :
    Norm v ∧ Norm ω ∧ v.degree ≤ (21 - loc.degree) / 2 := by
  obtain ⟨s, hloop, hv, hω⟩ := unchecked_euclid_inv mem S loc v ω h
  have hTn := (unchecked_mod_x21_norm mem hmem (loc.mul S) (norm_mul loc S hloc hS).small).1
  have inv := euclidInv_loop (toPoly (Unchecked.mod_x21 mem (loc.mul S))) _ _ _ _ s
    (euclidInv_init _ hTn) hloop
  obtain ⟨k, -, -, hstop, -⟩ := euclidLoop_first _ _ _ _ s hloop
  exact ⟨by rw [hv]; exact inv.v1, by rw [hω]; exact inv.r1, by rw [hv]; exact hstop.2⟩

theorem unchecked_decode_eq (mem : Nat → Nat) (r : List Nat) (mask : List Bool) :
    Unchecked.decode mem r mask
      = if (ReedSolomonDecoder.calculateSyndromes r mask).is_zero then
          .ok (true, GF64_poly.ofVector r)
        else
          ReedSolomonDecoder.calculateErasureLocator mask >>= fun loc =>
          Unchecked.euclideanAlgorithm mem
            (ReedSolomonDecoder.calculateSyndromes r mask) loc >>= fun res =>
          ReedSolomonDecoder.correctErrors loc res.1 res.2 >>= fun ecr =>
          pure (ecr.1, (GF64_poly.ofVector r).add ecr.2) := rfl

theorem unchecked_decode_fast (mem : Nat → Nat) (r : List Nat) (mask : List Bool)
    (h : (ReedSolomonDecoder.calculateSyndromes r mask).is_zero = true) :
    Unchecked.decode mem r mask = .ok (true, GF64_poly.ofVector r) := by
  rw [unchecked_decode_eq, h, if_pos rfl]

theorem unchecked_decode_chain (mem : Nat → Nat) (r : List Nat) (mask : List Bool)
    (hz : (ReedSolomonDecoder.calculateSyndromes r mask).is_zero = false) :
    Unchecked.decode mem r mask
      = (ReedSolomonDecoder.calculateErasureLocator mask >>= fun loc =>
          Unchecked.euclideanAlgorithm mem
            (ReedSolomonDecoder.calculateSyndromes r mask) loc >>= fun res =>
          ReedSolomonDecoder.correctErrors loc res.1 res.2 >>= fun ecr =>
          pure (ecr.1, (GF64_poly.ofVector r).add ecr.2)) := by
  rw [unchecked_decode_eq, hz, if_neg Bool.false_ne_true]

theorem unchecked_decode_slow (mem : Nat → Nat) (r : List Nat) (mask : List Bool)
    (hz : (ReedSolomonDecoder.calculateSyndromes r mask).is_zero = false)
    (loc v ω e : GF64_poly) (b : Bool)
    (h1 : ReedSolomonDecoder.calculateErasureLocator mask = .ok loc)
    (h2 : Unchecked.euclideanAlgorithm mem
      (ReedSolomonDecoder.calculateSyndromes r mask) loc = .ok (v, ω))
    (h3 : ReedSolomonDecoder.correctErrors loc v ω = .ok (b, e)) :
    Unchecked.decode mem r mask = .ok (b, (GF64_poly.ofVector r).add e) := by
  rw [unchecked_decode_chain mem r mask hz, h1]
  show (Unchecked.euclideanAlgorithm mem _ loc >>= _) = _
  rw [h2]
  show (ReedSolomonDecoder.correctErrors loc v ω >>= _) = _
  rw [h3]
  rfl

theorem unchecked_decode_slow_inv (mem : Nat → Nat) (r : List Nat) (mask : List Bool)
    (b : Bool) (P : GF64_poly)
    (hz : (ReedSolomonDecoder.calculateSyndromes r mask).is_zero = false)
    (h : Unchecked.decode mem r mask = .ok (b, P)) :
    ∃ loc v ω e,
      ReedSolomonDecoder.calculateErasureLocator mask = .ok loc ∧
      Unchecked.euclideanAlgorithm mem
        (ReedSolomonDecoder.calculateSyndromes r mask) loc = .ok (v, ω) ∧
      ReedSolomonDecoder.correctErrors loc v ω = .ok (b, e) ∧
      P = (GF64_poly.ofVector r).add e := by
  rw [unchecked_decode_chain mem r mask hz] at h
  cases h1 : ReedSolomonDecoder.calculateErasureLocator mask with
  | error x =>
    rw [h1] at h
    cases h
  | ok loc =>
    rw [h1] at h
    cases h2 : Unchecked.euclideanAlgorithm mem
        (ReedSolomonDecoder.calculateSyndromes r mask) loc with
    | error x =>
      change (Unchecked.euclideanAlgorithm mem
        (ReedSolomonDecoder.calculateSyndromes r mask) loc >>= _) = _ at h
      rw [h2] at h
      cases h
    | ok vr =>
      change (Unchecked.euclideanAlgorithm mem
        (ReedSolomonDecoder.calculateSyndromes r mask) loc >>= _) = _ at h
      rw [h2] at h
      cases h3 : ReedSolomonDecoder.correctErrors loc vr.1 vr.2 with
      | error x =>
        change (ReedSolomonDecoder.correctErrors loc vr.1 vr.2 >>= _) = _ at h
        rw [h3] at h
        cases h
      | ok be =>
        change (ReedSolomonDecoder.correctErrors loc vr.1 vr.2 >>= _) = _ at h
        rw [h3] at h
        have h' : (Except.ok (be.1, (GF64_poly.ofVector r).add be.2)
            : Except Failure (Bool × GF64_poly)) = .ok (b, P) := h
        injection h' with h'
        injection h' with ha hb
        refine ⟨loc, vr.1, vr.2, be.2, rfl, h2, ?_, hb.symm⟩
        rw [h3, ← ha]

/-- Where the checked decoder returns, the unchecked decoder returns the same value,
whatever lies behind the vector. -/
theorem unchecked_decode_of_checked (mem : Nat → Nat) (r : List Nat) (mask : List Bool)
    (x : Bool × GF64_poly) (h : ReedSolomonDecoder.decode r mask = .ok x) :
    Unchecked.decode mem r mask = .ok x := by
  cases hz : (ReedSolomonDecoder.calculateSyndromes r mask).is_zero with
  | true =>
    rw [decode_of_syndromes_zero r mask hz] at h
    rw [unchecked_decode_fast mem r mask hz]
    exact h
  | false =>
    obtain ⟨loc, v, ω, e, h1, h2, h3, hP⟩ := decode_slow_inv r mask x.1 x.2 hz h
    rw [unchecked_decode_slow mem r mask hz loc v ω e x.1 h1
      (unchecked_euclid_of_checked mem _ loc (v, ω) h2) h3, ← hP]

/-- Success of `correctErrors` on the pair the Euclidean loop returns, started from a
polynomial `T` that agrees with `loc * S` on the coefficients `0 .. 20`: the error pattern
found has the syndromes of the received word. -/
theorem correction_of_loop (r : List Nat) (hr : Small r) (loc T e : GF64_poly) (mu nu n : Nat)
    (s : ReedSolomonDecoder.EuclidState) (hlocN : Norm loc) (hTN : Norm T)
    (hdvd : (X : F64[X]) ^ 21 ∣ toPoly loc * listPoly (syndromeList r) + toPoly T)
    (hloop : ReedSolomonDecoder.euclidLoop mu nu n (ReedSolomonDecoder.euclidInit T) = .ok s)
    (h3 : ReedSolomonDecoder.correctErrors loc (ReedSolomonDecoder.fromBack s.V 1)
      (ReedSolomonDecoder.fromBack s.R 1) = .ok (true, e)) :
    ∃ err, e = GF64_poly.ofVector err ∧ Small err ∧ err.length = 63 ∧
      syndromeList err = syndromeList r := by
  have inv := euclidInv_loop (toPoly T) _ _ _ _ s (euclidInv_init T hTN) hloop
  have hvN := inv.v1
  have hωN := inv.r1
  have hkeyeq := inv.e1
  obtain ⟨h0, hd, st, hst, hcount, he⟩ := correctErrors_true loc _ _ e h3
  have hLN := norm_mul (ReedSolomonDecoder.fromBack s.V 1) loc hvN.small hlocN.small
  have hLp := toPoly_mul (ReedSolomonDecoder.fromBack s.V 1) loc hvN.small hlocN.small
  obtain ⟨st', hst', c1, c2, c3⟩ := correctLoop_spec
    ((ReedSolomonDecoder.fromBack s.V 1).mul loc)
    ((ReedSolomonDecoder.fromBack s.V 1).mul loc).differentiate
    (ReedSolomonDecoder.fromBack s.R 1) (small_differentiate _ hLN.small)
  rw [hst] at hst'
  injection hst' with hst'
  subst hst'
  have hZ : ∀ k ∈ (Finset.range 63).filter
      (isRootAt ((ReedSolomonDecoder.fromBack s.V 1).mul loc)
        ((ReedSolomonDecoder.fromBack s.V 1).mul loc).differentiate),
      k < 63 := fun k hk => Finset.mem_range.1 (Finset.mem_filter.1 hk).1
  have hlam0 : (toPoly ((ReedSolomonDecoder.fromBack s.V 1).mul loc)).eval 0 ≠ 0 := by
    have e0 := (eval_spec ((ReedSolomonDecoder.fromBack s.V 1).mul loc) hLN.small 0
      (by decide)).2
    rw [F64.ofNat_zero] at e0
    rw [← e0]
    intro h
    exact h0 ((F64.ofNat_eq_zero (eval_spec ((ReedSolomonDecoder.fromBack s.V 1).mul loc)
      hLN.small 0 (by decide)).1).1 h)
  have hlamne : toPoly ((ReedSolomonDecoder.fromBack s.V 1).mul loc) ≠ 0 := by
    intro h
    rw [h, eval_zero] at hlam0
    exact hlam0 rfl
  have hvne : toPoly (ReedSolomonDecoder.fromBack s.V 1) ≠ 0 := by
    intro h
    rw [hLp, h, zero_mul] at hlamne
    exact hlamne rfl
  have hlocne : toPoly loc ≠ 0 := by
    intro h
    rw [hLp, h, mul_zero] at hlamne
    exact hlamne rfl
  have hsyn := syn_of_success (toPoly ((ReedSolomonDecoder.fromBack s.V 1).mul loc))
    (toPoly (ReedSolomonDecoder.fromBack s.R 1)) (listPoly (syndromeList r))
    ((Finset.range 63).filter (isRootAt ((ReedSolomonDecoder.fromBack s.V 1).mul loc)
      ((ReedSolomonDecoder.fromBack s.V 1).mul loc).differentiate)) hZ hlam0
    (by rw [← c1, hcount, hLN.natDegree])
    (fun i hi => ((isRootAt_iff _ hLN.small i).1 (Finset.mem_filter.1 hi).2).1)
    (by
      rw [hωN.natDegree, hLp, natDegree_mul hvne hlocne, hvN.natDegree, hlocN.natDegree]
      omega)
    (by
      have e : toPoly ((ReedSolomonDecoder.fromBack s.V 1).mul loc) * listPoly (syndromeList r)
            + toPoly (ReedSolomonDecoder.fromBack s.R 1)
          = toPoly (ReedSolomonDecoder.fromBack s.V 1)
              * (toPoly loc * listPoly (syndromeList r) + toPoly T)
            + toPoly (ReedSolomonDecoder.fromBack s.U 1) * X ^ 21 := by
        rw [hLp, hkeyeq]
        ring
      rw [e]
      exact dvd_add (dvd_mul_of_dvd_right hdvd _) (dvd_mul_left _ _))
    (degree_listPoly_syndromeList r)
  have hsmall : Small st.2 := by
    apply small_of_getD
    intro i
    rw [c3 i]
    split
    · exact GF64.mul_lt _ _
    · decide
  refine ⟨st.2, he, hsmall, c2, ?_⟩
  apply syndromeList_eq_of_listPoly_eq _ _ hsmall hr
  rw [listPoly_syndromeList_of_support st.2 hsmall c2 _ hZ
    (by
      intro i hi
      rw [c3 i, if_neg]
      intro h
      exact hi (Finset.mem_filter.2 ⟨Finset.mem_range.2 h.1, h.2⟩)), ← hsyn]
  unfold synPoly
  apply Finset.sum_congr rfl
  intro j _
  refine congrArg (fun t => C t * X ^ j) ?_
  apply Finset.sum_congr rfl
  intro i hi
  have hi' := Finset.mem_filter.1 hi
  dsimp only
  rw [c3 i, if_pos ⟨Finset.mem_range.1 hi'.1, hi'.2⟩]
  unfold forneyValue
  have hdsm := small_differentiate _ hLN.small
  rw [F64.ofNat_mul (eval_spec (ReedSolomonDecoder.fromBack s.R 1) hωN.small _
      (testPoint_lt i)).1 (GF64.inv_lt _),
    F64.ofNat_inv (eval_spec _ hdsm _ (testPoint_lt i)).1,
    ofNat_eval_testPoint (ReedSolomonDecoder.fromBack s.R 1) hωN.small i,
    ofNat_eval_testPoint _ hdsm i, toPoly_differentiate _ hLN.small]

/-- A successful correction changes at most `deg v` non-erased positions, `v` the error
locator handed to `correctErrors`. -/
theorem correction_weight (r : List Nat) (mask : List Bool) (v ω e : GF64_poly)
    (hvN : Norm v)
    (h3 : ReedSolomonDecoder.correctErrors (erasureLoop mask) v ω = .ok (true, e)) :
    errorCount r ((GF64_poly.ofVector r).add e).coefficients mask ≤ v.degree := by
  have hlocN := (erasureLoop_spec mask).1
  obtain ⟨h0, -, st, hst, hcount, he⟩ := correctErrors_true (erasureLoop mask) v ω e h3
  have hLN := norm_mul v (erasureLoop mask) hvN.small hlocN.small
  have hLp := toPoly_mul v (erasureLoop mask) hvN.small hlocN.small
  obtain ⟨st', hst', c1, -, c3⟩ := correctLoop_spec (v.mul (erasureLoop mask))
    (v.mul (erasureLoop mask)).differentiate ω (small_differentiate _ hLN.small)
  rw [hst] at hst'
  injection hst' with hst'
  subst hst'
  have hZ : ∀ k ∈ (Finset.range 63).filter
      (isRootAt (v.mul (erasureLoop mask)) (v.mul (erasureLoop mask)).differentiate),
      k < 63 := fun k hk => Finset.mem_range.1 (Finset.mem_filter.1 hk).1
  have hlam0 : (toPoly (v.mul (erasureLoop mask))).eval 0 ≠ 0 := by
    have e0 := (eval_spec (v.mul (erasureLoop mask)) hLN.small 0 (by decide)).2
    rw [F64.ofNat_zero] at e0
    rw [← e0]
    intro h
    exact h0 ((F64.ofNat_eq_zero
      (eval_spec (v.mul (erasureLoop mask)) hLN.small 0 (by decide)).1).1 h)
  have hlamne : toPoly (v.mul (erasureLoop mask)) ≠ 0 := by
    intro h
    rw [h, eval_zero] at hlam0
    exact hlam0 rfl
  have hvne : toPoly v ≠ 0 := by
    intro h
    rw [hLp, h, zero_mul] at hlamne
    exact hlamne rfl
  have hlocne : toPoly (erasureLoop mask) ≠ 0 := by
    intro h
    rw [hLp, h, mul_zero] at hlamne
    exact hlamne rfl
  have hcardZ : ((Finset.range 63).filter
      (isRootAt (v.mul (erasureLoop mask)) (v.mul (erasureLoop mask)).differentiate)).card
        = v.degree + (erasureLoop mask).degree := by
    rw [← c1, hcount, ← hLN.natDegree, hLp, natDegree_mul hvne hlocne, hvN.natDegree,
      hlocN.natDegree]
  obtain ⟨c, hc, hsplit⟩ := split_of_roots (toPoly (v.mul (erasureLoop mask))) _ hZ hlamne
    (by rw [hcardZ, hLp, natDegree_mul hvne hlocne, hvN.natDegree, hlocN.natDegree])
    (fun i hi => ((isRootAt_iff _ hLN.small i).1 (Finset.mem_filter.1 hi).2).1)
  have hsub : erasedSet mask ⊆ (Finset.range 63).filter
      (isRootAt (v.mul (erasureLoop mask)) (v.mul (erasureLoop mask)).differentiate) := by
    intro i hi
    have hi63 := erasedSet_lt mask i hi
    have hroot : (toPoly (v.mul (erasureLoop mask))).eval (alpha ^ (63 - i)) = 0 := by
      rw [hLp, (erasureLoop_spec mask).2, eval_mul,
        (eval_locPoly_eq_zero _ (erasedSet_lt mask) hi63).2 hi, mul_zero]
    rw [hsplit, eval_mul, eval_C] at hroot
    rcases mul_eq_zero.1 hroot with h | h
    · exact absurd h hc
    · exact (eval_locPoly_eq_zero _ hZ hi63).1 h
  have hcardE : (erasedSet mask).card = (erasureLoop mask).degree := by
    rw [erasureLoop_degree]
  have hle := errorCount_le_card r ((GF64_poly.ofVector r).add e).coefficients mask
    ((Finset.range 63).filter
      (isRootAt (v.mul (erasureLoop mask)) (v.mul (erasureLoop mask)).differentiate)
        \ erasedSet mask)
    (by
      intro i hi hm hne
      rw [Finset.mem_sdiff]
      constructor
      · have hne0 : st.2.getD i 0 ≠ 0 := by
          intro h
          apply hne
          rw [he, ofVector_add_getD, h, Nat.xor_zero]
        rw [c3 i] at hne0
        by_cases hcond : i < 63 ∧
            isRootAt (v.mul (erasureLoop mask)) (v.mul (erasureLoop mask)).differentiate i
        · exact Finset.mem_filter.2 ⟨Finset.mem_range.2 hcond.1, hcond.2⟩
        · rw [if_neg hcond] at hne0
          exact absurd rfl hne0
      · intro hE
        have := (Finset.mem_filter.1 hE).2
        rw [hm] at this
        cases this)
  rw [Finset.card_sdiff hsub, hcardZ, hcardE] at hle
  omega

/-- Soundness of the unchecked decoder when every word read behind the product of erasure
locator and syndromes is zero: a word returned with success, padded with zeros to 63
symbols, has 21 zero syndromes. -/
theorem unchecked_decode_sound (mem : Nat → Nat) (r : List Nat) (mask : List Bool)
    (hr : Small r) (hrlen : r.length = 63)
    (hclean : ∀ Γ, ReedSolomonDecoder.calculateErasureLocator mask = .ok Γ →
      strayZero mem (Γ.mul (ReedSolomonDecoder.calculateSyndromes r mask)))
    (P : GF64_poly) (h : Unchecked.decode mem r mask = .ok (true, P)) :
    Small (resize P.coefficients 63) ∧
    ∀ j, (syndromeList (resize P.coefficients 63)).getD j 0 = 0 := by
  cases hfast : (ReedSolomonDecoder.calculateSyndromes r mask).is_zero with
  | true =>
    rw [unchecked_decode_fast mem r mask hfast] at h
    injection h with h
    injection h with _ hP
    subst hP
    rw [coefficients_ofVector]
    have e : resize r 63 = r := by
      apply list_eq_of_getD (by rw [length_resize, hrlen])
      intro i
      rw [getD_resize_all]
      split
      · rfl
      · exact (getD_of_le (by omega)).symm
    rw [e]
    exact ⟨hr, (is_zero_calculateSyndromes r mask).1 hfast⟩
  | false =>
    obtain ⟨loc, v, ω, e, h1, h2, h3, hP⟩ :=
      unchecked_decode_slow_inv mem r mask true P hfast h
    obtain ⟨-, hlocN, -⟩ := locator_of_ok mask loc h1
    obtain ⟨s, hloop, hv, hω⟩ := unchecked_euclid_inv mem _ loc v ω h2
    have hSsmall : Small (ReedSolomonDecoder.calculateSyndromes r mask).coefficients := by
      rw [calculateSyndromes_eq]
      exact syndromeList_small r hr
    have hN := norm_mul loc _ hlocN.small hSsmall
    obtain ⟨hTN, -, hdvd⟩ := unchecked_mod_x21_clean mem _ hN (hclean loc h1)
    rw [toPoly_mul loc _ hlocN.small hSsmall, calculateSyndromes_eq, toPoly_ofVector] at hdvd
    rw [hv, hω] at h3
    rw [calculateSyndromes_eq] at hloop hTN
    obtain ⟨err, he, hes, helen, hsyn⟩ := correction_of_loop r hr loc _ e _ _ _ s hlocN hTN
      hdvd hloop h3
    have hPs : Small P.coefficients := by
      rw [hP, he]
      exact (norm_add _ _ hr hes).small
    have hw := small_resize hPs 63
    refine ⟨hw, ?_⟩
    apply (all_zero_iff_listPoly (syndromeList_small _ hw)).2
    rw [listPoly_syndromeList_xor r err _ hr hes hw hrlen helen (length_resize _ _)
      (by
        intro i hi
        rw [getD_resize _ _ _ hi, hP, he, ofVector_add_getD]), hsyn, poly_add_self]

/-! ## The words behind the vector that a run reads -/

theorem unchecked_mod_x21_congr (mem mem' : Nat → Nat) (p : GF64_poly)
    (h : ∀ i, p.coefficients.length ≤ i → i < 21 → mem i = mem' i) :
    Unchecked.mod_x21 mem p = Unchecked.mod_x21 mem' p := by
  have hget : ∀ i, i < 21 →
      ((List.range 21).map (Unchecked.read mem p)).get? i
        = some (Unchecked.read mem p i) := by
    intro i hi
    rw [List.get?_eq_getElem?, List.getElem?_map, List.getElem?_range hi]
    rfl
  have hread : ∀ i, i < 21 → Unchecked.read mem p i = Unchecked.read mem' p i := by
    intro i hi
    by_cases hlt : i < p.coefficients.length
    · rw [read_of_lt mem p i hlt, read_of_lt mem' p i hlt]
    · rw [read_of_le mem p i (Nat.le_of_not_lt hlt), read_of_le mem' p i (Nat.le_of_not_lt hlt),
        h i (Nat.le_of_not_lt hlt) hi]
  have h1 := mod_x21_of_reads mem p ⟨(List.range 21).map (Unchecked.read mem p), 20⟩ hget
  have h2 := mod_x21_of_reads mem' p ⟨(List.range 21).map (Unchecked.read mem p), 20⟩
    (fun i hi => by rw [hget i hi, hread i hi])
  rw [h1] at h2
  injection h2

theorem unchecked_euclid_congr (mem mem' : Nat → Nat) (S loc : GF64_poly)
    (h : ∀ i, (loc.mul S).coefficients.length ≤ i → i < 21 → mem i = mem' i) :
    Unchecked.euclideanAlgorithm mem S loc = Unchecked.euclideanAlgorithm mem' S loc := by
  unfold Unchecked.euclideanAlgorithm
  rw [unchecked_mod_x21_congr mem mem' (loc.mul S) h]

/-- A run of the unchecked decoder depends on what lies behind the vector only through the
words `mod_x21` reads there. -/
theorem unchecked_decode_congr (mem mem' : Nat → Nat) (r : List Nat) (mask : List Bool)
    (h : ∀ Γ, ReedSolomonDecoder.calculateErasureLocator mask = .ok Γ →
      ∀ i, (Γ.mul (ReedSolomonDecoder.calculateSyndromes r mask)).coefficients.length ≤ i →
        i < 21 → mem i = mem' i) :
    Unchecked.decode mem r mask = Unchecked.decode mem' r mask := by
  rw [unchecked_decode_eq, unchecked_decode_eq]
  split
  · rfl
  · cases h1 : ReedSolomonDecoder.calculateErasureLocator mask with
    | error x => rfl
    | ok loc =>
      show (Unchecked.euclideanAlgorithm mem _ loc >>= _)
        = (Unchecked.euclideanAlgorithm mem' _ loc >>= _)
      rw [unchecked_euclid_congr mem mem' _ loc (h loc h1)]

/-- The bound on the number of positions a successful run of the unchecked decoder
changes. -/
theorem unchecked_decode_weight (mem : Nat → Nat) (hmem : ∀ i, mem i < 64) (r : List Nat)
    (mask : List Bool) (hr : Small r) (hmask : mask.length = 63) (P : GF64_poly)
    (h : Unchecked.decode mem r mask = .ok (true, P)) :
    errorCount r P.coefficients mask ≤ (21 - erasureCount mask) / 2 := by
  cases hfast : (ReedSolomonDecoder.calculateSyndromes r mask).is_zero with
  | true =>
    rw [unchecked_decode_fast mem r mask hfast] at h
    injection h with h
    injection h with _ hP
    subst hP
    rw [coefficients_ofVector, errorCount_self]
    exact Nat.zero_le _
  | false =>
    obtain ⟨loc, v, ω, e, h1, h2, h3, hP⟩ :=
      unchecked_decode_slow_inv mem r mask true P hfast h
    obtain ⟨hloc, hlocN, -⟩ := locator_of_ok mask loc h1
    have hS : Small (ReedSolomonDecoder.calculateSyndromes r mask).coefficients := by
      rw [calculateSyndromes_eq]
      exact syndromeList_small r hr
    obtain ⟨hvN, -, hvdeg⟩ := unchecked_euclid_norm mem hmem _ loc v ω hS hlocN.small h2
    rw [hloc] at h3 hvdeg
    have hw := correction_weight r mask v ω e hvN h3
    rw [erasureLoop_degree_eq_count mask hmask] at hvdeg
    rw [hP]
    omega

/-! ## The Euclidean loop finds the error locator -/

theorem euclidCop_init (T : GF64_poly) :
    toPoly (ReedSolomonDecoder.fromBack (ReedSolomonDecoder.euclidInit T).U 1)
        * toPoly (ReedSolomonDecoder.fromBack (ReedSolomonDecoder.euclidInit T).V 2)
      + toPoly (ReedSolomonDecoder.fromBack (ReedSolomonDecoder.euclidInit T).U 2)
        * toPoly (ReedSolomonDecoder.fromBack (ReedSolomonDecoder.euclidInit T).V 1) = 1 := by
  show toPoly (GF64_poly.ofVector [0]) * toPoly (GF64_poly.ofVector [0])
    + toPoly (GF64_poly.ofVector [1]) * toPoly (GF64_poly.ofVector [1]) = 1
  rw [toPoly_ofVector_zero, toPoly_ofVector_one]
  ring

/-- Consecutive members of the sequences `U` and `V` satisfy `U_i V_(i-1) + U_(i-1) V_i = 1`:
one round of the loop keeps this. -/
theorem euclidCop_step (T : F64[X]) (s s' : ReedSolomonDecoder.EuclidState)
    (inv : EuclidInv T s)
    (hcop : toPoly (ReedSolomonDecoder.fromBack s.U 1) * toPoly (ReedSolomonDecoder.fromBack s.V 2)
      + toPoly (ReedSolomonDecoder.fromBack s.U 2) * toPoly (ReedSolomonDecoder.fromBack s.V 1)
        = 1)
    (h : ReedSolomonDecoder.euclidStep s = .ok s') :
    toPoly (ReedSolomonDecoder.fromBack s'.U 1) * toPoly (ReedSolomonDecoder.fromBack s'.V 2)
      + toPoly (ReedSolomonDecoder.fromBack s'.U 2) * toPoly (ReedSolomonDecoder.fromBack s'.V 1)
        = 1 := by
  unfold ReedSolomonDecoder.euclidStep at h
  have hne : toPoly (ReedSolomonDecoder.fromBack s.R 1) ≠ 0 := by
    intro h0
    rw [div_zero_divisor _ _ inv.r1 h0] at h
    cases h
  obtain ⟨d, hd, hdn, -⟩ := div_spec _ _ inv.r2 inv.r1 hne
  rw [hd] at h
  have h' : (Except.ok
      { Q := s.Q ++ [d]
        R := s.R ++ [(ReedSolomonDecoder.fromBack s.R 2).add
          ((ReedSolomonDecoder.fromBack s.R 1).mul d)]
        U := s.U ++ [(ReedSolomonDecoder.fromBack s.U 2).add
          ((ReedSolomonDecoder.fromBack s.U 1).mul d)]
        V := s.V ++ [(ReedSolomonDecoder.fromBack s.V 2).add
          ((ReedSolomonDecoder.fromBack s.V 1).mul d)] }
      : Except Failure ReedSolomonDecoder.EuclidState) = .ok s' := h
  injection h' with h'
  subst h'
  have tp : ∀ a b : GF64_poly, Norm a → Norm b →
      toPoly (a.add (b.mul d)) = toPoly a + toPoly b * toPoly d := by
    intro a b ha hb
    rw [toPoly_add _ _ ha.small (norm_mul _ _ hb.small hdn.small).small,
      toPoly_mul _ _ hb.small hdn.small]
  simp only [fromBack_append_one, fromBack_append_two _ _ inv.lenU,
    fromBack_append_two _ _ inv.lenV]
  rw [tp _ _ inv.u2 inv.u1, tp _ _ inv.v2 inv.v1]
  linear_combination hcop + poly_add_self
    (toPoly (ReedSolomonDecoder.fromBack s.U 1) * toPoly (ReedSolomonDecoder.fromBack s.V 1)
      * toPoly d)

theorem euclidCop_loop (T : F64[X]) (mu nu n : Nat) (s s' : ReedSolomonDecoder.EuclidState)
    (inv : EuclidInv T s)
    (hcop : toPoly (ReedSolomonDecoder.fromBack s.U 1) * toPoly (ReedSolomonDecoder.fromBack s.V 2)
      + toPoly (ReedSolomonDecoder.fromBack s.U 2) * toPoly (ReedSolomonDecoder.fromBack s.V 1)
        = 1)
    (h : ReedSolomonDecoder.euclidLoop mu nu n s = .ok s') :
    toPoly (ReedSolomonDecoder.fromBack s'.U 1) * toPoly (ReedSolomonDecoder.fromBack s'.V 2)
      + toPoly (ReedSolomonDecoder.fromBack s'.U 2) * toPoly (ReedSolomonDecoder.fromBack s'.V 1)
        = 1 := by
  induction n generalizing s with
  | zero =>
    simp only [ReedSolomonDecoder.euclidLoop] at h
    split at h
    · cases h
    · injection h with h
      rw [← h]
      exact hcop
  | succ n ih =>
    simp only [ReedSolomonDecoder.euclidLoop] at h
    split at h
    · cases hs : ReedSolomonDecoder.euclidStep s with
      | error x =>
        change (ReedSolomonDecoder.euclidStep s >>= _) = _ at h
        rw [hs] at h
        cases h
      | ok s1 =>
        change (ReedSolomonDecoder.euclidStep s >>= _) = _ at h
        rw [hs] at h
        exact ih s1 (euclidInv_step T s s1 inv hs) (euclidCop_step T s s1 inv hcop hs) h
    · injection h with h
      rw [← h]
      exact hcop

theorem euclidDeg_loop (T : F64[X]) (mu nu : Nat) (hmunu : mu + nu = 20) (n : Nat)
    (s s' : ReedSolomonDecoder.EuclidState) (inv : EuclidInv T s) (dinv : EuclidDeg nu s)
    (h : ReedSolomonDecoder.euclidLoop mu nu n s = .ok s') : EuclidDeg nu s' := by
  induction n generalizing s with
  | zero =>
    simp only [ReedSolomonDecoder.euclidLoop] at h
    split at h
    · cases h
    · injection h with h
      rw [← h]
      exact dinv
  | succ n ih =>
    simp only [ReedSolomonDecoder.euclidLoop] at h
    split at h
    · rename_i hc
      have hstop : ¬ euclidStop mu nu s := by
        unfold euclidStop
        omega
      obtain ⟨s1, hs, d1⟩ := euclidDeg_step T mu nu hmunu s inv dinv hstop
      change (ReedSolomonDecoder.euclidStep s >>= _) = _ at h
      rw [hs] at h
      exact ih s1 (euclidInv_step T s s1 inv hs) d1 h
    · injection h with h
      rw [← h]
      exact dinv

/-- Uniqueness of the solution of the key equation: a pair `(σ, Ω)` with
`Ω = σ T + u x^21` of small degrees is a multiple of the pair `(V, R)` of the loop. -/
theorem key_multiple (T σ Ω u U V U' V' R : F64[X])
    (hkey : Ω = σ * T + u * X ^ 21) (hR : R = U * X ^ 21 + V * T)
    (hcop : U * V' + U' * V = 1) (hV : V ≠ 0)
    (hdeg : (Ω * V + σ * R).natDegree < 21) :
    ∃ l : F64[X], σ = l * V ∧ Ω = l * R := by
  have e1 : Ω * V + σ * R = (u * V + σ * U) * X ^ 21 := by
    rw [hkey, hR]
    linear_combination poly_add_self (σ * T * V)
  have h0 : u * V + σ * U = 0 := by
    by_contra hne
    have : 21 ≤ (Ω * V + σ * R).natDegree := by
      rw [e1, natDegree_mul_X_pow 21 hne]
      exact Nat.le_add_left _ _
    omega
  have h1 : Ω * V + σ * R = 0 := by rw [e1, h0, zero_mul]
  have hσ : σ = (u * V' + σ * U') * V := by
    linear_combination (-σ) * hcop + V' * h0 - poly_add_self (V' * u * V)
  refine ⟨u * V' + σ * U', hσ, ?_⟩
  have h2 : V * (Ω + (u * V' + σ * U') * R) = 0 := by
    linear_combination h1 - R * hσ
  rcases mul_eq_zero.1 h2 with h | h
  · exact absurd h hV
  · linear_combination h - poly_add_self ((u * V' + σ * U') * R)

/-- A pair `(V, R)` of which `(locPoly A, Ω)` is a multiple, `Ω` not vanishing at the
points of `A`: it is a nonzero constant multiple. -/
theorem key_scalar (A : Finset Nat) (hA : ∀ k ∈ A, k < 63) (Ω V R l : F64[X])
    (hσ : locPoly A = l * V) (hΩ : Ω = l * R)
    (hroot : ∀ i ∈ A, Ω.eval (alpha ^ (63 - i)) ≠ 0) :
    ∃ c : F64, c ≠ 0 ∧ V = C c * locPoly A ∧ R = C c * Ω := by
  have hσne := locPoly_ne_zero A
  have hl : l ≠ 0 := by
    intro h
    rw [h, zero_mul] at hσ
    exact hσne hσ
  have hV : V ≠ 0 := by
    intro h
    rw [h, mul_zero] at hσ
    exact hσne hσ
  have hVroot : ∀ i ∈ A, V.eval (alpha ^ (63 - i)) = 0 := by
    intro i hi
    have h1 := (eval_locPoly_eq_zero A hA (hA i hi)).2 hi
    rw [hσ, eval_mul] at h1
    rcases mul_eq_zero.1 h1 with h | h
    · exfalso
      apply hroot i hi
      rw [hΩ, eval_mul, h, zero_mul]
    · exact h
  have hdeg : A.card = l.natDegree + V.natDegree := by
    rw [← natDegree_locPoly A, hσ, natDegree_mul hl hV]
  have hge : A.card ≤ V.natDegree := by
    by_contra hlt
    apply hV
    apply eq_zero_of_natDegree_lt_card_of_eval_eq_zero' V (A.image (fun i => alpha ^ (63 - i)))
    · intro x hx
      obtain ⟨i, hi, rfl⟩ := Finset.mem_image.1 hx
      exact hVroot i hi
    · rw [card_image_testPoint A hA]
      omega
  obtain ⟨c, hc, hsplit⟩ := split_of_roots V A hA hV (by omega) hVroot
  refine ⟨c, hc, hsplit, ?_⟩
  have h1 : locPoly A * (l * C c + 1) = 0 := by
    linear_combination (-1 : F64[X]) * hσ + l * hsplit + poly_add_self (locPoly A)
      - poly_add_self (l * V) + poly_add_self (locPoly A * l * C c)
  have h2 : l * C c + 1 = 0 := by
    rcases mul_eq_zero.1 h1 with h | h
    · exact absurd h hσne
    · exact h
  linear_combination (-C c) * hΩ - R * h2 + poly_add_self R

theorem errorCount_eq_card (r c : List Nat) (mask : List Bool) :
    errorCount r c mask
      = ((Finset.range 63).filter
          (fun i => mask.getD i false = false ∧ r.getD i 0 ≠ c.getD i 0)).card := by
  unfold errorCount
  rw [← List.toFinset_card_of_nodup (List.Nodup.filter _ (List.nodup_range 63))]
  congr 1
  ext i
  rw [List.mem_toFinset, List.mem_filter, List.mem_range, Finset.mem_filter, Finset.mem_range,
    Bool.and_eq_true, Bool.not_eq_true', bne_iff_ne]

/-- Completeness of the unchecked decoder when every word read behind the product of
erasure locator and syndromes is zero: a word within the bound `2 e + f ≤ 21` of a word
`c` with zero syndromes is decoded to `c`. -/
theorem unchecked_decode_complete (mem : Nat → Nat) (r c : List Nat) (mask : List Bool)
    (hr : Small r) (hc : Small c) (hrlen : r.length = 63) (hclen : c.length = 63)
    (hmask : mask.length = 63)
    (hzero : ∀ j, (syndromeList c).getD j 0 = 0)
    (hclean : ∀ Γ, ReedSolomonDecoder.calculateErasureLocator mask = .ok Γ →
      strayZero mem (Γ.mul (ReedSolomonDecoder.calculateSyndromes r mask)))
    (hbound : 2 * errorCount r c mask + erasureCount mask ≤ 21) :
    ∃ P, Unchecked.decode mem r mask = .ok (true, P) ∧
      ∀ i, i < 63 → P.coefficients.getD i 0 = c.getD i 0 := by
  -- the positions in error and the erased positions
  have hAcard := errorCount_eq_card r c mask
  generalize hAdef : (Finset.range 63).filter
    (fun i => mask.getD i false = false ∧ r.getD i 0 ≠ c.getD i 0) = A at hAcard
  have hAmem : ∀ i,
      i ∈ A ↔ i < 63 ∧ mask.getD i false = false ∧ r.getD i 0 ≠ c.getD i 0 := by
    intro i
    rw [← hAdef, Finset.mem_filter, Finset.mem_range]
  have hA : ∀ k ∈ A, k < 63 := fun k hk => ((hAmem k).1 hk).1
  have hF := erasedSet_lt mask
  have hFcard : (erasedSet mask).card = erasureCount mask := card_erasedSet mask hmask
  have hdisj : Disjoint A (erasedSet mask) := by
    rw [Finset.disjoint_left]
    intro i hi hiF
    have h1 := ((hAmem i).1 hi).2.1
    have h2 := (Finset.mem_filter.1 hiF).2
    rw [h1] at h2
    cases h2
  have hZ : ∀ k ∈ A ∪ erasedSet mask, k < 63 := by
    intro k hk
    rcases Finset.mem_union.1 hk with h | h
    · exact hA k h
    · exact hF k h
  have hZcard : (A ∪ erasedSet mask).card = A.card + (erasedSet mask).card :=
    Finset.card_union_of_disjoint hdisj
  have hE := errorPattern_small r c hr hc
  have hsupp : ∀ i, i ∉ A ∪ erasedSet mask → (errorPattern r c).getD i 0 = 0 := by
    intro i hi
    rw [errorPattern_getD]
    split
    · rename_i hi63
      have hnA : i ∉ A := fun h => hi (Finset.mem_union_left _ h)
      have hnF : i ∉ erasedSet mask := fun h => hi (Finset.mem_union_right _ h)
      have hm : mask.getD i false = false := by
        cases hb : mask.getD i false with
        | false => rfl
        | true => exact absurd (Finset.mem_filter.2 ⟨Finset.mem_range.2 hi63, hb⟩) hnF
      have heq : r.getD i 0 = c.getD i 0 := by
        by_contra hne
        exact hnA ((hAmem i).2 ⟨hi63, hm, hne⟩)
      rw [heq, Nat.xor_self]
    · rfl
  cases hfast : (ReedSolomonDecoder.calculateSyndromes r mask).is_zero with
  | true =>
    obtain ⟨P, hP, hval⟩ := decode_fast_correct r c mask hr hc hrlen hclen hzero
      (A ∪ erasedSet mask) hZ (by omega) hsupp hfast
    exact ⟨P, unchecked_decode_of_checked mem r mask (true, P) hP, hval⟩
  | false =>
    -- the erasure locator and the truncated product
    have hdegF := erasureLoop_degree_eq_count mask hmask
    have hlocN := (erasureLoop_spec mask).1
    have hlocP := (erasureLoop_spec mask).2
    have hloc : ReedSolomonDecoder.calculateErasureLocator mask = .ok (erasureLoop mask) := by
      rw [calculateErasureLocator_eq, if_neg (by rw [hdegF]; omega)]
    have hS : Small (ReedSolomonDecoder.calculateSyndromes r mask).coefficients := by
      rw [calculateSyndromes_eq]; exact syndromeList_small r hr
    have hN := norm_mul (erasureLoop mask) _ hlocN.small hS
    obtain ⟨hTN, hTval, hdvd⟩ := unchecked_mod_x21_clean mem _ hN (hclean _ hloc)
    have hTd : (Unchecked.mod_x21 mem ((erasureLoop mask).mul
        (ReedSolomonDecoder.calculateSyndromes r mask))).degree ≤ 20 := by
      by_contra hcon
      have hl := hTN.lead (by omega)
      rw [hTval, if_neg (by omega)] at hl
      exact hl rfl
    -- the Euclidean loop
    have hmunu : (21 - (erasureLoop mask).degree) / 2
        + ((21 + (erasureLoop mask).degree + 1) / 2 - 1) = 20 := by omega
    obtain ⟨n, s, -, -, hloop, -, hstop, -⟩ := euclidLoop_run _ hTN hTd
      (erasureLoop mask).degree (by omega)
    have heuc := unchecked_euclid_eq mem _ (erasureLoop mask) s hloop
    have inv := euclidInv_loop _ _ _ _ _ s (euclidInv_init _ hTN) hloop
    have cop := euclidCop_loop _ _ _ _ _ s (euclidInv_init _ hTN) (euclidCop_init _) hloop
    have dinv := euclidDeg_loop _ _ _ hmunu _ _ s (euclidInv_init _ hTN)
      (euclidDeg_init _ hTN hTd _ (by omega)) hloop
    -- the key equation of the error pattern
    have hsyn : listPoly (syndromeList r)
        = synPoly (A ∪ erasedSet mask) (fun i => F64.ofNat ((errorPattern r c).getD i 0)) := by
      rw [syndromeList_errorPattern r c hr hc hrlen hclen hzero,
        listPoly_syndromeList_of_support _ hE (errorPattern_length r c) _ hZ hsupp]
    have hZpos : 0 < (A ∪ erasedSet mask).card := by
      by_contra hcon
      have hempty : A ∪ erasedSet mask = ∅ := Finset.card_eq_zero.1 (by omega)
      have h0 : listPoly (syndromeList r) = 0 := by
        rw [hsyn]
        apply synPoly_of_zero
        intro i hi
        rw [hempty] at hi
        exact absurd hi (Finset.not_mem_empty i)
      have := (is_zero_calculateSyndromes r mask).2
        ((all_zero_iff_listPoly (syndromeList_small r hr)).2 h0)
      rw [hfast] at this
      cases this
    have hlocZ : locPoly (A ∪ erasedSet mask) = locPoly A * locPoly (erasedSet mask) := by
      unfold locPoly
      exact Finset.prod_union hdisj
    have hkey0 := locPoly_mul_synPoly (A ∪ erasedSet mask)
      (fun i => F64.ofNat ((errorPattern r c).getD i 0))
    have hprod : toPoly ((erasureLoop mask).mul (ReedSolomonDecoder.calculateSyndromes r mask))
        = locPoly (erasedSet mask) * synPoly (A ∪ erasedSet mask)
            (fun i => F64.ofNat ((errorPattern r c).getD i 0)) := by
      rw [toPoly_mul _ _ hlocN.small hS, hlocP, calculateSyndromes_eq, toPoly_ofVector, hsyn]
    obtain ⟨w, hw⟩ := hdvd
    rw [hprod] at hw
    rw [hlocZ] at hkey0
    have hkey : evaluatorPoly (A ∪ erasedSet mask)
          (fun i => F64.ofNat ((errorPattern r c).getD i 0))
        = locPoly A * toPoly (Unchecked.mod_x21 mem ((erasureLoop mask).mul
            (ReedSolomonDecoder.calculateSyndromes r mask)))
          + (evaluatorPoly (A ∪ erasedSet mask)
              (fun i => F64.ofNat ((errorPattern r c).getD i 0) * (alpha ^ i) ^ 21)
            + locPoly A * w) * X ^ 21 := by
      linear_combination (-1 : F64[X]) * hkey0 + locPoly A * hw
        - poly_add_self (X ^ 21 * evaluatorPoly (A ∪ erasedSet mask)
            (fun i => F64.ofNat ((errorPattern r c).getD i 0) * (alpha ^ i) ^ 21))
        - poly_add_self (locPoly A * toPoly (Unchecked.mod_x21 mem ((erasureLoop mask).mul
            (ReedSolomonDecoder.calculateSyndromes r mask))))
    -- degrees
    have hΩdeg := natDegree_lt_card_of_evaluator (A ∪ erasedSet mask)
      (fun i => F64.ofNat ((errorPattern r c).getD i 0)) hZpos
    have hVdeg : (toPoly (ReedSolomonDecoder.fromBack s.V 1)).natDegree
        ≤ (21 - (erasureLoop mask).degree) / 2 := by
      rw [inv.v1.natDegree]
      exact hstop.2
    have hRdeg : (toPoly (ReedSolomonDecoder.fromBack s.R 1)).natDegree
        ≤ (21 + (erasureLoop mask).degree + 1) / 2 - 1 := by
      rw [inv.r1.natDegree]
      exact hstop.1
    have hσdeg := natDegree_locPoly A
    have hdeg : (evaluatorPoly (A ∪ erasedSet mask)
          (fun i => F64.ofNat ((errorPattern r c).getD i 0))
          * toPoly (ReedSolomonDecoder.fromBack s.V 1)
        + locPoly A * toPoly (ReedSolomonDecoder.fromBack s.R 1)).natDegree < 21 := by
      apply lt_of_le_of_lt (natDegree_add_le _ _)
      have h1 := natDegree_mul_le (p := evaluatorPoly (A ∪ erasedSet mask)
        (fun i => F64.ofNat ((errorPattern r c).getD i 0)))
        (q := toPoly (ReedSolomonDecoder.fromBack s.V 1))
      have h2 := natDegree_mul_le (p := locPoly A)
        (q := toPoly (ReedSolomonDecoder.fromBack s.R 1))
      rw [max_lt_iff]
      constructor <;> omega
    obtain ⟨l, hσ, hΩ⟩ :=
      key_multiple _ (locPoly A) _ _ _ _ _ _ _ hkey inv.e1 cop dinv.v1ne hdeg
    have hroot : ∀ i ∈ A, (evaluatorPoly (A ∪ erasedSet mask)
        (fun i => F64.ofNat ((errorPattern r c).getD i 0))).eval (alpha ^ (63 - i)) ≠ 0 := by
      intro i hi
      have hiZ : i ∈ A ∪ erasedSet mask := Finset.mem_union_left _ hi
      rw [eval_evaluatorPoly _ hZ _ hiZ]
      refine mul_ne_zero (mul_ne_zero ?_ (alpha_pow_ne_zero i)) (eval_erase_ne_zero _ hZ (hZ i hiZ))
      intro h0
      have h1 := (F64.ofNat_eq_zero (getD_lt_of_small hE i)).1 h0
      rw [errorPattern_getD, if_pos (hA i hi)] at h1
      exact ((hAmem i).1 hi).2.2 (xor_eq_zero_imp h1)
    obtain ⟨k, hk, hVk, hRk⟩ := key_scalar A hA _ _ _ l hσ hΩ hroot
    -- the correction
    have hcorr := correctErrors_of_key (A ∪ erasedSet mask) hZ (errorPattern r c) hE
      (errorPattern_length r c) hsupp (erasureLoop mask) (ReedSolomonDecoder.fromBack s.V 1)
      (ReedSolomonDecoder.fromBack s.R 1) hlocN.small inv.v1.small inv.r1.small k hk
      (by rw [hVk, hlocP, hlocZ]; ring) hRk
      (by
        have e1 := inv.r1.natDegree
        have e2 := inv.v1.natDegree
        rw [hRk, natDegree_C_mul hk] at e1
        rw [hVk, natDegree_C_mul hk, hσdeg] at e2
        omega)
    refine ⟨_, unchecked_decode_slow mem r mask hfast _ _ _ _ true hloc heuc hcorr,
      fun i hi => ?_⟩
    rw [ofVector_add_getD, xor_errorPattern r c hrlen, if_pos hi]

/-! ## Erased values and words behind the vector that are zero -/

theorem strayZero_zero (p : GF64_poly) : strayZero (fun _ => 0) p := fun _ _ _ => rfl

/-- A run that reads only zeros behind the product is the run with zeros everywhere behind
the vector. -/
theorem unchecked_decode_of_strayZero (mem : Nat → Nat) (r : List Nat) (mask : List Bool)
    (hclean : ∀ Γ, ReedSolomonDecoder.calculateErasureLocator mask = .ok Γ →
      strayZero mem (Γ.mul (ReedSolomonDecoder.calculateSyndromes r mask))) :
    Unchecked.decode mem r mask = Unchecked.decode (fun _ => 0) r mask :=
  unchecked_decode_congr mem (fun _ => 0) r mask (fun Γ hΓ i h1 h2 => hclean Γ hΓ i h1 h2)

theorem errorCount_congr (r r' c c' : List Nat) (mask : List Bool)
    (hr : ∀ i, i < 63 → mask.getD i false = false → r.getD i 0 = r'.getD i 0)
    (hc : ∀ i, i < 63 → c.getD i 0 = c'.getD i 0) :
    errorCount r c mask = errorCount r' c' mask := by
  unfold errorCount
  congr 1
  apply List.filter_congr
  intro i hi
  have hi' := List.mem_range.1 hi
  cases hm : mask.getD i false with
  | true => rfl
  | false => rw [hr i hi' hm, hc i hi']

/-- With zeros behind the vector, success on a word carries over to every word that agrees
with it on the positions that are not erased. -/
theorem unchecked_decode_transfer (r r' : List Nat) (mask : List Bool) (hr : Small r)
    (hr' : Small r') (hrlen : r.length = 63) (hrlen' : r'.length = 63)
    (hmask : mask.length = 63) (hcount : erasureCount mask ≤ 21)
    (hagree : ∀ i, i < 63 → mask.getD i false = false → r.getD i 0 = r'.getD i 0)
    (P : GF64_poly) (h : Unchecked.decode (fun _ => 0) r mask = .ok (true, P)) :
    ∃ P', Unchecked.decode (fun _ => 0) r' mask = .ok (true, P') ∧
      ∀ i, i < 63 → P'.coefficients.getD i 0 = P.coefficients.getD i 0 := by
  have hzero : ∀ i, (fun _ : Nat => 0) i < 64 := fun _ => by show 0 < 64; decide
  obtain ⟨hPs, hsyn⟩ := unchecked_decode_sound (fun _ => 0) r mask hr hrlen
    (fun Γ _ => strayZero_zero _) P h
  have hw := unchecked_decode_weight (fun _ => 0) hzero r mask hr hmask P h
  have hcount : errorCount r' (resize P.coefficients 63) mask
      = errorCount r P.coefficients mask :=
    errorCount_congr r' r _ _ mask (fun i hi hm => (hagree i hi hm).symm)
      (fun i hi => getD_resize _ _ _ hi)
  obtain ⟨P', hP', hval⟩ := unchecked_decode_complete (fun _ => 0) r' (resize P.coefficients 63)
    mask hr' hPs hrlen' (length_resize _ _) hmask hsyn (fun Γ _ => strayZero_zero _)
    (by rw [hcount]; omega)
  exact ⟨P', hP', fun i hi => by rw [hval i hi, getD_resize _ _ _ hi]⟩

/-- Erased values are ignored when the words read behind the product are zero: two words
that agree on the positions that are not erased give the same flag and, on success, the
same coefficients. -/
theorem unchecked_decode_erased_ignored (mem mem' : Nat → Nat) (r r' : List Nat)
    (mask : List Bool) (hr : Small r) (hr' : Small r') (hrlen : r.length = 63)
    (hrlen' : r'.length = 63) (hmask : mask.length = 63) (hcount : erasureCount mask ≤ 21)
    (hagree : ∀ i, i < 63 → mask.getD i false = false → r.getD i 0 = r'.getD i 0)
    (hclean : ∀ Γ, ReedSolomonDecoder.calculateErasureLocator mask = .ok Γ →
      strayZero mem (Γ.mul (ReedSolomonDecoder.calculateSyndromes r mask)))
    (hclean' : ∀ Γ, ReedSolomonDecoder.calculateErasureLocator mask = .ok Γ →
      strayZero mem' (Γ.mul (ReedSolomonDecoder.calculateSyndromes r' mask)))
    (b b' : Bool) (P P' : GF64_poly)
    (h : Unchecked.decode mem r mask = .ok (b, P))
    (h' : Unchecked.decode mem' r' mask = .ok (b', P')) :
    b = b' ∧
    (b = true → ∀ i, i < 63 → P.coefficients.getD i 0 = P'.coefficients.getD i 0) := by
  rw [unchecked_decode_of_strayZero mem r mask hclean] at h
  rw [unchecked_decode_of_strayZero mem' r' mask hclean'] at h'
  have h1 : b = true → b' = true ∧
      ∀ i, i < 63 → P.coefficients.getD i 0 = P'.coefficients.getD i 0 := by
    intro hb
    rw [hb] at h
    obtain ⟨P'', hP'', hval⟩ := unchecked_decode_transfer r r' mask hr hr' hrlen hrlen' hmask
      hcount hagree P h
    have e := h'.symm.trans hP''
    simp only [Except.ok.injEq, Prod.mk.injEq] at e
    exact ⟨e.1, fun i hi => by rw [e.2, hval i hi]⟩
  have h2 : b' = true → b = true := by
    intro hb
    rw [hb] at h'
    obtain ⟨P'', hP'', -⟩ := unchecked_decode_transfer r' r mask hr' hr hrlen' hrlen hmask
      hcount (fun i hi hm => (hagree i hi hm).symm) P' h'
    have e := h.symm.trans hP''
    simp only [Except.ok.injEq, Prod.mk.injEq] at e
    exact e.1
  constructor
  · cases b with
    | true => exact (h1 rfl).1.symm
    | false =>
      cases b' with
      | true => exact (h2 rfl)
      | false => rfl
  · intro hb
    exact (h1 hb).2

/-! ## The decoder as compiled: runs that read behind the product -/

theorem unchecked_decode_index_20 (mem : Nat → Nat) (r : List Nat) (mask : List Bool)
    (hlen : (ReedSolomonDecoder.calculateErasureLocator mask).map
      (fun loc => (loc.mul (ReedSolomonDecoder.calculateSyndromes r mask)).coefficients.length)
        = .ok 20) :
    Unchecked.decode mem r mask = Unchecked.decode (fun _ => mem 20) r mask := by
  apply unchecked_decode_congr
  intro Γ hΓ i h1 h2
  rw [hΓ] at hlen
  have hlen' : (Except.ok (Γ.mul
      (ReedSolomonDecoder.calculateSyndromes r mask)).coefficients.length
        : Except Failure Nat) = .ok 20 := hlen
  injection hlen' with hlen'
  have hi : i = 20 := by omega
  rw [hi]

theorem product_two_errors :
    (ReedSolomonDecoder.calculateErasureLocator (List.replicate 63 false)).map
      (fun loc => (loc.mul (ReedSolomonDecoder.calculateSyndromes
        ([59, 1] ++ List.replicate 61 0) (List.replicate 63 false))).coefficients.length)
      = .ok 20 := rfl

theorem unchecked_two_errors_zero :
    Unchecked.decode (fun _ => 0) ([59, 1] ++ List.replicate 61 0) (List.replicate 63 false)
      = .ok (true, ⟨[0], 0⟩) := rfl

theorem unchecked_two_errors_one :
    Unchecked.decode (fun _ => 1) ([59, 1] ++ List.replicate 61 0) (List.replicate 63 false)
      = .ok (false, ⟨[59, 1], 1⟩) := rfl

/-- C1 (code defect). When every word `mod_x21` reads behind the product of erasure locator
and syndromes is zero, in particular when it reads none, the claim holds: a received word
within the bound `2 * e + f ≤ 21` of an encoder output `C` is decoded to `C` with success.
With a nonzero word there it fails: for the word `59, 1, 0, ..., 0` (two errors against the
all-zero codeword, no erasure) the top syndrome vanishes, the product stores 20
coefficients, `mod_x21` reads index 20 behind them, and the result of `decode` is decided
by the word found there: if it is 0 the all-zero codeword is returned with success, if it
is 1 the flag is `false` and the received word is returned unchanged. -/
theorem decode_within_bound_needs_zero_behind_product :
    (∀ (mem : Nat → Nat) (M C r : List Nat) (mask : List Bool), M.length = 42 →
      (∀ x ∈ M, x < 64) → ReedSolomonEncoder.encode M = .ok C → r.length = 63 →
      (∀ x ∈ r, x < 64) → mask.length = 63 →
      2 * errorCount r C mask + erasureCount mask ≤ 21 →
      (∀ Γ, ReedSolomonDecoder.calculateErasureLocator mask = .ok Γ →
        strayZero mem (Γ.mul (ReedSolomonDecoder.calculateSyndromes r mask))) →
      ∃ P, Unchecked.decode mem r mask = .ok (true, P) ∧
        ∀ i, i < 63 → P.coefficients.getD i 0 = C.getD i 0) ∧
    ReedSolomonEncoder.encode (List.replicate 42 0) = .ok (List.replicate 63 0) ∧
    errorCount ([59, 1] ++ List.replicate 61 0) (List.replicate 63 0) (List.replicate 63 false)
      = 2 ∧
    erasureCount (List.replicate 63 false) = 0 ∧
    ((ReedSolomonDecoder.calculateErasureLocator (List.replicate 63 false)).map
      (fun loc => (loc.mul (ReedSolomonDecoder.calculateSyndromes
        ([59, 1] ++ List.replicate 61 0) (List.replicate 63 false))).coefficients.length))
      = .ok 20 ∧
    ∀ mem : Nat → Nat,
      (mem 20 = 0 →
        Unchecked.decode mem ([59, 1] ++ List.replicate 61 0) (List.replicate 63 false)
          = .ok (true, ⟨[0], 0⟩)) ∧
      (mem 20 = 1 →
        Unchecked.decode mem ([59, 1] ++ List.replicate 61 0) (List.replicate 63 false)
          = .ok (false, ⟨[59, 1], 1⟩)) := by
  refine ⟨?_, encode_zero_message, rfl, rfl, product_two_errors, fun mem => ⟨?_, ?_⟩⟩
  · intro mem M C r mask hlen hM hC hrlen hr hmask hbound hclean
    obtain ⟨c, h1, h2, h3, _⟩ := listPoly_encode M hlen hM
    rw [hC] at h1
    injection h1 with h1
    subst h1
    exact unchecked_decode_complete mem r C mask hr h3 hrlen h2 hmask
      (syndromes_zero_of_encode M hlen hM C hC) hclean hbound
  · intro h
    rw [unchecked_decode_index_20 mem _ _ product_two_errors, h]
    exact unchecked_two_errors_zero
  · intro h
    rw [unchecked_decode_index_20 mem _ _ product_two_errors, h]
    exact unchecked_two_errors_one

theorem decode_within_bound_needs_zero_behind_product_witness :
    ∃ P, Unchecked.decode (fun _ => 0) ([59, 1] ++ List.replicate 61 0)
        (List.replicate 63 false) = .ok (true, P) ∧
      ∀ i, i < 63 → P.coefficients.getD i 0 = (List.replicate 63 0).getD i 0 :=
  decode_within_bound_needs_zero_behind_product.1 (fun _ => 0) (List.replicate 42 0)
    (List.replicate 63 0) ([59, 1] ++ List.replicate 61 0) (List.replicate 63 false)
    (by decide) (by decide) encode_zero_message (by decide) (by decide) (by decide)
    (by decide) (fun _ _ _ _ _ => rfl)

theorem product_near_codeword :
    (ReedSolomonDecoder.calculateErasureLocator (List.replicate 63 false)).map
      (fun loc => (loc.mul (ReedSolomonDecoder.calculateSyndromes
        ([43, 23, 19, 31, 33, 38, 17, 22, 48, 15, 36, 57, 37, 22, 8, 27, 33, 11, 44, 23, 1]
          ++ List.replicate 42 0) (List.replicate 63 false))).coefficients.length)
      = .ok 20 := rfl

theorem unchecked_near_codeword_sixteen :
    Unchecked.decode (fun _ => 16)
      ([43, 23, 19, 31, 33, 38, 17, 22, 48, 15, 36, 57, 37, 22, 8, 27, 33, 11, 44, 23, 1]
        ++ List.replicate 42 0) (List.replicate 63 false)
      = .ok (true,
        ⟨[59, 23, 19, 31, 33, 38, 17, 22, 48, 15, 36, 57, 37, 22, 8, 27, 33, 11, 44, 23, 1],
          20⟩) := rfl

/-- C5 (code defect). When every word `mod_x21` reads behind the product of erasure locator
and syndromes is zero, in particular when it reads none, a word that `decode` returns with
success (its stored coefficients, padded with zeros to 63 symbols) has all 21 syndromes
equal to zero. With a nonzero word there this fails: the word
`43, 23, 19, ..., 23, 1, 0, ..., 0` has the syndromes `S_1 = ... = S_20 = 16`, `S_21 = 0`,
the product stores 20 coefficients, and if the word read at index 20 is 16 `decode` returns
success with a word whose syndrome `S_21` is 16. -/
theorem decode_success_needs_zero_behind_product :
    (∀ (mem : Nat → Nat) (r : List Nat) (mask : List Bool), r.length = 63 →
      (∀ x ∈ r, x < 64) →
      (∀ Γ, ReedSolomonDecoder.calculateErasureLocator mask = .ok Γ →
        strayZero mem (Γ.mul (ReedSolomonDecoder.calculateSyndromes r mask))) →
      ∀ P, Unchecked.decode mem r mask = .ok (true, P) →
        (ReedSolomonDecoder.calculateSyndromes (resize P.coefficients 63) mask).is_zero
          = true) ∧
    ((ReedSolomonDecoder.calculateErasureLocator (List.replicate 63 false)).map
      (fun loc => (loc.mul (ReedSolomonDecoder.calculateSyndromes
        ([43, 23, 19, 31, 33, 38, 17, 22, 48, 15, 36, 57, 37, 22, 8, 27, 33, 11, 44, 23, 1]
          ++ List.replicate 42 0) (List.replicate 63 false))).coefficients.length))
      = .ok 20 ∧
    (∀ mem : Nat → Nat, mem 20 = 16 →
      Unchecked.decode mem
        ([43, 23, 19, 31, 33, 38, 17, 22, 48, 15, 36, 57, 37, 22, 8, 27, 33, 11, 44, 23, 1]
          ++ List.replicate 42 0) (List.replicate 63 false)
        = .ok (true,
          ⟨[59, 23, 19, 31, 33, 38, 17, 22, 48, 15, 36, 57, 37, 22, 8, 27, 33, 11, 44, 23, 1],
            20⟩)) ∧
    (ReedSolomonDecoder.calculateSyndromes
      (resize [59, 23, 19, 31, 33, 38, 17, 22, 48, 15, 36, 57, 37, 22, 8, 27, 33, 11, 44, 23, 1]
        63) (List.replicate 63 false)).is_zero = false ∧
    (ReedSolomonDecoder.calculateSyndromes
      (resize [59, 23, 19, 31, 33, 38, 17, 22, 48, 15, 36, 57, 37, 22, 8, 27, 33, 11, 44, 23, 1]
        63) (List.replicate 63 false)).coefficients.getD 20 0 = 16 := by
  refine ⟨?_, product_near_codeword, ?_, rfl, rfl⟩
  · intro mem r mask hrlen hr hclean P h
    exact (is_zero_calculateSyndromes _ _).2
      (unchecked_decode_sound mem r mask hr hrlen hclean P h).2
  · intro mem h
    rw [unchecked_decode_index_20 mem _ _ product_near_codeword, h]
    exact unchecked_near_codeword_sixteen

theorem decode_success_needs_zero_behind_product_witness :
    (ReedSolomonDecoder.calculateSyndromes (resize (GF64_poly.mk [0] 0).coefficients 63)
      (List.replicate 63 false)).is_zero = true :=
  decode_success_needs_zero_behind_product.1 (fun _ => 0) ([59, 1] ++ List.replicate 61 0)
    (List.replicate 63 false) (by decide) (by decide) (fun _ _ _ _ _ => rfl)
    (GF64_poly.mk [0] 0) unchecked_two_errors_zero

theorem unchecked_generator_word (mem : Nat → Nat) :
    Unchecked.decode mem (gen_poly ++ List.replicate 41 0) (List.replicate 63 false)
      = .ok (true, GF64_poly.ofVector (gen_poly ++ List.replicate 41 0)) :=
  unchecked_decode_of_checked mem _ _ _ decode_generator_word

theorem product_erased_value :
    (ReedSolomonDecoder.calculateErasureLocator
      ([false, false, true] ++ List.replicate 60 false)).map
      (fun loc => (loc.mul (ReedSolomonDecoder.calculateSyndromes
        ([29, 7, 1] ++ List.replicate 60 0)
        ([false, false, true] ++ List.replicate 60 false))).coefficients.length)
      = .ok 20 := rfl

theorem unchecked_erased_value_zero :
    Unchecked.decode (fun _ => 0) ([29, 7, 1] ++ List.replicate 60 0)
      ([false, false, true] ++ List.replicate 60 false) = .ok (true, ⟨[0], 0⟩) := rfl

theorem unchecked_erased_value_one :
    Unchecked.decode (fun _ => 1) ([29, 7, 1] ++ List.replicate 60 0)
      ([false, false, true] ++ List.replicate 60 false)
      = .ok (false, ⟨[29, 7, 1], 2⟩) := rfl

theorem decode_erased_zero :
    ReedSolomonDecoder.decode ([29, 7, 0] ++ List.replicate 60 0)
      ([false, false, true] ++ List.replicate 60 false) = .ok (true, ⟨[0], 0⟩) := rfl

/-- C8 (code defect). When every word `mod_x21` reads behind the product of erasure locator
and syndromes is zero, in particular when it reads none, the claim holds: two received
words that agree on all non-erased positions, under a mask with at most 21 erased
positions, give the same flag and, on success, the same coefficients. With a nonzero word
there it fails: with position 2 erased, the words `29, 7, 1, 0, ..., 0` and
`29, 7, 0, 0, ..., 0` agree on every non-erased position; on the second `decode` returns
the all-zero codeword with success, whatever lies behind the vector; on the first the
product stores 20 coefficients and `mod_x21` reads index 20 behind them: if the word there
is 0 the result is the same, if it is 1 the flag is `false` and the received word is
returned unchanged. -/
theorem decode_erased_value_needs_zero_behind_product :
    (∀ (mem mem' : Nat → Nat) (r r' : List Nat) (mask : List Bool), r.length = 63 →
      r'.length = 63 → (∀ x ∈ r, x < 64) → (∀ x ∈ r', x < 64) → mask.length = 63 →
      erasureCount mask ≤ 21 →
      (∀ i, i < 63 → mask.getD i false = false → r.getD i 0 = r'.getD i 0) →
      (∀ Γ, ReedSolomonDecoder.calculateErasureLocator mask = .ok Γ →
        strayZero mem (Γ.mul (ReedSolomonDecoder.calculateSyndromes r mask))) →
      (∀ Γ, ReedSolomonDecoder.calculateErasureLocator mask = .ok Γ →
        strayZero mem' (Γ.mul (ReedSolomonDecoder.calculateSyndromes r' mask))) →
      ∀ (b b' : Bool) (P P' : GF64_poly), Unchecked.decode mem r mask = .ok (b, P) →
        Unchecked.decode mem' r' mask = .ok (b', P') →
        b = b' ∧
        (b = true → ∀ i, i < 63 → P.coefficients.getD i 0 = P'.coefficients.getD i 0)) ∧
    (∀ i, i < 63 → ([false, false, true] ++ List.replicate 60 false).getD i false = false →
      ([29, 7, 1] ++ List.replicate 60 0).getD i 0
        = ([29, 7, 0] ++ List.replicate 60 0).getD i 0) ∧
    erasureCount ([false, false, true] ++ List.replicate 60 false) = 1 ∧
    ((ReedSolomonDecoder.calculateErasureLocator
      ([false, false, true] ++ List.replicate 60 false)).map
      (fun loc => (loc.mul (ReedSolomonDecoder.calculateSyndromes
        ([29, 7, 1] ++ List.replicate 60 0)
        ([false, false, true] ++ List.replicate 60 false))).coefficients.length))
      = .ok 20 ∧
    ∀ mem : Nat → Nat,
      Unchecked.decode mem ([29, 7, 0] ++ List.replicate 60 0)
        ([false, false, true] ++ List.replicate 60 false) = .ok (true, ⟨[0], 0⟩) ∧
      (mem 20 = 0 →
        Unchecked.decode mem ([29, 7, 1] ++ List.replicate 60 0)
          ([false, false, true] ++ List.replicate 60 false) = .ok (true, ⟨[0], 0⟩)) ∧
      (mem 20 = 1 →
        Unchecked.decode mem ([29, 7, 1] ++ List.replicate 60 0)
          ([false, false, true] ++ List.replicate 60 false)
          = .ok (false, ⟨[29, 7, 1], 2⟩)) := by
  refine ⟨?_, by decide, rfl, product_erased_value, fun mem => ⟨?_, ?_, ?_⟩⟩
  · intro mem mem' r r' mask hrlen hrlen' hr hr' hmask hcount hagree hclean hclean' b b' P P'
      h h'
    exact unchecked_decode_erased_ignored mem mem' r r' mask hr hr' hrlen hrlen' hmask hcount
      hagree hclean hclean' b b' P P' h h'
  · exact unchecked_decode_of_checked mem _ _ _ decode_erased_zero
  · intro h
    rw [unchecked_decode_index_20 mem _ _ product_erased_value, h]
    exact unchecked_erased_value_zero
  · intro h
    rw [unchecked_decode_index_20 mem _ _ product_erased_value, h]
    exact unchecked_erased_value_one

theorem decode_erased_value_needs_zero_behind_product_witness :
    true = true ∧
    (true = true → ∀ i, i < 63 →
      (GF64_poly.mk [0] 0).coefficients.getD i 0 = (GF64_poly.mk [0] 0).coefficients.getD i 0) :=
  decode_erased_value_needs_zero_behind_product.1 (fun _ => 0) (fun _ => 0)
    ([29, 7, 1] ++ List.replicate 60 0) ([29, 7, 0] ++ List.replicate 60 0)
    ([false, false, true] ++ List.replicate 60 false) (by decide) (by decide) (by decide)
    (by decide) (by decide) (by decide) (by decide) (fun _ _ _ _ _ => rfl)
    (fun _ _ _ _ _ => rfl) true true (GF64_poly.mk [0] 0) (GF64_poly.mk [0] 0)
    unchecked_erased_value_zero
    (unchecked_decode_of_checked (fun _ => 0) _ _ _ decode_erased_zero)

/-! ## The decoder as compiled: what holds whatever lies behind the product -/

end RS
